import Mathlib

/-!
# c-crumbs: AES-CCM, AES-GCM, AES-KW, AES-MMO, SHA-1, SHA-256 and Base64 in Lean

A shallow embedding of the C headers `aes-ccm.h`, `aes-gcm.h`, `aes-kw.h`,
`aes-mmo.h`, `sha1.h`, `sha256.h` and `base64.h`, followed by theorems about
them.

Conventions of the embedding.

* A byte buffer (`void *` argument or local `char[]` array) is a `List Nat`
  whose entries are the unsigned values `0..255` of its bytes.  A read `p[i]`
  is `p.getD i 0`, a write `p[i] = v` is `p.set i v`.  Every store of an
  `int` expression into a byte is truncated with `% 256`.
* A function that writes through an output pointer takes the previous content
  of that buffer and returns the new content.
* `int` lengths and indices are the natural numbers they hold (the headers
  require non-negative lengths); comparisons in which the C expression may go
  below zero are made in `Int`.  `unsigned` is 32 bits wide and every
  `unsigned` operation is reduced `% 2 ^ 32`.
* `aes.h` is not part of the sources: the block cipher is a parameter `E`.
  The test vectors of `aes_kw` and `aes_mmo` are checked with `aes128`, the
  AES-128 encryption of FIPS 197.
* A pointer that moves over two buffers (`r` in `aes_kw`) is the buffer it
  points into and an offset.
* Loops are `for_loop` (a counted loop `for (i = 0; i < n; i++)`) or
  `while_loop` (any other loop, with its C condition, run for at most a given
  number of iterations that the call site chooses large enough).
* A statement about the blocks that a loop formats or processes is made on the
  same loop run with a record of them (`while_loop_log`); a statement about a
  part of a function is made on a definition of that part, with a theorem that
  the function is composed of it.
* A block of 16 bytes is read as a polynomial over GF(2) through its bits
  (`block_bit`); the polynomials are those of Mathlib over `ZMod 2`.
-/

namespace Crumbs

set_option maxRecDepth 100000

/-! ## Loops -/

/-- Counted loop: `for (i = 0; i < n; i++) s = body(i, s);`. -/
def for_loop {σ : Type} (body : Nat → σ → σ) : Nat → σ → σ
  | 0, s => s
  | n + 1, s => body n (for_loop body n s)

/-- General loop: `while (cond(s)) s = body(s);`, at most `fuel` iterations. -/
def while_loop {σ : Type} (cond : σ → Bool) (body : σ → σ) : Nat → σ → σ
  | 0, s => s
  | fuel + 1, s => if cond s then while_loop cond body fuel (body s) else s

/-! ## The block cipher -/

/-- A block cipher: `E inp key` is what `aes_encrypt(out, inp, key)` computes
from the 16-byte block `inp` and the key. -/
abbrev Cipher := List Nat → List Nat → List Nat

/-- The 16 bytes that the call `aes_encrypt(out, inp, key)` stores in `out`:
the first 16 entries of `E inp key`, each read as a byte (a missing entry as 0),
so that any `E` stands for a function that writes a 16-byte block. -/
def aes_encrypt (E : Cipher) (inp key : List Nat) : List Nat :=
  (List.range 16).map (fun i => (E inp key).getD i 0 % 256)

/-! ## aes-ccm.h -/

/-- Local variables of the outer loop of `aes_ccm_ctr`, with the output buffer. -/
structure CtrState where
  x : List Nat
  counter : Nat
  output : List Nat
  n : Nat

/-- The loop `for (i = 0; i < 16 && n + i < input_length; i++)
output[n + i] = input[n + i] ^ x[i];` of `aes_ccm_ctr` (aes-ccm.h:63-65). -/
def aes_ccm_ctr_xor (output input x : List Nat) (n input_length : Nat) : List Nat :=
  (while_loop (fun (p : Nat × List Nat) => decide (p.1 < 16 ∧ n + p.1 < input_length))
    (fun p => (p.1 + 1, p.2.set (n + p.1) ((input.getD (n + p.1) 0 ^^^ x.getD p.1 0) % 256)))
    16 (0, output)).2

/-- One iteration of the outer loop of `aes_ccm_ctr` (aes-ccm.h:47-65),
followed by its increment `n += 16`. -/
def aes_ccm_ctr_body (E : Cipher) (nonce : List Nat) (nonce_length : Nat)
    (input : List Nat) (input_length : Nat) (key : List Nat) (s : CtrState) : CtrState :=
  -- x[0] = 14 - nonce_length;
  let x := s.x.set 0 ((14 - nonce_length) % 256)
  -- for (i = 0; i < nonce_length; i++) x[i + 1] = nonce[i];
  let x := for_loop (fun i x => x.set (i + 1) (nonce.getD i 0)) nonce_length x
  -- counter++;
  let counter := s.counter + 1
  -- for (i = 0; i < 15 - nonce_length; i++)
  --   x[15 - i] = i < sizeof(counter) ? counter >> (i * 8) : 0;
  let x := for_loop
    (fun i x => x.set (15 - i) (if i < 4 then (counter >>> (i * 8)) % 256 else 0))
    (15 - nonce_length) x
  -- aes_encrypt(x, x, key);
  let x := aes_encrypt E x key
  { x := x, counter := counter,
    output := aes_ccm_ctr_xor s.output input x s.n input_length,
    n := s.n + 16 }

/-- The function `aes_ccm_ctr` (aes-ccm.h:40-67): returns the output buffer. -/
def aes_ccm_ctr (E : Cipher) (output nonce : List Nat) (nonce_length : Nat)
    (input : List Nat) (input_length : Nat) (key : List Nat) : List Nat :=
  (while_loop (fun (s : CtrState) => decide (s.n < input_length))
    (aes_ccm_ctr_body E nonce nonce_length input input_length key)
    input_length
    { x := List.replicate 16 0, counter := 0, output := output, n := 0 }).output

/-- One step `x[i++] ^= data[n]; if (i == 16) { i = 0; aes_encrypt(x, x, key); }`
of the two CBC loops of `aes_ccm_mac` (aes-ccm.h:120-127 and 134-141), on the
pair `(x, i)`. -/
def aes_ccm_mac_absorb (E : Cipher) (data key : List Nat) (n : Nat)
    (xi : List Nat × Nat) : List Nat × Nat :=
  let x := xi.1.set xi.2 ((xi.1.getD xi.2 0 ^^^ data.getD n 0) % 256)
  let i := xi.2 + 1
  if i = 16 then (aes_encrypt E x key, 0) else (x, i)

/-- The first part of `aes_ccm_mac` (aes-ccm.h:90-144): the block `x` after the
CBC-MAC over B0, the associated data and the payload. -/
def aes_ccm_mac_cbc (E : Cipher) (mac_length : Nat) (nonce : List Nat) (nonce_length : Nat)
    (ad : List Nat) (ad_length : Nat) (payload : List Nat) (payload_length : Nat)
    (key : List Nat) : List Nat :=
  let x := List.replicate 16 0
  -- x[0] = (ad_length > 0) << 6 | ((mac_length - 2) / 2) << 3 | (14 - nonce_length);
  let x := x.set 0
    (((((if ad_length > 0 then 1 else 0) <<< 6) ||| (((mac_length - 2) / 2) <<< 3))
      ||| (14 - nonce_length)) % 256)
  let x := for_loop (fun i x => x.set (i + 1) (nonce.getD i 0)) nonce_length x
  let x := for_loop
    (fun i x => x.set (15 - i) (if i < 4 then (payload_length >>> (i * 8)) % 256 else 0))
    (15 - nonce_length) x
  -- Y0 = CIPHk(B0)
  let x := aes_encrypt E x key
  -- [CCM] A.2.2 Formatting of the Associated Data
  let x :=
    if ad_length > 0 then
      let xi : List Nat × Nat :=
        if ad_length ≥ 0xff00 then
          let x := x.set 0 ((x.getD 0 0 ^^^ 0xff) % 256)
          let x := x.set 1 ((x.getD 1 0 ^^^ 0xfe) % 256)
          let x := x.set 2 ((x.getD 2 0 ^^^ (ad_length >>> 24)) % 256)
          let x := x.set 3 ((x.getD 3 0 ^^^ (ad_length >>> 16)) % 256)
          let x := x.set 4 ((x.getD 4 0 ^^^ (ad_length >>> 8)) % 256)
          let x := x.set 5 ((x.getD 5 0 ^^^ ad_length) % 256)
          (x, 6)
        else
          let x := x.set 0 ((x.getD 0 0 ^^^ (ad_length >>> 8)) % 256)
          let x := x.set 1 ((x.getD 1 0 ^^^ ad_length) % 256)
          (x, 2)
      let xi := for_loop (aes_ccm_mac_absorb E ad key) ad_length xi
      if xi.2 ≠ 0 then aes_encrypt E xi.1 key else xi.1
    else x
  -- [CCM] A.2.3 Formatting of the Payload
  let xi := for_loop (aes_ccm_mac_absorb E payload key) payload_length (x, 0)
  if xi.2 ≠ 0 then aes_encrypt E xi.1 key else xi.1

/-- The block S0 of `aes_ccm_mac` (aes-ccm.h:152-159): `x` is overwritten with
the counter block of counter value 0 and encrypted. -/
def aes_ccm_mac_s0 (E : Cipher) (x nonce : List Nat) (nonce_length : Nat)
    (key : List Nat) : List Nat :=
  let x := x.set 0 ((14 - nonce_length) % 256)
  let x := for_loop (fun i x => x.set (i + 1) (nonce.getD i 0)) nonce_length x
  let x := for_loop (fun i x => x.set (15 - i) 0) (15 - nonce_length) x
  aes_encrypt E x key

/-- The function `aes_ccm_mac` (aes-ccm.h:86-163): returns the `mac` buffer. -/
def aes_ccm_mac (E : Cipher) (mac : List Nat) (mac_length : Nat) (nonce : List Nat)
    (nonce_length : Nat) (ad : List Nat) (ad_length : Nat) (payload : List Nat)
    (payload_length : Nat) (key : List Nat) : List Nat :=
  let x := aes_ccm_mac_cbc E mac_length nonce nonce_length ad ad_length payload
    payload_length key
  -- for (i = 0; i < mac_length; i++) mac[i] = x[i];
  let mac := for_loop (fun i mac => mac.set i (x.getD i 0)) mac_length mac
  let x := aes_ccm_mac_s0 E x nonce nonce_length key
  -- for (i = 0; i < mac_length; i++) mac[i] ^= x[i];
  for_loop (fun i mac => mac.set i ((mac.getD i 0 ^^^ x.getD i 0) % 256)) mac_length mac

/-- The function `aes_ccm_encrypt` (aes-ccm.h:182-187): returns the `ciphertext`
buffer; the MAC is written at `(char *)ciphertext + payload_length`. -/
def aes_ccm_encrypt (E : Cipher) (ciphertext : List Nat) (mac_length : Nat)
    (nonce : List Nat) (nonce_length : Nat) (ad : List Nat) (ad_length : Nat)
    (payload : List Nat) (payload_length : Nat) (key : List Nat) : List Nat :=
  let ciphertext := aes_ccm_ctr E ciphertext nonce nonce_length payload payload_length key
  ciphertext.take payload_length ++
    aes_ccm_mac E (ciphertext.drop payload_length) mac_length nonce nonce_length ad
      ad_length payload payload_length key

/-- The tag comparison loop of `aes_ccm_decrypt` (aes-ccm.h:221-227) and of
`aes_gcm_decrypt` (aes-gcm.h:257-266):
`for (i = 0; i < len; i++) { if (a[i] != b[off + i]) return -1; } return 0;`.
The first number is the count of iterations still to run, the second is `i`,
the third the number of byte comparisons executed so far.  The result is the
returned value together with the total number of byte comparisons executed. -/
def tag_check (a b : List Nat) (off : Nat) : Nat → Nat → Nat → Int × Nat
  | 0, _, c => (0, c)
  | k + 1, i, c =>
    if a.getD i 0 ≠ b.getD (off + i) 0 then (-1, c + 1)
    else tag_check a b off k (i + 1) (c + 1)

/-- What a decryption function leaves behind: the returned `int`, the content
of the output buffer, and the number of tag byte comparisons it executed (a
count of the executions of the `if` of the comparison loop, kept for the
statements about its running time). -/
structure DecryptResult where
  ret : Int
  output : List Nat
  compares : Nat

/-- The function `aes_ccm_decrypt` (aes-ccm.h:207-228). -/
def aes_ccm_decrypt (E : Cipher) (payload : List Nat) (mac_length : Nat)
    (nonce : List Nat) (nonce_length : Nat) (ad : List Nat) (ad_length : Nat)
    (ciphertext : List Nat) (ciphertext_length : Nat) (key : List Nat) : DecryptResult :=
  let mac := List.replicate 16 0
  let payload_length := ciphertext_length - mac_length
  let payload := aes_ccm_ctr E payload nonce nonce_length ciphertext payload_length key
  let mac := aes_ccm_mac E mac mac_length nonce nonce_length ad ad_length payload
    payload_length key
  let r := tag_check mac ciphertext payload_length mac_length 0 0
  { ret := r.1, output := payload, compares := r.2 }

/-! ## aes-gcm.h -/

/-- The function `aes_gcm_mul` (aes-gcm.h:32-71): returns the buffer `x`. -/
def aes_gcm_mul (x y : List Nat) : List Nat :=
  -- for (i = 0; i < 16; i++) { z[i] = 0; v[i] = y[i]; }
  let zv := for_loop
    (fun i (zv : List Nat × List Nat) => (zv.1.set i 0, zv.2.set i (y.getD i 0)))
    16 (List.replicate 16 0, List.replicate 16 0)
  -- for (i = 0; i < 128; i++)
  let zv := for_loop
    (fun i (zv : List Nat × List Nat) =>
      -- if (x[i >> 3] & (0x80 >> (i & 7))) for (j = 0; j < 16; j++) z[j] ^= v[j];
      let z :=
        if (x.getD (i >>> 3) 0) &&& (0x80 >>> (i &&& 7)) ≠ 0 then
          for_loop (fun j z => z.set j ((z.getD j 0 ^^^ zv.2.getD j 0) % 256)) 16 zv.1
        else zv.1
      let v := zv.2
      -- lsb1 = v[15] & 1;
      let lsb1 := v.getD 15 0 &&& 1
      -- for (j = 15; j > 0; j--) v[j] = (v[j] >> 1) | (v[j-1] << 7);
      let v := for_loop
        (fun k v => v.set (15 - k)
          (((v.getD (15 - k) 0 >>> 1) ||| (v.getD (15 - k - 1) 0 <<< 7)) % 256))
        15 v
      -- v[0] >>= 1;
      let v := v.set 0 ((v.getD 0 0 >>> 1) % 256)
      -- if (lsb1) v[0] ^= 0xe1;
      let v := if lsb1 ≠ 0 then v.set 0 ((v.getD 0 0 ^^^ 0xe1) % 256) else v
      (z, v))
    128 zv
  -- for (i = 0; i < 16; i++) x[i] = z[i];
  for_loop (fun i x => x.set i (zv.1.getD i 0)) 16 x

/-- The loop `for (j = 0; j < 16 && i + j < length; j++) tag[j] ^= data[i + j];`
of `aes_gcm_tag` (aes-gcm.h:107-109 and 113-115). -/
def aes_gcm_tag_xor (tag data : List Nat) (i length : Nat) : List Nat :=
  (while_loop (fun (p : Nat × List Nat) => decide (p.1 < 16 ∧ i + p.1 < length))
    (fun p => (p.1 + 1, p.2.set p.1 ((p.2.getD p.1 0 ^^^ data.getD (i + p.1) 0) % 256)))
    16 (0, tag)).2

/-- The loop `for (i = 0; i < length; i += 16) { ...; aes_gcm_mul(tag, h); }`
of `aes_gcm_tag` (aes-gcm.h:106-111 and 112-117), on the pair `(i, tag)`. -/
def aes_gcm_tag_absorb (tag h data : List Nat) (length : Nat) : List Nat :=
  (while_loop (fun (s : Nat × List Nat) => decide (s.1 < length))
    (fun s => (s.1 + 16, aes_gcm_mul (aes_gcm_tag_xor s.2 data s.1 length) h))
    length (0, tag)).2

/-- The function `aes_gcm_tag` (aes-gcm.h:91-152): returns the buffer `tag`. -/
def aes_gcm_tag (E : Cipher) (tag iv aad : List Nat) (aad_length : Nat)
    (text : List Nat) (text_length : Nat) (key : List Nat) : List Nat :=
  -- for (i = 0; i < 16; i++) h[i] = 0;  aes_encrypt(h, h, key);
  let h := for_loop (fun i h => h.set i 0) 16 (List.replicate 16 0)
  let h := aes_encrypt E h key
  -- for (i = 0; i < 16; i++) tag[i] = 0;
  let tag := for_loop (fun i t => t.set i 0) 16 tag
  let tag := aes_gcm_tag_absorb tag h aad aad_length
  let tag := aes_gcm_tag_absorb tag h text text_length
  let tag := tag.set 3 ((tag.getD 3 0 ^^^ (aad_length >>> 29)) % 256)
  let tag := tag.set 4 ((tag.getD 4 0 ^^^ (aad_length >>> 21)) % 256)
  let tag := tag.set 5 ((tag.getD 5 0 ^^^ (aad_length >>> 13)) % 256)
  let tag := tag.set 6 ((tag.getD 6 0 ^^^ (aad_length >>> 5)) % 256)
  let tag := tag.set 7 ((tag.getD 7 0 ^^^ (aad_length <<< 3)) % 256)
  let tag := tag.set 11 ((tag.getD 11 0 ^^^ (text_length >>> 29)) % 256)
  let tag := tag.set 12 ((tag.getD 12 0 ^^^ (text_length >>> 21)) % 256)
  let tag := tag.set 13 ((tag.getD 13 0 ^^^ (text_length >>> 13)) % 256)
  let tag := tag.set 14 ((tag.getD 14 0 ^^^ (text_length >>> 5)) % 256)
  let tag := tag.set 15 ((tag.getD 15 0 ^^^ (text_length <<< 3)) % 256)
  let tag := aes_gcm_mul tag h
  -- for (i = 0; i < 12; i++) j0[i] = iv[i];  j0[12..15] = 0, 0, 0, 1;
  let j0 := for_loop (fun i j0 => j0.set i (iv.getD i 0)) 12 (List.replicate 16 0)
  let j0 := j0.set 12 0
  let j0 := j0.set 13 0
  let j0 := j0.set 14 0
  let j0 := j0.set 15 1
  let j0 := aes_encrypt E j0 key
  -- for (i = 0; i < 16; i++) tag[i] ^= j0[i];
  for_loop (fun i t => t.set i ((t.getD i 0 ^^^ j0.getD i 0) % 256)) 16 tag

/-- Local variables of `aes_gcm_encrypt_or_decrypt`, with the output buffer. -/
structure GctrState where
  cb : List Nat
  counter : Nat
  output : List Nat
  m : Nat

/-- The statements `counter++; cb[12] = counter >> 24; cb[13] = counter >> 16;
cb[14] = counter >> 8; cb[15] = counter;` (aes-gcm.h:184-188 and 196-200). -/
def aes_gcm_next_cb (s : GctrState) : GctrState :=
  let counter := (s.counter + 1) % 2 ^ 32
  let cb := s.cb.set 12 ((counter >>> 24) % 256)
  let cb := cb.set 13 ((counter >>> 16) % 256)
  let cb := cb.set 14 ((counter >>> 8) % 256)
  let cb := cb.set 15 (counter % 256)
  { s with cb := cb, counter := counter }

/-- One iteration of the loop over the full blocks of
`aes_gcm_encrypt_or_decrypt` (aes-gcm.h:183-193), followed by `m += 16`. -/
def aes_gcm_full_block (E : Cipher) (input key : List Nat) (s : GctrState) : GctrState :=
  let s := aes_gcm_next_cb s
  -- aes_encrypt((unsigned char *)output + m, cb, key);
  let blk := aes_encrypt E s.cb key
  let output := for_loop (fun i o => o.set (s.m + i) (blk.getD i 0)) 16 s.output
  -- for (i = 0; i < 16; i++) output[m + i] ^= input[m + i];
  let output := for_loop
    (fun i o => o.set (s.m + i) ((o.getD (s.m + i) 0 ^^^ input.getD (s.m + i) 0) % 256))
    16 output
  { s with output := output, m := s.m + 16 }

/-- The function `aes_gcm_encrypt_or_decrypt` (aes-gcm.h:170-205): returns the
output buffer. -/
def aes_gcm_encrypt_or_decrypt (E : Cipher) (output iv input : List Nat)
    (input_length : Nat) (key : List Nat) : List Nat :=
  -- for (i = 0; i < 12; i++) cb[i] = iv[i];  counter = 1;
  let cb := for_loop (fun i cb => cb.set i (iv.getD i 0)) 12 (List.replicate 16 0)
  -- for (m = 0; m < input_length - 16; m += 16)
  let s := while_loop
    (fun (s : GctrState) => decide ((s.m : Int) < (input_length : Int) - 16))
    (aes_gcm_full_block E input key) input_length
    { cb := cb, counter := 1, output := output, m := 0 }
  let s := aes_gcm_next_cb s
  -- aes_encrypt(cb, cb, key);
  let cb := aes_encrypt E s.cb key
  -- for (i = 0; i < input_length - m; i++) output[m + i] = input[m + i] ^ cb[i];
  for_loop (fun i o => o.set (s.m + i) ((input.getD (s.m + i) 0 ^^^ cb.getD i 0) % 256))
    (input_length - s.m) s.output

/-- The function `aes_gcm_encrypt` (aes-gcm.h:224-229): returns the buffers
`ciphertext` and `tag`. -/
def aes_gcm_encrypt (E : Cipher) (ciphertext tag iv plaintext : List Nat)
    (plaintext_length : Nat) (aad : List Nat) (aad_length : Nat) (key : List Nat) :
    List Nat × List Nat :=
  let ciphertext := aes_gcm_encrypt_or_decrypt E ciphertext iv plaintext plaintext_length key
  (ciphertext, aes_gcm_tag E tag iv aad aad_length ciphertext plaintext_length key)

/-- The function `aes_gcm_decrypt` (aes-gcm.h:251-267). -/
def aes_gcm_decrypt (E : Cipher) (plaintext iv ciphertext : List Nat)
    (ciphertext_length : Nat) (aad : List Nat) (aad_length : Nat) (tag : List Nat)
    (tag_length : Nat) (key : List Nat) : DecryptResult :=
  let t := aes_gcm_tag E (List.replicate 16 0) iv aad aad_length ciphertext
    ciphertext_length key
  let r := tag_check t tag 0 tag_length 0 0
  if r.1 = -1 then { ret := -1, output := plaintext, compares := r.2 }
  else
    { ret := 0,
      output := aes_gcm_encrypt_or_decrypt E plaintext iv ciphertext ciphertext_length key,
      compares := r.2 }

/-! ## sha256.h and sha1.h -/

/-- Left shift of an `unsigned`: `x << n`. -/
def shl32 (x n : Nat) : Nat := (x <<< n) % 2 ^ 32

/-- Sum of two `unsigned`: `a + b`. -/
def add32 (a b : Nat) : Nat := (a + b) % 2 ^ 32

/-- Complement of an `unsigned`: `~x`. -/
def not32 (x : Nat) : Nat := (x ^^^ 0xffffffff) % 2 ^ 32

/-- The index `v & 15` for an `int` v (two's complement), as in `w[(t-2) & 15]`. -/
def and15 (v : Int) : Nat := (v % 16).toNat

/-- The padding code shared by `sha256` (sha256.h:55-77) and `sha1`
(sha1.h:41-63), for the block that starts at offset `i`: returns `pad`. -/
def sha_pad_block (pad message : List Nat) (length i : Nat) : List Nat :=
  -- m = message + i;  for (j = 0; j < length - i; j++) pad[j] = m[j];
  let pad := for_loop (fun j pad => pad.set j (message.getD (i + j) 0)) (length - i) pad
  let j := length - i
  -- if (i + j == length) pad[j++] = 0x80;
  let pj : List Nat × Nat := if i + j = length then (pad.set j 0x80, j + 1) else (pad, j)
  if pj.2 > 56 then
    -- while (j < 64) pad[j++] = 0;
    (while_loop (fun (q : Nat × List Nat) => decide (q.1 < 64))
      (fun q => (q.1 + 1, q.2.set q.1 0)) 64 (pj.2, pj.1)).2
  else
    -- while (j < 56) pad[j++] = 0;
    let pad := (while_loop (fun (q : Nat × List Nat) => decide (q.1 < 56))
      (fun q => (q.1 + 1, q.2.set q.1 0)) 56 (pj.2, pj.1)).2
    let pad := pad.set 56 0
    let pad := pad.set 57 0
    let pad := pad.set 58 0
    let pad := pad.set 59 ((length >>> 29) % 256)
    let pad := pad.set 60 ((length >>> 21) % 256)
    let pad := pad.set 61 ((length >>> 13) % 256)
    let pad := pad.set 62 ((length >>> 5) % 256)
    pad.set 63 ((length <<< 3) % 256)

/-- The loop `for (t = 0; t < 16; t++) w[t] = m[t*4] << 24 | m[t*4+1] << 16 |
m[t*4+2] << 8 | m[t*4+3];` of `sha256` (sha256.h:86-88) and `sha1` (sha1.h:72-74). -/
def sha_load_block (w m : List Nat) : List Nat :=
  for_loop (fun t w => w.set t
    (((((m.getD (t * 4) 0 <<< 24) ||| (m.getD (t * 4 + 1) 0 <<< 16))
      ||| (m.getD (t * 4 + 2) 0 <<< 8)) ||| m.getD (t * 4 + 3) 0) % 2 ^ 32)) 16 w

/-- The constants `k` of `sha256` (sha256.h:22-31). -/
def sha256_k : List Nat :=
  [0x428a2f98, 0x71374491, 0xb5c0fbcf, 0xe9b5dba5, 0x3956c25b, 0x59f111f1, 0x923f82a4, 0xab1c5ed5] ++
  [0xd807aa98, 0x12835b01, 0x243185be, 0x550c7dc3, 0x72be5d74, 0x80deb1fe, 0x9bdc06a7, 0xc19bf174] ++
  [0xe49b69c1, 0xefbe4786, 0x0fc19dc6, 0x240ca1cc, 0x2de92c6f, 0x4a7484aa, 0x5cb0a9dc, 0x76f988da] ++
  [0x983e5152, 0xa831c66d, 0xb00327c8, 0xbf597fc7, 0xc6e00bf3, 0xd5a79147, 0x06ca6351, 0x14292967] ++
  [0x27b70a85, 0x2e1b2138, 0x4d2c6dfc, 0x53380d13, 0x650a7354, 0x766a0abb, 0x81c2c92e, 0x92722c85] ++
  [0xa2bfe8a1, 0xa81a664b, 0xc24b8b70, 0xc76c51a3, 0xd192e819, 0xd6990624, 0xf40e3585, 0x106aa070] ++
  [0x19a4c116, 0x1e376c08, 0x2748774c, 0x34b0bcb5, 0x391c0cb3, 0x4ed8aa4a, 0x5b9cca4f, 0x682e6ff3] ++
  [0x748f82ee, 0x78a5636f, 0x84c87814, 0x8cc70208, 0x90befffa, 0xa4506ceb, 0xbef9a3f7, 0xc67178f2]

/-- Hash value words h0..h7 of `sha256`; also used for its working variables
a..h, in this order. -/
structure Sha256Words where
  h0 : Nat
  h1 : Nat
  h2 : Nat
  h3 : Nat
  h4 : Nat
  h5 : Nat
  h6 : Nat
  h7 : Nat
deriving DecidableEq

/-- One iteration of the round loop of `sha256` (sha256.h:101-127) on the ring
buffer `w` and the working variables a..h (fields h0..h7). -/
def sha256_round (t : Nat) (s : List Nat × Sha256Words) : List Nat × Sha256Words :=
  let w := s.1
  let a := s.2.h0
  let b := s.2.h1
  let c := s.2.h2
  let d := s.2.h3
  let e := s.2.h4
  let f := s.2.h5
  let g := s.2.h6
  let h := s.2.h7
  let wt2 := w.getD (and15 ((t : Int) - 2)) 0
  let ssig1wt2 := ((((wt2 >>> 17) ^^^ shl32 wt2 15) ^^^ (wt2 >>> 19)) ^^^ shl32 wt2 13)
    ^^^ (wt2 >>> 10)
  let wt7 := w.getD (and15 ((t : Int) - 7)) 0
  let wt15 := w.getD (and15 ((t : Int) - 15)) 0
  let ssig0wt15 := ((((wt15 >>> 7) ^^^ shl32 wt15 25) ^^^ (wt15 >>> 18)) ^^^ shl32 wt15 14)
    ^^^ (wt15 >>> 3)
  let wt := w.getD (and15 (t : Int)) 0
  let w := w.set (and15 (t : Int)) (add32 (add32 (add32 ssig1wt2 wt7) ssig0wt15) wt)
  -- t1 = h + ((e>>6)^(e<<26)^(e>>11)^(e<<21)^(e>>25)^(e<<7)) + ((e&f)^(~e&g)) + k[t] + wt;
  let t1 := add32 (add32 (add32 (add32 h
      ((((((e >>> 6) ^^^ shl32 e 26) ^^^ (e >>> 11)) ^^^ shl32 e 21) ^^^ (e >>> 25))
        ^^^ shl32 e 7))
      ((e &&& f) ^^^ (not32 e &&& g))) (sha256_k.getD t 0)) wt
  -- t2 = ((a>>2)^(a<<30)^(a>>13)^(a<<19)^(a>>22)^(a<<10)) + ((a&b)^(a&c)^(b&c));
  let t2 := add32
      ((((((a >>> 2) ^^^ shl32 a 30) ^^^ (a >>> 13)) ^^^ shl32 a 19) ^^^ (a >>> 22))
        ^^^ shl32 a 10)
      (((a &&& b) ^^^ (a &&& c)) ^^^ (b &&& c))
  (w, { h0 := add32 t1 t2, h1 := a, h2 := b, h3 := c, h4 := add32 d t1, h5 := e,
        h6 := f, h7 := g })

/-- The processing of one 64-byte block `m` by `sha256` (sha256.h:86-137):
returns the ring buffer and the new hash value words. -/
def sha256_block (m w : List Nat) (H : Sha256Words) : List Nat × Sha256Words :=
  let w := sha_load_block w m
  let s := for_loop sha256_round 64 (w, H)
  (s.1, { h0 := add32 H.h0 s.2.h0, h1 := add32 H.h1 s.2.h1, h2 := add32 H.h2 s.2.h2,
          h3 := add32 H.h3 s.2.h3, h4 := add32 H.h4 s.2.h4, h5 := add32 H.h5 s.2.h5,
          h6 := add32 H.h6 s.2.h6, h7 := add32 H.h7 s.2.h7 })

/-- Local variables of the block loop of `sha256`. -/
structure Sha256State where
  i : Nat
  pad : List Nat
  w : List Nat
  H : Sha256Words

/-- One iteration of the block loop of `sha256` (sha256.h:51-138), followed by
its increment `i += 64`. -/
def sha256_body (message : List Nat) (length : Nat) (s : Sha256State) : Sha256State :=
  -- m = message + i;  if (i > length - 64) { ...; m = pad; }
  let pad := if (s.i : Int) > (length : Int) - 64 then
      sha_pad_block s.pad message length s.i else s.pad
  let m := if (s.i : Int) > (length : Int) - 64 then pad else message.drop s.i
  let r := sha256_block m s.w s.H
  { i := s.i + 64, pad := pad, w := r.1, H := r.2 }

/-- The initial hash value of `sha256` (sha256.h:41-48). -/
def sha256_init : Sha256Words :=
  { h0 := 0x6a09e667, h1 := 0xbb67ae85, h2 := 0x3c6ef372, h3 := 0xa54ff53a,
    h4 := 0x510e527f, h5 := 0x9b05688c, h6 := 0x1f83d9ab, h7 := 0x5be0cd19 }

/-- The hash value words after the block loop of `sha256` (sha256.h:41-138). -/
def sha256_words (message : List Nat) (length : Nat) : Sha256Words :=
  (while_loop (fun (s : Sha256State) => decide ((s.i : Int) - 9 < (length : Int)))
    (sha256_body message length) (length + 1)
    { i := 0, pad := List.replicate 64 0, w := List.replicate 16 0, H := sha256_init }).H

/-- The function `sha256` (sha256.h:20-173): returns the buffer `digest`. -/
def sha256 (digest message : List Nat) (length : Nat) : List Nat :=
  let s := sha256_words message length
  let digest := digest.set 0 ((s.h0 >>> 24) % 256)
  let digest := digest.set 1 ((s.h0 >>> 16) % 256)
  let digest := digest.set 2 ((s.h0 >>> 8) % 256)
  let digest := digest.set 3 (s.h0 % 256)
  let digest := digest.set 4 ((s.h1 >>> 24) % 256)
  let digest := digest.set 5 ((s.h1 >>> 16) % 256)
  let digest := digest.set 6 ((s.h1 >>> 8) % 256)
  let digest := digest.set 7 (s.h1 % 256)
  let digest := digest.set 8 ((s.h2 >>> 24) % 256)
  let digest := digest.set 9 ((s.h2 >>> 16) % 256)
  let digest := digest.set 10 ((s.h2 >>> 8) % 256)
  let digest := digest.set 11 (s.h2 % 256)
  let digest := digest.set 12 ((s.h3 >>> 24) % 256)
  let digest := digest.set 13 ((s.h3 >>> 16) % 256)
  let digest := digest.set 14 ((s.h3 >>> 8) % 256)
  let digest := digest.set 15 (s.h3 % 256)
  let digest := digest.set 16 ((s.h4 >>> 24) % 256)
  let digest := digest.set 17 ((s.h4 >>> 16) % 256)
  let digest := digest.set 18 ((s.h4 >>> 8) % 256)
  let digest := digest.set 19 (s.h4 % 256)
  let digest := digest.set 20 ((s.h5 >>> 24) % 256)
  let digest := digest.set 21 ((s.h5 >>> 16) % 256)
  let digest := digest.set 22 ((s.h5 >>> 8) % 256)
  let digest := digest.set 23 (s.h5 % 256)
  let digest := digest.set 24 ((s.h6 >>> 24) % 256)
  let digest := digest.set 25 ((s.h6 >>> 16) % 256)
  let digest := digest.set 26 ((s.h6 >>> 8) % 256)
  let digest := digest.set 27 (s.h6 % 256)
  let digest := digest.set 28 ((s.h7 >>> 24) % 256)
  let digest := digest.set 29 ((s.h7 >>> 16) % 256)
  let digest := digest.set 30 ((s.h7 >>> 8) % 256)
  let digest := digest.set 31 (s.h7 % 256)
  digest

/-- One iteration of the round loop of `sha1` (sha1.h:84-118) on the ring
buffer `w` and the working variables `[a, b, c, d, e]`. -/
def sha1_round (t : Nat) (s : List Nat × List Nat) : List Nat × List Nat :=
  let w := s.1
  let a := s.2.getD 0 0
  let b := s.2.getD 1 0
  let c := s.2.getD 2 0
  let d := s.2.getD 3 0
  let e := s.2.getD 4 0
  let wt := w.getD (and15 (t : Int)) 0
  let wtr := ((w.getD (and15 ((t : Int) - 3)) 0 ^^^ w.getD (and15 ((t : Int) - 8)) 0)
    ^^^ w.getD (and15 ((t : Int) - 14)) 0) ^^^ wt
  let w := w.set (and15 (t : Int)) (shl32 wtr 1 ||| (wtr >>> 31))
  let fk : Nat × Nat :=
    if t < 20 then ((b &&& c) ^^^ (not32 b &&& d), 0x5a827999)
    else if t < 40 then ((b ^^^ c) ^^^ d, 0x6ed9eba1)
    else if t < 60 then (((b &&& c) ^^^ (b &&& d)) ^^^ (c &&& d), 0x8f1bbcdc)
    else ((b ^^^ c) ^^^ d, 0xca62c1d6)
  -- tmp = (a << 5 | a >> 27) + ft + e + kt + wt;
  let tmp := add32 (add32 (add32 (add32 (shl32 a 5 ||| (a >>> 27)) fk.1) e) fk.2) wt
  (w, [tmp, a, shl32 b 30 ||| (b >>> 2), c, d])

/-- The processing of one 64-byte block `m` by `sha1` (sha1.h:72-125): returns
the ring buffer and the new array `h`. -/
def sha1_block (m w h : List Nat) : List Nat × List Nat :=
  let w := sha_load_block w m
  let s := for_loop sha1_round 80 (w, [h.getD 0 0, h.getD 1 0, h.getD 2 0, h.getD 3 0, h.getD 4 0])
  let h := h.set 0 (add32 (h.getD 0 0) (s.2.getD 0 0))
  let h := h.set 1 (add32 (h.getD 1 0) (s.2.getD 1 0))
  let h := h.set 2 (add32 (h.getD 2 0) (s.2.getD 2 0))
  let h := h.set 3 (add32 (h.getD 3 0) (s.2.getD 3 0))
  let h := h.set 4 (add32 (h.getD 4 0) (s.2.getD 4 0))
  (s.1, h)

/-- Local variables of the block loop of `sha1`. -/
structure Sha1State where
  i : Nat
  pad : List Nat
  w : List Nat
  h : List Nat

/-- One iteration of the block loop of `sha1` (sha1.h:37-126), followed by its
increment `i += 64`. -/
def sha1_body (message : List Nat) (length : Nat) (s : Sha1State) : Sha1State :=
  let pad := if (s.i : Int) > (length : Int) - 64 then
      sha_pad_block s.pad message length s.i else s.pad
  let m := if (s.i : Int) > (length : Int) - 64 then pad else message.drop s.i
  let r := sha1_block m s.w s.h
  { i := s.i + 64, pad := pad, w := r.1, h := r.2 }

/-- The array `h` after the block loop of `sha1` (sha1.h:30-126). -/
def sha1_words (message : List Nat) (length : Nat) : List Nat :=
  (while_loop (fun (s : Sha1State) => decide ((s.i : Int) - 9 < (length : Int)))
    (sha1_body message length) (length + 1)
    { i := 0, pad := List.replicate 64 0, w := List.replicate 16 0,
      h := [0x67452301, 0xefcdab89, 0x98badcfe, 0x10325476, 0xc3d2e1f0] }).h

/-- The function `sha1` (sha1.h:20-135): returns the buffer `digest`. -/
def sha1 (digest message : List Nat) (length : Nat) : List Nat :=
  let h := sha1_words message length
  for_loop (fun i digest =>
    let digest := digest.set (i * 4 + 0) ((h.getD i 0 >>> 24) % 256)
    let digest := digest.set (i * 4 + 1) ((h.getD i 0 >>> 16) % 256)
    let digest := digest.set (i * 4 + 2) ((h.getD i 0 >>> 8) % 256)
    digest.set (i * 4 + 3) (h.getD i 0 % 256)) 5 digest

/-! ## base64.h -/

/-- The array `alphabet` of `base64_encode` (base64.h:21-27), as character codes. -/
def base64_alphabet : List Nat :=
  ['A','B','C','D','E','F','G','H','I','J','K','L','M',
   'N','O','P','Q','R','S','T','U','V','W','X','Y','Z',
   'a','b','c','d','e','f','g','h','i','j','k','l','m',
   'n','o','p','q','r','s','t','u','v','w','x','y','z',
   '0','1','2','3','4','5','6','7','8','9','+','/'].map Char.toNat

/-- Local variables `i`, `n` of `base64_encode`, with the output buffer. -/
structure Base64State where
  i : Nat
  n : Nat
  output : List Nat

/-- One iteration of the loop of `base64_encode` (base64.h:33-39), followed by
its increment `i += 3`. -/
def base64_group (input : List Nat) (s : Base64State) : Base64State :=
  let a := input.getD s.i 0
  let b := input.getD (s.i + 1) 0
  let c := input.getD (s.i + 2) 0
  let output := s.output.set s.n (base64_alphabet.getD ((a >>> 2) &&& 63) 0)
  let output := output.set (s.n + 1) (base64_alphabet.getD (((a <<< 4) ||| (b >>> 4)) &&& 63) 0)
  let output := output.set (s.n + 2) (base64_alphabet.getD (((b <<< 2) ||| (c >>> 6)) &&& 63) 0)
  let output := output.set (s.n + 3) (base64_alphabet.getD (c &&& 63) 0)
  { i := s.i + 3, n := s.n + 4, output := output }

/-- The function `base64_encode` (base64.h:20-57): returns the returned `int`
and the buffer `output`. -/
def base64_encode (output input : List Nat) (length : Nat) : Nat × List Nat :=
  -- n = 0;  for (i = 0; i <= length - 3; i += 3)
  let s := while_loop (fun (s : Base64State) => decide ((s.i : Int) ≤ (length : Int) - 3))
    (base64_group input) length { i := 0, n := 0, output := output }
  if s.i + 2 = length then
    let a := input.getD s.i 0
    let b := input.getD (s.i + 1) 0
    let output := s.output.set s.n (base64_alphabet.getD ((a >>> 2) &&& 63) 0)
    let output := output.set (s.n + 1)
      (base64_alphabet.getD (((a <<< 4) ||| (b >>> 4)) &&& 63) 0)
    let output := output.set (s.n + 2) (base64_alphabet.getD ((b <<< 2) &&& 63) 0)
    let output := output.set (s.n + 3) ('='.toNat)
    (s.n + 4, output)
  else if s.i + 1 = length then
    let a := input.getD s.i 0
    let output := s.output.set s.n (base64_alphabet.getD ((a >>> 2) &&& 63) 0)
    let output := output.set (s.n + 1) (base64_alphabet.getD ((a <<< 4) &&& 63) 0)
    let output := output.set (s.n + 2) ('='.toNat)
    let output := output.set (s.n + 3) ('='.toNat)
    (s.n + 4, output)
  else (s.n, s.output)

/-! ## aes-kw.h -/

/-- Local variables of `aes_kw`, with the buffer `ciphertext`: the block `x`,
the read pointer `r` (the buffer it points into, `ciphertext` when
`r_in_ciphertext` holds and `plaintext` otherwise, and an offset in it) and the
write pointer `c` (an offset in `ciphertext`). -/
structure KwState where
  x : List Nat
  r_in_ciphertext : Bool
  r : Nat
  c : Nat
  ciphertext : List Nat

/-- The byte `*r` read by `aes_kw`. -/
def aes_kw_read (plaintext : List Nat) (s : KwState) : Nat :=
  if s.r_in_ciphertext then s.ciphertext.getD s.r 0 else plaintext.getD s.r 0

/-- One iteration of the loop over `i` of `aes_kw` (aes-kw.h:38-48), for the
values `j` and `i` of the loop variables. -/
def aes_kw_step (E : Cipher) (plaintext key : List Nat) (n j i : Nat) (s : KwState) : KwState :=
  -- for (w = 8; w < 16; w++) x[w] = *r++;
  let s := for_loop
    (fun w (s : KwState) => { s with x := s.x.set (8 + w) (aes_kw_read plaintext s), r := s.r + 1 })
    8 s
  -- aes_encrypt(x, x, key);
  let x := aes_encrypt E s.x key
  -- x[7] ^= n * j + i;
  let x := x.set 7 ((x.getD 7 0 ^^^ (n * j + i)) % 256)
  -- for (w = 8; w < 16; w++) *c++ = x[w];
  for_loop
    (fun w (s : KwState) =>
      { s with ciphertext := s.ciphertext.set s.c (s.x.getD (8 + w) 0), c := s.c + 1 })
    8 { s with x := x }

/-- One iteration of the loop over `j` of `aes_kw` (aes-kw.h:36-50). -/
def aes_kw_round (E : Cipher) (plaintext key : List Nat) (n j : Nat) (s : KwState) : KwState :=
  -- c = (unsigned char *)ciphertext + 8;
  let s := { s with c := 8 }
  -- for (i = 1; i <= n; i++)
  let s := for_loop (fun i s => aes_kw_step E plaintext key n j (i + 1) s) n s
  -- r = (unsigned char *)ciphertext + 8;
  { s with r_in_ciphertext := true, r := 8 }

/-- The state of `aes_kw` when the loop over `j` is left (aes-kw.h:30-50). -/
def aes_kw_rounds (E : Cipher) (ciphertext plaintext : List Nat) (n : Nat) (key : List Nat) :
    KwState :=
  -- for (w = 0; w < 8; w++) x[w] = 0xa6;
  let x := for_loop (fun w x => x.set w 0xa6) 8 (List.replicate 16 0)
  -- r = (unsigned char *)plaintext;  for (j = 0; j <= 5; j++)
  for_loop (aes_kw_round E plaintext key n) 6
    { x := x, r_in_ciphertext := false, r := 0, c := 0, ciphertext := ciphertext }

/-- The function `aes_kw` (aes-kw.h:24-56): returns the buffer `ciphertext`. -/
def aes_kw (E : Cipher) (ciphertext plaintext : List Nat) (n : Nat) (key : List Nat) : List Nat :=
  let s := aes_kw_rounds E ciphertext plaintext n key
  -- for (w = 0; w < 8; w++) ((unsigned char *)ciphertext)[w] = x[w];
  for_loop (fun w ct => ct.set w (s.x.getD w 0)) 8 s.ciphertext

/-! ## aes-mmo.h -/

/-- The 16-byte buffer `digest` of `aes_mmo`, with the list of the blocks given
so far to `aes_encrypt` as its input, in the order of the calls. -/
structure MmoState where
  digest : List Nat
  blocks : List (List Nat)

/-- The statements `aes_encrypt(digest, block, digest);
for (i = 0; i < 16; i++) digest[i] ^= block[i];` of `aes_mmo` (aes-mmo.h:33-36,
53-56 and 77-80), where `block` is the 16 bytes at `message + r`, or `p`. -/
def aes_mmo_compress (E : Cipher) (block : List Nat) (s : MmoState) : MmoState :=
  let digest := aes_encrypt E block s.digest
  { digest := for_loop (fun i d => d.set i ((d.getD i 0 ^^^ block.getD i 0) % 256)) 16 digest,
    blocks := s.blocks ++ [block] }

/-- The function `aes_mmo` (aes-mmo.h:25-81) on the buffer `digest`; `~15` is
the `int` with the bits 0xfffffff0. -/
def aes_mmo_run (E : Cipher) (digest message : List Nat) (length : Nat) : MmoState :=
  -- for (i = 0; i < 16; i++) digest[i] = 0;
  let digest := for_loop (fun i d => d.set i 0) 16 digest
  -- for (r = 0; r <= length - 16; r += 16)
  let rs := while_loop (fun (rs : Nat × MmoState) => decide ((rs.1 : Int) ≤ (length : Int) - 16))
    (fun rs => (rs.1 + 16, aes_mmo_compress E ((message.drop rs.1).take 16) rs.2))
    length (0, { digest := digest, blocks := [] })
  let s := rs.2
  -- r = length & 15;
  let r := length &&& 15
  -- for (i = 0; i < r; i++) p[i] = message[(length & ~15) + i];
  let p := for_loop (fun i p => p.set i (message.getD ((length &&& 0xfffffff0) + i) 0)) r
    (List.replicate 16 0)
  -- p[r++] = 0x80;
  let p := p.set r 0x80
  let r := r + 1
  let (s, p, r) :=
    if (length < 8192 ∧ r > 14) ∨ (length ≥ 8192 ∧ r > 10) then
      -- for (i = r; i < 16; i++) p[i] = 0;
      let p := for_loop (fun i p => p.set (r + i) 0) (16 - r) p
      (aes_mmo_compress E p s, p, 0)
    else (s, p, r)
  let p :=
    if length < 8192 then
      -- for (i = r; i < 14; i++) p[i] = 0;
      let p := for_loop (fun i p => p.set (r + i) 0) (14 - r) p
      let p := p.set 14 ((length >>> 5) % 256)
      p.set 15 ((length <<< 3) % 256)
    else
      -- for (i = r; i < 10; i++) p[i] = 0;
      let p := for_loop (fun i p => p.set (r + i) 0) (10 - r) p
      let p := p.set 10 ((length >>> 21) % 256)
      let p := p.set 11 ((length >>> 13) % 256)
      let p := p.set 12 ((length >>> 5) % 256)
      let p := p.set 13 ((length <<< 3) % 256)
      let p := p.set 14 0
      p.set 15 0
  aes_mmo_compress E p s

/-- The function `aes_mmo` (aes-mmo.h:25-81): returns the buffer `digest`. -/
def aes_mmo (E : Cipher) (digest message : List Nat) (length : Nat) : List Nat :=
  (aes_mmo_run E digest message length).digest

/-! ## AES-128

The header aes.h is not among the sources. The theorems are stated for an
arbitrary `Cipher`; the test vectors are checked with the cipher below. -/

/-- Modelled from the spec: the S-box of AES (FIPS 197, figure 7), used by the
function `aes_encrypt` of aes.h, which is missing from the sources and which the
spec names as the single-block AES-128 encryption. Row `r` of the figure is the
number whose 16 bytes, most significant first, are the entries `r0` to `rf`. -/
def aes_sbox_rows : List Nat :=
  [0x637c777bf26b6fc53001672bfed7ab76, 0xca82c97dfa5947f0add4a2af9ca472c0,
   0xb7fd9326363ff7cc34a5e5f171d83115, 0x04c723c31896059a071280e2eb27b275,
   0x09832c1a1b6e5aa0523bd6b329e32f84, 0x53d100ed20fcb15b6acbbe394a4c58cf,
   0xd0efaafb434d338545f9027f503c9fa8, 0x51a3408f929d38f5bcb6da2110fff3d2,
   0xcd0c13ec5f974417c4a77e3d645d1973, 0x60814fdc222a908846eeb814de5e0bdb,
   0xe0323a0a4906245cc2d3ac629195e479, 0xe7c8376d8dd54ea96c56f4ea657aae08,
   0xba78252e1ca6b4c6e8dd741f4bbd8b8a, 0x703eb5664803f60e613557b986c11d9e,
   0xe1f8981169d98e949b1e87e9ce5528df, 0x8ca1890dbfe6426841992d0fb054bb16]

/-- Modelled from the spec: SubBytes on one byte (FIPS 197, 5.1.1), for the
missing `aes_encrypt` of aes.h. -/
def aes_sub_byte (b : Nat) : Nat :=
  (aes_sbox_rows.getD (b / 16 % 16) 0 >>> (8 * (15 - b % 16))) % 256

/-- Modelled from the spec: multiplication by x in GF(2^8) modulo
x^8 + x^4 + x^3 + x + 1 (FIPS 197, 4.2.1), for the missing `aes_encrypt` of
aes.h. -/
def aes_xtime (b : Nat) : Nat :=
  if b % 256 < 128 then 2 * (b % 256) else (2 * (b % 256) - 256) ^^^ 0x1b

/-- Modelled from the spec: SubBytes on the state (FIPS 197, 5.1.1), for the
missing `aes_encrypt` of aes.h; the state is the list of its 16 bytes, column
after column. -/
def aes_sub_bytes (s : List Nat) : List Nat := s.map aes_sub_byte

/-- Modelled from the spec: ShiftRows (FIPS 197, 5.1.2), for the missing
`aes_encrypt` of aes.h: row `r` of the state is rotated left by `r` columns. -/
def aes_shift_rows (s : List Nat) : List Nat :=
  (List.range 16).map (fun k => s.getD ((k + 4 * (k % 4)) % 16) 0)

/-- Modelled from the spec: MixColumns on one column (FIPS 197, 5.1.3), for the
missing `aes_encrypt` of aes.h. -/
def aes_mix_column (a0 a1 a2 a3 : Nat) : List Nat :=
  [aes_xtime a0 ^^^ (aes_xtime a1 ^^^ a1) ^^^ a2 ^^^ a3,
   a0 ^^^ aes_xtime a1 ^^^ (aes_xtime a2 ^^^ a2) ^^^ a3,
   a0 ^^^ a1 ^^^ aes_xtime a2 ^^^ (aes_xtime a3 ^^^ a3),
   (aes_xtime a0 ^^^ a0) ^^^ a1 ^^^ a2 ^^^ aes_xtime a3]

/-- Modelled from the spec: MixColumns (FIPS 197, 5.1.3), for the missing
`aes_encrypt` of aes.h. -/
def aes_mix_columns (s : List Nat) : List Nat :=
  aes_mix_column (s.getD 0 0) (s.getD 1 0) (s.getD 2 0) (s.getD 3 0) ++
  aes_mix_column (s.getD 4 0) (s.getD 5 0) (s.getD 6 0) (s.getD 7 0) ++
  aes_mix_column (s.getD 8 0) (s.getD 9 0) (s.getD 10 0) (s.getD 11 0) ++
  aes_mix_column (s.getD 12 0) (s.getD 13 0) (s.getD 14 0) (s.getD 15 0)

/-- Modelled from the spec: AddRoundKey (FIPS 197, 5.1.4), for the missing
`aes_encrypt` of aes.h. -/
def aes_add_round_key (s k : List Nat) : List Nat := List.zipWith (fun a b => a ^^^ b) s k

/-- Modelled from the spec: the next round key (FIPS 197, 5.2, KeyExpansion with
Nk = 4), for the missing `aes_encrypt` of aes.h: the four words that follow the
four words `k`, with the round constant `rcon`. -/
def aes_next_round_key (rcon : Nat) (k : List Nat) : List Nat :=
  let w0 := aes_add_round_key (k.take 4)
    [aes_sub_byte (k.getD 13 0) ^^^ rcon, aes_sub_byte (k.getD 14 0),
     aes_sub_byte (k.getD 15 0), aes_sub_byte (k.getD 12 0)]
  let w1 := aes_add_round_key ((k.drop 4).take 4) w0
  let w2 := aes_add_round_key ((k.drop 8).take 4) w1
  let w3 := aes_add_round_key ((k.drop 12).take 4) w2
  w0 ++ w1 ++ w2 ++ w3

/-- Modelled from the spec: the round constants of AES-128 (FIPS 197, 5.2), for
the missing `aes_encrypt` of aes.h. -/
def aes_rcon : List Nat := [0x01, 0x02, 0x04, 0x08, 0x10, 0x20, 0x40, 0x80, 0x1b, 0x36]

/-- Modelled from the spec: the rounds of the cipher (FIPS 197, 5.1), one for
each round constant, the last one without MixColumns, for the missing
`aes_encrypt` of aes.h; `k` is the round key of the round before. -/
def aes_rounds : List Nat → List Nat → List Nat → List Nat
  | [], s, _ => s
  | [rc], s, k =>
      aes_add_round_key (aes_shift_rows (aes_sub_bytes s)) (aes_next_round_key rc k)
  | rc :: rcs, s, k =>
      aes_add_round_key (aes_mix_columns (aes_shift_rows (aes_sub_bytes s)))
        (aes_next_round_key rc k) |> fun s => aes_rounds rcs s (aes_next_round_key rc k)

/-- Modelled from the spec: AES-128 encryption of the 16-byte block `inp` under
the 16-byte key `key` (FIPS 197, 5.1), for the function `aes_encrypt` of aes.h,
which is missing from the sources. -/
def aes128 : Cipher := fun inp key =>
  let inp := (List.range 16).map (fun i => inp.getD i 0 % 256)
  let key := (List.range 16).map (fun i => key.getD i 0 % 256)
  aes_rounds aes_rcon (aes_add_round_key inp key) key

/-! ## Parts of the functions above, for the statements about them -/

/-- The statements `tag[3] ^= aad_length >> 29; ... tag[7] ^= aad_length << 3;
tag[11] ^= text_length >> 29; ... tag[15] ^= text_length << 3;` of `aes_gcm_tag`
(aes-gcm.h:118-137), on the buffer `tag`; the stores to the bytes 0..2 and 8..10
are commented out in the source. -/
def aes_gcm_tag_lengths (tag : List Nat) (aad_length text_length : Nat) : List Nat :=
  let tag := tag.set 3 ((tag.getD 3 0 ^^^ (aad_length >>> 29)) % 256)
  let tag := tag.set 4 ((tag.getD 4 0 ^^^ (aad_length >>> 21)) % 256)
  let tag := tag.set 5 ((tag.getD 5 0 ^^^ (aad_length >>> 13)) % 256)
  let tag := tag.set 6 ((tag.getD 6 0 ^^^ (aad_length >>> 5)) % 256)
  let tag := tag.set 7 ((tag.getD 7 0 ^^^ (aad_length <<< 3)) % 256)
  let tag := tag.set 11 ((tag.getD 11 0 ^^^ (text_length >>> 29)) % 256)
  let tag := tag.set 12 ((tag.getD 12 0 ^^^ (text_length >>> 21)) % 256)
  let tag := tag.set 13 ((tag.getD 13 0 ^^^ (text_length >>> 13)) % 256)
  let tag := tag.set 14 ((tag.getD 14 0 ^^^ (text_length >>> 5)) % 256)
  tag.set 15 ((tag.getD 15 0 ^^^ (text_length <<< 3)) % 256)

/-- The buffer `tag` of `aes_gcm_tag` after its two loops over the data
(aes-gcm.h:96-117), before the lengths are xored into it. -/
def aes_gcm_tag_data (E : Cipher) (tag aad : List Nat) (aad_length : Nat)
    (text : List Nat) (text_length : Nat) (key : List Nat) : List Nat :=
  let h := for_loop (fun i h => h.set i 0) 16 (List.replicate 16 0)
  let h := aes_encrypt E h key
  let tag := for_loop (fun i t => t.set i 0) 16 tag
  let tag := aes_gcm_tag_absorb tag h aad aad_length
  aes_gcm_tag_absorb tag h text text_length

/-- The block `x` of `aes_kw` after the call of `aes_encrypt` in one iteration
of the loop over `i` (aes-kw.h:40-43): `B = AES(K, A | R[i])`. -/
def aes_kw_block (E : Cipher) (plaintext key : List Nat) (s : KwState) : List Nat :=
  -- for (w = 8; w < 16; w++) x[w] = *r++;
  let s := for_loop
    (fun w (s : KwState) => { s with x := s.x.set (8 + w) (aes_kw_read plaintext s), r := s.r + 1 })
    8 s
  -- aes_encrypt(x, x, key);
  aes_encrypt E s.x key

/-- The counter block that one iteration of the outer loop of `aes_ccm_ctr`
formats in `x` (aes-ccm.h:48-59), from the values of `x` and `counter` before
the iteration. -/
def aes_ccm_ctr_block (x nonce : List Nat) (nonce_length counter : Nat) : List Nat :=
  -- x[0] = 14 - nonce_length;
  let x := x.set 0 ((14 - nonce_length) % 256)
  -- for (i = 0; i < nonce_length; i++) x[i + 1] = nonce[i];
  let x := for_loop (fun i x => x.set (i + 1) (nonce.getD i 0)) nonce_length x
  -- counter++;
  let counter := counter + 1
  -- for (i = 0; i < 15 - nonce_length; i++)
  --   x[15 - i] = i < sizeof(counter) ? counter >> (i * 8) : 0;
  for_loop
    (fun i x => x.set (15 - i) (if i < 4 then (counter >>> (i * 8)) % 256 else 0))
    (15 - nonce_length) x

/-- The block that `aes_ccm_mac` formats in `x` before the call of
`aes_encrypt` that gives S0 (aes-ccm.h:152-158). -/
def aes_ccm_mac_ctr0 (x nonce : List Nat) (nonce_length : Nat) : List Nat :=
  let x := x.set 0 ((14 - nonce_length) % 256)
  let x := for_loop (fun i x => x.set (i + 1) (nonce.getD i 0)) nonce_length x
  for_loop (fun i x => x.set (15 - i) 0) (15 - nonce_length) x

/-! ## Auxiliary definitions for the proofs -/

/-- The block `x` of `aes_ccm_ctr` after `j` iterations of its outer loop: for
`j ≥ 1` it is the encrypted counter block of block number `j`. -/
def ccm_ctr_x (E : Cipher) (nonce : List Nat) (nonce_length : Nat) (key : List Nat) :
    Nat → List Nat
  | 0 => List.replicate 16 0
  | j + 1 => (aes_ccm_ctr_body E nonce nonce_length [] 0 key
      { x := ccm_ctr_x E nonce nonce_length key j, counter := j, output := [], n := 0 }).x

/-- Byte `k` of the key stream of `aes_ccm_ctr`. -/
def ccm_keystream (E : Cipher) (nonce : List Nat) (nonce_length : Nat) (key : List Nat)
    (k : Nat) : Nat :=
  (ccm_ctr_x E nonce nonce_length key (k / 16 + 1)).getD (k % 16) 0

/-- The counter block and counter of `aes_gcm_encrypt_or_decrypt` after `j`
executions of `counter++; cb[12..15] = counter` (the fields `output` and `m`
are not used). -/
def gcm_cb (iv : List Nat) : Nat → GctrState
  | 0 => { cb := for_loop (fun i cb => cb.set i (iv.getD i 0)) 12 (List.replicate 16 0),
           counter := 1, output := [], m := 0 }
  | j + 1 => aes_gcm_next_cb (gcm_cb iv j)

/-- Byte `k` of the key stream of `aes_gcm_encrypt_or_decrypt`. -/
def gcm_keystream (E : Cipher) (iv key : List Nat) (k : Nat) : Nat :=
  (aes_encrypt E (gcm_cb iv (k / 16 + 1)).cb key).getD (k % 16) 0

/-- The identity in the role of the block cipher, for concrete instances. -/
def id_cipher : Cipher := fun inp _ => inp

/-- A toy function in the role of the block cipher, for concrete instances:
every byte of the input plus one. -/
def succ_cipher : Cipher := fun inp _ => inp.map (fun b => b + 1)

/-- Reference alphabet of RFC 4648, table 1: the characters A-Z, a-z, 0-9,
`+` and `/`, as character codes. -/
def base64_ref_alphabet : List Nat :=
  (List.range 26).map (fun i => 65 + i) ++ (List.range 26).map (fun i => 97 + i) ++
    (List.range 10).map (fun i => 48 + i) ++ [43, 47]

/-- Reference Base64 encoding of RFC 4648, section 4: every 3-byte group is read
as a 24-bit big-endian value whose four 6-bit groups index the alphabet; a final
group of 2 (resp. 1) bytes is extended with zero bits to 18 (resp. 12) bits,
gives 3 (resp. 2) characters and is completed with `=` (code 61). -/
def base64_ref : List Nat → List Nat
  | a :: b :: c :: rest =>
    [base64_ref_alphabet.getD ((a * 2 ^ 16 + b * 2 ^ 8 + c) / 2 ^ 18 % 64) 0,
     base64_ref_alphabet.getD ((a * 2 ^ 16 + b * 2 ^ 8 + c) / 2 ^ 12 % 64) 0,
     base64_ref_alphabet.getD ((a * 2 ^ 16 + b * 2 ^ 8 + c) / 2 ^ 6 % 64) 0,
     base64_ref_alphabet.getD ((a * 2 ^ 16 + b * 2 ^ 8 + c) % 64) 0] ++ base64_ref rest
  | [a, b] =>
    [base64_ref_alphabet.getD ((a * 2 ^ 8 + b) * 2 ^ 2 / 2 ^ 12 % 64) 0,
     base64_ref_alphabet.getD ((a * 2 ^ 8 + b) * 2 ^ 2 / 2 ^ 6 % 64) 0,
     base64_ref_alphabet.getD ((a * 2 ^ 8 + b) * 2 ^ 2 % 64) 0, 61]
  | [a] =>
    [base64_ref_alphabet.getD (a * 2 ^ 4 / 2 ^ 6 % 64) 0,
     base64_ref_alphabet.getD (a * 2 ^ 4 % 64) 0, 61, 61]
  | [] => []

/-- Byte `i` of an input of `length` bytes, and 0 past its end. -/
def input_byte (input : List Nat) (length i : Nat) : Nat :=
  if i < length then input.getD i 0 else 0

/-- Output byte `k` of `base64_encode` on an input of `length` bytes, in terms
of the expressions of the code (a byte past the end of the input counts as 0,
which gives the expressions of the code for an incomplete final group). -/
def base64_char (input : List Nat) (length k : Nat) : Nat :=
  let a := input_byte input length (k / 4 * 3)
  let b := input_byte input length (k / 4 * 3 + 1)
  let c := input_byte input length (k / 4 * 3 + 2)
  if k % 4 = 0 then base64_alphabet.getD ((a >>> 2) &&& 63) 0
  else if k % 4 = 1 then base64_alphabet.getD (((a <<< 4) ||| (b >>> 4)) &&& 63) 0
  else if k % 4 = 2 then
    if k / 4 * 3 + 1 < length then base64_alphabet.getD (((b <<< 2) ||| (c >>> 6)) &&& 63) 0
    else 61
  else
    if k / 4 * 3 + 2 < length then base64_alphabet.getD (c &&& 63) 0 else 61

/-! ## Reference SHA-1 and SHA-256 (FIPS 180-4) -/

/-- The `width` bytes of the big-endian encoding of `n`. -/
def be_bytes (width n : Nat) : List Nat :=
  (List.range width).map (fun i => n / 2 ^ (8 * (width - 1 - i)) % 256)

/-- Reference padding (FIPS 180-4, 5.1.1), on bytes: the message, the byte
0x80, the least number of zero bytes that makes the total length a multiple of
64, and the 64-bit big-endian encoding of the message length in bits. -/
def sha_ref_pad (msg : List Nat) : List Nat :=
  msg ++ [0x80] ++ List.replicate ((119 - msg.length % 64) % 64) 0 ++
    be_bytes 8 (8 * msg.length)

/-- Reference parsing (FIPS 180-4, 5.2.1): the sixteen big-endian 32-bit words
of block number `b` (from 0) of the padded message. -/
def sha_ref_words (padded : List Nat) (b : Nat) : List Nat :=
  (List.range 16).map (fun t =>
    padded.getD (64 * b + 4 * t) 0 * 2 ^ 24 + padded.getD (64 * b + 4 * t + 1) 0 * 2 ^ 16 +
      padded.getD (64 * b + 4 * t + 2) 0 * 2 ^ 8 + padded.getD (64 * b + 4 * t + 3) 0)

/-- Rotate right of a 32-bit word (FIPS 180-4, 3.2): ROTR^n(x). -/
def rotr32 (n x : Nat) : Nat := (x >>> n) ||| ((x <<< (32 - n)) % 2 ^ 32)

/-- Rotate left of a 32-bit word (FIPS 180-4, 3.2): ROTL^n(x). -/
def rotl32 (n x : Nat) : Nat := ((x <<< n) % 2 ^ 32) ||| (x >>> (32 - n))

/-- The function Ch(x, y, z) of FIPS 180-4, 4.1.1 and 4.1.2; the complement of
the 32-bit word `x` is `2 ^ 32 - 1 - x`. -/
def ref_ch (x y z : Nat) : Nat := (x &&& y) ^^^ ((2 ^ 32 - 1 - x) &&& z)

/-- The function Maj(x, y, z) of FIPS 180-4, 4.1.1 and 4.1.2. -/
def ref_maj (x y z : Nat) : Nat := ((x &&& y) ^^^ (x &&& z)) ^^^ (y &&& z)

/-- The function Parity(x, y, z) of FIPS 180-4, 4.1.1. -/
def ref_parity (x y z : Nat) : Nat := (x ^^^ y) ^^^ z

/-- The function Σ0 of FIPS 180-4, 4.1.2. -/
def ref_bsig0 (x : Nat) : Nat := (rotr32 2 x ^^^ rotr32 13 x) ^^^ rotr32 22 x

/-- The function Σ1 of FIPS 180-4, 4.1.2. -/
def ref_bsig1 (x : Nat) : Nat := (rotr32 6 x ^^^ rotr32 11 x) ^^^ rotr32 25 x

/-- The function σ0 of FIPS 180-4, 4.1.2. -/
def ref_ssig0 (x : Nat) : Nat := (rotr32 7 x ^^^ rotr32 18 x) ^^^ (x >>> 3)

/-- The function σ1 of FIPS 180-4, 4.1.2. -/
def ref_ssig1 (x : Nat) : Nat := (rotr32 17 x ^^^ rotr32 19 x) ^^^ (x >>> 10)

/-- Trial division test of primality. -/
def ref_is_prime (n : Nat) : Bool :=
  decide (2 ≤ n) && (List.range n).all (fun d => decide (d < 2) || decide (n % d ≠ 0))

/-- The first `count` prime numbers (for `count ≤ 64`). -/
def ref_primes (count : Nat) : List Nat :=
  ((List.range 312).filter ref_is_prime).take count

/-- The largest `r` below `acc + 2 ^ bits` with `r ^ k ≤ n`, found bit by bit
from `acc` (an integer `k`-th root when `acc = 0`). -/
def ref_root (k n : Nat) : Nat → Nat → Nat
  | 0, acc => acc
  | bits + 1, acc =>
    if (acc + 2 ^ bits) ^ k ≤ n then ref_root k n bits (acc + 2 ^ bits)
    else ref_root k n bits acc

/-- Reference SHA-256 constants (FIPS 180-4, 4.2.2): the first 32 bits of the
fractional parts of the cube roots of the first 64 prime numbers. -/
def sha256_ref_k : List Nat :=
  (ref_primes 64).map (fun p => ref_root 3 (p * 2 ^ 96) 40 0 % 2 ^ 32)

/-- Reference SHA-256 initial hash value (FIPS 180-4, 5.3.3): the first 32
bits of the fractional parts of the square roots of the first 8 prime numbers. -/
def sha256_ref_init : Sha256Words :=
  let r := (ref_primes 8).map (fun p => ref_root 2 (p * 2 ^ 64) 40 0 % 2 ^ 32)
  { h0 := r.getD 0 0, h1 := r.getD 1 0, h2 := r.getD 2 0, h3 := r.getD 3 0,
    h4 := r.getD 4 0, h5 := r.getD 5 0, h6 := r.getD 6 0, h7 := r.getD 7 0 }

/-- Reference SHA-256 message schedule (FIPS 180-4, 6.2.2, step 1): the words
W_0 .. W_(15+n) of the block `M`. -/
def sha256_ref_schedule (M : List Nat) : Nat → List Nat
  | 0 => M
  | n + 1 =>
    sha256_ref_schedule M n ++
      [(ref_ssig1 ((sha256_ref_schedule M n).getD (n + 14) 0) +
        (sha256_ref_schedule M n).getD (n + 9) 0 +
        ref_ssig0 ((sha256_ref_schedule M n).getD (n + 1) 0) +
        (sha256_ref_schedule M n).getD n 0) % 2 ^ 32]

/-- Reference SHA-256 round (FIPS 180-4, 6.2.2, step 3) on the working
variables a..h (fields h0..h7). -/
def sha256_ref_round (W : List Nat) (t : Nat) (v : Sha256Words) : Sha256Words :=
  let T1 := (v.h7 + ref_bsig1 v.h4 + ref_ch v.h4 v.h5 v.h6 + sha256_ref_k.getD t 0
    + W.getD t 0) % 2 ^ 32
  let T2 := (ref_bsig0 v.h0 + ref_maj v.h0 v.h1 v.h2) % 2 ^ 32
  { h0 := (T1 + T2) % 2 ^ 32, h1 := v.h0, h2 := v.h1, h3 := v.h2,
    h4 := (v.h3 + T1) % 2 ^ 32, h5 := v.h4, h6 := v.h5, h7 := v.h6 }

/-- Reference SHA-256 compression of the block `M` (FIPS 180-4, 6.2.2). -/
def sha256_ref_compress (H : Sha256Words) (M : List Nat) : Sha256Words :=
  let v := for_loop (sha256_ref_round (sha256_ref_schedule M 48)) 64 H
  { h0 := (H.h0 + v.h0) % 2 ^ 32, h1 := (H.h1 + v.h1) % 2 ^ 32,
    h2 := (H.h2 + v.h2) % 2 ^ 32, h3 := (H.h3 + v.h3) % 2 ^ 32,
    h4 := (H.h4 + v.h4) % 2 ^ 32, h5 := (H.h5 + v.h5) % 2 ^ 32,
    h6 := (H.h6 + v.h6) % 2 ^ 32, h7 := (H.h7 + v.h7) % 2 ^ 32 }

/-- Reference SHA-256 hash value H^(b) after the first `b` blocks. -/
def sha256_ref_hash (padded : List Nat) : Nat → Sha256Words
  | 0 => sha256_ref_init
  | b + 1 => sha256_ref_compress (sha256_ref_hash padded b) (sha_ref_words padded b)

/-- Reference SHA-256 (FIPS 180-4, 6.2): the big-endian bytes of the final
hash value of the padded message. -/
def sha256_ref (msg : List Nat) : List Nat :=
  let H := sha256_ref_hash (sha_ref_pad msg) ((sha_ref_pad msg).length / 64)
  be_bytes 4 H.h0 ++ be_bytes 4 H.h1 ++ be_bytes 4 H.h2 ++ be_bytes 4 H.h3 ++
    be_bytes 4 H.h4 ++ be_bytes 4 H.h5 ++ be_bytes 4 H.h6 ++ be_bytes 4 H.h7

/-- Reference SHA-1 initial hash value (FIPS 180-4, 5.3.1). -/
def sha1_ref_init : List Nat :=
  [0x67452301, 0xefcdab89, 0x98badcfe, 0x10325476, 0xc3d2e1f0]

/-- Reference SHA-1 function f_t (FIPS 180-4, 4.1.1). -/
def sha1_ref_f (t x y z : Nat) : Nat :=
  if t ≤ 19 then ref_ch x y z
  else if t ≤ 39 then ref_parity x y z
  else if t ≤ 59 then ref_maj x y z
  else ref_parity x y z

/-- Reference SHA-1 constant K_t (FIPS 180-4, 4.2.1). -/
def sha1_ref_k (t : Nat) : Nat :=
  if t ≤ 19 then 0x5a827999
  else if t ≤ 39 then 0x6ed9eba1
  else if t ≤ 59 then 0x8f1bbcdc
  else 0xca62c1d6

/-- Reference SHA-1 message schedule (FIPS 180-4, 6.1.2, step 1): the words
W_0 .. W_(15+n) of the block `M`. -/
def sha1_ref_schedule (M : List Nat) : Nat → List Nat
  | 0 => M
  | n + 1 =>
    sha1_ref_schedule M n ++
      [rotl32 1 ((((sha1_ref_schedule M n).getD (n + 13) 0 ^^^
        (sha1_ref_schedule M n).getD (n + 8) 0) ^^^
        (sha1_ref_schedule M n).getD (n + 2) 0) ^^^ (sha1_ref_schedule M n).getD n 0)]

/-- Reference SHA-1 round (FIPS 180-4, 6.1.2, step 3) on the working variables
`[a, b, c, d, e]`. -/
def sha1_ref_round (W : List Nat) (t : Nat) (v : List Nat) : List Nat :=
  let T := (rotl32 5 (v.getD 0 0) + sha1_ref_f t (v.getD 1 0) (v.getD 2 0) (v.getD 3 0)
    + v.getD 4 0 + sha1_ref_k t + W.getD t 0) % 2 ^ 32
  [T, v.getD 0 0, rotl32 30 (v.getD 1 0), v.getD 2 0, v.getD 3 0]

/-- Reference SHA-1 compression of the block `M` (FIPS 180-4, 6.1.2). -/
def sha1_ref_compress (H : List Nat) (M : List Nat) : List Nat :=
  let v := for_loop (sha1_ref_round (sha1_ref_schedule M 64)) 80 H
  [(H.getD 0 0 + v.getD 0 0) % 2 ^ 32, (H.getD 1 0 + v.getD 1 0) % 2 ^ 32,
   (H.getD 2 0 + v.getD 2 0) % 2 ^ 32, (H.getD 3 0 + v.getD 3 0) % 2 ^ 32,
   (H.getD 4 0 + v.getD 4 0) % 2 ^ 32]

/-- Reference SHA-1 hash value H^(b) after the first `b` blocks. -/
def sha1_ref_hash (padded : List Nat) : Nat → List Nat
  | 0 => sha1_ref_init
  | b + 1 => sha1_ref_compress (sha1_ref_hash padded b) (sha_ref_words padded b)

/-- Reference SHA-1 (FIPS 180-4, 6.1): the big-endian bytes of the final hash
value of the padded message. -/
def sha1_ref (msg : List Nat) : List Nat :=
  let H := sha1_ref_hash (sha_ref_pad msg) ((sha_ref_pad msg).length / 64)
  be_bytes 4 (H.getD 0 0) ++ be_bytes 4 (H.getD 1 0) ++ be_bytes 4 (H.getD 2 0) ++
    be_bytes 4 (H.getD 3 0) ++ be_bytes 4 (H.getD 4 0)

/-- The ring buffer `w` of `sha1` and `sha256` before round `t`: its sixteen
words are the words `t .. t + 15` of the message schedule `W`, word `t'` being
kept at index `t' mod 16`. -/
def sha_ring (W : List Nat) (t : Nat) (w : List Nat) : Prop :=
  w.length = 16 ∧ ∀ s, s < 16 → w.getD s 0 = W.getD (t + (s + 16 - t % 16) % 16) 0

/-- All fields are 32-bit words. -/
def Sha256Words.lt32 (v : Sha256Words) : Prop :=
  v.h0 < 2 ^ 32 ∧ v.h1 < 2 ^ 32 ∧ v.h2 < 2 ^ 32 ∧ v.h3 < 2 ^ 32 ∧
  v.h4 < 2 ^ 32 ∧ v.h5 < 2 ^ 32 ∧ v.h6 < 2 ^ 32 ∧ v.h7 < 2 ^ 32

/-! ## Auxiliary and reference definitions for aes-kw.h -/

/-- Bytewise exclusive or of two byte strings. -/
def xor_bytes (a b : List Nat) : List Nat := List.zipWith (fun x y => x ^^^ y) a b

/-- Byte `k` of the concatenation of the 8-byte blocks `R`. -/
def blocks_byte (R : List (List Nat)) (k : Nat) : Nat := (R.getD (k / 8) []).getD (k % 8) 0

/-- One step of `aes_kw` on the register `A` (the bytes 0..7 of `x`) and the
list of the 8-byte blocks `R`, for block number `i` (from 0) and the value `t`
of `n * j + i`: as in the code, `t` is xored into byte 7 only. -/
def kw_step (E : Cipher) (key : List Nat) (t i : Nat) (AR : List Nat × List (List Nat)) :
    List Nat × List (List Nat) :=
  let B := aes_encrypt E (AR.1 ++ AR.2.getD i []) key
  ((B.take 8).set 7 ((B.getD 7 0 ^^^ t) % 256), AR.2.set i (B.drop 8))

/-- The register `A` and the blocks `R` of `aes_kw` after `m` iterations of the
loop over `j`, from the blocks `P` of the plaintext. -/
def kw_rounds (E : Cipher) (key : List Nat) (P : List (List Nat)) (m : Nat) :
    List Nat × List (List Nat) :=
  for_loop
    (fun j AR => for_loop (fun i AR => kw_step E key (P.length * j + (i + 1)) i AR) P.length AR)
    m (List.replicate 8 0xa6, P)

/-- Reference step of the key wrap (RFC 3394, 2.2.1, step 2), for block number
`i` (from 0): `B = AES(K, A | R[i])`, `A = MSB(64, B) ^ t` with `t` as a 64-bit
big-endian integer, `R[i] = LSB(64, B)`. -/
def aes_kw_ref_step (E : Cipher) (key : List Nat) (t i : Nat)
    (AR : List Nat × List (List Nat)) : List Nat × List (List Nat) :=
  let B := aes_encrypt E (AR.1 ++ AR.2.getD i []) key
  (xor_bytes (B.take 8) (be_bytes 8 t), AR.2.set i (B.drop 8))

/-- Reference key wrap (RFC 3394, 2.2.1, index based): from `A = A6A6A6A6A6A6A6A6`
and `R = P`, the steps for `j = 0..5` and `i = 1..n` with `t = n * j + i`; the
output is `A | R[1] | ... | R[n]`. -/
def aes_kw_ref (E : Cipher) (key : List Nat) (P : List (List Nat)) : List Nat :=
  let AR := for_loop
    (fun j AR =>
      for_loop (fun i AR => aes_kw_ref_step E key (P.length * j + (i + 1)) i AR) P.length AR)
    6 (List.replicate 8 0xa6, P)
  AR.1 ++ AR.2.flatten

/-- Invariant of the loops of `aes_kw`, before the iteration for block number
`i` (from 0): the state `s` of the code holds the register `AR.1` in the bytes
0..7 of `x`, the blocks of `AR.2` already rewritten in this round in
`ciphertext`, and the other blocks where `r` reads them; nothing is written at
or after offset `8 * (n + 1)` of `ciphertext`, whose initial content is `ct0`. -/
def KwInv (n : Nat) (ct0 plaintext : List Nat) (s : KwState)
    (AR : List Nat × List (List Nat)) (i : Nat) : Prop :=
  s.x.length = 16 ∧ AR.1.length = 8 ∧ (∀ w, w < 8 → s.x.getD w 0 = AR.1.getD w 0) ∧
  AR.2.length = n ∧ (∀ m, m < n → (AR.2.getD m []).length = 8) ∧
  s.ciphertext.length = ct0.length ∧
  (∀ k, 8 * (n + 1) ≤ k → s.ciphertext.getD k 0 = ct0.getD k 0) ∧
  (∀ k, k < 8 * i → s.ciphertext.getD (8 + k) 0 = blocks_byte AR.2 k) ∧
  (∀ k, 8 * i ≤ k → k < 8 * n →
    (if s.r_in_ciphertext then s.ciphertext.getD (8 + k) 0 else plaintext.getD k 0) =
      blocks_byte AR.2 k) ∧
  s.r = (if s.r_in_ciphertext then 8 else 0) + 8 * i ∧ s.c = 8 + 8 * i

/-! ## Auxiliary and reference definitions for aes-mmo.h -/

/-- The full 16-byte blocks of a byte string, in order. -/
def blocks16 (l : List Nat) : List (List Nat) :=
  (List.range (l.length / 16)).map (fun j => (l.drop (16 * j)).take 16)

/-- The bytes that `aes_mmo` stores for the length of a message of `length`
bytes: `p[14]`, `p[15]` below 8192, and `p[10]` to `p[15]` from 8192 on. -/
def mmo_length_field (length : Nat) : List Nat :=
  if length < 8192 then [(length >>> 5) % 256, (length <<< 3) % 256]
  else [(length >>> 21) % 256, (length >>> 13) % 256, (length >>> 5) % 256,
    (length <<< 3) % 256, 0, 0]

/-- The padded blocks that `aes_mmo` compresses after the full blocks of the
message: with `q = length % 16 + 1`, either the block of the message tail, 0x80
and zeros followed by the block of zeros and the length field, or the single
block of the message tail, 0x80, zeros and the length field. -/
def mmo_final_blocks (message : List Nat) : List (List Nat) :=
  let tail := message.drop (message.length / 16 * 16)
  let q := message.length % 16 + 1
  if (message.length < 8192 ∧ q > 14) ∨ (message.length ≥ 8192 ∧ q > 10) then
    [tail ++ [0x80] ++ List.replicate (16 - q) 0,
     List.replicate (16 - (mmo_length_field message.length).length) 0 ++
       mmo_length_field message.length]
  else
    [tail ++ [0x80] ++ List.replicate (16 - (mmo_length_field message.length).length - q) 0 ++
      mmo_length_field message.length]

/-- Reference padding of the Matyas-Meyer-Oseas hash (ZigBee specification,
B.6): the message, the byte 0x80, the least number of zero bytes, and the
length of the message in bits, as a 16-bit big-endian integer that ends the
last block when the message has less than 8192 bytes, and else as a 32-bit
big-endian integer followed by two zero bytes that end the last block. -/
def mmo_ref_pad (msg : List Nat) : List Nat :=
  if msg.length < 8192 then
    msg ++ [0x80] ++ List.replicate ((29 - msg.length % 16) % 16) 0 ++
      be_bytes 2 (8 * msg.length)
  else
    msg ++ [0x80] ++ List.replicate ((25 - msg.length % 16) % 16) 0 ++
      be_bytes 4 (8 * msg.length) ++ [0, 0]

/-- Reference Matyas-Meyer-Oseas chain: `H_0 = 0^128` and
`H_j = E(M_j, key = H_{j-1}) xor M_j` over the blocks `M_1, ..., M_k`. -/
def mmo_ref_hash (E : Cipher) (blocks : List (List Nat)) : List Nat :=
  blocks.foldl (fun H M => xor_bytes (aes_encrypt E M H) M) (List.replicate 16 0)

/-- Reference hash: the chain over the 16-byte blocks of the padded message. -/
def aes_mmo_ref (E : Cipher) (msg : List Nat) : List Nat :=
  mmo_ref_hash E (blocks16 (mmo_ref_pad msg))

/-! ## Reference definitions for the counter modes -/

/-- The number that a byte string encodes in big-endian. -/
def be_value (l : List Nat) : Nat := l.foldl (fun acc b => acc * 256 + b) 0

/-- Reference counter block `Ctr_j` of CCM (NIST SP 800-38C, A.3): the flags
byte `q - 1` with `q = 15 - n` for a nonce of `n` bytes, the nonce, and the
counter `j` in the remaining `q` bytes, big-endian. -/
def ccm_ref_ctr (nonce : List Nat) (j : Nat) : List Nat :=
  [14 - nonce.length] ++ nonce ++ be_bytes (15 - nonce.length) j

/-! ## Reference definitions for the CCM MAC and the GCM tag -/

/-- A byte string followed by the least number of zero bytes that makes its
length a multiple of 16. -/
def pad16 (l : List Nat) : List Nat := l ++ List.replicate ((16 - l.length % 16) % 16) 0

/-- The CBC-MAC chain `X <- E_K(X xor B)` over the blocks `B`, from `X`. -/
def cbc_mac_chain (E : Cipher) (key X : List Nat) (blocks : List (List Nat)) : List Nat :=
  blocks.foldl (fun X B => aes_encrypt E (xor_bytes X B) key) X

/-- Reference block `B_0` of CCM (NIST SP 800-38C, A.2.1) for a MAC of `t`
bytes, a nonce of `n` bytes, associated data of `a` bytes and a payload of `p`
bytes: the flags byte `64 * Adata + 8 * ((t - 2) / 2) + (q - 1)` with
`q = 15 - n`, the nonce, and `p` in `q` bytes, big-endian. -/
def ccm_ref_b0 (t : Nat) (nonce : List Nat) (a p : Nat) : List Nat :=
  [64 * (if a > 0 then 1 else 0) + 8 * ((t - 2) / 2) + (14 - nonce.length)] ++ nonce ++
    be_bytes (15 - nonce.length) p

/-- Reference encoding of the length `a` of the associated data (NIST SP
800-38C, A.2.2): nothing for `a = 0`, two bytes for `0 < a < 0xFF00`, else
`FF FE` and four bytes (for `a < 2 ^ 32`), big-endian. -/
def ccm_ref_ad_header (a : Nat) : List Nat :=
  if a = 0 then [] else if a < 0xff00 then be_bytes 2 a else [0xff, 0xfe] ++ be_bytes 4 a

/-- Reference MAC of CCM (NIST SP 800-38C, 6.1, steps 1 to 4, 6 and 8 for the
tag): the first `t` bytes of the CBC-MAC, from the zero block, over `B_0`, the
encoded length and the associated data padded with zeros, and the payload
padded with zeros, xored with the first `t` bytes of `E_K(Ctr_0)`. -/
def aes_ccm_mac_ref (E : Cipher) (t : Nat) (nonce ad payload key : List Nat) : List Nat :=
  xor_bytes
    ((cbc_mac_chain E key (List.replicate 16 0)
      (blocks16 (ccm_ref_b0 t nonce ad.length payload.length ++
        pad16 (ccm_ref_ad_header ad.length ++ ad) ++ pad16 payload))).take t)
    ((aes_encrypt E (ccm_ref_ctr nonce 0) key).take t)

/-- Reference GHASH (NIST SP 800-38D, 6.4) with the block product of
`aes_gcm_mul`: `S <- (S xor B) * H` over the blocks `B`, from the zero block. -/
def ghash (H : List Nat) (blocks : List (List Nat)) : List Nat :=
  blocks.foldl (fun S B => aes_gcm_mul (xor_bytes S B) H) (List.replicate 16 0)

/-- Reference tag of GCM (NIST SP 800-38D, 7.1, steps 1, 2, 4, 5 and 6) for a
12-byte IV: `E_K(J_0) xor GHASH_H(A | 0.. | C | 0.. | len(A) | len(C))` with
`H = E_K(0^128)`, `J_0 = IV | 00 00 00 01` and the lengths in bits as 64-bit
big-endian integers. -/
def aes_gcm_tag_ref (E : Cipher) (iv aad text key : List Nat) : List Nat :=
  xor_bytes
    (ghash (aes_encrypt E (List.replicate 16 0) key)
      (blocks16 (pad16 aad ++ pad16 text ++
        (be_bytes 8 (8 * aad.length) ++ be_bytes 8 (8 * text.length)))))
    (aes_encrypt E (iv ++ [0, 0, 0, 1]) key)

/-! ## The blocks that the loops format or process, in the order of the iterations -/

/-- A loop `while (cond(s)) s = body(s);` that also records, for each
iteration, the value `f s` taken from the state before the iteration. -/
def while_loop_log {σ τ : Type} (cond : σ → Bool) (body : σ → σ) (f : σ → τ)
    (fuel : Nat) (s : σ) : σ × List τ :=
  while_loop (fun (p : σ × List τ) => cond p.1) (fun p => (body p.1, p.2 ++ [f p.1])) fuel
    (s, [])

/-- The counter blocks that the outer loop of `aes_ccm_ctr` formats in `x`, in
the order of its iterations (the loop of `aes_ccm_ctr` with a record of the
blocks). -/
def aes_ccm_ctr_blocks (E : Cipher) (output nonce : List Nat) (nonce_length : Nat)
    (input : List Nat) (input_length : Nat) (key : List Nat) : List (List Nat) :=
  (while_loop_log (fun (s : CtrState) => decide (s.n < input_length))
    (aes_ccm_ctr_body E nonce nonce_length input input_length key)
    (fun s => aes_ccm_ctr_block s.x nonce nonce_length s.counter)
    input_length
    { x := List.replicate 16 0, counter := 0, output := output, n := 0 }).2

/-- The 64 bytes at `m` in the iteration of the block loop of `sha256` and
`sha1` that starts at offset `i` with the buffer `pad` (sha256.h:52-79,
sha1.h:38-65): the block built in `pad` when `i > length - 64`, and the 64
bytes of the message at offset `i` otherwise. -/
def sha_block (message : List Nat) (length i : Nat) (pad : List Nat) : List Nat :=
  (if (i : Int) > (length : Int) - 64 then sha_pad_block pad message length i
    else message.drop i).take 64

/-- The 64-byte blocks that the block loop of `sha256` processes, in the order
of its iterations (the loop of `sha256_words` with a record of the blocks). -/
def sha256_blocks (message : List Nat) (length : Nat) : List (List Nat) :=
  (while_loop_log (fun (s : Sha256State) => decide ((s.i : Int) - 9 < (length : Int)))
    (sha256_body message length) (fun s => sha_block message length s.i s.pad) (length + 1)
    { i := 0, pad := List.replicate 64 0, w := List.replicate 16 0, H := sha256_init }).2

/-- The 64-byte blocks that the block loop of `sha1` processes, in the order of
its iterations (the loop of `sha1_words` with a record of the blocks). -/
def sha1_blocks (message : List Nat) (length : Nat) : List (List Nat) :=
  (while_loop_log (fun (s : Sha1State) => decide ((s.i : Int) - 9 < (length : Int)))
    (sha1_body message length) (fun s => sha_block message length s.i s.pad) (length + 1)
    { i := 0, pad := List.replicate 64 0, w := List.replicate 16 0,
      h := [0x67452301, 0xefcdab89, 0x98badcfe, 0x10325476, 0xc3d2e1f0] }).2

/-- The value `wt` that round `t` of `sha256` reads from `w[t & 15]`
(sha256.h:112) when it processes the block `m`, entered with the ring buffer
`w` and the hash value words `H`. -/
def sha256_wt (m w : List Nat) (H : Sha256Words) (t : Nat) : Nat :=
  (for_loop sha256_round t (sha_load_block w m, H)).1.getD (and15 (t : Int)) 0

/-- The value `wt` that round `t` of `sha1` reads from `w[t & 15]` (sha1.h:90)
when it processes the block `m`, entered with the ring buffer `w` and the
array `h`. -/
def sha1_wt (m w h : List Nat) (t : Nat) : Nat :=
  (for_loop sha1_round t
    (sha_load_block w m, [h.getD 0 0, h.getD 1 0, h.getD 2 0, h.getD 3 0, h.getD 4 0])).1.getD
    (and15 (t : Int)) 0

/-- Bit `i` of a block of 16 bytes, bit 0 being the most significant bit of
byte 0. -/
def block_bit (B : List Nat) (i : Nat) : Bool := (B.getD (i / 8) 0).testBit (7 - i % 8)

/-- Whether the iteration of the block loop of `sha256` and `sha1` that starts
at offset `i` executes `pad[j++] = 0x80;` (sha256.h:53-61, sha1.h:39-47): it
enters the padding code, and `i + j == length` holds after the copy loop, which
leaves `j = length - i` when `i ≤ length` and `j = 0` otherwise. -/
def sha_pad_marker (length i : Nat) : Bool :=
  decide ((i : Int) > (length : Int) - 64 ∧ i + (length - i) = length)

/-! ## Blocks as polynomials over GF(2) -/

/-- One iteration of the loop over the bits of `x` in `aes_gcm_mul`
(aes-gcm.h:52-64), on the pair of the arrays `z` and `v`. -/
def aes_gcm_mul_step (x : List Nat) (i : Nat) (zv : List Nat × List Nat) :
    List Nat × List Nat :=
  -- if (x[i >> 3] & (0x80 >> (i & 7))) for (j = 0; j < 16; j++) z[j] ^= v[j];
  let z :=
    if (x.getD (i >>> 3) 0) &&& (0x80 >>> (i &&& 7)) ≠ 0 then
      for_loop (fun j z => z.set j ((z.getD j 0 ^^^ zv.2.getD j 0) % 256)) 16 zv.1
    else zv.1
  let v := zv.2
  -- lsb1 = v[15] & 1;
  let lsb1 := v.getD 15 0 &&& 1
  -- for (j = 15; j > 0; j--) v[j] = (v[j] >> 1) | (v[j-1] << 7);
  let v := for_loop
    (fun k v => v.set (15 - k)
      (((v.getD (15 - k) 0 >>> 1) ||| (v.getD (15 - k - 1) 0 <<< 7)) % 256))
    15 v
  -- v[0] >>= 1;
  let v := v.set 0 ((v.getD 0 0 >>> 1) % 256)
  -- if (lsb1) v[0] ^= 0xe1;
  let v := if lsb1 ≠ 0 then v.set 0 ((v.getD 0 0 ^^^ 0xe1) % 256) else v
  (z, v)

/-- The function `bp` maps every block to the polynomial over GF(2) that the
block represents: the coefficient of x^i is bit `i` of the block, for
i = 0..127. -/
def IsBlockPoly (bp : List Nat → Polynomial (ZMod 2)) : Prop :=
  ∀ B, bp B = Finset.sum (Finset.range 128)
    (fun i => if block_bit B i = true then Polynomial.X ^ i else 0)

/-! ## General lemmas on buffers and loops -/

theorem getD_set (l : List Nat) (i j v : Nat) :
    (l.set i v).getD j 0 = if i = j ∧ j < l.length then v else l.getD j 0 := by
  simp only [List.getD_eq_getElem?_getD, List.getElem?_set]
  by_cases h : i = j
  · subst h
    by_cases h2 : i < l.length
    · simp [h2]
    · simp [h2, List.getElem?_eq_none (Nat.le_of_not_lt h2)]
  · simp [h]

theorem getD_of_le (l : List Nat) (k : Nat) (h : l.length ≤ k) : l.getD k 0 = 0 := by
  simp [List.getD_eq_getElem?_getD, List.getElem?_eq_none h]

theorem ext_getD {l1 l2 : List Nat} (hl : l1.length = l2.length)
    (h : ∀ k, k < l1.length → l1.getD k 0 = l2.getD k 0) : l1 = l2 := by
  apply List.ext_getElem hl
  intro n h1 h2
  have := h n h1
  simpa [List.getD_eq_getElem?_getD, List.getElem?_eq_getElem h1,
    List.getElem?_eq_getElem h2] using this

theorem for_loop_succ {σ : Type} (body : Nat → σ → σ) (n : Nat) (s : σ) :
    for_loop body (n + 1) s = body n (for_loop body n s) := rfl

theorem for_loop_zero {σ : Type} (body : Nat → σ → σ) (s : σ) :
    for_loop body 0 s = s := rfl

/-- Peeling the first iteration of a counted loop. -/
theorem for_loop_succ_front {σ : Type} (body : Nat → σ → σ) (n : Nat) (s : σ) :
    for_loop body (n + 1) s = for_loop (fun k => body (k + 1)) n (body 0 s) := by
  induction n with
  | zero => rfl
  | succ n ih => rw [for_loop_succ, ih]; rfl

/-- A counted loop of stores keeps the length of the buffer. -/
theorem for_loop_set_length (g : Nat → Nat) (F : Nat → List Nat → Nat) (n : Nat)
    (l : List Nat) : (for_loop (fun i l => l.set (g i) (F i l)) n l).length = l.length := by
  induction n with
  | zero => rfl
  | succ n ih => rw [for_loop_succ, List.length_set, ih]

/-- A counted loop whose iteration `i` stores at `off + i` a value computed
from `i` and the byte previously there. -/
theorem for_loop_set_getD (F : Nat → Nat → Nat) (off : Nat) (n : Nat) (l : List Nat) (k : Nat) :
    (for_loop (fun i l => l.set (off + i) (F i (l.getD (off + i) 0))) n l).getD k 0 =
      if off ≤ k ∧ k < off + n ∧ k < l.length then F (k - off) (l.getD k 0) else l.getD k 0 := by
  induction n with
  | zero =>
    rw [for_loop_zero, if_neg]
    omega
  | succ n ih =>
    rw [for_loop_succ, getD_set,
      for_loop_set_length (fun i => off + i) (fun i l => F i (l.getD (off + i) 0))]
    by_cases h1 : off + n = k
    · subst h1
      by_cases h2 : off + n < l.length
      · rw [if_pos ⟨rfl, h2⟩, if_pos ⟨by omega, by omega, h2⟩, ih, if_neg (by omega)]
        congr 1
        omega
      · rw [if_neg (by omega), if_neg (by omega), ih, if_neg (by omega)]
    · rw [if_neg (by omega), ih]
      by_cases h3 : off ≤ k ∧ k < off + n ∧ k < l.length
      · rw [if_pos h3, if_pos (by omega)]
      · rw [if_neg h3, if_neg (by omega)]

/-- Unfolding a loop whose condition fails. -/
theorem while_loop_done {σ : Type} (cond : σ → Bool) (body : σ → σ) (fuel : Nat) (s : σ)
    (h : cond s = false) : while_loop cond body fuel s = s := by
  cases fuel with
  | zero => rfl
  | succ f => simp [while_loop, h]

/-- A loop that runs `k` times: the condition holds before each of the first
`k` iterations and fails after them. -/
theorem while_loop_iterate {σ : Type} (cond : σ → Bool) (body : σ → σ) (k : Nat) :
    ∀ (fuel : Nat) (s : σ), k ≤ fuel → (∀ j, j < k → cond (body^[j] s) = true) →
      cond (body^[k] s) = false → while_loop cond body fuel s = body^[k] s := by
  induction k with
  | zero =>
    intro fuel s _ _ h
    exact while_loop_done cond body fuel s h
  | succ k ih =>
    intro fuel s hf h1 h2
    cases fuel with
    | zero => omega
    | succ f =>
      have h0 : cond s = true := h1 0 (Nat.succ_pos k)
      simp only [while_loop, h0, if_true]
      rw [Function.iterate_succ_apply]
      apply ih f (body s) (by omega)
      · intro j hj
        have := h1 (j + 1) (by omega)
        rwa [Function.iterate_succ_apply] at this
      · rwa [Function.iterate_succ_apply] at h2

/-- A loop `for (; i < N; i++) s = f(i, s);` on the pair `(i, s)`, started at
`i = 0`, is the counted loop. -/
theorem while_loop_counted {σ : Type} (N : Nat) (f : Nat → σ → σ) (fuel : Nat) (s : σ)
    (hf : N ≤ fuel) :
    while_loop (fun (p : Nat × σ) => decide (p.1 < N)) (fun p => (p.1 + 1, f p.1 p.2)) fuel (0, s)
      = (N, for_loop f N s) := by
  have key : ∀ j, (fun (p : Nat × σ) => (p.1 + 1, f p.1 p.2))^[j] (0, s) = (j, for_loop f j s) := by
    intro j
    induction j with
    | zero => rfl
    | succ j ih => rw [Function.iterate_succ_apply', ih]; rfl
  rw [while_loop_iterate _ _ N fuel (0, s) hf, key]
  · intro j hj
    rw [key]
    simpa using hj
  · rw [key]
    simp

theorem aes_encrypt_length (E : Cipher) (inp key : List Nat) :
    (aes_encrypt E inp key).length = 16 := by
  simp [aes_encrypt]

theorem aes_encrypt_lt (E : Cipher) (inp key : List Nat) (i : Nat) :
    (aes_encrypt E inp key).getD i 0 < 256 := by
  by_cases h : i < 16
  · have h2 : i < (aes_encrypt E inp key).length := by rw [aes_encrypt_length]; exact h
    rw [List.getD_eq_getElem?_getD, List.getElem?_eq_getElem h2]
    simp only [aes_encrypt, List.getElem_map, Option.getD_some, List.getElem_range]
    exact Nat.mod_lt _ (by norm_num)
  · rw [getD_of_le _ _ (by rw [aes_encrypt_length]; omega)]
    norm_num

theorem aes_ccm_ctr_xor_length (output input x : List Nat) (n len : Nat) :
    (aes_ccm_ctr_xor output input x n len).length = output.length := by
  unfold aes_ccm_ctr_xor
  have hc : (fun (p : Nat × List Nat) => decide (p.1 < 16 ∧ n + p.1 < len))
      = (fun (p : Nat × List Nat) => decide (p.1 < min 16 (len - n))) := by
    funext p
    apply decide_eq_decide.mpr
    omega
  rw [hc]
  have := while_loop_counted (min 16 (len - n))
    (fun i (l : List Nat) => l.set (n + i) ((input.getD (n + i) 0 ^^^ x.getD i 0) % 256))
    16 output (by omega)
  rw [this]
  exact for_loop_set_length (fun i => n + i)
    (fun i _ => (input.getD (n + i) 0 ^^^ x.getD i 0) % 256) _ output

theorem aes_ccm_ctr_xor_getD (output input x : List Nat) (n len k : Nat) :
    (aes_ccm_ctr_xor output input x n len).getD k 0 =
      if n ≤ k ∧ k < n + 16 ∧ k < len ∧ k < output.length
      then (input.getD k 0 ^^^ x.getD (k - n) 0) % 256 else output.getD k 0 := by
  unfold aes_ccm_ctr_xor
  have hc : (fun (p : Nat × List Nat) => decide (p.1 < 16 ∧ n + p.1 < len))
      = (fun (p : Nat × List Nat) => decide (p.1 < min 16 (len - n))) := by
    funext p
    apply decide_eq_decide.mpr
    omega
  rw [hc]
  have := while_loop_counted (min 16 (len - n))
    (fun i (l : List Nat) => l.set (n + i) ((input.getD (n + i) 0 ^^^ x.getD i 0) % 256))
    16 output (by omega)
  rw [this]
  have h2 := for_loop_set_getD (fun i _ => (input.getD (n + i) 0 ^^^ x.getD i 0) % 256) n
    (min 16 (len - n)) output k
  rw [h2]
  by_cases h : n ≤ k ∧ k < n + 16 ∧ k < len ∧ k < output.length
  · rw [if_pos h, if_pos (by omega)]
    have : n + (k - n) = k := by omega
    rw [this]
  · rw [if_neg h, if_neg (by omega)]

/-- State of `aes_ccm_ctr` after `j` iterations of its outer loop. -/
theorem aes_ccm_ctr_iterate (E : Cipher) (output nonce : List Nat) (nl : Nat)
    (input : List Nat) (len : Nat) (key : List Nat) (j : Nat) :
    ((aes_ccm_ctr_body E nonce nl input len key)^[j]
        { x := List.replicate 16 0, counter := 0, output := output, n := 0 }).x
      = ccm_ctr_x E nonce nl key j ∧
    ((aes_ccm_ctr_body E nonce nl input len key)^[j]
        { x := List.replicate 16 0, counter := 0, output := output, n := 0 }).counter = j ∧
    ((aes_ccm_ctr_body E nonce nl input len key)^[j]
        { x := List.replicate 16 0, counter := 0, output := output, n := 0 }).n = 16 * j ∧
    ((aes_ccm_ctr_body E nonce nl input len key)^[j]
        { x := List.replicate 16 0, counter := 0, output := output, n := 0 }).output.length
      = output.length ∧
    ∀ k, ((aes_ccm_ctr_body E nonce nl input len key)^[j]
        { x := List.replicate 16 0, counter := 0, output := output, n := 0 }).output.getD k 0
      = if k < 16 * j ∧ k < len ∧ k < output.length
        then (input.getD k 0 ^^^ ccm_keystream E nonce nl key k) % 256 else output.getD k 0 := by
  induction j with
  | zero =>
    refine ⟨rfl, rfl, rfl, rfl, ?_⟩
    intro k
    rw [if_neg (by omega)]
    rfl
  | succ j ih =>
    obtain ⟨hx, hc, hn, hl, hg⟩ := ih
    rw [Function.iterate_succ_apply']
    generalize ((aes_ccm_ctr_body E nonce nl input len key)^[j]
        { x := List.replicate 16 0, counter := 0, output := output, n := 0 }) = s at *
    have hx2 : (aes_ccm_ctr_body E nonce nl input len key s).x = ccm_ctr_x E nonce nl key (j + 1) := by
      simp only [aes_ccm_ctr_body, ccm_ctr_x, hx, hc]
    refine ⟨hx2, ?_, ?_, ?_, ?_⟩
    · simp only [aes_ccm_ctr_body, hc]
    · simp only [aes_ccm_ctr_body, hn]; omega
    · simp only [aes_ccm_ctr_body, aes_ccm_ctr_xor_length, hl]
    · intro k
      have hout : (aes_ccm_ctr_body E nonce nl input len key s).output
          = aes_ccm_ctr_xor s.output input (aes_ccm_ctr_body E nonce nl input len key s).x s.n len := rfl
      rw [hout, aes_ccm_ctr_xor_getD, hx2, hn, hl, hg]
      by_cases h1 : 16 * j ≤ k ∧ k < 16 * j + 16 ∧ k < len ∧ k < output.length
      · rw [if_pos h1, if_pos (by omega)]
        have e1 : k / 16 = j := by omega
        have e2 : k - 16 * j = k % 16 := by omega
        simp only [ccm_keystream, e1, e2]
      · rw [if_neg h1]
        by_cases h2 : k < 16 * j ∧ k < len ∧ k < output.length
        · rw [if_pos h2, if_pos (by omega)]
        · rw [if_neg h2, if_neg (by omega)]

theorem aes_ccm_ctr_eq_iterate (E : Cipher) (output nonce : List Nat) (nl : Nat)
    (input : List Nat) (len : Nat) (key : List Nat) :
    aes_ccm_ctr E output nonce nl input len key =
      ((aes_ccm_ctr_body E nonce nl input len key)^[(len + 15) / 16]
        { x := List.replicate 16 0, counter := 0, output := output, n := 0 }).output := by
  unfold aes_ccm_ctr
  rw [while_loop_iterate _ _ ((len + 15) / 16) len _ (by omega)]
  · intro j hj
    rw [(aes_ccm_ctr_iterate E output nonce nl input len key j).2.2.1]
    apply decide_eq_true
    omega
  · rw [(aes_ccm_ctr_iterate E output nonce nl input len key _).2.2.1]
    apply decide_eq_false
    omega

/-- The output buffer of `aes_ccm_ctr`, byte by byte. -/
theorem aes_ccm_ctr_getD (E : Cipher) (output nonce : List Nat) (nl : Nat)
    (input : List Nat) (len : Nat) (key : List Nat) (k : Nat) :
    (aes_ccm_ctr E output nonce nl input len key).getD k 0 =
      if k < len ∧ k < output.length
      then (input.getD k 0 ^^^ ccm_keystream E nonce nl key k) % 256 else output.getD k 0 := by
  rw [aes_ccm_ctr_eq_iterate, (aes_ccm_ctr_iterate E output nonce nl input len key _).2.2.2.2]
  by_cases h : k < len ∧ k < output.length
  · rw [if_pos h, if_pos (by omega)]
  · rw [if_neg h, if_neg (by omega)]

theorem aes_ccm_ctr_length (E : Cipher) (output nonce : List Nat) (nl : Nat)
    (input : List Nat) (len : Nat) (key : List Nat) :
    (aes_ccm_ctr E output nonce nl input len key).length = output.length := by
  rw [aes_ccm_ctr_eq_iterate, (aes_ccm_ctr_iterate E output nonce nl input len key _).2.2.2.1]

theorem ccm_keystream_lt (E : Cipher) (nonce : List Nat) (nl : Nat) (key : List Nat) (k : Nat) :
    ccm_keystream E nonce nl key k < 256 := by
  unfold ccm_keystream
  simp only [ccm_ctr_x, aes_ccm_ctr_body]
  exact aes_encrypt_lt _ _ _ _

theorem getD_take (l : List Nat) (n k : Nat) :
    (l.take n).getD k 0 = if k < n then l.getD k 0 else 0 := by
  simp only [List.getD_eq_getElem?_getD, List.getElem?_take]
  split_ifs <;> rfl

theorem getD_drop (l : List Nat) (n k : Nat) : (l.drop n).getD k 0 = l.getD (n + k) 0 := by
  simp only [List.getD_eq_getElem?_getD, List.getElem?_drop]

theorem getD_replicate_zero (n k : Nat) : (List.replicate n 0).getD k 0 = 0 := by
  simp only [List.getD_eq_getElem?_getD, List.getElem?_replicate]
  split_ifs <;> rfl

theorem getD_lt_of_forall {l : List Nat} (h : ∀ b ∈ l, b < 256) (k : Nat) :
    l.getD k 0 < 256 := by
  by_cases hk : k < l.length
  · rw [List.getD_eq_getElem?_getD, List.getElem?_eq_getElem hk]
    exact h _ (List.getElem_mem hk)
  · rw [getD_of_le _ _ (by omega)]
    norm_num

/-- A counted loop whose iteration `i` stores at `i` a value computed from `i`
and the byte previously there. -/
theorem for_loop_set_getD_zero (F : Nat → Nat → Nat) (n : Nat) (l : List Nat) (k : Nat) :
    (for_loop (fun i l => l.set i (F i (l.getD i 0))) n l).getD k 0 =
      if k < n ∧ k < l.length then F k (l.getD k 0) else l.getD k 0 := by
  have h := for_loop_set_getD F 0 n l k
  simp only [Nat.zero_add, Nat.zero_le, true_and, Nat.sub_zero] at h
  exact h

/-- Xoring a key stream byte twice gives the byte back. -/
theorem xor_xor_byte (p s : Nat) (hp : p < 256) (hs : s < 256) :
    (((p ^^^ s) % 256) ^^^ s) % 256 = p := by
  have h1 : p ^^^ s < 256 := Nat.xor_lt_two_pow (n := 8) hp hs
  rw [Nat.mod_eq_of_lt h1, Nat.xor_cancel_right, Nat.mod_eq_of_lt hp]

/-! ## Lemmas on aes-ccm.h -/

theorem aes_ccm_mac_length (E : Cipher) (mac : List Nat) (ml : Nat) (nonce : List Nat)
    (nl : Nat) (ad : List Nat) (al : Nat) (payload : List Nat) (pl : Nat) (key : List Nat) :
    (aes_ccm_mac E mac ml nonce nl ad al payload pl key).length = mac.length := by
  unfold aes_ccm_mac
  simp only
  rw [for_loop_set_length (fun i => i), for_loop_set_length (fun i => i)]

/-- The buffer `mac` after `aes_ccm_mac`, byte by byte. -/
theorem aes_ccm_mac_getD (E : Cipher) (mac : List Nat) (ml : Nat) (nonce : List Nat)
    (nl : Nat) (ad : List Nat) (al : Nat) (payload : List Nat) (pl : Nat) (key : List Nat)
    (i : Nat) :
    (aes_ccm_mac E mac ml nonce nl ad al payload pl key).getD i 0 =
      if i < ml ∧ i < mac.length then
        ((aes_ccm_mac_cbc E ml nonce nl ad al payload pl key).getD i 0 ^^^
          (aes_ccm_mac_s0 E (aes_ccm_mac_cbc E ml nonce nl ad al payload pl key) nonce nl
            key).getD i 0) % 256
      else mac.getD i 0 := by
  unfold aes_ccm_mac
  simp only
  rw [for_loop_set_getD_zero (fun i old => (old ^^^
      (aes_ccm_mac_s0 E (aes_ccm_mac_cbc E ml nonce nl ad al payload pl key) nonce nl
        key).getD i 0) % 256),
    for_loop_set_getD_zero (fun i _ => (aes_ccm_mac_cbc E ml nonce nl ad al payload pl key).getD i 0),
    for_loop_set_length (fun i => i)]
  by_cases h : i < ml ∧ i < mac.length
  · rw [if_pos h, if_pos h, if_pos h]
  · rw [if_neg h, if_neg h, if_neg h]

/-! ## Lemmas on the tag comparison -/

theorem tag_check_ret (a b : List Nat) (off : Nat) (n i c : Nat) :
    (tag_check a b off n i c).1 = 0 ∨ (tag_check a b off n i c).1 = -1 := by
  induction n generalizing i c with
  | zero => left; rfl
  | succ n ih =>
    unfold tag_check
    split_ifs with h
    · right; rfl
    · exact ih (i + 1) (c + 1)

theorem tag_check_zero_iff (a b : List Nat) (off : Nat) (n i c : Nat) :
    (tag_check a b off n i c).1 = 0 ↔
      ∀ j, j < n → a.getD (i + j) 0 = b.getD (off + (i + j)) 0 := by
  induction n generalizing i c with
  | zero =>
    constructor
    · intro _ j hj; omega
    · intro _; rfl
  | succ n ih =>
    unfold tag_check
    split_ifs with h
    · constructor
      · intro h0
        exact absurd h0 (by show ¬ ((-1 : Int) = 0); decide)
      · intro hall
        have h0 := hall 0 (Nat.succ_pos n)
        rw [Nat.add_zero] at h0
        exact absurd h0 h
    · rw [ih (i + 1) (c + 1)]
      have h' : a.getD i 0 = b.getD (off + i) 0 := not_not.mp h
      constructor
      · intro hall j hj
        cases j with
        | zero => exact h'
        | succ j =>
          have := hall j (by omega)
          rw [show i + 1 + j = i + (j + 1) by omega] at this
          exact this
      · intro hall j hj
        have := hall (j + 1) (by omega)
        rw [show i + (j + 1) = i + 1 + j by omega] at this
        exact this

/-- Number of byte comparisons when all `n` pairs are equal. -/
theorem tag_check_count_all (a b : List Nat) (off : Nat) (n i c : Nat)
    (h : ∀ j, j < n → a.getD (i + j) 0 = b.getD (off + (i + j)) 0) :
    (tag_check a b off n i c).2 = c + n := by
  induction n generalizing i c with
  | zero => rfl
  | succ n ih =>
    unfold tag_check
    have h0 := h 0 (Nat.succ_pos n)
    rw [Nat.add_zero] at h0
    rw [if_neg (not_not.mpr h0)]
    rw [ih (i + 1) (c + 1)]
    · omega
    · intro j hj
      have := h (j + 1) (by omega)
      rw [show i + (j + 1) = i + 1 + j by omega] at this
      exact this

/-- Number of byte comparisons when the first unequal pair is pair `m`. -/
theorem tag_check_count_first (a b : List Nat) (off : Nat) (n i c m : Nat) (hm : m < n)
    (heq : ∀ j, j < m → a.getD (i + j) 0 = b.getD (off + (i + j)) 0)
    (hne : a.getD (i + m) 0 ≠ b.getD (off + (i + m)) 0) :
    (tag_check a b off n i c).2 = c + m + 1 := by
  induction n generalizing i c m with
  | zero => omega
  | succ n ih =>
    unfold tag_check
    cases m with
    | zero =>
      rw [Nat.add_zero] at hne
      rw [if_pos hne]
    | succ m =>
      have h0 := heq 0 (Nat.succ_pos m)
      rw [Nat.add_zero] at h0
      rw [if_neg (not_not.mpr h0)]
      rw [ih (i + 1) (c + 1) m (by omega)]
      · omega
      · intro j hj
        have := heq (j + 1) (by omega)
        rw [show i + (j + 1) = i + 1 + j by omega] at this
        exact this
      · rw [show i + 1 + m = i + (m + 1) by omega]
        exact hne

/-- The result of `aes_ccm_decrypt`. -/
theorem aes_ccm_decrypt_eq (E : Cipher) (payload : List Nat) (ml : Nat)
    (nonce : List Nat) (nl : Nat) (ad : List Nat) (al : Nat)
    (ciphertext : List Nat) (cl : Nat) (key : List Nat) :
    aes_ccm_decrypt E payload ml nonce nl ad al ciphertext cl key =
      { ret := (tag_check (aes_ccm_mac E (List.replicate 16 0) ml nonce nl ad al
          (aes_ccm_ctr E payload nonce nl ciphertext (cl - ml) key) (cl - ml) key)
          ciphertext (cl - ml) ml 0 0).1,
        output := aes_ccm_ctr E payload nonce nl ciphertext (cl - ml) key,
        compares := (tag_check (aes_ccm_mac E (List.replicate 16 0) ml nonce nl ad al
          (aes_ccm_ctr E payload nonce nl ciphertext (cl - ml) key) (cl - ml) key)
          ciphertext (cl - ml) ml 0 0).2 } := by
  simp only [aes_ccm_decrypt]


theorem aes_ccm_encrypt_length (E : Cipher) (ct0 : List Nat) (ml : Nat) (nonce : List Nat)
    (nl : Nat) (ad : List Nat) (al : Nat) (payload : List Nat) (pl : Nat) (key : List Nat)
    (h : pl ≤ ct0.length) :
    (aes_ccm_encrypt E ct0 ml nonce nl ad al payload pl key).length = ct0.length := by
  unfold aes_ccm_encrypt
  simp only [List.length_append, List.length_take, aes_ccm_mac_length, List.length_drop,
    aes_ccm_ctr_length]
  omega

/-- The payload part of the buffer written by `aes_ccm_encrypt`. -/
theorem aes_ccm_encrypt_getD_payload (E : Cipher) (ct0 : List Nat) (ml : Nat)
    (nonce : List Nat) (nl : Nat) (ad : List Nat) (al : Nat) (payload : List Nat) (pl : Nat)
    (key : List Nat) (h : pl ≤ ct0.length) (k : Nat) (hk : k < pl) :
    (aes_ccm_encrypt E ct0 ml nonce nl ad al payload pl key).getD k 0 =
      (payload.getD k 0 ^^^ ccm_keystream E nonce nl key k) % 256 := by
  unfold aes_ccm_encrypt
  simp only
  rw [List.getD_append _ _ _ _ (by
    rw [List.length_take, aes_ccm_ctr_length]; omega)]
  rw [getD_take, if_pos hk, aes_ccm_ctr_getD, if_pos ⟨hk, by omega⟩]

/-- The MAC part of the buffer written by `aes_ccm_encrypt`. -/
theorem aes_ccm_encrypt_getD_mac (E : Cipher) (ct0 : List Nat) (ml : Nat)
    (nonce : List Nat) (nl : Nat) (ad : List Nat) (al : Nat) (payload : List Nat) (pl : Nat)
    (key : List Nat) (h : pl + ml ≤ ct0.length) (i : Nat) (hi : i < ml) :
    (aes_ccm_encrypt E ct0 ml nonce nl ad al payload pl key).getD (pl + i) 0 =
      ((aes_ccm_mac_cbc E ml nonce nl ad al payload pl key).getD i 0 ^^^
        (aes_ccm_mac_s0 E (aes_ccm_mac_cbc E ml nonce nl ad al payload pl key) nonce nl
          key).getD i 0) % 256 := by
  unfold aes_ccm_encrypt
  simp only
  have hl : (List.take pl (aes_ccm_ctr E ct0 nonce nl payload pl key)).length = pl := by
    rw [List.length_take, aes_ccm_ctr_length]; omega
  rw [List.getD_append_right _ _ _ _ (by rw [hl]; omega), hl, Nat.add_sub_cancel_left,
    aes_ccm_mac_getD, if_pos]
  refine ⟨hi, ?_⟩
  rw [List.length_drop, aes_ccm_ctr_length]
  omega

/-- Counter mode over a buffer whose first bytes are an encrypted payload gives
the payload back. -/
theorem aes_ccm_ctr_decrypts (E : Cipher) (out0 c nonce : List Nat) (nl : Nat)
    (payload key : List Nat) (hp : ∀ b ∈ payload, b < 256)
    (hout : out0.length = payload.length)
    (hc : ∀ k, k < payload.length →
      c.getD k 0 = (payload.getD k 0 ^^^ ccm_keystream E nonce nl key k) % 256) :
    aes_ccm_ctr E out0 nonce nl c payload.length key = payload := by
  apply ext_getD
  · rw [aes_ccm_ctr_length, hout]
  · intro k hk
    rw [aes_ccm_ctr_length, hout] at hk
    rw [aes_ccm_ctr_getD, if_pos ⟨hk, by omega⟩, hc k hk]
    exact xor_xor_byte _ _ (getD_lt_of_forall hp k) (ccm_keystream_lt E nonce nl key k)

/-- Decrypting the payload part of what `aes_ccm_encrypt` wrote gives the payload. -/
theorem aes_ccm_ctr_encrypt (E : Cipher) (ct0 out0 : List Nat) (ml : Nat)
    (nonce : List Nat) (nl : Nat) (ad : List Nat) (al : Nat) (payload : List Nat)
    (key : List Nat) (hp : ∀ b ∈ payload, b < 256)
    (hct : payload.length ≤ ct0.length) (hout : out0.length = payload.length) :
    aes_ccm_ctr E out0 nonce nl
      (aes_ccm_encrypt E ct0 ml nonce nl ad al payload payload.length key) payload.length key
      = payload :=
  aes_ccm_ctr_decrypts E out0 _ nonce nl payload key hp hout
    (fun k hk => aes_ccm_encrypt_getD_payload E ct0 ml nonce nl ad al payload payload.length
      key hct k hk)

/-- C1. CCM round trip: for every block cipher `E`, key, nonce of 7 to 13 bytes,
associated data, payload and MAC length in 4, 6, ..., 16, `aes_ccm_decrypt`
applied to the `payload_length + mac_length` bytes written by `aes_ccm_encrypt`
(same key, nonce, associated data and MAC length) returns 0 and leaves exactly
the original payload in its output buffer. -/
theorem aes_ccm_round_trip (E : Cipher) (key nonce ad payload ct0 out0 : List Nat)
    (mac_length : Nat) (hp : ∀ b ∈ payload, b < 256)
    (hn : 7 ≤ nonce.length ∧ nonce.length ≤ 13)
    (hm : mac_length ∈ [4, 6, 8, 10, 12, 14, 16])
    (hct : ct0.length = payload.length + mac_length)
    (hout : out0.length = payload.length) :
    (aes_ccm_encrypt E ct0 mac_length nonce nonce.length ad ad.length payload payload.length
        key).length = payload.length + mac_length ∧
    (aes_ccm_decrypt E out0 mac_length nonce nonce.length ad ad.length
        (aes_ccm_encrypt E ct0 mac_length nonce nonce.length ad ad.length payload
          payload.length key)
        (payload.length + mac_length) key).ret = 0 ∧
    (aes_ccm_decrypt E out0 mac_length nonce nonce.length ad ad.length
        (aes_ccm_encrypt E ct0 mac_length nonce nonce.length ad ad.length payload
          payload.length key)
        (payload.length + mac_length) key).output = payload := by
  have _ := hn
  have hm16 : mac_length ≤ 16 := by
    simp only [List.mem_cons, List.mem_singleton, List.not_mem_nil, or_false] at hm
    omega
  have hdec := aes_ccm_ctr_encrypt E ct0 out0 mac_length nonce nonce.length ad ad.length
    payload key hp (by omega) hout
  refine ⟨?_, ?_, ?_⟩
  · rw [aes_ccm_encrypt_length _ _ _ _ _ _ _ _ _ _ (by omega), hct]
  · rw [aes_ccm_decrypt_eq]
    simp only [Nat.add_sub_cancel]
    rw [hdec, tag_check_zero_iff]
    intro j hj
    rw [Nat.zero_add, aes_ccm_mac_getD, if_pos ⟨hj, by rw [List.length_replicate]; omega⟩,
      aes_ccm_encrypt_getD_mac E ct0 mac_length nonce nonce.length ad ad.length payload
        payload.length key (by omega) j hj]
  · rw [aes_ccm_decrypt_eq]
    simp only [Nat.add_sub_cancel]
    exact hdec

/-! ## Lemmas on aes-gcm.h -/

theorem gcm_keystream_lt (E : Cipher) (iv key : List Nat) (k : Nat) :
    gcm_keystream E iv key k < 256 := aes_encrypt_lt _ _ _ _

theorem aes_gcm_next_cb_congr (s t : GctrState) (h1 : s.cb = t.cb)
    (h2 : s.counter = t.counter) :
    (aes_gcm_next_cb s).cb = (aes_gcm_next_cb t).cb ∧
      (aes_gcm_next_cb s).counter = (aes_gcm_next_cb t).counter := by
  simp only [aes_gcm_next_cb, h1, h2, and_self]

theorem aes_gcm_full_block_length (E : Cipher) (input key : List Nat) (s : GctrState) :
    (aes_gcm_full_block E input key s).output.length = s.output.length := by
  unfold aes_gcm_full_block
  simp only
  rw [for_loop_set_length (fun i => (aes_gcm_next_cb s).m + i),
    for_loop_set_length (fun i => (aes_gcm_next_cb s).m + i)]
  rfl

theorem aes_gcm_full_block_getD (E : Cipher) (input key : List Nat) (s : GctrState)
    (k : Nat) :
    (aes_gcm_full_block E input key s).output.getD k 0 =
      if s.m ≤ k ∧ k < s.m + 16 ∧ k < s.output.length
      then (input.getD k 0 ^^^ (aes_encrypt E (aes_gcm_next_cb s).cb key).getD (k - s.m) 0) % 256
      else s.output.getD k 0 := by
  unfold aes_gcm_full_block
  simp only
  have hm : (aes_gcm_next_cb s).m = s.m := rfl
  have ho : (aes_gcm_next_cb s).output = s.output := rfl
  rw [hm, ho]
  rw [for_loop_set_getD (fun i old => (old ^^^ input.getD (s.m + i) 0) % 256),
    for_loop_set_getD (fun i _ => (aes_encrypt E (aes_gcm_next_cb s).cb key).getD i 0),
    for_loop_set_length (fun i => s.m + i)]
  by_cases h : s.m ≤ k ∧ k < s.m + 16 ∧ k < s.output.length
  · rw [if_pos h, if_pos h, if_pos h]
    have : s.m + (k - s.m) = k := by omega
    rw [this, Nat.xor_comm]
  · rw [if_neg h, if_neg h, if_neg h]

/-- State of `aes_gcm_encrypt_or_decrypt` after `j` iterations of the loop over
the full blocks. -/
theorem aes_gcm_iterate (E : Cipher) (output iv input key : List Nat) (j : Nat) :
    ((aes_gcm_full_block E input key)^[j]
        { cb := for_loop (fun i cb => cb.set i (iv.getD i 0)) 12 (List.replicate 16 0),
          counter := 1, output := output, m := 0 }).cb = (gcm_cb iv j).cb ∧
    ((aes_gcm_full_block E input key)^[j]
        { cb := for_loop (fun i cb => cb.set i (iv.getD i 0)) 12 (List.replicate 16 0),
          counter := 1, output := output, m := 0 }).counter = (gcm_cb iv j).counter ∧
    ((aes_gcm_full_block E input key)^[j]
        { cb := for_loop (fun i cb => cb.set i (iv.getD i 0)) 12 (List.replicate 16 0),
          counter := 1, output := output, m := 0 }).m = 16 * j ∧
    ((aes_gcm_full_block E input key)^[j]
        { cb := for_loop (fun i cb => cb.set i (iv.getD i 0)) 12 (List.replicate 16 0),
          counter := 1, output := output, m := 0 }).output.length = output.length ∧
    ∀ k, ((aes_gcm_full_block E input key)^[j]
        { cb := for_loop (fun i cb => cb.set i (iv.getD i 0)) 12 (List.replicate 16 0),
          counter := 1, output := output, m := 0 }).output.getD k 0
      = if k < 16 * j ∧ k < output.length
        then (input.getD k 0 ^^^ gcm_keystream E iv key k) % 256 else output.getD k 0 := by
  induction j with
  | zero =>
    refine ⟨rfl, rfl, rfl, rfl, ?_⟩
    intro k
    rw [if_neg (by omega)]
    rfl
  | succ j ih =>
    obtain ⟨hcb, hc, hm, hl, hg⟩ := ih
    rw [Function.iterate_succ_apply']
    generalize ((aes_gcm_full_block E input key)^[j]
        { cb := for_loop (fun i cb => cb.set i (iv.getD i 0)) 12 (List.replicate 16 0),
          counter := 1, output := output, m := 0 }) = s at *
    have hn := aes_gcm_next_cb_congr s (gcm_cb iv j) hcb hc
    refine ⟨hn.1, hn.2, ?_, ?_, ?_⟩
    · show s.m + 16 = 16 * (j + 1)
      omega
    · rw [aes_gcm_full_block_length, hl]
    · intro k
      rw [aes_gcm_full_block_getD, hm, hl, hg, hn.1]
      by_cases h1 : 16 * j ≤ k ∧ k < 16 * j + 16 ∧ k < output.length
      · rw [if_pos h1, if_pos (by omega)]
        have e1 : k / 16 = j := by omega
        have e2 : k - 16 * j = k % 16 := by omega
        simp only [gcm_keystream, e1, e2, gcm_cb]
      · rw [if_neg h1]
        by_cases h2 : k < 16 * j ∧ k < output.length
        · rw [if_pos h2, if_pos (by omega)]
        · rw [if_neg h2, if_neg (by omega)]

/-- The output buffer of `aes_gcm_encrypt_or_decrypt`, byte by byte. -/
theorem aes_gcm_encrypt_or_decrypt_getD (E : Cipher) (output iv input : List Nat)
    (len : Nat) (key : List Nat) (k : Nat) :
    (aes_gcm_encrypt_or_decrypt E output iv input len key).getD k 0 =
      if k < len ∧ k < output.length
      then (input.getD k 0 ^^^ gcm_keystream E iv key k) % 256 else output.getD k 0 := by
  unfold aes_gcm_encrypt_or_decrypt
  simp only
  obtain ⟨hcb, hc, hm, hl, hg⟩ := aes_gcm_iterate E output iv input key ((len - 1) / 16)
  rw [while_loop_iterate _ _ ((len - 1) / 16) len _ (by omega)]
  · generalize ((aes_gcm_full_block E input key)^[(len - 1) / 16]
        { cb := for_loop (fun i cb => cb.set i (iv.getD i 0)) 12 (List.replicate 16 0),
          counter := 1, output := output, m := 0 }) = s at *
    have hn := aes_gcm_next_cb_congr s (gcm_cb iv ((len - 1) / 16)) hcb hc
    have hm2 : (aes_gcm_next_cb s).m = s.m := rfl
    have ho2 : (aes_gcm_next_cb s).output = s.output := rfl
    rw [hm2, ho2, hn.1,
      for_loop_set_getD (fun i _ => (input.getD (s.m + i) 0 ^^^
        (aes_encrypt E (aes_gcm_next_cb (gcm_cb iv ((len - 1) / 16))).cb key).getD i 0) % 256),
      hm, hl, hg]
    by_cases h1 : 16 * ((len - 1) / 16) ≤ k ∧
        k < 16 * ((len - 1) / 16) + (len - 16 * ((len - 1) / 16)) ∧ k < output.length
    · rw [if_pos h1, if_pos (by omega)]
      have e1 : k / 16 = (len - 1) / 16 := by omega
      have e2 : k - 16 * ((len - 1) / 16) = k % 16 := by omega
      have e3 : 16 * ((len - 1) / 16) + k % 16 = k := by omega
      simp only [gcm_keystream, e1, e2, e3, gcm_cb]
    · rw [if_neg h1]
      by_cases h2 : k < 16 * ((len - 1) / 16) ∧ k < output.length
      · rw [if_pos h2, if_pos (by omega)]
      · rw [if_neg h2, if_neg (by omega)]
  · intro j hj
    rw [(aes_gcm_iterate E output iv input key j).2.2.1]
    apply decide_eq_true
    omega
  · rw [(aes_gcm_iterate E output iv input key _).2.2.1]
    apply decide_eq_false
    omega

theorem aes_gcm_encrypt_or_decrypt_length (E : Cipher) (output iv input : List Nat)
    (len : Nat) (key : List Nat) :
    (aes_gcm_encrypt_or_decrypt E output iv input len key).length = output.length := by
  unfold aes_gcm_encrypt_or_decrypt
  simp only
  rw [for_loop_set_length, while_loop_iterate _ _ ((len - 1) / 16) len _ (by omega)]
  · exact (aes_gcm_iterate E output iv input key _).2.2.2.1
  · intro j hj
    rw [(aes_gcm_iterate E output iv input key j).2.2.1]
    apply decide_eq_true
    omega
  · rw [(aes_gcm_iterate E output iv input key _).2.2.1]
    apply decide_eq_false
    omega

theorem for_loop_clear16 (l : List Nat) (h : l.length = 16) :
    for_loop (fun i (t : List Nat) => t.set i 0) 16 l = List.replicate 16 0 := by
  apply ext_getD
  · rw [for_loop_set_length (fun i => i) (fun _ _ => 0), h, List.length_replicate]
  · intro k _
    rw [for_loop_set_getD_zero (fun _ _ => 0), getD_replicate_zero]
    split_ifs with h1
    · rfl
    · rw [getD_of_le]
      rw [for_loop_set_length (fun i => i) (fun _ _ => 0), h] at *
      omega

/-- The tag computed by `aes_gcm_tag` does not depend on the previous content
of the 16-byte buffer it is written to. -/
theorem aes_gcm_tag_buffer (E : Cipher) (tag0 iv aad : List Nat) (al : Nat)
    (text : List Nat) (tl : Nat) (key : List Nat) (h : tag0.length = 16) :
    aes_gcm_tag E tag0 iv aad al text tl key =
      aes_gcm_tag E (List.replicate 16 0) iv aad al text tl key := by
  unfold aes_gcm_tag
  simp only
  rw [for_loop_clear16 tag0 h, for_loop_clear16 (List.replicate 16 0) (List.length_replicate _ _)]

/-- Decrypting what `aes_gcm_encrypt_or_decrypt` wrote gives the plaintext. -/
theorem aes_gcm_encrypt_or_decrypt_twice (E : Cipher) (ct0 out0 iv plaintext key : List Nat)
    (hp : ∀ b ∈ plaintext, b < 256) (hct : ct0.length = plaintext.length)
    (hout : out0.length = plaintext.length) :
    aes_gcm_encrypt_or_decrypt E out0 iv
      (aes_gcm_encrypt_or_decrypt E ct0 iv plaintext plaintext.length key)
      plaintext.length key = plaintext := by
  apply ext_getD
  · rw [aes_gcm_encrypt_or_decrypt_length, hout]
  · intro k hk
    rw [aes_gcm_encrypt_or_decrypt_length, hout] at hk
    rw [aes_gcm_encrypt_or_decrypt_getD, if_pos ⟨hk, by omega⟩,
      aes_gcm_encrypt_or_decrypt_getD, if_pos ⟨hk, by omega⟩]
    exact xor_xor_byte _ _ (getD_lt_of_forall hp k) (gcm_keystream_lt E iv key k)

theorem aes_gcm_encrypt_fst (E : Cipher) (ct0 tag0 iv plaintext : List Nat) (pl : Nat)
    (aad : List Nat) (al : Nat) (key : List Nat) :
    (aes_gcm_encrypt E ct0 tag0 iv plaintext pl aad al key).1 =
      aes_gcm_encrypt_or_decrypt E ct0 iv plaintext pl key := by
  simp only [aes_gcm_encrypt]

theorem aes_gcm_encrypt_snd (E : Cipher) (ct0 tag0 iv plaintext : List Nat) (pl : Nat)
    (aad : List Nat) (al : Nat) (key : List Nat) :
    (aes_gcm_encrypt E ct0 tag0 iv plaintext pl aad al key).2 =
      aes_gcm_tag E tag0 iv aad al (aes_gcm_encrypt_or_decrypt E ct0 iv plaintext pl key) pl
        key := by
  simp only [aes_gcm_encrypt]

/-- The result of `aes_gcm_decrypt` when the tag comparison does not fail. -/
theorem aes_gcm_decrypt_of_ok (E : Cipher) (plaintext iv ciphertext : List Nat) (cl : Nat)
    (aad : List Nat) (al : Nat) (tag : List Nat) (tl : Nat) (key : List Nat)
    (h : (tag_check (aes_gcm_tag E (List.replicate 16 0) iv aad al ciphertext cl key)
      tag 0 tl 0 0).1 ≠ -1) :
    aes_gcm_decrypt E plaintext iv ciphertext cl aad al tag tl key =
      { ret := 0,
        output := aes_gcm_encrypt_or_decrypt E plaintext iv ciphertext cl key,
        compares := (tag_check (aes_gcm_tag E (List.replicate 16 0) iv aad al ciphertext cl
          key) tag 0 tl 0 0).2 } := by
  unfold aes_gcm_decrypt
  exact if_neg h

/-- The result of `aes_gcm_decrypt` when the tag comparison fails. -/
theorem aes_gcm_decrypt_of_fail (E : Cipher) (plaintext iv ciphertext : List Nat) (cl : Nat)
    (aad : List Nat) (al : Nat) (tag : List Nat) (tl : Nat) (key : List Nat)
    (h : (tag_check (aes_gcm_tag E (List.replicate 16 0) iv aad al ciphertext cl key)
      tag 0 tl 0 0).1 = -1) :
    aes_gcm_decrypt E plaintext iv ciphertext cl aad al tag tl key =
      { ret := -1, output := plaintext,
        compares := (tag_check (aes_gcm_tag E (List.replicate 16 0) iv aad al ciphertext cl
          key) tag 0 tl 0 0).2 } := by
  unfold aes_gcm_decrypt
  exact if_pos h

/-- C2. GCM round trip: for every block cipher `E`, key, 12-byte IV, additional
data, plaintext and tag length from 0 to 16, `aes_gcm_decrypt` applied to the
ciphertext and the tag written by `aes_gcm_encrypt` (same key, IV and
additional data) returns 0 and leaves exactly the original plaintext in its
output buffer. -/
theorem aes_gcm_round_trip (E : Cipher) (key iv aad plaintext ct0 tag0 out0 : List Nat)
    (tag_length : Nat) (hp : ∀ b ∈ plaintext, b < 256) (hiv : iv.length = 12)
    (ht : tag_length ≤ 16) (hct : ct0.length = plaintext.length)
    (htag : tag0.length = 16) (hout : out0.length = plaintext.length) :
    (aes_gcm_decrypt E out0 iv
        (aes_gcm_encrypt E ct0 tag0 iv plaintext plaintext.length aad aad.length key).1
        plaintext.length aad aad.length
        (aes_gcm_encrypt E ct0 tag0 iv plaintext plaintext.length aad aad.length key).2
        tag_length key).ret = 0 ∧
    (aes_gcm_decrypt E out0 iv
        (aes_gcm_encrypt E ct0 tag0 iv plaintext plaintext.length aad aad.length key).1
        plaintext.length aad aad.length
        (aes_gcm_encrypt E ct0 tag0 iv plaintext plaintext.length aad aad.length key).2
        tag_length key).output = plaintext := by
  have _ := hiv
  have _ := ht
  rw [aes_gcm_encrypt_fst, aes_gcm_encrypt_snd, aes_gcm_tag_buffer E tag0 _ _ _ _ _ _ htag]
  have h0 := (tag_check_zero_iff
    (aes_gcm_tag E (List.replicate 16 0) iv aad aad.length
      (aes_gcm_encrypt_or_decrypt E ct0 iv plaintext plaintext.length key)
      plaintext.length key)
    (aes_gcm_tag E (List.replicate 16 0) iv aad aad.length
      (aes_gcm_encrypt_or_decrypt E ct0 iv plaintext plaintext.length key)
      plaintext.length key) 0 tag_length 0 0).mpr (by
        intro j _
        rw [Nat.zero_add, Nat.zero_add])
  rw [aes_gcm_decrypt_of_ok _ _ _ _ _ _ _ _ _ _ (by rw [h0]; decide)]
  exact ⟨rfl, aes_gcm_encrypt_or_decrypt_twice E ct0 out0 iv plaintext key hp hct hout⟩

/-- C3. `aes_ccm_decrypt` returns 0 exactly when each of the `mac_length` bytes
of the encrypted MAC that `aes_ccm_mac` computes over the decrypted payload
equals the corresponding byte of the last `mac_length` bytes of the ciphertext;
in every other case it returns -1; it returns no other value. -/
theorem aes_ccm_decrypt_ret (E : Cipher) (payload : List Nat) (mac_length : Nat)
    (nonce : List Nat) (nonce_length : Nat) (ad : List Nat) (ad_length : Nat)
    (ciphertext : List Nat) (ciphertext_length : Nat) (key : List Nat) :
    ((aes_ccm_decrypt E payload mac_length nonce nonce_length ad ad_length ciphertext
        ciphertext_length key).ret = 0 ∧
      ∀ i, i < mac_length →
        (aes_ccm_mac E (List.replicate 16 0) mac_length nonce nonce_length ad ad_length
          (aes_ccm_decrypt E payload mac_length nonce nonce_length ad ad_length ciphertext
            ciphertext_length key).output
          (ciphertext_length - mac_length) key).getD i 0
        = ciphertext.getD (ciphertext_length - mac_length + i) 0) ∨
    ((aes_ccm_decrypt E payload mac_length nonce nonce_length ad ad_length ciphertext
        ciphertext_length key).ret = -1 ∧
      ¬ ∀ i, i < mac_length →
        (aes_ccm_mac E (List.replicate 16 0) mac_length nonce nonce_length ad ad_length
          (aes_ccm_decrypt E payload mac_length nonce nonce_length ad ad_length ciphertext
            ciphertext_length key).output
          (ciphertext_length - mac_length) key).getD i 0
        = ciphertext.getD (ciphertext_length - mac_length + i) 0) := by
  rw [aes_ccm_decrypt_eq]
  have hiff := tag_check_zero_iff
    (aes_ccm_mac E (List.replicate 16 0) mac_length nonce nonce_length ad ad_length
      (aes_ccm_ctr E payload nonce nonce_length ciphertext (ciphertext_length - mac_length) key)
      (ciphertext_length - mac_length) key)
    ciphertext (ciphertext_length - mac_length) mac_length 0 0
  simp only [Nat.zero_add] at hiff
  rcases tag_check_ret
    (aes_ccm_mac E (List.replicate 16 0) mac_length nonce nonce_length ad ad_length
      (aes_ccm_ctr E payload nonce nonce_length ciphertext (ciphertext_length - mac_length) key)
      (ciphertext_length - mac_length) key)
    ciphertext (ciphertext_length - mac_length) mac_length 0 0 with h | h
  · left
    exact ⟨h, hiff.mp h⟩
  · right
    refine ⟨h, fun hall => ?_⟩
    have h0 := hiff.mpr hall
    rw [h] at h0
    exact absurd h0 (by decide)

/-- C4. `aes_gcm_decrypt` returns 0 exactly when the first `tag_length` bytes
of the tag that `aes_gcm_tag` computes over the IV, the additional data, the
ciphertext and the key equal the first `tag_length` bytes of the supplied tag;
otherwise it returns -1; it returns no other value. -/
theorem aes_gcm_decrypt_ret (E : Cipher) (plaintext iv ciphertext : List Nat)
    (ciphertext_length : Nat) (aad : List Nat) (aad_length : Nat) (tag : List Nat)
    (tag_length : Nat) (key : List Nat) :
    ((aes_gcm_decrypt E plaintext iv ciphertext ciphertext_length aad aad_length tag
        tag_length key).ret = 0 ∧
      ∀ i, i < tag_length →
        (aes_gcm_tag E (List.replicate 16 0) iv aad aad_length ciphertext ciphertext_length
          key).getD i 0 = tag.getD i 0) ∨
    ((aes_gcm_decrypt E plaintext iv ciphertext ciphertext_length aad aad_length tag
        tag_length key).ret = -1 ∧
      ¬ ∀ i, i < tag_length →
        (aes_gcm_tag E (List.replicate 16 0) iv aad aad_length ciphertext ciphertext_length
          key).getD i 0 = tag.getD i 0) := by
  have hiff := tag_check_zero_iff
    (aes_gcm_tag E (List.replicate 16 0) iv aad aad_length ciphertext ciphertext_length key)
    tag 0 tag_length 0 0
  simp only [Nat.zero_add] at hiff
  rcases tag_check_ret
    (aes_gcm_tag E (List.replicate 16 0) iv aad aad_length ciphertext ciphertext_length key)
    tag 0 tag_length 0 0 with h | h
  · left
    rw [aes_gcm_decrypt_of_ok _ _ _ _ _ _ _ _ _ _ (by rw [h]; decide)]
    exact ⟨rfl, hiff.mp h⟩
  · right
    rw [aes_gcm_decrypt_of_fail _ _ _ _ _ _ _ _ _ _ h]
    refine ⟨rfl, fun hall => ?_⟩
    have h0 := hiff.mpr hall
    rw [h] at h0
    exact absurd h0 (by decide)

/-- C5. Tag tampering is always rejected.  CCM: if the MAC that
`aes_ccm_encrypt` appended is replaced by `mac_length` bytes that differ from
it at some position, the payload part of the ciphertext and all other inputs
being kept, `aes_ccm_decrypt` returns -1.  GCM: if the tag written by
`aes_gcm_encrypt` is replaced by one that differs from it at some position
among the first `tag_length` (from 1 to 16), `aes_gcm_decrypt` returns -1. -/
theorem tag_tampering_rejected :
    (∀ (E : Cipher) (key nonce ad payload ct0 out0 tampered : List Nat) (mac_length : Nat),
      (∀ b ∈ payload, b < 256) → (7 ≤ nonce.length ∧ nonce.length ≤ 13) →
      mac_length ∈ [4, 6, 8, 10, 12, 14, 16] →
      ct0.length = payload.length + mac_length → out0.length = payload.length →
      tampered.length = mac_length →
      (∃ i, i < mac_length ∧ tampered.getD i 0 ≠
        ((aes_ccm_encrypt E ct0 mac_length nonce nonce.length ad ad.length payload
          payload.length key).drop payload.length).getD i 0) →
      (aes_ccm_decrypt E out0 mac_length nonce nonce.length ad ad.length
        ((aes_ccm_encrypt E ct0 mac_length nonce nonce.length ad ad.length payload
          payload.length key).take payload.length ++ tampered)
        (payload.length + mac_length) key).ret = -1) ∧
    (∀ (E : Cipher) (key iv aad plaintext ct0 tag0 out0 tampered : List Nat)
      (tag_length : Nat),
      iv.length = 12 → 1 ≤ tag_length → tag_length ≤ 16 →
      ct0.length = plaintext.length → tag0.length = 16 → out0.length = plaintext.length →
      (∃ i, i < tag_length ∧ tampered.getD i 0 ≠
        (aes_gcm_encrypt E ct0 tag0 iv plaintext plaintext.length aad aad.length
          key).2.getD i 0) →
      (aes_gcm_decrypt E out0 iv
        (aes_gcm_encrypt E ct0 tag0 iv plaintext plaintext.length aad aad.length key).1
        plaintext.length aad aad.length tampered tag_length key).ret = -1) := by
  constructor
  · intro E key nonce ad payload ct0 out0 tampered mac_length hp _ hm hct hout _ hdiff
    obtain ⟨i, hi, hne⟩ := hdiff
    have hm16 : mac_length ≤ 16 := by
      simp only [List.mem_cons, List.mem_singleton, List.not_mem_nil, or_false] at hm
      omega
    have htl : ((aes_ccm_encrypt E ct0 mac_length nonce nonce.length ad ad.length payload
        payload.length key).take payload.length).length = payload.length := by
      rw [List.length_take, aes_ccm_encrypt_length _ _ _ _ _ _ _ _ _ _ (by omega)]
      omega
    have hdec : aes_ccm_ctr E out0 nonce nonce.length
        ((aes_ccm_encrypt E ct0 mac_length nonce nonce.length ad ad.length payload
          payload.length key).take payload.length ++ tampered) payload.length key
        = payload := by
      apply aes_ccm_ctr_decrypts E out0 _ nonce nonce.length payload key hp hout
      intro k hk
      rw [List.getD_append _ _ _ _ (by rw [htl]; exact hk), getD_take, if_pos hk,
        aes_ccm_encrypt_getD_payload E ct0 mac_length nonce nonce.length ad ad.length payload
          payload.length key (by omega) k hk]
    rw [aes_ccm_decrypt_eq]
    simp only [Nat.add_sub_cancel]
    rw [hdec]
    rcases tag_check_ret
      (aes_ccm_mac E (List.replicate 16 0) mac_length nonce nonce.length ad ad.length payload
        payload.length key)
      ((aes_ccm_encrypt E ct0 mac_length nonce nonce.length ad ad.length payload
        payload.length key).take payload.length ++ tampered)
      payload.length mac_length 0 0 with h | h
    · exfalso
      have hall := (tag_check_zero_iff _ _ _ _ _ _).mp h i hi
      rw [Nat.zero_add, aes_ccm_mac_getD,
        if_pos ⟨hi, by rw [List.length_replicate]; omega⟩,
        List.getD_append_right _ _ _ _ (by rw [htl]; omega), htl,
        Nat.add_sub_cancel_left] at hall
      apply hne
      rw [getD_drop, aes_ccm_encrypt_getD_mac E ct0 mac_length nonce nonce.length ad
        ad.length payload payload.length key (by omega) i hi]
      exact hall.symm
    · exact h
  · intro E key iv aad plaintext ct0 tag0 out0 tampered tag_length _ _ _ _ htag _ hdiff
    obtain ⟨i, hi, hne⟩ := hdiff
    rw [aes_gcm_encrypt_fst]
    rw [aes_gcm_encrypt_snd, aes_gcm_tag_buffer E tag0 _ _ _ _ _ _ htag] at hne
    rcases tag_check_ret
      (aes_gcm_tag E (List.replicate 16 0) iv aad aad.length
        (aes_gcm_encrypt_or_decrypt E ct0 iv plaintext plaintext.length key)
        plaintext.length key) tampered 0 tag_length 0 0 with h | h
    · exfalso
      have hall := (tag_check_zero_iff _ _ _ _ _ _).mp h i hi
      rw [Nat.zero_add, Nat.zero_add] at hall
      exact hne hall.symm
    · rw [aes_gcm_decrypt_of_fail _ _ _ _ _ _ _ _ _ _ h]

/-- C5, a concrete instance: a CCM MAC and a GCM tag with a changed first byte
are rejected. -/
theorem tag_tampering_rejected_witness :
    (aes_ccm_decrypt id_cipher [20, 21] 4 [1, 2, 3, 4, 5, 6, 7] 7 [9] 1
      ((aes_ccm_encrypt id_cipher [0, 0, 0, 0, 0, 0] 4 [1, 2, 3, 4, 5, 6, 7] 7 [9] 1
        [65, 66] 2 []).take 2 ++ [255, 0, 0, 0]) (2 + 4) []).ret = -1 ∧
    (aes_gcm_decrypt id_cipher [20, 21] [1, 2, 3, 4, 5, 6, 7, 8, 9, 10, 11, 12]
      (aes_gcm_encrypt id_cipher [0, 0] [0, 0, 0, 0, 0, 0, 0, 0, 0, 0, 0, 0, 0, 0, 0, 0]
        [1, 2, 3, 4, 5, 6, 7, 8, 9, 10, 11, 12] [65, 66] 2 [9] 1 []).1 2 [9] 1
      [255, 0, 0, 0, 0, 0, 0, 0, 0, 0, 0, 0, 0, 0, 0, 0] 1 []).ret = -1 :=
  ⟨tag_tampering_rejected.1 id_cipher [] [1, 2, 3, 4, 5, 6, 7] [9] [65, 66]
      [0, 0, 0, 0, 0, 0] [20, 21] [255, 0, 0, 0] 4 (by decide) (by decide) (by decide)
      rfl rfl rfl ⟨0, by decide, by decide⟩,
   tag_tampering_rejected.2 id_cipher [] [1, 2, 3, 4, 5, 6, 7, 8, 9, 10, 11, 12] [9]
      [65, 66] [0, 0] [0, 0, 0, 0, 0, 0, 0, 0, 0, 0, 0, 0, 0, 0, 0, 0] [20, 21]
      [255, 0, 0, 0, 0, 0, 0, 0, 0, 0, 0, 0, 0, 0, 0, 0] 1 rfl (by decide) (by decide)
      rfl rfl rfl ⟨0, by decide, by decide⟩⟩

/-- C6, refuted as stated: with the same inputs and the same tag length, a
received tag equal to the computed one costs `tag_length` byte comparisons
and one with a wrong first byte costs a single comparison, in
`aes_ccm_decrypt` (4 against 1) and in `aes_gcm_decrypt` (16 against 1).
With the identity as block cipher, a 7-byte nonce 01..07, no associated data
and an empty payload, B0 = 0F 01 02 03 04 05 06 07 00.., T = 0F 01 02 03,
S0 = 07 01 02 03.., so the computed CCM MAC is 08 00 00 00; with a zero IV, no
additional data and an empty text, H = 0, GHASH = 0 and the computed GCM tag
is J0 = 00 .. 00 01. -/
theorem tag_compare_not_constant_time :
    (aes_ccm_decrypt id_cipher [] 4 [1, 2, 3, 4, 5, 6, 7] 7 [] 0 [8, 0, 0, 0] 4 []).compares
      = 4 ∧
    (aes_ccm_decrypt id_cipher [] 4 [1, 2, 3, 4, 5, 6, 7] 7 [] 0 [9, 0, 0, 0] 4 []).compares
      = 1 ∧
    (aes_gcm_decrypt id_cipher [] [0, 0, 0, 0, 0, 0, 0, 0, 0, 0, 0, 0] [] 0 [] 0
      [0, 0, 0, 0, 0, 0, 0, 0, 0, 0, 0, 0, 0, 0, 0, 1] 16 []).compares = 16 ∧
    (aes_gcm_decrypt id_cipher [] [0, 0, 0, 0, 0, 0, 0, 0, 0, 0, 0, 0] [] 0 [] 0
      [1, 0, 0, 0, 0, 0, 0, 0, 0, 0, 0, 0, 0, 0, 0, 1] 16 []).compares = 1 := by
  decide

/-- The comparison loop from index 0: with all `n` pairs equal it makes `n`
comparisons and yields 0; with the first unequal pair at position `m` it makes
`m + 1` comparisons and yields -1; and it makes `n` comparisons exactly when
the first `n - 1` pairs are equal. -/
theorem tag_check_count_cases (a b : List Nat) (off n : Nat) :
    ((∀ j, j < n → a.getD j 0 = b.getD (off + j) 0) →
      (tag_check a b off n 0 0).2 = n ∧ (tag_check a b off n 0 0).1 = 0) ∧
    (∀ m, m < n → (∀ j, j < m → a.getD j 0 = b.getD (off + j) 0) →
      a.getD m 0 ≠ b.getD (off + m) 0 →
      (tag_check a b off n 0 0).2 = m + 1 ∧ (tag_check a b off n 0 0).1 = -1) ∧
    ((tag_check a b off n 0 0).2 = n ↔
      ∀ j, j + 1 < n → a.getD j 0 = b.getD (off + j) 0) := by
  have hall : (∀ j, j < n → a.getD j 0 = b.getD (off + j) 0) →
      (tag_check a b off n 0 0).2 = n ∧ (tag_check a b off n 0 0).1 = 0 := by
    intro h
    have h' : ∀ j, j < n → a.getD (0 + j) 0 = b.getD (off + (0 + j)) 0 := by
      intro j hj
      rw [Nat.zero_add]
      exact h j hj
    refine ⟨?_, (tag_check_zero_iff a b off n 0 0).mpr h'⟩
    rw [tag_check_count_all a b off n 0 0 h', Nat.zero_add]
  have hfirst : ∀ m, m < n → (∀ j, j < m → a.getD j 0 = b.getD (off + j) 0) →
      a.getD m 0 ≠ b.getD (off + m) 0 →
      (tag_check a b off n 0 0).2 = m + 1 ∧ (tag_check a b off n 0 0).1 = -1 := by
    intro m hm heq hne
    refine ⟨?_, ?_⟩
    · rw [tag_check_count_first a b off n 0 0 m hm
        (by intro j hj; rw [Nat.zero_add]; exact heq j hj)
        (by rw [Nat.zero_add]; exact hne), Nat.zero_add]
    · rcases tag_check_ret a b off n 0 0 with h | h
      · have h2 := (tag_check_zero_iff a b off n 0 0).mp h m hm
        rw [Nat.zero_add] at h2
        exact absurd h2 hne
      · exact h
  refine ⟨hall, hfirst, ?_⟩
  by_cases hex : ∃ m, m < n ∧ a.getD m 0 ≠ b.getD (off + m) 0
  · have hm := Nat.find_spec hex
    have hmin : ∀ j, j < Nat.find hex → a.getD j 0 = b.getD (off + j) 0 := by
      intro j hj
      by_contra hcon
      exact Nat.find_min hex hj ⟨Nat.lt_trans hj hm.1, hcon⟩
    rw [(hfirst (Nat.find hex) hm.1 hmin hm.2).1]
    constructor
    · intro h j hj
      exact hmin j (by omega)
    · intro h
      by_contra hcon
      exact hm.2 (h (Nat.find hex) (by omega))
  · have hq : ∀ j, j < n → a.getD j 0 = b.getD (off + j) 0 := by
      intro j hj
      by_contra hcon
      exact hex ⟨j, hj, hcon⟩
    constructor
    · intro _ j hj
      exact hq j (by omega)
    · intro _
      exact (hall hq).1

/-- The result code and the comparison count of `aes_gcm_decrypt` are those of
its comparison loop. -/
theorem aes_gcm_decrypt_tag_check (E : Cipher) (plaintext iv ciphertext : List Nat)
    (ciphertext_length : Nat) (aad : List Nat) (aad_length : Nat) (tag : List Nat)
    (tag_length : Nat) (key : List Nat) :
    (aes_gcm_decrypt E plaintext iv ciphertext ciphertext_length aad aad_length tag
      tag_length key).compares =
      (tag_check (aes_gcm_tag E (List.replicate 16 0) iv aad aad_length ciphertext
        ciphertext_length key) tag 0 tag_length 0 0).2 ∧
    (aes_gcm_decrypt E plaintext iv ciphertext ciphertext_length aad aad_length tag
      tag_length key).ret =
      (tag_check (aes_gcm_tag E (List.replicate 16 0) iv aad aad_length ciphertext
        ciphertext_length key) tag 0 tag_length 0 0).1 := by
  rcases tag_check_ret
    (aes_gcm_tag E (List.replicate 16 0) iv aad aad_length ciphertext ciphertext_length
      key) tag 0 tag_length 0 0 with h | h
  · rw [aes_gcm_decrypt_of_ok _ _ _ _ _ _ _ _ _ _ (by rw [h]; decide)]
    exact ⟨rfl, h.symm⟩
  · rw [aes_gcm_decrypt_of_fail _ _ _ _ _ _ _ _ _ _ h]
    exact ⟨rfl, h.symm⟩

/-- C6, amended: the tag comparison of `aes_ccm_decrypt` and of
`aes_gcm_decrypt` returns at the first unequal byte pair.  For every input:
when all tag-length pairs are equal, tag-length comparisons are executed and
the result is 0; when the first unequal pair is pair `m` (counted from 0),
`m + 1` comparisons are executed and the result is -1; and all tag-length
pairs are examined if and only if the first tag-length minus one pairs are
equal, that is, when the tags agree or first differ in their last byte. -/
theorem tag_compare_count :
    (∀ (E : Cipher) (payload : List Nat) (mac_length : Nat) (nonce : List Nat)
      (nonce_length : Nat) (ad : List Nat) (ad_length : Nat) (ciphertext : List Nat)
      (ciphertext_length : Nat) (key : List Nat),
      ((∀ j, j < mac_length →
          (aes_ccm_mac E (List.replicate 16 0) mac_length nonce nonce_length ad ad_length
            (aes_ccm_decrypt E payload mac_length nonce nonce_length ad ad_length ciphertext
              ciphertext_length key).output (ciphertext_length - mac_length) key).getD j 0
          = ciphertext.getD (ciphertext_length - mac_length + j) 0) →
        (aes_ccm_decrypt E payload mac_length nonce nonce_length ad ad_length ciphertext
          ciphertext_length key).compares = mac_length ∧
        (aes_ccm_decrypt E payload mac_length nonce nonce_length ad ad_length ciphertext
          ciphertext_length key).ret = 0) ∧
      (∀ m, m < mac_length →
        (∀ j, j < m →
          (aes_ccm_mac E (List.replicate 16 0) mac_length nonce nonce_length ad ad_length
            (aes_ccm_decrypt E payload mac_length nonce nonce_length ad ad_length ciphertext
              ciphertext_length key).output (ciphertext_length - mac_length) key).getD j 0
          = ciphertext.getD (ciphertext_length - mac_length + j) 0) →
        (aes_ccm_mac E (List.replicate 16 0) mac_length nonce nonce_length ad ad_length
          (aes_ccm_decrypt E payload mac_length nonce nonce_length ad ad_length ciphertext
            ciphertext_length key).output (ciphertext_length - mac_length) key).getD m 0
        ≠ ciphertext.getD (ciphertext_length - mac_length + m) 0 →
        (aes_ccm_decrypt E payload mac_length nonce nonce_length ad ad_length ciphertext
          ciphertext_length key).compares = m + 1 ∧
        (aes_ccm_decrypt E payload mac_length nonce nonce_length ad ad_length ciphertext
          ciphertext_length key).ret = -1) ∧
      ((aes_ccm_decrypt E payload mac_length nonce nonce_length ad ad_length ciphertext
          ciphertext_length key).compares = mac_length ↔
        ∀ j, j + 1 < mac_length →
          (aes_ccm_mac E (List.replicate 16 0) mac_length nonce nonce_length ad ad_length
            (aes_ccm_decrypt E payload mac_length nonce nonce_length ad ad_length ciphertext
              ciphertext_length key).output (ciphertext_length - mac_length) key).getD j 0
          = ciphertext.getD (ciphertext_length - mac_length + j) 0)) ∧
    (∀ (E : Cipher) (plaintext iv ciphertext : List Nat) (ciphertext_length : Nat)
      (aad : List Nat) (aad_length : Nat) (tag : List Nat) (tag_length : Nat)
      (key : List Nat),
      ((∀ j, j < tag_length →
          (aes_gcm_tag E (List.replicate 16 0) iv aad aad_length ciphertext ciphertext_length
            key).getD j 0 = tag.getD j 0) →
        (aes_gcm_decrypt E plaintext iv ciphertext ciphertext_length aad aad_length tag
          tag_length key).compares = tag_length ∧
        (aes_gcm_decrypt E plaintext iv ciphertext ciphertext_length aad aad_length tag
          tag_length key).ret = 0) ∧
      (∀ m, m < tag_length →
        (∀ j, j < m →
          (aes_gcm_tag E (List.replicate 16 0) iv aad aad_length ciphertext ciphertext_length
            key).getD j 0 = tag.getD j 0) →
        (aes_gcm_tag E (List.replicate 16 0) iv aad aad_length ciphertext ciphertext_length
          key).getD m 0 ≠ tag.getD m 0 →
        (aes_gcm_decrypt E plaintext iv ciphertext ciphertext_length aad aad_length tag
          tag_length key).compares = m + 1 ∧
        (aes_gcm_decrypt E plaintext iv ciphertext ciphertext_length aad aad_length tag
          tag_length key).ret = -1) ∧
      ((aes_gcm_decrypt E plaintext iv ciphertext ciphertext_length aad aad_length tag
          tag_length key).compares = tag_length ↔
        ∀ j, j + 1 < tag_length →
          (aes_gcm_tag E (List.replicate 16 0) iv aad aad_length ciphertext ciphertext_length
            key).getD j 0 = tag.getD j 0)) := by
  constructor
  · intro E payload mac_length nonce nonce_length ad ad_length ciphertext ciphertext_length
      key
    rw [aes_ccm_decrypt_eq]
    simp only
    exact tag_check_count_cases _ _ _ _
  · intro E plaintext iv ciphertext ciphertext_length aad aad_length tag tag_length key
    have hd := aes_gcm_decrypt_tag_check E plaintext iv ciphertext ciphertext_length aad
      aad_length tag tag_length key
    have hc := tag_check_count_cases
      (aes_gcm_tag E (List.replicate 16 0) iv aad aad_length ciphertext ciphertext_length
        key) tag 0 tag_length
    simp only [Nat.zero_add] at hc
    rw [hd.1, hd.2]
    exact hc

/-- C6 as amended, concrete instances.  A CCM MAC whose last byte only is
wrong costs all 4 comparisons and is rejected; a GCM tag whose last byte only
is wrong costs all 16 comparisons and is rejected; a CCM MAC with a wrong
first byte costs one comparison; a correct GCM tag costs 16 comparisons and is
accepted. -/
theorem tag_compare_count_witness :
    ((aes_ccm_decrypt id_cipher [] 4 [1, 2, 3, 4, 5, 6, 7] 7 [] 0 [8, 0, 0, 1] 4 []).compares
        = 3 + 1 ∧
      (aes_ccm_decrypt id_cipher [] 4 [1, 2, 3, 4, 5, 6, 7] 7 [] 0 [8, 0, 0, 1] 4 []).ret
        = -1) ∧
    ((aes_gcm_decrypt id_cipher [] [0, 0, 0, 0, 0, 0, 0, 0, 0, 0, 0, 0] [] 0 [] 0
        [0, 0, 0, 0, 0, 0, 0, 0, 0, 0, 0, 0, 0, 0, 0, 0] 16 []).compares = 15 + 1 ∧
      (aes_gcm_decrypt id_cipher [] [0, 0, 0, 0, 0, 0, 0, 0, 0, 0, 0, 0] [] 0 [] 0
        [0, 0, 0, 0, 0, 0, 0, 0, 0, 0, 0, 0, 0, 0, 0, 0] 16 []).ret = -1) ∧
    ((aes_ccm_decrypt id_cipher [] 4 [1, 2, 3, 4, 5, 6, 7] 7 [] 0 [9, 0, 0, 0] 4 []).compares
        = 0 + 1 ∧
      (aes_ccm_decrypt id_cipher [] 4 [1, 2, 3, 4, 5, 6, 7] 7 [] 0 [9, 0, 0, 0] 4 []).ret
        = -1) ∧
    ((aes_gcm_decrypt id_cipher [] [0, 0, 0, 0, 0, 0, 0, 0, 0, 0, 0, 0] [] 0 [] 0
        [0, 0, 0, 0, 0, 0, 0, 0, 0, 0, 0, 0, 0, 0, 0, 1] 16 []).compares = 16 ∧
      (aes_gcm_decrypt id_cipher [] [0, 0, 0, 0, 0, 0, 0, 0, 0, 0, 0, 0] [] 0 [] 0
        [0, 0, 0, 0, 0, 0, 0, 0, 0, 0, 0, 0, 0, 0, 0, 1] 16 []).ret = 0) :=
  ⟨(tag_compare_count.1 id_cipher [] 4 [1, 2, 3, 4, 5, 6, 7] 7 [] 0 [8, 0, 0, 1] 4 []).2.1 3
      (by decide) (by decide) (by decide),
   (tag_compare_count.2 id_cipher [] [0, 0, 0, 0, 0, 0, 0, 0, 0, 0, 0, 0] [] 0 [] 0
      [0, 0, 0, 0, 0, 0, 0, 0, 0, 0, 0, 0, 0, 0, 0, 0] 16 []).2.1 15
      (by decide) (by decide) (by decide),
   (tag_compare_count.1 id_cipher [] 4 [1, 2, 3, 4, 5, 6, 7] 7 [] 0 [9, 0, 0, 0] 4 []).2.1 0
      (by decide) (fun j hj => absurd hj (Nat.not_lt_zero j)) (by decide),
   (tag_compare_count.2 id_cipher [] [0, 0, 0, 0, 0, 0, 0, 0, 0, 0, 0, 0] [] 0 [] 0
      [0, 0, 0, 0, 0, 0, 0, 0, 0, 0, 0, 0, 0, 0, 0, 1] 16 []).1 (by decide)⟩

/-- C1, a concrete instance: a payload of two bytes with a 7-byte nonce, one
byte of associated data and a 4-byte MAC is recovered. -/
theorem aes_ccm_round_trip_witness :
    (aes_ccm_encrypt id_cipher [0, 0, 0, 0, 0, 0] 4 [1, 2, 3, 4, 5, 6, 7]
        [1, 2, 3, 4, 5, 6, 7].length [9] [9].length [65, 66] [65, 66].length
        [0, 1, 2, 3, 4, 5, 6, 7, 8, 9, 10, 11, 12, 13, 14, 15]).length
      = [65, 66].length + 4 ∧
    (aes_ccm_decrypt id_cipher [20, 21] 4 [1, 2, 3, 4, 5, 6, 7]
        [1, 2, 3, 4, 5, 6, 7].length [9] [9].length
        (aes_ccm_encrypt id_cipher [0, 0, 0, 0, 0, 0] 4 [1, 2, 3, 4, 5, 6, 7]
          [1, 2, 3, 4, 5, 6, 7].length [9] [9].length [65, 66] [65, 66].length
          [0, 1, 2, 3, 4, 5, 6, 7, 8, 9, 10, 11, 12, 13, 14, 15])
        ([65, 66].length + 4) [0, 1, 2, 3, 4, 5, 6, 7, 8, 9, 10, 11, 12, 13, 14, 15]).ret = 0 ∧
    (aes_ccm_decrypt id_cipher [20, 21] 4 [1, 2, 3, 4, 5, 6, 7]
        [1, 2, 3, 4, 5, 6, 7].length [9] [9].length
        (aes_ccm_encrypt id_cipher [0, 0, 0, 0, 0, 0] 4 [1, 2, 3, 4, 5, 6, 7]
          [1, 2, 3, 4, 5, 6, 7].length [9] [9].length [65, 66] [65, 66].length
          [0, 1, 2, 3, 4, 5, 6, 7, 8, 9, 10, 11, 12, 13, 14, 15])
        ([65, 66].length + 4) [0, 1, 2, 3, 4, 5, 6, 7, 8, 9, 10, 11, 12, 13, 14, 15]).output
      = [65, 66] :=
  aes_ccm_round_trip id_cipher [0, 1, 2, 3, 4, 5, 6, 7, 8, 9, 10, 11, 12, 13, 14, 15]
    [1, 2, 3, 4, 5, 6, 7] [9] [65, 66] [0, 0, 0, 0, 0, 0] [20, 21] 4
    (by decide) (by decide) (by decide) rfl rfl

/-- C2, a concrete instance: a plaintext of two bytes with a 12-byte IV, one
byte of additional data and a tag length of 16 is recovered. -/
theorem aes_gcm_round_trip_witness :
    (aes_gcm_decrypt id_cipher [20, 21] [1, 2, 3, 4, 5, 6, 7, 8, 9, 10, 11, 12]
        (aes_gcm_encrypt id_cipher [0, 0] [0, 0, 0, 0, 0, 0, 0, 0, 0, 0, 0, 0, 0, 0, 0, 0]
          [1, 2, 3, 4, 5, 6, 7, 8, 9, 10, 11, 12] [65, 66] [65, 66].length [9] [9].length
          [0, 1, 2, 3, 4, 5, 6, 7, 8, 9, 10, 11, 12, 13, 14, 15]).1
        [65, 66].length [9] [9].length
        (aes_gcm_encrypt id_cipher [0, 0] [0, 0, 0, 0, 0, 0, 0, 0, 0, 0, 0, 0, 0, 0, 0, 0]
          [1, 2, 3, 4, 5, 6, 7, 8, 9, 10, 11, 12] [65, 66] [65, 66].length [9] [9].length
          [0, 1, 2, 3, 4, 5, 6, 7, 8, 9, 10, 11, 12, 13, 14, 15]).2
        16 [0, 1, 2, 3, 4, 5, 6, 7, 8, 9, 10, 11, 12, 13, 14, 15]).ret = 0 ∧
    (aes_gcm_decrypt id_cipher [20, 21] [1, 2, 3, 4, 5, 6, 7, 8, 9, 10, 11, 12]
        (aes_gcm_encrypt id_cipher [0, 0] [0, 0, 0, 0, 0, 0, 0, 0, 0, 0, 0, 0, 0, 0, 0, 0]
          [1, 2, 3, 4, 5, 6, 7, 8, 9, 10, 11, 12] [65, 66] [65, 66].length [9] [9].length
          [0, 1, 2, 3, 4, 5, 6, 7, 8, 9, 10, 11, 12, 13, 14, 15]).1
        [65, 66].length [9] [9].length
        (aes_gcm_encrypt id_cipher [0, 0] [0, 0, 0, 0, 0, 0, 0, 0, 0, 0, 0, 0, 0, 0, 0, 0]
          [1, 2, 3, 4, 5, 6, 7, 8, 9, 10, 11, 12] [65, 66] [65, 66].length [9] [9].length
          [0, 1, 2, 3, 4, 5, 6, 7, 8, 9, 10, 11, 12, 13, 14, 15]).2
        16 [0, 1, 2, 3, 4, 5, 6, 7, 8, 9, 10, 11, 12, 13, 14, 15]).output = [65, 66] :=
  aes_gcm_round_trip id_cipher [0, 1, 2, 3, 4, 5, 6, 7, 8, 9, 10, 11, 12, 13, 14, 15]
    [1, 2, 3, 4, 5, 6, 7, 8, 9, 10, 11, 12] [9] [65, 66] [0, 0]
    [0, 0, 0, 0, 0, 0, 0, 0, 0, 0, 0, 0, 0, 0, 0, 0] [20, 21] 16
    (by decide) rfl (by decide) rfl rfl rfl

/-! ## Lemmas on base64.h -/

theorem base64_alphabet_eq : base64_alphabet = base64_ref_alphabet := by decide

/-- Four consecutive stores. -/
theorem getD_set4 (l : List Nat) (n v0 v1 v2 v3 k : Nat) :
    ((((l.set n v0).set (n + 1) v1).set (n + 2) v2).set (n + 3) v3).getD k 0 =
      if n ≤ k ∧ k < n + 4 ∧ k < l.length then
        (if k = n then v0 else if k = n + 1 then v1 else if k = n + 2 then v2 else v3)
      else l.getD k 0 := by
  simp only [getD_set, List.length_set]
  by_cases hk : k < l.length
  · by_cases h3 : n + 3 = k
    · rw [if_pos ⟨h3, hk⟩, if_pos ⟨by omega, by omega, hk⟩, if_neg (by omega),
        if_neg (by omega), if_neg (by omega)]
    · rw [if_neg (by omega)]
      by_cases h2 : n + 2 = k
      · rw [if_pos ⟨h2, hk⟩, if_pos ⟨by omega, by omega, hk⟩, if_neg (by omega),
          if_neg (by omega), if_pos (by omega)]
      · rw [if_neg (by omega)]
        by_cases h1 : n + 1 = k
        · rw [if_pos ⟨h1, hk⟩, if_pos ⟨by omega, by omega, hk⟩, if_neg (by omega),
            if_pos (by omega)]
        · rw [if_neg (by omega)]
          by_cases h0 : n = k
          · rw [if_pos ⟨h0, hk⟩, if_pos ⟨by omega, by omega, hk⟩, if_pos (by omega)]
          · rw [if_neg (by omega), if_neg (by omega)]
  · iterate 5 rw [if_neg (by omega)]

/-- The four output bytes of group `g`, as `base64_char` gives them. -/
theorem base64_char_group (input : List Nat) (length g k : Nat) (h1 : 4 * g ≤ k)
    (h2 : k < 4 * g + 4) :
    base64_char input length k =
      if k = 4 * g then
        base64_alphabet.getD ((input_byte input length (3 * g) >>> 2) &&& 63) 0
      else if k = 4 * g + 1 then
        base64_alphabet.getD
          (((input_byte input length (3 * g) <<< 4) |||
            (input_byte input length (3 * g + 1) >>> 4)) &&& 63) 0
      else if k = 4 * g + 2 then
        (if 3 * g + 1 < length then
          base64_alphabet.getD
            (((input_byte input length (3 * g + 1) <<< 2) |||
              (input_byte input length (3 * g + 2) >>> 6)) &&& 63) 0
        else 61)
      else
        (if 3 * g + 2 < length then
          base64_alphabet.getD (input_byte input length (3 * g + 2) &&& 63) 0
        else 61) := by
  have e : k / 4 * 3 = 3 * g := by omega
  unfold base64_char
  simp only [e]
  by_cases c0 : k = 4 * g
  · rw [if_pos (by omega), if_pos c0]
  · rw [if_neg (by omega), if_neg c0]
    by_cases c1 : k = 4 * g + 1
    · rw [if_pos (by omega), if_pos c1]
    · rw [if_neg (by omega), if_neg c1]
      by_cases c2 : k = 4 * g + 2
      · rw [if_pos (by omega), if_pos c2]
      · rw [if_neg (by omega), if_neg c2]

theorem input_byte_lt (input : List Nat) (length i : Nat) (h : i < length) :
    input_byte input length i = input.getD i 0 := if_pos h

theorem input_byte_ge (input : List Nat) (length i : Nat) (h : length ≤ i) :
    input_byte input length i = 0 := if_neg (by omega)

theorem base64_group_length (input : List Nat) (s : Base64State) :
    (base64_group input s).output.length = s.output.length := by
  simp only [base64_group, List.length_set]

/-- State of `base64_encode` after `j` iterations of its loop, all of them on
complete 3-byte groups. -/
theorem base64_iterate (output input : List Nat) (length j : Nat) (hj : 3 * j ≤ length) :
    ((base64_group input)^[j] { i := 0, n := 0, output := output }).i = 3 * j ∧
    ((base64_group input)^[j] { i := 0, n := 0, output := output }).n = 4 * j ∧
    ((base64_group input)^[j] { i := 0, n := 0, output := output }).output.length
      = output.length ∧
    ∀ k, ((base64_group input)^[j] { i := 0, n := 0, output := output }).output.getD k 0 =
      if k < 4 * j ∧ k < output.length then base64_char input length k else output.getD k 0 := by
  induction j with
  | zero =>
    refine ⟨rfl, rfl, rfl, ?_⟩
    intro k
    rw [if_neg (by omega)]
    rfl
  | succ j ih =>
    obtain ⟨hi, hn, hl, hg⟩ := ih (by omega)
    rw [Function.iterate_succ_apply']
    generalize ((base64_group input)^[j] { i := 0, n := 0, output := output }) = s at *
    refine ⟨?_, ?_, ?_, ?_⟩
    · show s.i + 3 = 3 * (j + 1)
      omega
    · show s.n + 4 = 4 * (j + 1)
      omega
    · rw [base64_group_length, hl]
    · intro k
      simp only [base64_group]
      rw [getD_set4, hn, hi, hl, hg]
      by_cases h : 4 * j ≤ k ∧ k < 4 * j + 4 ∧ k < output.length
      · rw [if_pos h,
          if_pos (show k < 4 * (j + 1) ∧ k < output.length from ⟨by omega, by omega⟩),
          base64_char_group input length j k (by omega) (by omega),
          if_pos (show 3 * j + 1 < length from by omega),
          if_pos (show 3 * j + 2 < length from by omega),
          input_byte_lt input length (3 * j) (by omega),
          input_byte_lt input length (3 * j + 1) (by omega),
          input_byte_lt input length (3 * j + 2) (by omega)]
      · rw [if_neg h]
        by_cases h4 : k < 4 * j ∧ k < output.length
        · rw [if_pos h4, if_pos (by omega)]
        · rw [if_neg h4, if_neg (by omega)]

/-- The loop of `base64_encode` runs `length / 3` times. -/
theorem base64_loop (output input : List Nat) (length : Nat) :
    while_loop (fun (s : Base64State) => decide ((s.i : Int) ≤ (length : Int) - 3))
      (base64_group input) length { i := 0, n := 0, output := output } =
    (base64_group input)^[length / 3] { i := 0, n := 0, output := output } := by
  apply while_loop_iterate _ _ (length / 3) length _ (by omega)
  · intro j hj
    rw [(base64_iterate output input length j (by omega)).1]
    apply decide_eq_true
    omega
  · rw [(base64_iterate output input length (length / 3) (by omega)).1]
    apply decide_eq_false
    omega

/-- The value returned by `base64_encode`. -/
theorem base64_encode_fst (output input : List Nat) (length : Nat) :
    (base64_encode output input length).1 = (length + 2) / 3 * 4 := by
  unfold base64_encode
  simp only
  rw [base64_loop]
  obtain ⟨hi, hn, _, _⟩ := base64_iterate output input length (length / 3) (by omega)
  generalize ((base64_group input)^[length / 3] { i := 0, n := 0, output := output }) = s at *
  rw [hi, hn]
  split_ifs <;> simp only <;> omega

theorem base64_encode_length (output input : List Nat) (length : Nat) :
    (base64_encode output input length).2.length = output.length := by
  unfold base64_encode
  simp only
  rw [base64_loop]
  obtain ⟨_, _, hl, _⟩ := base64_iterate output input length (length / 3) (by omega)
  generalize ((base64_group input)^[length / 3] { i := 0, n := 0, output := output }) = s at *
  split_ifs <;> simp only [List.length_set, hl]

/-- The output buffer of `base64_encode`, byte by byte. -/
theorem base64_encode_getD (output input : List Nat) (length k : Nat) :
    (base64_encode output input length).2.getD k 0 =
      if k < (length + 2) / 3 * 4 ∧ k < output.length then base64_char input length k
      else output.getD k 0 := by
  unfold base64_encode
  simp only
  rw [base64_loop]
  obtain ⟨hi, hn, hl, hg⟩ := base64_iterate output input length (length / 3) (by omega)
  generalize ((base64_group input)^[length / 3] { i := 0, n := 0, output := output }) = s at *
  rw [hi, hn]
  have h61 : '='.toNat = 61 := rfl
  have hz4 : (0 : Nat) >>> 4 = 0 := rfl
  have hz6 : (0 : Nat) >>> 6 = 0 := rfl
  by_cases c2 : 3 * (length / 3) + 2 = length
  · rw [if_pos c2]
    simp only
    rw [getD_set4, hl, hg, h61]
    by_cases h : 4 * (length / 3) ≤ k ∧ k < 4 * (length / 3) + 4 ∧ k < output.length
    · rw [if_pos h,
        if_pos (show k < (length + 2) / 3 * 4 ∧ k < output.length from ⟨by omega, by omega⟩),
        base64_char_group input length (length / 3) k (by omega) (by omega),
        if_pos (show 3 * (length / 3) + 1 < length from by omega),
        if_neg (show ¬ 3 * (length / 3) + 2 < length from by omega),
        input_byte_lt input length (3 * (length / 3)) (by omega),
        input_byte_lt input length (3 * (length / 3) + 1) (by omega),
        input_byte_ge input length (3 * (length / 3) + 2) (by omega), hz6, Nat.or_zero]
    · rw [if_neg h]
      by_cases h4 : k < 4 * (length / 3) ∧ k < output.length
      · rw [if_pos h4, if_pos (by omega)]
      · rw [if_neg h4, if_neg (by omega)]
  · rw [if_neg c2]
    by_cases c1 : 3 * (length / 3) + 1 = length
    · rw [if_pos c1]
      simp only
      rw [getD_set4, hl, hg, h61]
      by_cases h : 4 * (length / 3) ≤ k ∧ k < 4 * (length / 3) + 4 ∧ k < output.length
      · rw [if_pos h,
          if_pos (show k < (length + 2) / 3 * 4 ∧ k < output.length from
            ⟨by omega, by omega⟩),
          base64_char_group input length (length / 3) k (by omega) (by omega),
          if_neg (show ¬ 3 * (length / 3) + 1 < length from by omega),
          if_neg (show ¬ 3 * (length / 3) + 2 < length from by omega),
          input_byte_lt input length (3 * (length / 3)) (by omega),
          input_byte_ge input length (3 * (length / 3) + 1) (by omega), hz4, Nat.or_zero]
      · rw [if_neg h]
        by_cases h4 : k < 4 * (length / 3) ∧ k < output.length
        · rw [if_pos h4, if_pos (by omega)]
        · rw [if_neg h4, if_neg (by omega)]
    · rw [if_neg c1]
      simp only
      rw [hg]
      by_cases h4 : k < 4 * (length / 3) ∧ k < output.length
      · rw [if_pos h4, if_pos (by omega)]
      · rw [if_neg h4, if_neg (by omega)]

theorem and_63 (x : Nat) : x &&& 63 = x % 64 :=
  Nat.and_pow_two_sub_one_eq_mod x 6

theorem shl_or_shr (a b i j : Nat) (h : b / 2 ^ j < 2 ^ i) :
    (a <<< i) ||| (b >>> j) = a * 2 ^ i + b / 2 ^ j := by
  rw [Nat.shiftLeft_eq, Nat.shiftRight_eq_div_pow, Nat.mul_comm a,
    ← Nat.mul_add_lt_is_or h a]

theorem base64_bits_0 (a r : Nat) (hr : r < 2 ^ 16) :
    (a * 2 ^ 16 + r) / 2 ^ 18 % 64 = (a >>> 2) &&& 63 := by
  rw [and_63, Nat.shiftRight_eq_div_pow]
  norm_num at hr ⊢
  omega

theorem base64_bits_1 (a b c : Nat) (hb : b < 256) (hc : c < 256) :
    (a * 2 ^ 16 + b * 2 ^ 8 + c) / 2 ^ 12 % 64 = ((a <<< 4) ||| (b >>> 4)) &&& 63 := by
  rw [and_63, shl_or_shr a b 4 4 (by norm_num; omega)]
  norm_num
  omega

theorem base64_bits_2 (a b c : Nat) (hc : c < 256) :
    (a * 2 ^ 16 + b * 2 ^ 8 + c) / 2 ^ 6 % 64 = ((b <<< 2) ||| (c >>> 6)) &&& 63 := by
  rw [and_63, shl_or_shr b c 2 6 (by norm_num; omega)]
  norm_num
  omega

theorem base64_bits_3 (a b c : Nat) :
    (a * 2 ^ 16 + b * 2 ^ 8 + c) % 64 = c &&& 63 := by
  rw [and_63]
  norm_num
  omega

theorem base64_bits2_0 (a b : Nat) (hb : b < 256) :
    (a * 2 ^ 8 + b) * 2 ^ 2 / 2 ^ 12 % 64 = (a >>> 2) &&& 63 := by
  rw [and_63, Nat.shiftRight_eq_div_pow]
  norm_num
  omega

theorem base64_bits2_1 (a b : Nat) (hb : b < 256) :
    (a * 2 ^ 8 + b) * 2 ^ 2 / 2 ^ 6 % 64 = ((a <<< 4) ||| (b >>> 4)) &&& 63 := by
  rw [and_63, shl_or_shr a b 4 4 (by norm_num; omega)]
  norm_num
  omega

theorem base64_bits2_2 (a b : Nat) :
    (a * 2 ^ 8 + b) * 2 ^ 2 % 64 = ((b <<< 2) ||| (0 >>> 6)) &&& 63 := by
  rw [and_63, shl_or_shr b 0 2 6 (by norm_num)]
  norm_num
  omega

theorem base64_bits1_0 (a : Nat) : a * 2 ^ 4 / 2 ^ 6 % 64 = (a >>> 2) &&& 63 := by
  rw [and_63, Nat.shiftRight_eq_div_pow]
  norm_num
  omega

theorem base64_bits1_1 (a : Nat) : a * 2 ^ 4 % 64 = ((a <<< 4) ||| (0 >>> 4)) &&& 63 := by
  rw [and_63, shl_or_shr a 0 4 4 (by norm_num)]
  norm_num

theorem base64_ref_length (input : List Nat) :
    (base64_ref input).length = (input.length + 2) / 3 * 4 := by
  induction input using base64_ref.induct with
  | case1 a b c rest ih =>
    simp only [base64_ref, List.length_append, List.length_cons, List.length_nil, ih]
    omega
  | case2 a b => simp [base64_ref]
  | case3 a => simp [base64_ref]
  | case4 => simp [base64_ref]

theorem getD_four (x0 x1 x2 x3 : Nat) (l : List Nat) (k : Nat) (h : k < 4) :
    ([x0, x1, x2, x3] ++ l).getD k 0 =
      if k = 4 * 0 then x0 else if k = 4 * 0 + 1 then x1
      else if k = 4 * 0 + 2 then x2 else x3 := by
  interval_cases k <;> rfl

theorem input_byte_cons3 (a b c : Nat) (rest : List Nat) (i : Nat) :
    input_byte (a :: b :: c :: rest) (rest.length + 3) (i + 3) =
      input_byte rest rest.length i := by
  unfold input_byte
  by_cases h : i < rest.length
  · rw [if_pos (by omega), if_pos h]
    rfl
  · rw [if_neg (by omega), if_neg h]

theorem base64_char_cons3 (a b c : Nat) (rest : List Nat) (k : Nat) :
    base64_char (a :: b :: c :: rest) (rest.length + 3) (k + 4) =
      base64_char rest rest.length k := by
  have e1 : (k + 4) / 4 * 3 = k / 4 * 3 + 3 := by omega
  have e2 : (k + 4) % 4 = k % 4 := by omega
  unfold base64_char
  simp only [e1, e2]
  rw [show k / 4 * 3 + 3 + 1 = k / 4 * 3 + 1 + 3 by omega,
    show k / 4 * 3 + 3 + 2 = k / 4 * 3 + 2 + 3 by omega,
    input_byte_cons3, input_byte_cons3, input_byte_cons3]
  simp only [Nat.add_lt_add_iff_right]

/-- The reference encoding, byte by byte, in terms of the expressions of the code. -/
theorem base64_ref_getD (input : List Nat) (hb : ∀ b ∈ input, b < 256) (k : Nat)
    (hk : k < (input.length + 2) / 3 * 4) :
    (base64_ref input).getD k 0 = base64_char input input.length k := by
  induction input using base64_ref.induct generalizing k with
  | case1 a b c rest ih =>
    have ha : a < 256 := hb a (by simp)
    have hb2 : b < 256 := hb b (by simp)
    have hc : c < 256 := hb c (by simp)
    have hrest : ∀ x ∈ rest, x < 256 := fun x hx => hb x (by simp [hx])
    by_cases h4 : k < 4
    · rw [base64_char_group _ _ 0 k (by omega) (by omega)]
      simp only [List.length_cons]
      have i0 : input_byte (a :: b :: c :: rest) (rest.length + 1 + 1 + 1) (3 * 0) = a :=
        if_pos (by omega)
      have i1 : input_byte (a :: b :: c :: rest) (rest.length + 1 + 1 + 1) (3 * 0 + 1) = b :=
        if_pos (by omega)
      have i2 : input_byte (a :: b :: c :: rest) (rest.length + 1 + 1 + 1) (3 * 0 + 2) = c :=
        if_pos (by omega)
      rw [i0, i1, i2, if_pos (show 3 * 0 + 1 < rest.length + 1 + 1 + 1 by omega),
        if_pos (show 3 * 0 + 2 < rest.length + 1 + 1 + 1 by omega), base64_alphabet_eq,
        ← base64_bits_0 a (b * 2 ^ 8 + c) (by norm_num; omega),
        ← base64_bits_1 a b c hb2 hc, ← base64_bits_2 a b c hc, ← base64_bits_3 a b c,
        ← Nat.add_assoc]
      rw [base64_ref]
      exact getD_four _ _ _ _ _ k h4
    · obtain ⟨k', rfl⟩ : ∃ k', k = k' + 4 := ⟨k - 4, by omega⟩
      have hlen : (a :: b :: c :: rest).length = rest.length + 3 := rfl
      rw [hlen, base64_char_cons3, ← ih hrest k' (by rw [hlen] at hk; omega)]
      rw [base64_ref]
      rw [List.getD_append_right _ _ _ _ (by
        simp only [List.length_cons, List.length_nil]; omega)]
      simp only [List.length_cons, List.length_nil]
      rw [show k' + 4 - (0 + 1 + 1 + 1 + 1) = k' by omega]
  | case2 a b =>
    have hb2 : b < 256 := hb b (by simp)
    have hk4 : k < 4 := by
      simp only [List.length_cons, List.length_nil] at hk
      omega
    have i0 : input_byte [a, b] 2 (3 * 0) = a := if_pos (by omega)
    have i1 : input_byte [a, b] 2 (3 * 0 + 1) = b := if_pos (by omega)
    have i2 : input_byte [a, b] 2 (3 * 0 + 2) = 0 := if_neg (by omega)
    rw [base64_char_group _ _ 0 k (by omega) (by omega)]
    simp only [List.length_cons, List.length_nil]
    rw [i0, i1, i2, if_pos (show 3 * 0 + 1 < 0 + 1 + 1 by omega),
      if_neg (show ¬ 3 * 0 + 2 < 0 + 1 + 1 by omega), base64_alphabet_eq,
      ← base64_bits2_0 a b hb2, ← base64_bits2_1 a b hb2, ← base64_bits2_2 a b,
      base64_ref, ← getD_four _ _ _ _ [] k hk4, List.append_nil]
  | case3 a =>
    have hk4 : k < 4 := by
      simp only [List.length_cons, List.length_nil] at hk
      omega
    have i0 : input_byte [a] 1 (3 * 0) = a := if_pos (by omega)
    have i1 : input_byte [a] 1 (3 * 0 + 1) = 0 := if_neg (by omega)
    rw [base64_char_group _ _ 0 k (by omega) (by omega)]
    simp only [List.length_cons, List.length_nil]
    rw [i0, i1, if_neg (show ¬ 3 * 0 + 1 < 0 + 1 by omega),
      if_neg (show ¬ 3 * 0 + 2 < 0 + 1 by omega), base64_alphabet_eq,
      ← base64_bits1_0 a, ← base64_bits1_1 a,
      base64_ref, ← getD_four _ _ _ _ [] k hk4, List.append_nil]
  | case4 =>
    simp at hk

/-- C9. `base64_encode` produces the RFC 4648 Base64 encoding of every input
(every 3-byte group gives the four alphabet characters indexed by the four
6-bit groups of its 24-bit big-endian value; a final group of 1 or 2 bytes
gives 2 or 3 alphabet characters, the missing low bits being zero, and `=`
padding; the alphabet is A-Z a-z 0-9 + /), and encodes the test vectors of
RFC 4648: the empty input, f, fo, foo, foob, fooba, foobar, and the bytes
14 FB 9C 03 D9 7E (giving FPucA9l+). -/
theorem base64_encode_rfc4648 :
    (∀ (output input : List Nat), (∀ b ∈ input, b < 256) →
      output.length = (input.length + 2) / 3 * 4 →
      (base64_encode output input input.length).2 = base64_ref input) ∧
    (base64_encode [] [] 0).2 = [] ∧
    (base64_encode [0, 0, 0, 0] [102] 1).2 = [90, 103, 61, 61] ∧
    (base64_encode [0, 0, 0, 0] [102, 111] 2).2 = [90, 109, 56, 61] ∧
    (base64_encode [0, 0, 0, 0] [102, 111, 111] 3).2 = [90, 109, 57, 118] ∧
    (base64_encode [0, 0, 0, 0, 0, 0, 0, 0] [102, 111, 111, 98] 4).2
      = [90, 109, 57, 118, 89, 103, 61, 61] ∧
    (base64_encode [0, 0, 0, 0, 0, 0, 0, 0] [102, 111, 111, 98, 97] 5).2
      = [90, 109, 57, 118, 89, 109, 69, 61] ∧
    (base64_encode [0, 0, 0, 0, 0, 0, 0, 0] [102, 111, 111, 98, 97, 114] 6).2
      = [90, 109, 57, 118, 89, 109, 70, 121] ∧
    (base64_encode [0, 0, 0, 0, 0, 0, 0, 0] [0x14, 0xfb, 0x9c, 0x03, 0xd9, 0x7e] 6).2
      = [70, 80, 117, 99, 65, 57, 108, 43] := by
  refine ⟨?_, by decide, by decide, by decide, by decide, by decide, by decide, by decide,
    by decide⟩
  intro output input hb hlen
  apply ext_getD
  · rw [base64_encode_length, base64_ref_length, hlen]
  · intro k hk
    rw [base64_encode_length, hlen] at hk
    rw [base64_encode_getD, if_pos ⟨hk, by omega⟩, base64_ref_getD input hb k hk]

/-- C9, a concrete instance: the encoding of the bytes 14 FB 9C 03 D9 is the
reference encoding of these bytes. -/
theorem base64_encode_rfc4648_witness :
    (base64_encode [0, 0, 0, 0, 0, 0, 0, 0] [0x14, 0xfb, 0x9c, 0x03, 0xd9]
      [0x14, 0xfb, 0x9c, 0x03, 0xd9].length).2 = base64_ref [0x14, 0xfb, 0x9c, 0x03, 0xd9] :=
  base64_encode_rfc4648.1 [0, 0, 0, 0, 0, 0, 0, 0] [0x14, 0xfb, 0x9c, 0x03, 0xd9]
    (by decide) (by decide)

/-- C10. For every input length `L`, `base64_encode` returns `(L + 2) / 3 * 4`,
which is four times the least integer that is at least `L / 3`, and this is
the number of output bytes it wrote: the bytes of the output buffer from that
position on are unchanged, and the bytes before it do not depend on what the
buffer held before the call; an empty input writes nothing and returns 0. -/
theorem base64_encode_return :
    (∀ (output input : List Nat) (L : Nat),
      (base64_encode output input L).1 = (L + 2) / 3 * 4 ∧
      (L ≤ 3 * ((L + 2) / 3) ∧ 3 * ((L + 2) / 3) < L + 3) ∧
      (base64_encode output input L).2.length = output.length ∧
      ∀ k, (L + 2) / 3 * 4 ≤ k → (base64_encode output input L).2.getD k 0 = output.getD k 0) ∧
    (∀ (output other input : List Nat) (L k : Nat), k < (L + 2) / 3 * 4 →
      k < output.length → k < other.length →
      (base64_encode output input L).2.getD k 0 = (base64_encode other input L).2.getD k 0) ∧
    (∀ (output input : List Nat), base64_encode output input 0 = (0, output)) := by
  refine ⟨?_, ?_, ?_⟩
  · intro output input L
    refine ⟨base64_encode_fst output input L, ⟨by omega, by omega⟩,
      base64_encode_length output input L, ?_⟩
    intro k hk
    rw [base64_encode_getD, if_neg (by omega)]
  · intro output other input L k hk h1 h2
    rw [base64_encode_getD, base64_encode_getD, if_pos ⟨hk, h1⟩, if_pos ⟨hk, h2⟩]
  · intro output input
    rfl

/-- C10, a concrete instance: byte 5 of the encoding of 4 bytes is the same
whatever the output buffer held. -/
theorem base64_encode_return_witness :
    (base64_encode [0, 0, 0, 0, 0, 0, 0, 0] [102, 111, 111, 98] 4).2.getD 5 0 =
      (base64_encode [1, 2, 3, 4, 5, 6, 7, 8, 9] [102, 111, 111, 98] 4).2.getD 5 0 :=
  base64_encode_return.2.1 [0, 0, 0, 0, 0, 0, 0, 0] [1, 2, 3, 4, 5, 6, 7, 8, 9]
    [102, 111, 111, 98] 4 5 (by decide) (by decide) (by decide)

/-! ## Lemmas shared by sha1.h and sha256.h -/

theorem and15_sub (t c : Nat) (hc : c ≤ 16) : and15 ((t : Int) - (c : Int)) = (t + (16 - c)) % 16 := by
  unfold and15
  omega

theorem and15_nat (t : Nat) : and15 (t : Int) = t % 16 := by
  unfold and15
  omega

theorem add32_lt (a b : Nat) : add32 a b < 2 ^ 32 := Nat.mod_lt _ (by norm_num)

theorem shl32_lt (x n : Nat) : shl32 x n < 2 ^ 32 := Nat.mod_lt _ (by norm_num)

/-- For a 32-bit word, the rotation written with `^` in `sha256` is ROTR. -/
theorem rotr32_eq_xor (n x : Nat) (hx : x < 2 ^ 32) :
    rotr32 n x = (x >>> n) ^^^ shl32 x (32 - n) := by
  unfold rotr32 shl32
  apply Nat.eq_of_testBit_eq
  intro i
  simp only [Nat.testBit_xor, Nat.testBit_lor, Nat.testBit_shiftRight, Nat.testBit_mod_two_pow,
    Nat.testBit_shiftLeft]
  by_cases h1 : i < 32 - n
  · have : ¬ (i ≥ 32 - n) := by omega
    simp [this]
  · have h2 : x.testBit (n + i) = false :=
      Nat.testBit_eq_false_of_lt
        (lt_of_lt_of_le hx (Nat.pow_le_pow_right (by norm_num) (by omega)))
    simp [h2]

/-- For a 32-bit word, `~x` is the complement `2 ^ 32 - 1 - x`. -/
theorem not32_eq (x : Nat) (hx : x < 2 ^ 32) : not32 x = 2 ^ 32 - 1 - x := by
  unfold not32
  apply Nat.eq_of_testBit_eq
  intro i
  have e : 2 ^ 32 - 1 - x = 2 ^ 32 - (x + 1) := by omega
  have h1 : (0xffffffff : Nat) = 2 ^ 32 - 1 := by norm_num
  rw [e, Nat.testBit_two_pow_sub_succ hx, Nat.testBit_mod_two_pow, Nat.testBit_xor, h1,
    Nat.testBit_two_pow_sub_one]
  by_cases h : i < 32 <;> simp [h]

theorem rotr32_lt (n x : Nat) (hx : x < 2 ^ 32) : rotr32 n x < 2 ^ 32 := by
  unfold rotr32
  apply Nat.or_lt_two_pow
  · rw [Nat.shiftRight_eq_div_pow]
    exact lt_of_le_of_lt (Nat.div_le_self _ _) hx
  · exact Nat.mod_lt _ (by norm_num)

/-- The ring buffer after round `t`, in which word `t + 16` of the schedule
replaces word `t`. -/
theorem sha_ring_step (W : List Nat) (t : Nat) (w : List Nat) (h : sha_ring W t w) :
    sha_ring W (t + 1) (w.set (t % 16) (W.getD (t + 16) 0)) := by
  obtain ⟨hl, hw⟩ := h
  refine ⟨by rw [List.length_set, hl], ?_⟩
  intro s hs
  rw [getD_set, hl]
  by_cases h1 : t % 16 = s
  · rw [if_pos ⟨h1, hs⟩]
    congr 1
    omega
  · rw [if_neg (by omega), hw s hs]
    congr 1
    omega

theorem sha_ring_getD (W : List Nat) (t : Nat) (w : List Nat) (h : sha_ring W t w)
    (c : Nat) (hc : c < 16) : w.getD ((t + c) % 16) 0 = W.getD (t + c) 0 := by
  rw [h.2 _ (Nat.mod_lt _ (by norm_num))]
  congr 1
  omega

theorem sha_load_block_length (w m : List Nat) : (sha_load_block w m).length = w.length := by
  unfold sha_load_block
  exact for_loop_set_length (fun t => t) _ 16 w

theorem shiftLeft_lor (p q k : Nat) : (p ||| q) <<< k = (p <<< k) ||| (q <<< k) := by
  apply Nat.eq_of_testBit_eq
  intro i
  simp only [Nat.testBit_lor, Nat.testBit_shiftLeft, Bool.and_or_distrib_left]

theorem shl_or_lt (x y k : Nat) (hy : y < 2 ^ k) : (x <<< k) ||| y = x * 2 ^ k + y := by
  rw [Nat.shiftLeft_eq, Nat.mul_comm x, ← Nat.mul_add_lt_is_or hy x]

/-- Four bytes joined with `<<` and `|` give the big-endian word. -/
theorem be32_or (a b c d : Nat) (hb : b < 256) (hc : c < 256) (hd : d < 256) :
    (((a <<< 24) ||| (b <<< 16)) ||| (c <<< 8)) ||| d =
      a * 2 ^ 24 + b * 2 ^ 16 + c * 2 ^ 8 + d := by
  have e1 : a <<< 24 = (a <<< 8) <<< 16 := Nat.shiftLeft_add a 8 16
  have e2 : (a * 2 ^ 8 + b) <<< 16 = ((a * 2 ^ 8 + b) <<< 8) <<< 8 :=
    Nat.shiftLeft_add (a * 2 ^ 8 + b) 8 8
  rw [e1, ← shiftLeft_lor, shl_or_lt a b 8 (by norm_num; omega), e2, ← shiftLeft_lor,
    shl_or_lt _ c 8 (by norm_num; omega), shl_or_lt _ d 8 (by norm_num; omega)]
  ring

/-- The ring buffer after `sha_load_block`, word by word. -/
theorem sha_load_block_getD (w m : List Nat) (hw : w.length = 16) (t : Nat) (ht : t < 16) :
    (sha_load_block w m).getD t 0 =
      ((((m.getD (t * 4) 0 <<< 24) ||| (m.getD (t * 4 + 1) 0 <<< 16))
        ||| (m.getD (t * 4 + 2) 0 <<< 8)) ||| m.getD (t * 4 + 3) 0) % 2 ^ 32 := by
  unfold sha_load_block
  rw [for_loop_set_getD_zero (fun t _ =>
    ((((m.getD (t * 4) 0 <<< 24) ||| (m.getD (t * 4 + 1) 0 <<< 16))
        ||| (m.getD (t * 4 + 2) 0 <<< 8)) ||| m.getD (t * 4 + 3) 0) % 2 ^ 32),
    if_pos ⟨ht, by omega⟩]

/-- A loop `while (j < N) pad[j++] = 0;` on the pair `(j, pad)`. -/
theorem while_loop_fill_getD (N j : Nat) (l : List Nat) (fuel : Nat) (hf : N ≤ fuel) (k : Nat) :
    (while_loop (fun (q : Nat × List Nat) => decide (q.1 < N))
      (fun q => (q.1 + 1, q.2.set q.1 0)) fuel (j, l)).2.getD k 0 =
      if j ≤ k ∧ k < N ∧ k < l.length then 0 else l.getD k 0 := by
  have key : ∀ m, (fun (q : Nat × List Nat) => (q.1 + 1, q.2.set q.1 0))^[m] (j, l) =
      (j + m, for_loop (fun i l => l.set (j + i) ((fun _ _ => 0) i (l.getD (j + i) 0))) m l) := by
    intro m
    induction m with
    | zero => rfl
    | succ m ih => rw [Function.iterate_succ_apply', ih]; rfl
  rw [while_loop_iterate _ _ (N - j) fuel (j, l) (by omega), key]
  · show (for_loop (fun i l => l.set (j + i) ((fun _ _ => 0) i (l.getD (j + i) 0)))
      (N - j) l).getD k 0 = _
    rw [for_loop_set_getD (fun _ _ => 0) j (N - j) l k]
    by_cases h : j ≤ k ∧ k < N ∧ k < l.length
    · rw [if_pos h, if_pos (by omega)]
    · rw [if_neg h, if_neg (by omega)]
  · intro m hm
    rw [key]
    apply decide_eq_true
    show j + m < N
    omega
  · rw [key]
    apply decide_eq_false
    show ¬ (j + (N - j) < N)
    omega

theorem while_loop_fill_length (N j : Nat) (l : List Nat) (fuel : Nat) (hf : N ≤ fuel) :
    (while_loop (fun (q : Nat × List Nat) => decide (q.1 < N))
      (fun q => (q.1 + 1, q.2.set q.1 0)) fuel (j, l)).2.length = l.length := by
  have key : ∀ m, (fun (q : Nat × List Nat) => (q.1 + 1, q.2.set q.1 0))^[m] (j, l) =
      (j + m, for_loop (fun i l => l.set (j + i) ((fun _ _ => 0) i l)) m l) := by
    intro m
    induction m with
    | zero => rfl
    | succ m ih => rw [Function.iterate_succ_apply', ih]; rfl
  rw [while_loop_iterate _ _ (N - j) fuel (j, l) (by omega), key]
  · exact for_loop_set_length _ _ _ _
  · intro m hm
    rw [key]
    apply decide_eq_true
    show j + m < N
    omega
  · rw [key]
    apply decide_eq_false
    show ¬ (j + (N - j) < N)
    omega

theorem sha_pad_block_length (pad message : List Nat) (length i : Nat) :
    (sha_pad_block pad message length i).length = pad.length := by
  unfold sha_pad_block
  simp only
  split_ifs <;>
    simp only [List.length_set, while_loop_fill_length _ _ _ _ (Nat.le_refl _),
      for_loop_set_length (fun j => j) (fun j _ => message.getD (i + j) 0)]

theorem be_bytes_getD (w n i : Nat) :
    (be_bytes w n).getD i 0 = if i < w then n / 2 ^ (8 * (w - 1 - i)) % 256 else 0 := by
  unfold be_bytes
  by_cases h : i < w
  · rw [if_pos h, List.getD_eq_getElem?_getD, List.getElem?_eq_getElem (by simpa using h)]
    simp
  · rw [if_neg h, getD_of_le _ _ (by simpa using Nat.le_of_not_lt h)]

theorem be_bytes_length (w n : Nat) : (be_bytes w n).length = w := by
  simp [be_bytes]

theorem sha_ref_pad_length (msg : List Nat) :
    (sha_ref_pad msg).length = msg.length + 1 + (119 - msg.length % 64) % 64 + 8 := by
  simp only [sha_ref_pad, List.length_append, List.length_cons, List.length_nil,
    List.length_replicate, be_bytes_length]

/-- The reference padded message, byte by byte. -/
theorem sha_ref_pad_getD (msg : List Nat) (p : Nat) :
    (sha_ref_pad msg).getD p 0 =
      if p < msg.length then msg.getD p 0
      else if p = msg.length then 0x80
      else if p < msg.length + 1 + (119 - msg.length % 64) % 64 then 0
      else if p < msg.length + 1 + (119 - msg.length % 64) % 64 + 8 then
        8 * msg.length / 2 ^ (8 * (7 - (p - (msg.length + 1 + (119 - msg.length % 64) % 64))))
          % 256
      else 0 := by
  unfold sha_ref_pad
  by_cases h1 : p < msg.length
  · rw [if_pos h1, List.getD_append _ _ _ _ (by
      simp only [List.length_append, List.length_cons, List.length_nil,
        List.length_replicate]; omega),
      List.getD_append _ _ _ _ (by
      simp only [List.length_append, List.length_cons, List.length_nil]; omega),
      List.getD_append _ _ _ _ h1]
  · rw [if_neg h1]
    by_cases h2 : p = msg.length
    · rw [if_pos h2, List.getD_append _ _ _ _ (by
        simp only [List.length_append, List.length_cons, List.length_nil,
          List.length_replicate]; omega),
        List.getD_append _ _ _ _ (by
        simp only [List.length_append, List.length_cons, List.length_nil]; omega),
        List.getD_append_right _ _ _ _ (by omega), h2, Nat.sub_self]
      rfl
    · rw [if_neg h2]
      by_cases h3 : p < msg.length + 1 + (119 - msg.length % 64) % 64
      · rw [if_pos h3, List.getD_append _ _ _ _ (by
          simp only [List.length_append, List.length_cons, List.length_nil,
            List.length_replicate]; omega),
          List.getD_append_right _ _ _ _ (by
          simp only [List.length_append, List.length_cons, List.length_nil]; omega),
          getD_replicate_zero]
      · rw [if_neg h3, List.getD_append_right _ _ _ _ (by
          simp only [List.length_append, List.length_cons, List.length_nil,
            List.length_replicate]; omega), be_bytes_getD]
        simp only [List.length_append, List.length_cons, List.length_nil,
          List.length_replicate]
        by_cases h4 : p < msg.length + 1 + (119 - msg.length % 64) % 64 + 8
        · rw [if_pos h4, if_pos (by omega)]
        · rw [if_neg h4, if_neg (by omega)]

/-- The bytes 56..63 that the padding code stores in the last block, for a
message of less than 2 ^ 29 bytes: the 64-bit big-endian bit length. -/
theorem sha_length_bytes (L : Nat) (hL : L < 2 ^ 29) (q : Nat) (hq : q < 8) :
    [0, 0, 0, (L >>> 29) % 256, (L >>> 21) % 256, (L >>> 13) % 256, (L >>> 5) % 256,
      (L <<< 3) % 256].getD q 0 = 8 * L / 2 ^ (8 * (7 - q)) % 256 := by
  simp only [Nat.shiftRight_eq_div_pow, Nat.shiftLeft_eq]
  norm_num at hL
  interval_cases q <;> simp only [List.getD_cons_zero, List.getD_cons_succ] <;> norm_num <;> omega

/-- The block built by the padding code, byte by byte. -/
theorem sha_pad_block_getD (pad message : List Nat) (L i : Nat) (hp : pad.length = 64)
    (hi : L < i + 64) (t : Nat) (ht : t < 64) :
    (sha_pad_block pad message L i).getD t 0 =
      if t < L - i then message.getD (i + t) 0
      else if i ≤ L ∧ t = L - i then 0x80
      else if (i ≤ L ∧ L - i + 1 > 56) then 0
      else if t < 56 then 0
      else [0, 0, 0, (L >>> 29) % 256, (L >>> 21) % 256, (L >>> 13) % 256, (L >>> 5) % 256,
        (L <<< 3) % 256].getD (t - 56) 0 := by
  have hcopy : ∀ k, (for_loop (fun j (pad : List Nat) => pad.set j (message.getD (i + j) 0))
      (L - i) pad).getD k 0 = if k < L - i ∧ k < 64 then message.getD (i + k) 0
        else pad.getD k 0 := by
    intro k
    rw [for_loop_set_getD_zero (fun j _ => message.getD (i + j) 0), hp]
  have hcl : (for_loop (fun j (pad : List Nat) => pad.set j (message.getD (i + j) 0))
      (L - i) pad).length = 64 := by
    rw [for_loop_set_length (fun j => j) (fun j _ => message.getD (i + j) 0), hp]
  unfold sha_pad_block
  simp only
  by_cases hle : i ≤ L
  · rw [if_pos (show i + (L - i) = L by omega)]
    simp only
    by_cases h56 : L - i + 1 > 56
    · rw [if_pos h56, while_loop_fill_getD 64 _ _ 64 (Nat.le_refl _), List.length_set, hcl,
        getD_set, hcl, hcopy]
      split_ifs <;> first | rfl | omega
    · rw [if_neg h56]
      have hfl : ((while_loop (fun (q : Nat × List Nat) => decide (q.1 < 56))
          (fun q => (q.1 + 1, q.2.set q.1 0)) 56
          (L - i + 1, (for_loop (fun j (pad : List Nat) => pad.set j (message.getD (i + j) 0))
            (L - i) pad).set (L - i) 128)).2).length = 64 := by
        rw [while_loop_fill_length 56 _ _ 56 (Nat.le_refl _), List.length_set, hcl]
      by_cases h1 : t < 56
      · simp only [getD_set, List.length_set, hfl]
        iterate 8 rw [if_neg (by omega)]
        rw [while_loop_fill_getD 56 _ _ 56 (Nat.le_refl _), List.length_set, hcl, getD_set,
          hcl, hcopy]
        split_ifs <;> first | rfl | omega
      · rw [if_neg (by omega), if_neg (by omega), if_neg (by omega), if_neg h1]
        have ht8 : t = 56 ∨ t = 57 ∨ t = 58 ∨ t = 59 ∨ t = 60 ∨ t = 61 ∨ t = 62 ∨ t = 63 := by
          omega
        simp only [getD_set, List.length_set, hfl]
        rcases ht8 with h | h | h | h | h | h | h | h <;> subst h <;> norm_num
  · rw [if_neg (show ¬ i + (L - i) = L by omega)]
    simp only
    have hz : L - i = 0 := by omega
    rw [if_neg (by omega)]
    have hfl : ((while_loop (fun (q : Nat × List Nat) => decide (q.1 < 56))
        (fun q => (q.1 + 1, q.2.set q.1 0)) 56
        (L - i, (for_loop (fun j (pad : List Nat) => pad.set j (message.getD (i + j) 0))
          (L - i) pad))).2).length = 64 := by
      rw [while_loop_fill_length 56 _ _ 56 (Nat.le_refl _), hcl]
    by_cases h1 : t < 56
    · simp only [getD_set, List.length_set, hfl]
      iterate 8 rw [if_neg (by omega)]
      rw [while_loop_fill_getD 56 _ _ 56 (Nat.le_refl _), hcl]
      split_ifs <;> first | rfl | omega
    · rw [if_neg (by omega), if_neg (by omega), if_neg (by omega), if_neg h1]
      have ht8 : t = 56 ∨ t = 57 ∨ t = 58 ∨ t = 59 ∨ t = 60 ∨ t = 61 ∨ t = 62 ∨ t = 63 := by
        omega
      simp only [getD_set, List.length_set, hfl]
      rcases ht8 with h | h | h | h | h | h | h | h <;> subst h <;> norm_num

theorem sha_ref_pad_lt (msg : List Nat) (hb : ∀ b ∈ msg, b < 256) (p : Nat) :
    (sha_ref_pad msg).getD p 0 < 256 := by
  rw [sha_ref_pad_getD]
  split_ifs
  · exact getD_lt_of_forall hb p
  · norm_num
  · norm_num
  · exact Nat.mod_lt _ (by norm_num)
  · norm_num

/-- The 64 bytes that `sha1` and `sha256` process in iteration `b` of their
block loop are the bytes of block `b` of the reference padded message. -/
theorem sha_block_bytes (pad msg : List Nat) (b : Nat) (hp : pad.length = 64)
    (hL : msg.length < 2 ^ 29) (hb : 64 * b < msg.length + 9) (t : Nat) (ht : t < 64) :
    (if ((64 * b : Nat) : Int) > (msg.length : Int) - 64
      then sha_pad_block pad msg msg.length (64 * b) else msg.drop (64 * b)).getD t 0 =
      (sha_ref_pad msg).getD (64 * b + t) 0 := by
  by_cases hc : ((64 * b : Nat) : Int) > (msg.length : Int) - 64
  · rw [if_pos hc, sha_pad_block_getD pad msg msg.length (64 * b) hp (by omega) t ht,
      sha_ref_pad_getD]
    by_cases h56 : t < 56
    · split_ifs <;> first | rfl | omega
    · rw [sha_length_bytes msg.length hL (t - 56) (by omega)]
      split_ifs <;> first | rfl | omega | (congr 4; omega)
  · rw [if_neg hc, getD_drop, sha_ref_pad_getD, if_pos (by omega)]

theorem sha_ref_words_length (padded : List Nat) (b : Nat) :
    (sha_ref_words padded b).length = 16 := by
  simp [sha_ref_words]

theorem sha_ref_words_getD (padded : List Nat) (b t : Nat) (ht : t < 16) :
    (sha_ref_words padded b).getD t 0 =
      padded.getD (64 * b + 4 * t) 0 * 2 ^ 24 + padded.getD (64 * b + 4 * t + 1) 0 * 2 ^ 16 +
      padded.getD (64 * b + 4 * t + 2) 0 * 2 ^ 8 + padded.getD (64 * b + 4 * t + 3) 0 := by
  unfold sha_ref_words
  rw [List.getD_eq_getElem?_getD, List.getElem?_eq_getElem (by simpa using ht)]
  simp

theorem sha_ref_words_lt (msg : List Nat) (hb : ∀ x ∈ msg, x < 256) (b t : Nat) :
    (sha_ref_words (sha_ref_pad msg) b).getD t 0 < 2 ^ 32 := by
  by_cases ht : t < 16
  · rw [sha_ref_words_getD _ _ _ ht]
    have h0 := sha_ref_pad_lt msg hb (64 * b + 4 * t)
    have h1 := sha_ref_pad_lt msg hb (64 * b + 4 * t + 1)
    have h2 := sha_ref_pad_lt msg hb (64 * b + 4 * t + 2)
    have h3 := sha_ref_pad_lt msg hb (64 * b + 4 * t + 3)
    simp only [Nat.reducePow]
    omega
  · rw [getD_of_le _ _ (by rw [sha_ref_words_length]; omega)]
    norm_num

/-- The ring buffer loaded in iteration `b` of the block loop holds the sixteen
words of block `b` of the reference padded message. -/
theorem sha_load_block_ref (pad w msg : List Nat) (b : Nat) (hp : pad.length = 64)
    (hw : w.length = 16) (hbytes : ∀ x ∈ msg, x < 256)
    (hL : msg.length < 2 ^ 29) (hb : 64 * b < msg.length + 9) :
    sha_load_block w
      (if ((64 * b : Nat) : Int) > (msg.length : Int) - 64
        then sha_pad_block pad msg msg.length (64 * b) else msg.drop (64 * b)) =
      sha_ref_words (sha_ref_pad msg) b := by
  apply ext_getD
  · rw [sha_load_block_length, hw, sha_ref_words_length]
  · intro t ht
    rw [sha_load_block_length, hw] at ht
    rw [sha_load_block_getD _ _ hw t ht, sha_ref_words_getD _ _ _ ht,
      sha_block_bytes pad msg b hp hL hb (t * 4) (by omega),
      sha_block_bytes pad msg b hp hL hb (t * 4 + 1) (by omega),
      sha_block_bytes pad msg b hp hL hb (t * 4 + 2) (by omega),
      sha_block_bytes pad msg b hp hL hb (t * 4 + 3) (by omega)]
    have e0 : 64 * b + t * 4 = 64 * b + 4 * t := by omega
    have e1 : 64 * b + (t * 4 + 1) = 64 * b + 4 * t + 1 := by omega
    have e2 : 64 * b + (t * 4 + 2) = 64 * b + 4 * t + 2 := by omega
    have e3 : 64 * b + (t * 4 + 3) = 64 * b + 4 * t + 3 := by omega
    rw [e0, e1, e2, e3]
    have h0 := sha_ref_pad_lt msg hbytes (64 * b + 4 * t)
    have h1 := sha_ref_pad_lt msg hbytes (64 * b + 4 * t + 1)
    have h2 := sha_ref_pad_lt msg hbytes (64 * b + 4 * t + 2)
    have h3 := sha_ref_pad_lt msg hbytes (64 * b + 4 * t + 3)
    rw [be32_or _ _ _ _ h1 h2 h3]
    apply Nat.mod_eq_of_lt
    simp only [Nat.reducePow]
    omega

/-! ## Lemmas on sha256.h -/

theorem sha256_k_eq : sha256_k = sha256_ref_k := by decide

theorem sha256_init_eq : sha256_init = sha256_ref_init := by decide

theorem and15_sub2 (t : Nat) : and15 ((t : Int) - 2) = (t + 14) % 16 := by
  unfold and15; omega

theorem and15_sub7 (t : Nat) : and15 ((t : Int) - 7) = (t + 9) % 16 := by
  unfold and15; omega

theorem and15_sub15 (t : Nat) : and15 ((t : Int) - 15) = (t + 1) % 16 := by
  unfold and15; omega

theorem and15_sub3 (t : Nat) : and15 ((t : Int) - 3) = (t + 13) % 16 := by
  unfold and15; omega

theorem and15_sub8 (t : Nat) : and15 ((t : Int) - 8) = (t + 8) % 16 := by
  unfold and15; omega

theorem and15_sub14 (t : Nat) : and15 ((t : Int) - 14) = (t + 2) % 16 := by
  unfold and15; omega

theorem ssig1_eq (x : Nat) (hx : x < 2 ^ 32) :
    ((((x >>> 17) ^^^ shl32 x 15) ^^^ (x >>> 19)) ^^^ shl32 x 13) ^^^ (x >>> 10)
      = ref_ssig1 x := by
  unfold ref_ssig1
  rw [rotr32_eq_xor 17 x hx, rotr32_eq_xor 19 x hx]
  simp only [Nat.xor_assoc, Nat.reduceSub]

theorem ssig0_eq (x : Nat) (hx : x < 2 ^ 32) :
    ((((x >>> 7) ^^^ shl32 x 25) ^^^ (x >>> 18)) ^^^ shl32 x 14) ^^^ (x >>> 3)
      = ref_ssig0 x := by
  unfold ref_ssig0
  rw [rotr32_eq_xor 7 x hx, rotr32_eq_xor 18 x hx]
  simp only [Nat.xor_assoc, Nat.reduceSub]

theorem bsig1_eq (x : Nat) (hx : x < 2 ^ 32) :
    (((((x >>> 6) ^^^ shl32 x 26) ^^^ (x >>> 11)) ^^^ shl32 x 21) ^^^ (x >>> 25))
      ^^^ shl32 x 7 = ref_bsig1 x := by
  unfold ref_bsig1
  rw [rotr32_eq_xor 6 x hx, rotr32_eq_xor 11 x hx, rotr32_eq_xor 25 x hx]
  simp only [Nat.xor_assoc, Nat.reduceSub]

theorem bsig0_eq (x : Nat) (hx : x < 2 ^ 32) :
    (((((x >>> 2) ^^^ shl32 x 30) ^^^ (x >>> 13)) ^^^ shl32 x 19) ^^^ (x >>> 22))
      ^^^ shl32 x 10 = ref_bsig0 x := by
  unfold ref_bsig0
  rw [rotr32_eq_xor 2 x hx, rotr32_eq_xor 13 x hx, rotr32_eq_xor 22 x hx]
  simp only [Nat.xor_assoc, Nat.reduceSub]

theorem ch_eq (x y z : Nat) (hx : x < 2 ^ 32) :
    (x &&& y) ^^^ (not32 x &&& z) = ref_ch x y z := by
  unfold ref_ch
  rw [not32_eq x hx]

theorem sha256_ref_schedule_length (M : List Nat) (n : Nat) :
    (sha256_ref_schedule M n).length = M.length + n := by
  induction n with
  | zero => rfl
  | succ n ih =>
    rw [sha256_ref_schedule, List.length_append, ih]
    rfl

theorem sha256_ref_schedule_succ_getD (M : List Nat) (n i : Nat) (hi : i < M.length + n) :
    (sha256_ref_schedule M (n + 1)).getD i 0 = (sha256_ref_schedule M n).getD i 0 := by
  rw [sha256_ref_schedule, List.getD_append _ _ _ _ (by rw [sha256_ref_schedule_length]; exact hi)]

/-- A longer schedule agrees with a shorter one on the words of the shorter. -/
theorem sha256_ref_schedule_mono (M : List Nat) (n m i : Nat) (hnm : n ≤ m)
    (hi : i < M.length + n) :
    (sha256_ref_schedule M m).getD i 0 = (sha256_ref_schedule M n).getD i 0 := by
  induction m with
  | zero =>
    have : n = 0 := by omega
    subst this
    rfl
  | succ m ih =>
    by_cases h : n = m + 1
    · subst h; rfl
    · rw [sha256_ref_schedule_succ_getD M m i (by omega), ih (by omega)]

/-- The recurrence of the SHA-256 message schedule. -/
theorem sha256_ref_schedule_rec (M : List Nat) (hM : M.length = 16) (N n : Nat) (hn : n < N) :
    (sha256_ref_schedule M N).getD (n + 16) 0 =
      (ref_ssig1 ((sha256_ref_schedule M N).getD (n + 14) 0) +
        (sha256_ref_schedule M N).getD (n + 9) 0 +
        ref_ssig0 ((sha256_ref_schedule M N).getD (n + 1) 0) +
        (sha256_ref_schedule M N).getD n 0) % 2 ^ 32 := by
  rw [sha256_ref_schedule_mono M (n + 1) N (n + 16) (by omega) (by omega),
    sha256_ref_schedule_mono M n N (n + 14) (by omega) (by omega),
    sha256_ref_schedule_mono M n N (n + 9) (by omega) (by omega),
    sha256_ref_schedule_mono M n N (n + 1) (by omega) (by omega),
    sha256_ref_schedule_mono M n N n (by omega) (by omega),
    sha256_ref_schedule,
    List.getD_append_right _ _ _ _ (by rw [sha256_ref_schedule_length]; omega),
    sha256_ref_schedule_length, hM, show n + 16 - (16 + n) = 0 by omega]
  rfl

theorem sha256_ref_schedule_lt (M : List Nat) (hM : ∀ t, M.getD t 0 < 2 ^ 32) (n t : Nat) :
    (sha256_ref_schedule M n).getD t 0 < 2 ^ 32 := by
  induction n with
  | zero => exact hM t
  | succ n ih =>
    rw [sha256_ref_schedule]
    by_cases h : t < (sha256_ref_schedule M n).length
    · rw [List.getD_append _ _ _ _ h]
      exact ih
    · rw [List.getD_append_right _ _ _ _ (by omega)]
      by_cases h0 : t - (sha256_ref_schedule M n).length = 0
      · rw [h0]
        exact Nat.mod_lt _ (by norm_num)
      · obtain ⟨k, hk⟩ : ∃ k, t - (sha256_ref_schedule M n).length = k + 1 :=
          ⟨t - (sha256_ref_schedule M n).length - 1, by omega⟩
        rw [hk]
        show (0 : Nat) < 2 ^ 32
        norm_num

/-- One round of `sha256` is one round of the reference, and replaces word `t`
of the ring buffer by word `t + 16` of the message schedule. -/
theorem sha256_round_ref (M : List Nat) (hM : M.length = 16)
    (hMlt : ∀ t, M.getD t 0 < 2 ^ 32) (t : Nat) (ht : t < 64) (w : List Nat)
    (v : Sha256Words) (hw : sha_ring (sha256_ref_schedule M 64) t w) (hv : v.lt32) :
    sha256_round t (w, v) =
      (w.set (t % 16) ((sha256_ref_schedule M 64).getD (t + 16) 0),
        sha256_ref_round (sha256_ref_schedule M 48) t v) := by
  obtain ⟨h0, h1, h2, h3, h4, h5, h6, h7⟩ := hv
  have hW := sha256_ref_schedule_lt M hMlt 64
  have g0 := sha_ring_getD _ t w hw 0 (by omega)
  have g14 := sha_ring_getD _ t w hw 14 (by omega)
  have g9 := sha_ring_getD _ t w hw 9 (by omega)
  have g1 := sha_ring_getD _ t w hw 1 (by omega)
  rw [Nat.add_zero] at g0
  have hWt : (sha256_ref_schedule M 48).getD t 0 = (sha256_ref_schedule M 64).getD t 0 :=
    (sha256_ref_schedule_mono M 48 64 t (by omega) (by omega)).symm
  unfold sha256_round sha256_ref_round
  simp only [and15_sub2, and15_sub7, and15_sub15, and15_nat, g0, g14, g9, g1,
    ssig1_eq _ (hW (t + 14)), ssig0_eq _ (hW (t + 1)), bsig1_eq _ h4, bsig0_eq _ h0,
    ch_eq _ _ _ h4, sha256_ref_schedule_rec M hM 64 t (by omega), hWt, sha256_k_eq]
  simp only [add32, ref_maj, Nat.add_mod_mod, Nat.mod_add_mod]

theorem sha256_ref_round_lt32 (W : List Nat) (t : Nat) (v : Sha256Words) (hv : v.lt32) :
    (sha256_ref_round W t v).lt32 := by
  obtain ⟨h0, h1, h2, h3, h4, h5, h6, h7⟩ := hv
  exact ⟨Nat.mod_lt _ (by norm_num), h0, h1, h2, Nat.mod_lt _ (by norm_num), h4, h5, h6⟩

/-- The round loop of `sha256`, run on the words of a block, is the round loop
of the reference. -/
theorem sha256_rounds_ref (M : List Nat) (hM : M.length = 16)
    (hMlt : ∀ t, M.getD t 0 < 2 ^ 32) (H : Sha256Words) (hH : H.lt32) (t : Nat)
    (ht : t ≤ 64) :
    ∃ w, for_loop sha256_round t (M, H) =
        (w, for_loop (sha256_ref_round (sha256_ref_schedule M 48)) t H) ∧
      sha_ring (sha256_ref_schedule M 64) t w ∧
      (for_loop (sha256_ref_round (sha256_ref_schedule M 48)) t H).lt32 := by
  induction t with
  | zero =>
    refine ⟨M, rfl, ⟨hM, ?_⟩, hH⟩
    intro s hs
    rw [sha256_ref_schedule_mono M 0 64 _ (by omega) (by omega)]
    show M.getD s 0 = M.getD (0 + (s + 16 - 0 % 16) % 16) 0
    congr 1
    omega
  | succ t ih =>
    obtain ⟨w, he, hr, hv⟩ := ih (by omega)
    refine ⟨w.set (t % 16) ((sha256_ref_schedule M 64).getD (t + 16) 0), ?_,
      sha_ring_step _ t w hr, ?_⟩
    · rw [for_loop_succ, he, sha256_round_ref M hM hMlt t (by omega) w _ hr hv]
      rfl
    · rw [for_loop_succ]
      exact sha256_ref_round_lt32 _ _ _ hv

/-- The processing of a block by `sha256` is the reference compression. -/
theorem sha256_block_ref (m w : List Nat) (H : Sha256Words) (hH : H.lt32)
    (hM : (sha_load_block w m).length = 16)
    (hMlt : ∀ t, (sha_load_block w m).getD t 0 < 2 ^ 32) :
    (sha256_block m w H).2 = sha256_ref_compress H (sha_load_block w m) ∧
    (sha256_block m w H).1.length = 16 := by
  obtain ⟨w2, he, hr, _⟩ := sha256_rounds_ref (sha_load_block w m) hM hMlt H hH 64
    (Nat.le_refl _)
  unfold sha256_block sha256_ref_compress
  simp only [he, add32]
  exact ⟨trivial, hr.1⟩

theorem sha256_ref_compress_lt32 (H : Sha256Words) (M : List Nat) :
    (sha256_ref_compress H M).lt32 := by
  unfold sha256_ref_compress
  exact ⟨Nat.mod_lt _ (by norm_num), Nat.mod_lt _ (by norm_num), Nat.mod_lt _ (by norm_num),
    Nat.mod_lt _ (by norm_num), Nat.mod_lt _ (by norm_num), Nat.mod_lt _ (by norm_num),
    Nat.mod_lt _ (by norm_num), Nat.mod_lt _ (by norm_num)⟩

theorem sha256_ref_hash_lt32 (padded : List Nat) (b : Nat) :
    (sha256_ref_hash padded b).lt32 := by
  cases b with
  | zero =>
    rw [sha256_ref_hash, ← sha256_init_eq]
    unfold Sha256Words.lt32 sha256_init
    norm_num
  | succ b => exact sha256_ref_compress_lt32 _ _

/-- State of `sha256` after `b` iterations of its block loop. -/
theorem sha256_iterate (msg : List Nat) (hbytes : ∀ x ∈ msg, x < 256)
    (hL : msg.length < 2 ^ 29) (b : Nat) (hb : b ≤ (msg.length + 8) / 64 + 1) :
    ((sha256_body msg msg.length)^[b]
      { i := 0, pad := List.replicate 64 0, w := List.replicate 16 0, H := sha256_init }).i
      = 64 * b ∧
    ((sha256_body msg msg.length)^[b]
      { i := 0, pad := List.replicate 64 0, w := List.replicate 16 0,
        H := sha256_init }).pad.length = 64 ∧
    ((sha256_body msg msg.length)^[b]
      { i := 0, pad := List.replicate 64 0, w := List.replicate 16 0,
        H := sha256_init }).w.length = 16 ∧
    ((sha256_body msg msg.length)^[b]
      { i := 0, pad := List.replicate 64 0, w := List.replicate 16 0, H := sha256_init }).H
      = sha256_ref_hash (sha_ref_pad msg) b := by
  induction b with
  | zero =>
    refine ⟨rfl, rfl, rfl, ?_⟩
    rw [sha256_ref_hash, ← sha256_init_eq]
    rfl
  | succ b ih =>
    obtain ⟨hi, hp, hw, hH⟩ := ih (by omega)
    rw [Function.iterate_succ_apply']
    generalize ((sha256_body msg msg.length)^[b]
      { i := 0, pad := List.replicate 64 0, w := List.replicate 16 0,
        H := sha256_init }) = s at *
    have hm : (if (s.i : Int) > (msg.length : Int) - 64 then
          (if (s.i : Int) > (msg.length : Int) - 64 then
            sha_pad_block s.pad msg msg.length s.i else s.pad)
        else msg.drop s.i) =
        (if ((64 * b : Nat) : Int) > (msg.length : Int) - 64
          then sha_pad_block s.pad msg msg.length (64 * b) else msg.drop (64 * b)) := by
      rw [hi]
      by_cases hc : ((64 * b : Nat) : Int) > (msg.length : Int) - 64
      · rw [if_pos hc, if_pos hc, if_pos hc]
      · rw [if_neg hc, if_neg hc]
    have hload := sha_load_block_ref s.pad s.w msg b hp hw hbytes hL (by omega)
    have hblk := sha256_block_ref
      (if ((64 * b : Nat) : Int) > (msg.length : Int) - 64
        then sha_pad_block s.pad msg msg.length (64 * b) else msg.drop (64 * b))
      s.w s.H (by rw [hH]; exact sha256_ref_hash_lt32 _ _)
      (by rw [hload]; exact sha_ref_words_length _ _)
      (by rw [hload]; exact sha_ref_words_lt msg hbytes b)
    unfold sha256_body
    simp only [hm]
    refine ⟨by rw [hi]; omega, ?_, hblk.2, ?_⟩
    · split_ifs
      · rw [sha_pad_block_length, hp]
      · exact hp
    · rw [hblk.1, hload, hH, sha256_ref_hash]

/-- The hash value words computed by `sha256` are the final reference hash value. -/
theorem sha256_words_ref (msg : List Nat) (hbytes : ∀ x ∈ msg, x < 256)
    (hL : msg.length < 2 ^ 29) :
    sha256_words msg msg.length =
      sha256_ref_hash (sha_ref_pad msg) ((sha_ref_pad msg).length / 64) := by
  have hN : (sha_ref_pad msg).length / 64 = (msg.length + 8) / 64 + 1 := by
    rw [sha_ref_pad_length]
    omega
  unfold sha256_words
  rw [while_loop_iterate _ _ ((msg.length + 8) / 64 + 1) (msg.length + 1) _ (by omega), hN]
  · exact (sha256_iterate msg hbytes hL _ (Nat.le_refl _)).2.2.2
  · intro j hj
    rw [(sha256_iterate msg hbytes hL j (by omega)).1]
    apply decide_eq_true
    omega
  · rw [(sha256_iterate msg hbytes hL _ (Nat.le_refl _)).1]
    apply decide_eq_false
    omega

theorem be_bytes_four (n : Nat) :
    be_bytes 4 n = [(n >>> 24) % 256, (n >>> 16) % 256, (n >>> 8) % 256, n % 256] := by
  simp [be_bytes, List.range_succ, Nat.shiftRight_eq_div_pow]

/-- The 32 bytes stored by `sha256` are the big-endian bytes of the words h0..h7. -/
theorem sha256_eq_bytes (digest message : List Nat) (length : Nat)
    (hd : digest.length = 32) :
    sha256 digest message length =
      be_bytes 4 (sha256_words message length).h0 ++ be_bytes 4 (sha256_words message length).h1 ++
      be_bytes 4 (sha256_words message length).h2 ++ be_bytes 4 (sha256_words message length).h3 ++
      be_bytes 4 (sha256_words message length).h4 ++ be_bytes 4 (sha256_words message length).h5 ++
      be_bytes 4 (sha256_words message length).h6 ++ be_bytes 4 (sha256_words message length).h7 := by
  unfold sha256
  simp only [be_bytes_four, List.cons_append, List.nil_append]
  generalize sha256_words message length = s
  apply ext_getD
  · simp only [List.length_set, hd, List.length_cons, List.length_nil]
  · intro k hk
    simp only [List.length_set, hd] at hk
    simp only [getD_set, List.length_set, hd]
    interval_cases k <;> simp only [List.getD_cons_zero, List.getD_cons_succ] <;> norm_num

/-- C7. `sha256` computes the FIPS 180-4 SHA-256 digest: for every message of
less than 2 ^ 29 bytes, the 32 bytes it stores are those of the reference
SHA-256 (standard padding, 64-word message schedule, 64 rounds, initial
values and constants of FIPS 180-4, big-endian output); the digest of "abc" is
BA7816BF 8F01CFEA 414140DE 5DAE2223 B00361A3 96177A9C B410FF61 F20015AD and the
digest of the 56-byte message "abcdbcdecdefdefgefghfghighijhijkijkljklmklmnlmnomnopnopq"
is 248D6A61 D20638B8 E5C02693 0C3E6039 A33CE459 64FF2167 F6ECEDD4 19DB06C1. -/
theorem sha256_fips180 :
    (∀ (digest message : List Nat), digest.length = 32 → (∀ b ∈ message, b < 256) →
      message.length < 2 ^ 29 →
      sha256 digest message message.length = sha256_ref message) ∧
    sha256 (List.replicate 32 0)
      [97, 98, 99] 3 =
      [0xba, 0x78, 0x16, 0xbf, 0x8f, 0x01, 0xcf, 0xea, 0x41, 0x41, 0x40, 0xde, 0x5d, 0xae, 0x22, 0x23,
     0xb0, 0x03, 0x61, 0xa3, 0x96, 0x17, 0x7a, 0x9c, 0xb4, 0x10, 0xff, 0x61, 0xf2, 0x00, 0x15, 0xad] ∧
    sha256 (List.replicate 32 0)
      [97, 98, 99, 100, 98, 99, 100, 101, 99, 100, 101, 102, 100, 101, 102, 103,
     101, 102, 103, 104, 102, 103, 104, 105, 103, 104, 105, 106, 104, 105, 106, 107,
     105, 106, 107, 108, 106, 107, 108, 109, 107, 108, 109, 110, 108, 109, 110, 111,
     109, 110, 111, 112, 110, 111, 112, 113] 56 =
      [0x24, 0x8d, 0x6a, 0x61, 0xd2, 0x06, 0x38, 0xb8, 0xe5, 0xc0, 0x26, 0x93, 0x0c, 0x3e, 0x60, 0x39,
     0xa3, 0x3c, 0xe4, 0x59, 0x64, 0xff, 0x21, 0x67, 0xf6, 0xec, 0xed, 0xd4, 0x19, 0xdb, 0x06, 0xc1] := by
  refine ⟨?_, by decide, by decide⟩
  intro digest message hd hbytes hL
  rw [sha256_eq_bytes digest message message.length hd, sha256_words_ref message hbytes hL]
  rfl

/-- C7, a concrete instance: the digest that `sha256` computes for "abc" is the
reference digest. -/
theorem sha256_fips180_witness :
    sha256 (List.replicate 32 0)
      [97, 98, 99] [97, 98, 99].length = sha256_ref [97, 98, 99] :=
  sha256_fips180.1 (List.replicate 32 0)
    [97, 98, 99] rfl (by decide) (by decide)

/-! ## Lemmas on sha1.h -/

theorem sha1_ref_schedule_length (M : List Nat) (n : Nat) :
    (sha1_ref_schedule M n).length = M.length + n := by
  induction n with
  | zero => rfl
  | succ n ih =>
    rw [sha1_ref_schedule, List.length_append, ih]
    rfl

theorem sha1_ref_schedule_succ_getD (M : List Nat) (n i : Nat) (hi : i < M.length + n) :
    (sha1_ref_schedule M (n + 1)).getD i 0 = (sha1_ref_schedule M n).getD i 0 := by
  rw [sha1_ref_schedule, List.getD_append _ _ _ _ (by rw [sha1_ref_schedule_length]; exact hi)]

/-- A longer schedule agrees with a shorter one on the words of the shorter. -/
theorem sha1_ref_schedule_mono (M : List Nat) (n m i : Nat) (hnm : n ≤ m)
    (hi : i < M.length + n) :
    (sha1_ref_schedule M m).getD i 0 = (sha1_ref_schedule M n).getD i 0 := by
  induction m with
  | zero =>
    have : n = 0 := by omega
    subst this
    rfl
  | succ m ih =>
    by_cases h : n = m + 1
    · subst h; rfl
    · rw [sha1_ref_schedule_succ_getD M m i (by omega), ih (by omega)]

/-- The recurrence of the SHA-1 message schedule. -/
theorem sha1_ref_schedule_rec (M : List Nat) (hM : M.length = 16) (N n : Nat) (hn : n < N) :
    (sha1_ref_schedule M N).getD (n + 16) 0 =
      rotl32 1 ((((sha1_ref_schedule M N).getD (n + 13) 0 ^^^
        (sha1_ref_schedule M N).getD (n + 8) 0) ^^^
        (sha1_ref_schedule M N).getD (n + 2) 0) ^^^ (sha1_ref_schedule M N).getD n 0) := by
  rw [sha1_ref_schedule_mono M (n + 1) N (n + 16) (by omega) (by omega),
    sha1_ref_schedule_mono M n N (n + 13) (by omega) (by omega),
    sha1_ref_schedule_mono M n N (n + 8) (by omega) (by omega),
    sha1_ref_schedule_mono M n N (n + 2) (by omega) (by omega),
    sha1_ref_schedule_mono M n N n (by omega) (by omega),
    sha1_ref_schedule,
    List.getD_append_right _ _ _ _ (by rw [sha1_ref_schedule_length]; omega),
    sha1_ref_schedule_length, hM, show n + 16 - (16 + n) = 0 by omega]
  rfl

theorem list_five (l : List Nat) (h : l.length = 5) :
    l = [l.getD 0 0, l.getD 1 0, l.getD 2 0, l.getD 3 0, l.getD 4 0] := by
  apply ext_getD
  · rw [h]; rfl
  · intro k hk
    rw [h] at hk
    interval_cases k <;> rfl

/-- One round of `sha1` is one round of the reference, and replaces word `t`
of the ring buffer by word `t + 16` of the message schedule. -/
theorem sha1_round_ref (M : List Nat) (hM : M.length = 16) (t : Nat) (ht : t < 80)
    (w v : List Nat) (hw : sha_ring (sha1_ref_schedule M 80) t w)
    (hv : v.getD 1 0 < 2 ^ 32) :
    sha1_round t (w, v) =
      (w.set (t % 16) ((sha1_ref_schedule M 80).getD (t + 16) 0),
        sha1_ref_round (sha1_ref_schedule M 64) t v) := by
  have g0 := sha_ring_getD _ t w hw 0 (by omega)
  have g13 := sha_ring_getD _ t w hw 13 (by omega)
  have g8 := sha_ring_getD _ t w hw 8 (by omega)
  have g2 := sha_ring_getD _ t w hw 2 (by omega)
  rw [Nat.add_zero] at g0
  have hWt : (sha1_ref_schedule M 64).getD t 0 = (sha1_ref_schedule M 80).getD t 0 :=
    (sha1_ref_schedule_mono M 64 80 t (by omega) (by omega)).symm
  have hrot : ∀ x, shl32 x 1 ||| (x >>> 31) = rotl32 1 x := fun _ => rfl
  have hrot5 : ∀ x, shl32 x 5 ||| (x >>> 27) = rotl32 5 x := fun _ => rfl
  have hrot30 : ∀ x, shl32 x 30 ||| (x >>> 2) = rotl32 30 x := fun _ => rfl
  unfold sha1_round sha1_ref_round
  simp only [and15_sub3, and15_sub8, and15_sub14, and15_nat, g0, g13, g8, g2, hrot, hrot5,
    hrot30, sha1_ref_schedule_rec M hM 80 t (by omega), hWt, ch_eq _ _ _ hv]
  unfold sha1_ref_f sha1_ref_k
  by_cases h20 : t < 20
  · simp only [if_pos h20, if_pos (show t ≤ 19 by omega), add32, Nat.add_mod_mod,
      Nat.mod_add_mod]
  · by_cases h40 : t < 40
    · simp only [if_neg h20, if_pos h40, if_neg (show ¬ t ≤ 19 by omega),
        if_pos (show t ≤ 39 by omega), add32, ref_parity, Nat.add_mod_mod, Nat.mod_add_mod]
    · by_cases h60 : t < 60
      · simp only [if_neg h20, if_neg h40, if_pos h60, if_neg (show ¬ t ≤ 19 by omega),
          if_neg (show ¬ t ≤ 39 by omega), if_pos (show t ≤ 59 by omega), add32, ref_maj,
          Nat.add_mod_mod, Nat.mod_add_mod]
      · simp only [if_neg h20, if_neg h40, if_neg h60, if_neg (show ¬ t ≤ 19 by omega),
          if_neg (show ¬ t ≤ 39 by omega), if_neg (show ¬ t ≤ 59 by omega), add32,
          ref_parity, Nat.add_mod_mod, Nat.mod_add_mod]

theorem rotl32_lt (n x : Nat) (hx : x < 2 ^ 32) : rotl32 n x < 2 ^ 32 := by
  unfold rotl32
  apply Nat.or_lt_two_pow
  · exact Nat.mod_lt _ (by norm_num)
  · rw [Nat.shiftRight_eq_div_pow]
    exact lt_of_le_of_lt (Nat.div_le_self _ _) hx

/-- All five working variables are 32-bit words. -/
theorem sha1_ref_round_lt (W : List Nat) (t : Nat) (v : List Nat)
    (hv : ∀ i, v.getD i 0 < 2 ^ 32) (i : Nat) : (sha1_ref_round W t v).getD i 0 < 2 ^ 32 := by
  unfold sha1_ref_round
  simp only
  rcases i with _ | _ | _ | _ | _ | i
  · exact Nat.mod_lt _ (by norm_num)
  · exact hv 0
  · exact rotl32_lt 30 _ (hv 1)
  · exact hv 2
  · exact hv 3
  · show (0 : Nat) < 2 ^ 32
    norm_num

/-- The round loop of `sha1`, run on the words of a block, is the round loop of
the reference. -/
theorem sha1_rounds_ref (M : List Nat) (hM : M.length = 16) (H : List Nat)
    (hH : ∀ i, H.getD i 0 < 2 ^ 32) (t : Nat) (ht : t ≤ 80) :
    ∃ w, for_loop sha1_round t (M, H) =
        (w, for_loop (sha1_ref_round (sha1_ref_schedule M 64)) t H) ∧
      sha_ring (sha1_ref_schedule M 80) t w ∧
      ∀ i, (for_loop (sha1_ref_round (sha1_ref_schedule M 64)) t H).getD i 0 < 2 ^ 32 := by
  induction t with
  | zero =>
    refine ⟨M, rfl, ⟨hM, ?_⟩, hH⟩
    intro s hs
    rw [sha1_ref_schedule_mono M 0 80 _ (by omega) (by omega)]
    show M.getD s 0 = M.getD (0 + (s + 16 - 0 % 16) % 16) 0
    congr 1
    omega
  | succ t ih =>
    obtain ⟨w, he, hr, hv⟩ := ih (by omega)
    refine ⟨w.set (t % 16) ((sha1_ref_schedule M 80).getD (t + 16) 0), ?_,
      sha_ring_step _ t w hr, ?_⟩
    · rw [for_loop_succ, he, sha1_round_ref M hM t (by omega) w _ hr (hv 1)]
      rfl
    · rw [for_loop_succ]
      exact sha1_ref_round_lt _ _ _ hv

/-- The processing of a block by `sha1` is the reference compression. -/
theorem sha1_block_ref (m w h : List Nat) (hh : h.length = 5)
    (hlt : ∀ i, h.getD i 0 < 2 ^ 32) (hM : (sha_load_block w m).length = 16) :
    (sha1_block m w h).2 = sha1_ref_compress h (sha_load_block w m) ∧
    (sha1_block m w h).1.length = 16 := by
  obtain ⟨w2, he, hr, _⟩ := sha1_rounds_ref (sha_load_block w m) hM h hlt 80 (Nat.le_refl _)
  unfold sha1_block sha1_ref_compress
  simp only
  rw [← list_five h hh, he]
  refine ⟨?_, hr.1⟩
  simp only
  generalize (for_loop (sha1_ref_round (sha1_ref_schedule (sha_load_block w m) 64)) 80 h) = v
  rw [list_five h hh]
  rfl

theorem sha1_ref_compress_length (H M : List Nat) : (sha1_ref_compress H M).length = 5 := rfl

theorem sha1_ref_compress_lt (H M : List Nat) (i : Nat) :
    (sha1_ref_compress H M).getD i 0 < 2 ^ 32 := by
  unfold sha1_ref_compress
  simp only
  rcases i with _ | _ | _ | _ | _ | i
  · exact Nat.mod_lt _ (by norm_num)
  · exact Nat.mod_lt _ (by norm_num)
  · exact Nat.mod_lt _ (by norm_num)
  · exact Nat.mod_lt _ (by norm_num)
  · exact Nat.mod_lt _ (by norm_num)
  · show (0 : Nat) < 2 ^ 32
    norm_num

theorem sha1_ref_hash_length (padded : List Nat) (b : Nat) :
    (sha1_ref_hash padded b).length = 5 := by
  cases b with
  | zero => rfl
  | succ b => rfl

theorem sha1_ref_hash_lt (padded : List Nat) (b : Nat) (i : Nat) :
    (sha1_ref_hash padded b).getD i 0 < 2 ^ 32 := by
  cases b with
  | zero =>
    rw [sha1_ref_hash]
    unfold sha1_ref_init
    rcases i with _ | _ | _ | _ | _ | i
    · show (0x67452301 : Nat) < 2 ^ 32
      norm_num
    · show (0xefcdab89 : Nat) < 2 ^ 32
      norm_num
    · show (0x98badcfe : Nat) < 2 ^ 32
      norm_num
    · show (0x10325476 : Nat) < 2 ^ 32
      norm_num
    · show (0xc3d2e1f0 : Nat) < 2 ^ 32
      norm_num
    · show (0 : Nat) < 2 ^ 32
      norm_num
  | succ b => exact sha1_ref_compress_lt _ _ i

/-- State of `sha1` after `b` iterations of its block loop. -/
theorem sha1_iterate (msg : List Nat) (hbytes : ∀ x ∈ msg, x < 256)
    (hL : msg.length < 2 ^ 29) (b : Nat) (hb : b ≤ (msg.length + 8) / 64 + 1) :
    ((sha1_body msg msg.length)^[b]
      { i := 0, pad := List.replicate 64 0, w := List.replicate 16 0,
        h := [0x67452301, 0xefcdab89, 0x98badcfe, 0x10325476, 0xc3d2e1f0] }).i = 64 * b ∧
    ((sha1_body msg msg.length)^[b]
      { i := 0, pad := List.replicate 64 0, w := List.replicate 16 0,
        h := [0x67452301, 0xefcdab89, 0x98badcfe, 0x10325476, 0xc3d2e1f0] }).pad.length
      = 64 ∧
    ((sha1_body msg msg.length)^[b]
      { i := 0, pad := List.replicate 64 0, w := List.replicate 16 0,
        h := [0x67452301, 0xefcdab89, 0x98badcfe, 0x10325476, 0xc3d2e1f0] }).w.length
      = 16 ∧
    ((sha1_body msg msg.length)^[b]
      { i := 0, pad := List.replicate 64 0, w := List.replicate 16 0,
        h := [0x67452301, 0xefcdab89, 0x98badcfe, 0x10325476, 0xc3d2e1f0] }).h
      = sha1_ref_hash (sha_ref_pad msg) b := by
  induction b with
  | zero => exact ⟨rfl, rfl, rfl, rfl⟩
  | succ b ih =>
    obtain ⟨hi, hp, hw, hH⟩ := ih (by omega)
    rw [Function.iterate_succ_apply']
    generalize ((sha1_body msg msg.length)^[b]
      { i := 0, pad := List.replicate 64 0, w := List.replicate 16 0,
        h := [0x67452301, 0xefcdab89, 0x98badcfe, 0x10325476, 0xc3d2e1f0] }) = s at *
    have hm : (if (s.i : Int) > (msg.length : Int) - 64 then
          (if (s.i : Int) > (msg.length : Int) - 64 then
            sha_pad_block s.pad msg msg.length s.i else s.pad)
        else msg.drop s.i) =
        (if ((64 * b : Nat) : Int) > (msg.length : Int) - 64
          then sha_pad_block s.pad msg msg.length (64 * b) else msg.drop (64 * b)) := by
      rw [hi]
      by_cases hc : ((64 * b : Nat) : Int) > (msg.length : Int) - 64
      · rw [if_pos hc, if_pos hc, if_pos hc]
      · rw [if_neg hc, if_neg hc]
    have hload := sha_load_block_ref s.pad s.w msg b hp hw hbytes hL (by omega)
    have hblk := sha1_block_ref
      (if ((64 * b : Nat) : Int) > (msg.length : Int) - 64
        then sha_pad_block s.pad msg msg.length (64 * b) else msg.drop (64 * b))
      s.w s.h (by rw [hH]; exact sha1_ref_hash_length _ _)
      (by rw [hH]; exact sha1_ref_hash_lt _ _)
      (by rw [hload]; exact sha_ref_words_length _ _)
    unfold sha1_body
    simp only [hm]
    refine ⟨by rw [hi]; omega, ?_, hblk.2, ?_⟩
    · split_ifs
      · rw [sha_pad_block_length, hp]
      · exact hp
    · rw [hblk.1, hload, hH, sha1_ref_hash]

/-- The array `h` computed by `sha1` is the final reference hash value. -/
theorem sha1_words_ref (msg : List Nat) (hbytes : ∀ x ∈ msg, x < 256)
    (hL : msg.length < 2 ^ 29) :
    sha1_words msg msg.length =
      sha1_ref_hash (sha_ref_pad msg) ((sha_ref_pad msg).length / 64) := by
  have hN : (sha_ref_pad msg).length / 64 = (msg.length + 8) / 64 + 1 := by
    rw [sha_ref_pad_length]
    omega
  unfold sha1_words
  rw [while_loop_iterate _ _ ((msg.length + 8) / 64 + 1) (msg.length + 1) _ (by omega), hN]
  · exact (sha1_iterate msg hbytes hL _ (Nat.le_refl _)).2.2.2
  · intro j hj
    rw [(sha1_iterate msg hbytes hL j (by omega)).1]
    apply decide_eq_true
    omega
  · rw [(sha1_iterate msg hbytes hL _ (Nat.le_refl _)).1]
    apply decide_eq_false
    omega

/-- The 20 bytes stored by `sha1` are the big-endian bytes of the words of `h`. -/
theorem sha1_eq_bytes (digest message : List Nat) (length : Nat) (hd : digest.length = 20) :
    sha1 digest message length =
      be_bytes 4 ((sha1_words message length).getD 0 0) ++
      be_bytes 4 ((sha1_words message length).getD 1 0) ++
      be_bytes 4 ((sha1_words message length).getD 2 0) ++
      be_bytes 4 ((sha1_words message length).getD 3 0) ++
      be_bytes 4 ((sha1_words message length).getD 4 0) := by
  unfold sha1
  simp only [be_bytes_four, List.cons_append, List.nil_append, for_loop]
  generalize sha1_words message length = s
  apply ext_getD
  · simp only [List.length_set, hd, List.length_cons, List.length_nil]
  · intro k hk
    simp only [List.length_set, hd] at hk
    simp only [getD_set, List.length_set, hd]
    interval_cases k <;> simp only [List.getD_cons_zero, List.getD_cons_succ] <;> norm_num

/-- C8. `sha1` computes the FIPS 180-4 SHA-1 digest: for every message of less
than 2 ^ 29 bytes, the 20 bytes it stores are those of the reference SHA-1
(standard padding, 80-word message schedule, 80 rounds with the four stages of
f_t and K_t, initial values of FIPS 180-4, big-endian output); the digest of
"abc" is A9993E36 4706816A BA3E2571 7850C26C 9CD0D89D and the digest of the
56-byte message "abcdbcdecdefdefgefghfghighijhijkijkljklmklmnlmnomnopnopq" is
84983E44 1C3BD26E BAAE4AA1 F95129E5 E54670F1. -/
theorem sha1_fips180 :
    (∀ (digest message : List Nat), digest.length = 20 → (∀ b ∈ message, b < 256) →
      message.length < 2 ^ 29 →
      sha1 digest message message.length = sha1_ref message) ∧
    sha1 (List.replicate 20 0)
      [97, 98, 99] 3 =
      [0xa9, 0x99, 0x3e, 0x36, 0x47, 0x06, 0x81, 0x6a, 0xba, 0x3e, 0x25, 0x71, 0x78, 0x50, 0xc2, 0x6c,
     0x9c, 0xd0, 0xd8, 0x9d] ∧
    sha1 (List.replicate 20 0)
      [97, 98, 99, 100, 98, 99, 100, 101, 99, 100, 101, 102, 100, 101, 102, 103,
     101, 102, 103, 104, 102, 103, 104, 105, 103, 104, 105, 106, 104, 105, 106, 107,
     105, 106, 107, 108, 106, 107, 108, 109, 107, 108, 109, 110, 108, 109, 110, 111,
     109, 110, 111, 112, 110, 111, 112, 113] 56 =
      [0x84, 0x98, 0x3e, 0x44, 0x1c, 0x3b, 0xd2, 0x6e, 0xba, 0xae, 0x4a, 0xa1, 0xf9, 0x51, 0x29, 0xe5,
     0xe5, 0x46, 0x70, 0xf1] := by
  refine ⟨?_, by decide, by decide⟩
  intro digest message hd hbytes hL
  rw [sha1_eq_bytes digest message message.length hd, sha1_words_ref message hbytes hL]
  rfl

/-- C8, a concrete instance: the digest that `sha1` computes for "abc" is the
reference digest. -/
theorem sha1_fips180_witness :
    sha1 (List.replicate 20 0)
      [97, 98, 99] [97, 98, 99].length = sha1_ref [97, 98, 99] :=
  sha1_fips180.1 (List.replicate 20 0)
    [97, 98, 99] rfl (by decide) (by decide)

/-! ## Shape of the Base64 padding -/

theorem getD_mem_of_lt (l : List Nat) (i : Nat) (h : i < l.length) : l.getD i 0 ∈ l := by
  rw [List.getD_eq_getElem l 0 h]
  exact List.getElem_mem h

theorem base64_alphabet_mem (x : Nat) : base64_alphabet.getD (x &&& 63) 0 ∈ base64_alphabet := by
  apply getD_mem_of_lt
  rw [and_63]
  have : base64_alphabet.length = 64 := by decide
  omega

theorem base64_char_mem (input : List Nat) (length k : Nat)
    (h : k % 4 = 0 ∨ k % 4 = 1 ∨ k / 4 * 3 + 2 < length ∨ (k % 4 = 2 ∧ k / 4 * 3 + 1 < length)) :
    base64_char input length k ∈ base64_alphabet := by
  unfold base64_char
  simp only []
  split_ifs <;> first | exact base64_alphabet_mem _ | omega

theorem base64_char_pad (input : List Nat) (length k : Nat)
    (h : (k % 4 = 2 ∧ length ≤ k / 4 * 3 + 1) ∨ (k % 4 = 3 ∧ length ≤ k / 4 * 3 + 2)) :
    base64_char input length k = 61 := by
  unfold base64_char
  simp only []
  split_ifs <;> first | rfl | omega

/-- C11: on every input of `length` bytes the encoded output (the first
`(length + 2) / 3 * 4` bytes of the buffer) ends with exactly two `=` (code 61)
when `length % 3 = 1`, with exactly one when `length % 3 = 2`, and every other
output character is a member of the 64-character alphabet, which does not
contain `=`; so there is no `=` at all when `length % 3 = 0`. -/
theorem base64_padding_shape (output input : List Nat) (length : Nat)
    (hout : (length + 2) / 3 * 4 ≤ output.length) :
    (length % 3 = 1 →
      (base64_encode output input length).2.getD ((base64_encode output input length).1 - 1) 0 = 61 ∧
      (base64_encode output input length).2.getD ((base64_encode output input length).1 - 2) 0 = 61 ∧
      ∀ k, k + 2 < (base64_encode output input length).1 →
        (base64_encode output input length).2.getD k 0 ∈ base64_alphabet) ∧
    (length % 3 = 2 →
      (base64_encode output input length).2.getD ((base64_encode output input length).1 - 1) 0 = 61 ∧
      ∀ k, k + 1 < (base64_encode output input length).1 →
        (base64_encode output input length).2.getD k 0 ∈ base64_alphabet) ∧
    (length % 3 = 0 →
      ∀ k, k < (base64_encode output input length).1 →
        (base64_encode output input length).2.getD k 0 ∈ base64_alphabet) ∧
    61 ∉ base64_alphabet := by
  rw [base64_encode_fst]
  refine ⟨fun h => ⟨?_, ?_, fun k hk => ?_⟩, fun h => ⟨?_, fun k hk => ?_⟩, fun h k hk => ?_,
    by decide⟩
  · rw [base64_encode_getD, if_pos (by omega)]
    exact base64_char_pad _ _ _ (by omega)
  · rw [base64_encode_getD, if_pos (by omega)]
    exact base64_char_pad _ _ _ (by omega)
  · rw [base64_encode_getD, if_pos (by omega)]
    exact base64_char_mem _ _ _ (by omega)
  · rw [base64_encode_getD, if_pos (by omega)]
    exact base64_char_pad _ _ _ (by omega)
  · rw [base64_encode_getD, if_pos (by omega)]
    exact base64_char_mem _ _ _ (by omega)
  · rw [base64_encode_getD, if_pos (by omega)]
    exact base64_char_mem _ _ _ (by omega)

theorem base64_padding_shape_witness :
    (1 + 2) / 3 * 4 ≤ (List.replicate 4 0).length ∧
    (base64_encode (List.replicate 4 0) [102] 1).2 = [90, 103, 61, 61] ∧
    (base64_encode (List.replicate 4 0) [102] 1).2.getD
      ((base64_encode (List.replicate 4 0) [102] 1).1 - 2) 0 = 61 :=
  ⟨by decide, by decide,
   ((base64_padding_shape (List.replicate 4 0) [102] 1 (by decide)).1 (by decide)).2.1⟩

/-! ## Lemmas on aes-kw.h -/

theorem getD_append (a b : List Nat) (k : Nat) :
    (a ++ b).getD k 0 = if k < a.length then a.getD k 0 else b.getD (k - a.length) 0 := by
  simp only [List.getD_eq_getElem?_getD, List.getElem?_append]
  split_ifs <;> rfl

theorem getD_set_blocks (l : List (List Nat)) (i j : Nat) (v : List Nat) :
    (l.set i v).getD j [] = if i = j ∧ j < l.length then v else l.getD j [] := by
  simp only [List.getD_eq_getElem?_getD, List.getElem?_set]
  by_cases h : i = j
  · subst h
    by_cases h2 : i < l.length
    · simp [h2]
    · simp [h2, List.getElem?_eq_none (Nat.le_of_not_lt h2)]
  · simp [h]

theorem flatten_length (R : List (List Nat)) (h : ∀ b ∈ R, b.length = 8) :
    R.flatten.length = 8 * R.length := by
  induction R with
  | nil => rfl
  | cons b R ih =>
    rw [List.flatten_cons, List.length_append, ih (fun c hc => h c (List.mem_cons_of_mem _ hc)),
      h b (List.mem_cons_self _ _), List.length_cons]
    omega

theorem flatten_getD (R : List (List Nat)) (h : ∀ b ∈ R, b.length = 8) (k : Nat) :
    R.flatten.getD k 0 = blocks_byte R k := by
  induction R generalizing k with
  | nil => simp [blocks_byte]
  | cons b R ih =>
    rw [List.flatten_cons, getD_append, h b (List.mem_cons_self _ _)]
    unfold blocks_byte
    by_cases hk : k < 8
    · rw [if_pos hk, Nat.div_eq_of_lt hk, Nat.mod_eq_of_lt hk]
      rfl
    · rw [if_neg hk, ih (fun c hc => h c (List.mem_cons_of_mem _ hc))]
      unfold blocks_byte
      have h1 : k / 8 = (k - 8) / 8 + 1 := by omega
      have h2 : (k - 8) % 8 = k % 8 := by omega
      rw [h1, h2]
      rfl

theorem blocks_byte_set (R : List (List Nat)) (i : Nat) (b : List Nat) (k : Nat)
    (hi : i < R.length) :
    blocks_byte (R.set i b) k = if k / 8 = i then b.getD (k % 8) 0 else blocks_byte R k := by
  unfold blocks_byte
  rw [getD_set_blocks]
  by_cases h : k / 8 = i
  · rw [if_pos ⟨h.symm, by omega⟩, if_pos h]
  · rw [if_neg (fun hh => h hh.1.symm), if_neg h]

theorem mem_length_of_getD (R : List (List Nat)) (h : ∀ m, m < R.length → (R.getD m []).length = 8) :
    ∀ b ∈ R, b.length = 8 := by
  intro b hb
  obtain ⟨m, hm, rfl⟩ := List.getElem_of_mem hb
  have := h m hm
  rwa [List.getD_eq_getElem _ _ hm] at this

theorem aes_kw_read_loop (plaintext : List Nat) (m : Nat) (s : KwState) :
    for_loop
      (fun w (s : KwState) =>
        { s with x := s.x.set (8 + w) (aes_kw_read plaintext s), r := s.r + 1 }) m s =
    { s with
      x := for_loop (fun w x => x.set (8 + w) (aes_kw_read plaintext { s with r := s.r + w })) m s.x,
      r := s.r + m } := by
  induction m with
  | zero => rfl
  | succ m ih =>
    rw [for_loop_succ, ih, for_loop_succ]
    rfl

theorem aes_kw_write_loop (m : Nat) (s : KwState) :
    for_loop
      (fun w (s : KwState) =>
        { s with ciphertext := s.ciphertext.set s.c (s.x.getD (8 + w) 0), c := s.c + 1 }) m s =
    { s with
      ciphertext := for_loop (fun w ct => ct.set (s.c + w) (s.x.getD (8 + w) 0)) m s.ciphertext,
      c := s.c + m } := by
  induction m with
  | zero => rfl
  | succ m ih =>
    rw [for_loop_succ, ih, for_loop_succ]
    rfl
theorem aes_kw_step_eq (E : Cipher) (plaintext key : List Nat) (n j i : Nat) (s : KwState) :
    aes_kw_step E plaintext key n j i s =
      { x := (aes_encrypt E (for_loop (fun w x => x.set (8 + w)
            (aes_kw_read plaintext { s with r := s.r + w })) 8 s.x) key).set 7
          (((aes_encrypt E (for_loop (fun w x => x.set (8 + w)
            (aes_kw_read plaintext { s with r := s.r + w })) 8 s.x) key).getD 7 0 ^^^
              (n * j + i)) % 256),
        r_in_ciphertext := s.r_in_ciphertext, r := s.r + 8, c := s.c + 8,
        ciphertext := for_loop (fun w ct => ct.set (s.c + w)
          (((aes_encrypt E (for_loop (fun w x => x.set (8 + w)
            (aes_kw_read plaintext { s with r := s.r + w })) 8 s.x) key).set 7
          (((aes_encrypt E (for_loop (fun w x => x.set (8 + w)
            (aes_kw_read plaintext { s with r := s.r + w })) 8 s.x) key).getD 7 0 ^^^
              (n * j + i)) % 256)).getD (8 + w) 0)) 8 s.ciphertext } := by
  unfold aes_kw_step
  simp only [aes_kw_read_loop, aes_kw_write_loop]

/-- The block that the read loop of `aes_kw` leaves in `x`. -/
theorem aes_kw_read_block (n : Nat) (ct0 plaintext : List Nat) (s : KwState)
    (AR : List Nat × List (List Nat)) (i : Nat) (hi : i < n)
    (h : KwInv n ct0 plaintext s AR i) :
    for_loop (fun w x => x.set (8 + w) (aes_kw_read plaintext { s with r := s.r + w })) 8 s.x =
      AR.1 ++ AR.2.getD i [] := by
  obtain ⟨hx, hA, hxA, hR, hRl, hcl, hfr, hdone, htodo, hr, hc⟩ := h
  have hb := hRl i hi
  apply ext_getD
  · rw [for_loop_set_length (fun w => 8 + w), List.length_append, hx, hA, hb]
  · intro k hk
    rw [for_loop_set_length (fun w => 8 + w), hx] at hk
    rw [for_loop_set_getD (fun w _ => aes_kw_read plaintext { s with r := s.r + w }) 8 8,
      getD_append, hA, hx]
    by_cases h8 : k < 8
    · rw [if_neg (by omega), if_pos h8]
      exact hxA k h8
    · rw [if_pos ⟨by omega, by omega, hk⟩, if_neg h8]
      have ht := htodo (8 * i + (k - 8)) (by omega) (by omega)
      unfold blocks_byte at ht
      have e1 : (8 * i + (k - 8)) / 8 = i := by omega
      have e2 : (8 * i + (k - 8)) % 8 = k - 8 := by omega
      rw [e1, e2] at ht
      rw [← ht]
      unfold aes_kw_read
      simp only []
      rw [hr]
      by_cases hc : s.r_in_ciphertext = true
      · rw [if_pos hc, if_pos hc, if_pos hc]
        congr 1
        omega
      · rw [if_neg hc, if_neg hc, if_neg hc]
        congr 1
        omega

theorem aes_kw_step_inv (E : Cipher) (plaintext key ct0 : List Nat) (n j i : Nat) (s : KwState)
    (AR : List Nat × List (List Nat)) (hct : 8 * (n + 1) ≤ ct0.length) (hi : i < n)
    (h : KwInv n ct0 plaintext s AR i) :
    KwInv n ct0 plaintext (aes_kw_step E plaintext key n j (i + 1) s)
      (kw_step E key (n * j + (i + 1)) i AR) (i + 1) := by
  have hblock := aes_kw_read_block n ct0 plaintext s AR i hi h
  obtain ⟨hx, hA, hxA, hR, hRl, hcl, hfr, hdone, htodo, hr, hc⟩ := h
  rw [aes_kw_step_eq, hblock]
  have hBl := aes_encrypt_length E (AR.1 ++ AR.2.getD i []) key
  unfold kw_step
  simp only []
  generalize aes_encrypt E (AR.1 ++ AR.2.getD i []) key = B at *
  generalize (B.getD 7 0 ^^^ (n * j + (i + 1))) % 256 = v
  have hw : ∀ k, (for_loop (fun w ct => ct.set (s.c + w) ((B.set 7 v).getD (8 + w) 0)) 8
      s.ciphertext).getD k 0 =
      if s.c ≤ k ∧ k < s.c + 8 ∧ k < s.ciphertext.length then B.getD (8 + (k - s.c)) 0
      else s.ciphertext.getD k 0 := by
    intro k
    rw [for_loop_set_getD (fun w _ => (B.set 7 v).getD (8 + w) 0) s.c 8]
    by_cases hk : s.c ≤ k ∧ k < s.c + 8 ∧ k < s.ciphertext.length
    · rw [if_pos hk, if_pos hk, getD_set, if_neg (by omega)]
    · rw [if_neg hk, if_neg hk]
  refine ⟨?_, ?_, ?_, ?_, ?_, ?_, ?_, ?_, ?_, ?_, ?_⟩
  · show (B.set 7 v).length = 16
    rw [List.length_set, hBl]
  · show ((B.take 8).set 7 v).length = 8
    rw [List.length_set, List.length_take, hBl]
    rfl
  · intro w hw8
    show (B.set 7 v).getD w 0 = ((B.take 8).set 7 v).getD w 0
    rw [getD_set, getD_set, getD_take, List.length_take, hBl, if_pos hw8]
    by_cases h7 : 7 = w
    · rw [if_pos ⟨h7, by omega⟩, if_pos ⟨h7, by omega⟩]
    · rw [if_neg (fun hh => h7 hh.1), if_neg (fun hh => h7 hh.1)]
  · show (AR.2.set i (B.drop 8)).length = n
    rw [List.length_set, hR]
  · intro m hm
    show ((AR.2.set i (B.drop 8)).getD m []).length = 8
    rw [getD_set_blocks]
    by_cases him : i = m
    · rw [if_pos ⟨him, by omega⟩, List.length_drop, hBl]
    · rw [if_neg (fun hh => him hh.1)]
      exact hRl m hm
  · show (for_loop (fun w ct => ct.set (s.c + w) ((B.set 7 v).getD (8 + w) 0)) 8
      s.ciphertext).length = ct0.length
    rw [for_loop_set_length (fun w => s.c + w), hcl]
  · intro k hk
    show (for_loop (fun w ct => ct.set (s.c + w) ((B.set 7 v).getD (8 + w) 0)) 8
      s.ciphertext).getD k 0 = ct0.getD k 0
    rw [hw, if_neg (by omega)]
    exact hfr k hk
  · intro k hk
    show (for_loop (fun w ct => ct.set (s.c + w) ((B.set 7 v).getD (8 + w) 0)) 8
      s.ciphertext).getD (8 + k) 0 = blocks_byte (AR.2.set i (B.drop 8)) k
    rw [hw, blocks_byte_set _ _ _ _ (by omega)]
    by_cases hki : k / 8 = i
    · rw [if_pos ⟨by omega, by omega, by omega⟩, if_pos hki, getD_drop]
      congr 1
      omega
    · rw [if_neg (by omega), if_neg hki]
      exact hdone k (by omega)
  · intro k hk1 hk2
    show (if s.r_in_ciphertext = true then
        (for_loop (fun w ct => ct.set (s.c + w) ((B.set 7 v).getD (8 + w) 0)) 8
          s.ciphertext).getD (8 + k) 0
      else plaintext.getD k 0) = blocks_byte (AR.2.set i (B.drop 8)) k
    have hold := htodo k (by omega) hk2
    have hsame : (for_loop (fun w ct => ct.set (s.c + w) ((B.set 7 v).getD (8 + w) 0)) 8
        s.ciphertext).getD (8 + k) 0 = s.ciphertext.getD (8 + k) 0 := by
      rw [hw]
      exact if_neg (by omega)
    have hne : ¬ k / 8 = i := by omega
    rw [hsame, blocks_byte_set _ _ _ _ (by omega)]
    rw [if_neg hne] 
    exact hold
  · show s.r + 8 = (if s.r_in_ciphertext = true then 8 else 0) + 8 * (i + 1)
    rw [hr]
    omega
  · show s.c + 8 = 8 + 8 * (i + 1)
    omega
theorem aes_kw_steps_inv (E : Cipher) (plaintext key ct0 : List Nat) (n j : Nat)
    (hct : 8 * (n + 1) ≤ ct0.length) (s : KwState) (AR : List Nat × List (List Nat))
    (h : KwInv n ct0 plaintext s AR 0) (m : Nat) (hm : m ≤ n) :
    KwInv n ct0 plaintext (for_loop (fun i s => aes_kw_step E plaintext key n j (i + 1) s) m s)
      (for_loop (fun i AR => kw_step E key (n * j + (i + 1)) i AR) m AR) m := by
  induction m with
  | zero => exact h
  | succ m ih =>
    rw [for_loop_succ, for_loop_succ]
    exact aes_kw_step_inv E plaintext key ct0 n j m _ _ hct (by omega) (ih (by omega))

theorem aes_kw_round_inv (E : Cipher) (plaintext key ct0 : List Nat) (n j : Nat)
    (hct : 8 * (n + 1) ≤ ct0.length) (s : KwState) (AR : List Nat × List (List Nat))
    (h : KwInv n ct0 plaintext { s with c := 8 } AR 0) :
    KwInv n ct0 plaintext { aes_kw_round E plaintext key n j s with c := 8 }
      (for_loop (fun i AR => kw_step E key (n * j + (i + 1)) i AR) n AR) 0 := by
  have hn := aes_kw_steps_inv E plaintext key ct0 n j hct _ _ h n (le_refl n)
  obtain ⟨hx, hA, hxA, hR, hRl, hcl, hfr, hdone, -, -, -⟩ := hn
  unfold aes_kw_round
  exact ⟨hx, hA, hxA, hR, hRl, hcl, hfr, fun k hk => absurd hk (by omega),
    fun k _ hk => hdone k hk, rfl, rfl⟩

theorem aes_kw_rounds_inv (E : Cipher) (ct0 key : List Nat) (P : List (List Nat))
    (hP : ∀ b ∈ P, b.length = 8) (hct : 8 * (P.length + 1) ≤ ct0.length) (m : Nat) :
    KwInv P.length ct0 P.flatten
      { for_loop (aes_kw_round E P.flatten key P.length) m
          { x := for_loop (fun w x => x.set w 0xa6) 8 (List.replicate 16 0),
            r_in_ciphertext := false, r := 0, c := 0, ciphertext := ct0 } with c := 8 }
      (kw_rounds E key P m) 0 := by
  induction m with
  | zero =>
    refine ⟨rfl, rfl, ?_, rfl, ?_, rfl, fun k _ => rfl, fun k hk => absurd hk (by omega), ?_,
      rfl, rfl⟩
    · intro w hw
      interval_cases w <;> rfl
    · intro m hm
      have hmem : P.getD m [] ∈ P := by
        rw [List.getD_eq_getElem _ _ hm]
        exact List.getElem_mem hm
      exact hP _ hmem
    · intro k _ _
      exact flatten_getD P hP k
  | succ m ih =>
    unfold kw_rounds
    rw [for_loop_succ, for_loop_succ]
    exact aes_kw_round_inv E P.flatten key ct0 P.length m hct _ _ ih

theorem kw_rounds_length (E : Cipher) (key : List Nat) (P : List (List Nat))
    (hP : ∀ b ∈ P, b.length = 8) (m : Nat) :
    (kw_rounds E key P m).1.length = 8 ∧ (kw_rounds E key P m).2.length = P.length ∧
      ∀ b ∈ (kw_rounds E key P m).2, b.length = 8 := by
  have h := aes_kw_rounds_inv E (List.replicate (8 * (P.length + 1)) 0) key P hP
    (by rw [List.length_replicate]) m
  obtain ⟨-, hA, -, hR, hRl, -⟩ := h
  exact ⟨hA, hR, mem_length_of_getD _ (by rw [hR]; exact hRl)⟩

/-- The state of `aes_kw` after its six rounds. -/
theorem aes_kw_rounds_spec (E : Cipher) (ct0 key : List Nat) (P : List (List Nat))
    (hP : ∀ b ∈ P, b.length = 8) (hct : 8 * (P.length + 1) ≤ ct0.length) :
    (aes_kw_rounds E ct0 P.flatten P.length key).x.length = 16 ∧
    (∀ w, w < 8 → (aes_kw_rounds E ct0 P.flatten P.length key).x.getD w 0 =
      (kw_rounds E key P 6).1.getD w 0) ∧
    (aes_kw_rounds E ct0 P.flatten P.length key).ciphertext.length = ct0.length ∧
    (∀ k, 8 * (P.length + 1) ≤ k →
      (aes_kw_rounds E ct0 P.flatten P.length key).ciphertext.getD k 0 = ct0.getD k 0) ∧
    (∀ k, k < 8 * P.length →
      (aes_kw_rounds E ct0 P.flatten P.length key).ciphertext.getD (8 + k) 0 =
        blocks_byte (kw_rounds E key P 6).2 k) := by
  have h := aes_kw_rounds_inv E ct0 key P hP hct 6
  obtain ⟨hx, -, hxA, -, -, hcl, hfr, -, htodo, -, -⟩ := h
  exact ⟨hx, hxA, hcl, hfr, fun k hk => htodo k (by omega) hk⟩

/-- The buffer written by `aes_kw`: the register, the blocks, and the bytes of
the buffer that follow them. -/
theorem aes_kw_eq (E : Cipher) (ct0 key : List Nat) (P : List (List Nat))
    (hP : ∀ b ∈ P, b.length = 8) (hct : 8 * (P.length + 1) ≤ ct0.length) :
    aes_kw E ct0 P.flatten P.length key =
      (kw_rounds E key P 6).1 ++ (kw_rounds E key P 6).2.flatten ++
        ct0.drop (8 * (P.length + 1)) := by
  obtain ⟨hA, hR, hRl⟩ := kw_rounds_length E key P hP 6
  obtain ⟨hx, hxA, hcl, hfr, hdone⟩ := aes_kw_rounds_spec E ct0 key P hP hct
  have hfl := flatten_length _ hRl
  unfold aes_kw
  simp only []
  generalize aes_kw_rounds E ct0 P.flatten P.length key = s at *
  apply ext_getD
  · rw [for_loop_set_length (fun w => w), List.length_append, List.length_append,
      List.length_drop, hA, hfl, hR]
    omega
  · intro k hk
    rw [for_loop_set_length (fun w => w)] at hk
    rw [for_loop_set_getD_zero (fun w _ => s.x.getD w 0), getD_append, List.length_append, hA,
      hfl, hR, getD_append, hA]
    by_cases h8 : k < 8
    · rw [if_pos ⟨h8, hk⟩, if_pos (by omega), if_pos h8]
      exact hxA k h8
    · rw [if_neg (by omega)]
      by_cases hn : k < 8 + 8 * P.length
      · rw [if_pos hn, if_neg h8, flatten_getD _ hRl]
        have := hdone (k - 8) (by omega)
        rw [← this]
        congr 1
        omega
      · rw [if_neg hn, getD_drop, hfr k (by omega)]
        congr 1
        omega
theorem for_loop_congr {σ : Type} (f g : Nat → σ → σ) (n : Nat) (s : σ)
    (h : ∀ i, i < n → ∀ t, f i t = g i t) : for_loop f n s = for_loop g n s := by
  induction n with
  | zero => rfl
  | succ n ih =>
    rw [for_loop_succ, for_loop_succ, ih (fun i hi => h i (by omega)), h n (by omega)]

theorem xor_bytes_length (a b : List Nat) (h : a.length = b.length) :
    (xor_bytes a b).length = a.length := by
  unfold xor_bytes
  rw [List.length_zipWith, h, Nat.min_self]

theorem xor_bytes_getD (a b : List Nat) (h : a.length = b.length) (k : Nat) :
    (xor_bytes a b).getD k 0 = a.getD k 0 ^^^ b.getD k 0 := by
  unfold xor_bytes
  by_cases hk : k < a.length
  · rw [List.getD_eq_getElem _ _ (by rw [List.length_zipWith]; omega),
      List.getD_eq_getElem _ _ hk, List.getD_eq_getElem _ _ (by omega), List.getElem_zipWith]
  · rw [getD_of_le _ _ (by rw [List.length_zipWith]; omega), getD_of_le _ _ (by omega),
      getD_of_le _ _ (by omega)]
    rfl

/-- For `t < 256` the byte xored into `x[7]` is the 64-bit big-endian `t` xored
into the register. -/
theorem kw_step_eq_ref (E : Cipher) (key : List Nat) (t i : Nat)
    (AR : List Nat × List (List Nat)) (ht : t < 256) :
    kw_step E key t i AR = aes_kw_ref_step E key t i AR := by
  unfold kw_step aes_kw_ref_step
  simp only []
  have hBl := aes_encrypt_length E (AR.1 ++ AR.2.getD i []) key
  have hB7 := aes_encrypt_lt E (AR.1 ++ AR.2.getD i []) key 7
  generalize aes_encrypt E (AR.1 ++ AR.2.getD i []) key = B at *
  congr 1
  have hl : (B.take 8).length = (be_bytes 8 t).length := by
    rw [List.length_take, hBl, be_bytes_length]
    rfl
  apply ext_getD
  · rw [List.length_set, xor_bytes_length _ _ hl]
  · intro k hk
    rw [List.length_set, List.length_take, hBl] at hk
    have hk8 : k < 8 := hk
    have e1 : (B.take 8).getD k 0 = B.getD k 0 := by rw [getD_take, if_pos hk8]
    have e2 : (be_bytes 8 t).getD k 0 = if 7 = k then t else 0 := by
      rw [be_bytes_getD, if_pos hk8]
      by_cases h7 : 7 = k
      · subst h7
        rw [if_pos rfl]
        simp only [Nat.reduceSub, Nat.reduceMul, Nat.pow_zero, Nat.div_one]
        omega
      · rw [if_neg h7]
        have h2 : 2 ^ 8 ≤ 2 ^ (8 * (8 - 1 - k)) := Nat.pow_le_pow_right (by norm_num) (by omega)
        rw [Nat.div_eq_of_lt (by omega)]
    rw [getD_set, xor_bytes_getD _ _ hl, e1, e2, List.length_take, hBl]
    by_cases h7 : 7 = k
    · subst h7
      rw [if_pos ⟨rfl, hk⟩, if_pos rfl]
      exact Nat.mod_eq_of_lt (Nat.xor_lt_two_pow (n := 8) hB7 ht)
    · rw [if_neg (fun hh => h7 hh.1), if_neg h7, Nat.xor_zero]

theorem kw_rounds_eq_ref (E : Cipher) (key : List Nat) (P : List (List Nat))
    (hn : P.length < 43) :
    kw_rounds E key P 6 =
      for_loop
        (fun j AR =>
          for_loop (fun i AR => aes_kw_ref_step E key (P.length * j + (i + 1)) i AR) P.length AR)
        6 (List.replicate 8 0xa6, P) := by
  unfold kw_rounds
  apply for_loop_congr
  intro j hj AR
  apply for_loop_congr
  intro i hi AR2
  apply kw_step_eq_ref
  have : P.length * j ≤ 42 * 5 := Nat.mul_le_mul (by omega) (by omega)
  omega

/-- The example of FIPS 197, appendix C.1, for the cipher used in the test
vectors. -/
theorem aes128_fips197_example :
    aes128
      [0x00, 0x11, 0x22, 0x33, 0x44, 0x55, 0x66, 0x77, 0x88, 0x99, 0xaa, 0xbb, 0xcc, 0xdd, 0xee, 0xff]
      [0x00, 0x01, 0x02, 0x03, 0x04, 0x05, 0x06, 0x07, 0x08, 0x09, 0x0a, 0x0b, 0x0c, 0x0d, 0x0e, 0x0f] =
      [0x69, 0xc4, 0xe0, 0xd8, 0x6a, 0x7b, 0x04, 0x30, 0xd8, 0xcd, 0xb7, 0x80, 0x70, 0xb4, 0xc5, 0x5a] := by
  decide

/-- C12. `aes_kw` is the key wrap of RFC 3394: for every block cipher, key and
plaintext of `n` blocks of 8 bytes with 1 ≤ n < 43, the `8 * (n + 1)` bytes it
writes are `A | R[1] | ... | R[n]` of the reference wrap (start from
A = A6A6A6A6A6A6A6A6 and R = P; 6 * n steps B = E_K(A | R[i]),
A = MSB_64(B) xor t with t = n * j + i as a 64-bit big-endian integer,
R[i] = LSB_64(B)); with AES-128, the key 000102030405060708090A0B0C0D0E0F and
the plaintext 00112233445566778899AABBCCDDEEFF the output is
1FA68B0A8112B447 AEF34BD8FB5A7B82 9D3E862371D2CFE5. -/
theorem aes_kw_rfc3394 :
    (∀ (E : Cipher) (key ciphertext : List Nat) (P : List (List Nat)),
      (∀ b ∈ P, b.length = 8) → 1 ≤ P.length → P.length < 43 →
      ciphertext.length = 8 * (P.length + 1) →
      aes_kw E ciphertext P.flatten P.length key = aes_kw_ref E key P) ∧
    aes_kw aes128 (List.replicate 24 0)
      [0x00, 0x11, 0x22, 0x33, 0x44, 0x55, 0x66, 0x77, 0x88, 0x99, 0xaa, 0xbb, 0xcc, 0xdd, 0xee, 0xff]
      2 [0x00, 0x01, 0x02, 0x03, 0x04, 0x05, 0x06, 0x07, 0x08, 0x09, 0x0a, 0x0b, 0x0c, 0x0d, 0x0e, 0x0f] =
      [0x1f, 0xa6, 0x8b, 0x0a, 0x81, 0x12, 0xb4, 0x47, 0xae, 0xf3, 0x4b, 0xd8, 0xfb, 0x5a, 0x7b, 0x82,
       0x9d, 0x3e, 0x86, 0x23, 0x71, 0xd2, 0xcf, 0xe5] := by
  refine ⟨?_, by decide!⟩
  intro E key ciphertext P hP _ hn hct
  rw [aes_kw_eq E ciphertext key P hP (by omega), kw_rounds_eq_ref E key P hn,
    List.drop_of_length_le (by omega), List.append_nil]
  rfl

/-- C12, a concrete instance: one block wrapped with the identity in place of
the cipher. -/
theorem aes_kw_rfc3394_witness :
    aes_kw id_cipher (List.replicate 16 0) [[1, 2, 3, 4, 5, 6, 7, 8]].flatten
      [[1, 2, 3, 4, 5, 6, 7, 8]].length [] = aes_kw_ref id_cipher [] [[1, 2, 3, 4, 5, 6, 7, 8]] ∧
    aes_kw_ref id_cipher [] [[1, 2, 3, 4, 5, 6, 7, 8]] =
      [0xa6, 0xa6, 0xa6, 0xa6, 0xa6, 0xa6, 0xa6, 0xa6 ^^^ 1 ^^^ 2 ^^^ 3 ^^^ 4 ^^^ 5 ^^^ 6,
       1, 2, 3, 4, 5, 6, 7, 8] :=
  ⟨aes_kw_rfc3394.1 id_cipher [] (List.replicate 16 0) [[1, 2, 3, 4, 5, 6, 7, 8]] (by decide)
    (by decide) (by decide) (by decide), by decide⟩

/-- C13. `aes_kw` writes exactly the `8 * (n + 1)` first bytes of `ciphertext`:
for every block cipher, key and plaintext of `n` blocks of 8 bytes, the buffer
afterwards is the final register `A` (the bytes 0..7 of `x`, 8 bytes), followed
by the `n` blocks `R[1..n]` of 8 bytes each, followed by the bytes that the
buffer held before the call from offset `8 * (n + 1)` on. The first two parts
do not depend on the previous content of the buffer, so that every byte of the
range is written; nothing after the range is changed. -/
theorem aes_kw_output_layout (E : Cipher) (key ciphertext : List Nat) (P : List (List Nat))
    (hP : ∀ b ∈ P, b.length = 8) (hct : 8 * (P.length + 1) ≤ ciphertext.length) :
    aes_kw E ciphertext P.flatten P.length key =
      (kw_rounds E key P 6).1 ++ (kw_rounds E key P 6).2.flatten ++
        ciphertext.drop (8 * (P.length + 1)) ∧
    (kw_rounds E key P 6).1 = (aes_kw_rounds E ciphertext P.flatten P.length key).x.take 8 ∧
    (kw_rounds E key P 6).1.length = 8 ∧ (kw_rounds E key P 6).2.length = P.length ∧
    (∀ b ∈ (kw_rounds E key P 6).2, b.length = 8) ∧
    (aes_kw E ciphertext P.flatten P.length key).length = ciphertext.length ∧
    (∀ k, 8 * (P.length + 1) ≤ k →
      (aes_kw E ciphertext P.flatten P.length key).getD k 0 = ciphertext.getD k 0) ∧
    (∀ other : List Nat, 8 * (P.length + 1) ≤ other.length →
      (aes_kw E other P.flatten P.length key).take (8 * (P.length + 1)) =
        (aes_kw E ciphertext P.flatten P.length key).take (8 * (P.length + 1))) := by
  obtain ⟨hA, hR, hRl⟩ := kw_rounds_length E key P hP 6
  obtain ⟨hx, hxA, hcl, hfr, hdone⟩ := aes_kw_rounds_spec E ciphertext key P hP hct
  have hfl := flatten_length _ hRl
  have hlen : ((kw_rounds E key P 6).1 ++ (kw_rounds E key P 6).2.flatten).length =
      8 * (P.length + 1) := by
    rw [List.length_append, hA, hfl, hR]
    omega
  refine ⟨aes_kw_eq E ciphertext key P hP hct, ?_, hA, hR, hRl, ?_, ?_, ?_⟩
  · apply ext_getD
    · rw [hA, List.length_take, hx]
      rfl
    · intro k hk
      rw [hA] at hk
      rw [getD_take, if_pos hk]
      exact (hxA k hk).symm
  · rw [aes_kw_eq E ciphertext key P hP hct, List.length_append, hlen, List.length_drop]
    omega
  · intro k hk
    rw [aes_kw_eq E ciphertext key P hP hct, getD_append, hlen, if_neg (by omega), getD_drop]
    congr 1
    omega
  · intro other ho
    rw [aes_kw_eq E ciphertext key P hP hct, aes_kw_eq E other key P hP ho,
      List.take_left' hlen, List.take_left' hlen]

/-- C13, a concrete instance: a buffer of 18 bytes for one block; the last two
bytes are kept. -/
theorem aes_kw_output_layout_witness :
    aes_kw id_cipher (List.replicate 18 9) [[1, 2, 3, 4, 5, 6, 7, 8]].flatten
      [[1, 2, 3, 4, 5, 6, 7, 8]].length [] =
      [0xa6, 0xa6, 0xa6, 0xa6, 0xa6, 0xa6, 0xa6, 0xa6 ^^^ 1 ^^^ 2 ^^^ 3 ^^^ 4 ^^^ 5 ^^^ 6,
       1, 2, 3, 4, 5, 6, 7, 8, 9, 9] ∧
    (aes_kw id_cipher (List.replicate 18 9) [[1, 2, 3, 4, 5, 6, 7, 8]].flatten
      [[1, 2, 3, 4, 5, 6, 7, 8]].length []).length = (List.replicate 18 9).length :=
  ⟨by decide,
   (aes_kw_output_layout id_cipher [] (List.replicate 18 9) [[1, 2, 3, 4, 5, 6, 7, 8]] (by decide)
    (by decide)).2.2.2.2.2.1⟩

/-! ## Lemmas on aes-mmo.h -/

theorem and_15 (x : Nat) : x &&& 15 = x % 16 := Nat.and_pow_two_sub_one_eq_mod x 4

theorem and_not_15 (x : Nat) (h : x < 2 ^ 32) : x &&& 0xfffffff0 = x / 16 * 16 := by
  apply Nat.eq_of_testBit_eq
  intro i
  have e1 : (0xfffffff0 : Nat) = 2 ^ 4 * (2 ^ 28 - 1) := by norm_num
  have e2 : x / 16 * 16 = 2 ^ 4 * (x >>> 4) := by
    rw [Nat.shiftRight_eq_div_pow]
    omega
  rw [Nat.testBit_and, e1, e2, Nat.testBit_mul_pow_two, Nat.testBit_mul_pow_two,
    Nat.testBit_two_pow_sub_one, Nat.testBit_shiftRight]
  by_cases h4 : 4 ≤ i
  · have e3 : 4 + (i - 4) = i := by omega
    rw [e3]
    by_cases h32 : i < 32
    · simp [h4, (by omega : i - 4 < 28)]
    · have : x.testBit i = false :=
        Nat.testBit_lt_two_pow (lt_of_lt_of_le h (Nat.pow_le_pow_right (by norm_num) (by omega)))
      simp [this]
  · simp [h4]

theorem mmo_iterate (E : Cipher) (message : List Nat) (s : MmoState) (j : Nat) :
    (fun (rs : Nat × MmoState) =>
      (rs.1 + 16, aes_mmo_compress E ((message.drop rs.1).take 16) rs.2))^[j] (0, s) =
      (16 * j, ((List.range j).map (fun i => (message.drop (16 * i)).take 16)).foldl
        (fun s b => aes_mmo_compress E b s) s) := by
  induction j with
  | zero => rfl
  | succ j ih =>
    rw [Function.iterate_succ_apply', ih, List.range_succ, List.map_append, List.foldl_append]
    rfl

theorem mmo_full_blocks (E : Cipher) (message : List Nat) (s : MmoState) :
    while_loop (fun (rs : Nat × MmoState) => decide ((rs.1 : Int) ≤ (message.length : Int) - 16))
      (fun rs => (rs.1 + 16, aes_mmo_compress E ((message.drop rs.1).take 16) rs.2))
      message.length (0, s) =
      (16 * (message.length / 16),
        (blocks16 message).foldl (fun s b => aes_mmo_compress E b s) s) := by
  rw [while_loop_iterate _ _ (message.length / 16) _ _ (Nat.div_le_self _ _)]
  · exact mmo_iterate E message s _
  · intro j hj
    rw [mmo_iterate]
    simp only [decide_eq_true_eq]
    omega
  · rw [mmo_iterate]
    simp only [decide_eq_false_iff_not]
    omega

/-- The block `p` of `aes_mmo` after the copy of the message tail and the
store of 0x80. -/
theorem mmo_tail_getD (message : List Nat) (base r k : Nat) (hr : r < 16) :
    ((for_loop (fun i p => p.set i (message.getD (base + i) 0)) r (List.replicate 16 0)).set
      r 0x80).getD k 0 =
      if k < r then message.getD (base + k) 0 else if k = r then 0x80 else 0 := by
  rw [getD_set, for_loop_set_length (fun i => i), List.length_replicate,
    for_loop_set_getD_zero (fun i _ => message.getD (base + i) 0), getD_replicate_zero,
    List.length_replicate]
  split_ifs <;> first | rfl | omega

theorem mmo_copy_length (message : List Nat) (base r : Nat) :
    (for_loop (fun i p => p.set i (message.getD (base + i) 0)) r (List.replicate 16 0)).length =
      16 := by
  rw [for_loop_set_length (fun i => i), List.length_replicate]

theorem mmo_tail_length (message : List Nat) (base r : Nat) :
    ((for_loop (fun i p => p.set i (message.getD (base + i) 0)) r (List.replicate 16 0)).set
      r 0x80).length = 16 := by
  rw [List.length_set, for_loop_set_length (fun i => i), List.length_replicate]

/-- The loops `for (i = r; i < m; i++) p[i] = 0;` of `aes_mmo`. -/
theorem mmo_fill_getD (p : List Nat) (r m k : Nat) (hp : p.length = 16) (hm : m ≤ 16) :
    (for_loop (fun i p => p.set (r + i) 0) (m - r) p).getD k 0 =
      if r ≤ k ∧ k < m then 0 else p.getD k 0 := by
  rw [for_loop_set_getD (fun _ _ => 0) r, hp]
  split_ifs <;> first | rfl | omega

theorem mmo_fill_length (p : List Nat) (r m : Nat) :
    (for_loop (fun i p => p.set (r + i) 0) (m - r) p).length = p.length :=
  for_loop_set_length (fun i => r + i) (fun _ _ => 0) _ _

/-- Bytes of a padded block written as a concatenation. -/
theorem pad_getD (tail field : List Nat) (z k : Nat) :
    (tail ++ [0x80] ++ List.replicate z 0 ++ field).getD k 0 =
      if k < tail.length then tail.getD k 0 else if k = tail.length then 0x80
      else if k < tail.length + 1 + z then 0 else field.getD (k - (tail.length + 1 + z)) 0 := by
  rw [getD_append, getD_append, getD_append, List.length_append, List.length_append,
    List.length_replicate, getD_replicate_zero, List.length_singleton]
  split_ifs <;>
    first
    | rfl
    | omega
    | (have e0 : k - tail.length = 0 := by omega
       rw [e0]
       rfl)

theorem mmo_tail_drop (message : List Nat) :
    (message.drop (message.length / 16 * 16)).length = message.length % 16 := by
  rw [List.length_drop]
  omega

theorem mmo_tail_drop_getD (message : List Nat) (k : Nat) :
    (message.drop (message.length / 16 * 16)).getD k 0 =
      message.getD (message.length / 16 * 16 + k) 0 := getD_drop _ _ _

/-- The first of two padded blocks: the message tail, 0x80 and zeros. -/
theorem mmo_block_first (message : List Nat) :
    for_loop (fun i p => p.set (message.length % 16 + 1 + i) 0) (16 - (message.length % 16 + 1))
      ((for_loop (fun i p => p.set i (message.getD (message.length / 16 * 16 + i) 0))
        (message.length % 16) (List.replicate 16 0)).set (message.length % 16) 0x80) =
      message.drop (message.length / 16 * 16) ++ [0x80] ++
        List.replicate (16 - (message.length % 16 + 1)) 0 := by
  have hr : message.length % 16 < 16 := Nat.mod_lt _ (by norm_num)
  apply ext_getD
  · rw [mmo_fill_length, mmo_tail_length, List.length_append, List.length_append,
      mmo_tail_drop, List.length_replicate, List.length_singleton]
    omega
  · intro k hk
    rw [mmo_fill_length, mmo_tail_length] at hk
    rw [mmo_fill_getD _ _ _ _ (mmo_tail_length _ _ _) (le_refl 16), mmo_tail_getD _ _ _ _ hr,
      ← List.append_nil (_ ++ List.replicate _ 0), pad_getD, mmo_tail_drop, mmo_tail_drop_getD]
    split_ifs <;> first | rfl | omega

/-- The two stores of the length field below 8192 bytes. -/
theorem getD_set_field2 (l : List Nat) (hl : l.length = 16) (a b k : Nat) :
    ((l.set 14 a).set 15 b).getD k 0 =
      if k < 14 then l.getD k 0 else [a, b].getD (k - 14) 0 := by
  rw [getD_set, getD_set]
  simp only [List.length_set, hl]
  by_cases h14 : k < 14
  · rw [if_neg (by omega), if_neg (by omega), if_pos h14]
  · rw [if_neg h14]
    by_cases h16 : k < 16
    · have hk2 : k = 14 ∨ k = 15 := by omega
      rcases hk2 with rfl | rfl
      · rw [if_neg (by omega), if_pos ⟨rfl, by omega⟩]
        rfl
      · rw [if_pos ⟨rfl, by omega⟩]
        rfl
    · rw [if_neg (by omega), if_neg (by omega), getD_of_le _ _ (by omega),
        getD_of_le _ _ (by simp only [List.length_cons, List.length_nil]; omega)]

/-- The six stores of the length field from 8192 bytes on. -/
theorem getD_set_field6 (l : List Nat) (hl : l.length = 16) (a b c d e f k : Nat) :
    ((((((l.set 10 a).set 11 b).set 12 c).set 13 d).set 14 e).set 15 f).getD k 0 =
      if k < 10 then l.getD k 0 else [a, b, c, d, e, f].getD (k - 10) 0 := by
  rw [getD_set, getD_set, getD_set, getD_set, getD_set, getD_set]
  simp only [List.length_set, hl]
  by_cases h10 : k < 10
  · rw [if_neg (by omega), if_neg (by omega), if_neg (by omega), if_neg (by omega),
      if_neg (by omega), if_neg (by omega), if_pos h10]
  · rw [if_neg h10]
    by_cases h16 : k < 16
    · have hk2 : k = 10 ∨ k = 11 ∨ k = 12 ∨ k = 13 ∨ k = 14 ∨ k = 15 := by omega
      rcases hk2 with rfl | rfl | rfl | rfl | rfl | rfl <;> simp
    · rw [if_neg (by omega), if_neg (by omega), if_neg (by omega), if_neg (by omega),
        if_neg (by omega), if_neg (by omega), getD_of_le _ _ (by omega),
        getD_of_le _ _ (by simp only [List.length_cons, List.length_nil]; omega)]

/-- The second of two padded blocks, below 8192 bytes. -/
theorem mmo_block_second_short (p : List Nat) (hp : p.length = 16) (a b : Nat) :
    ((for_loop (fun i p => p.set (0 + i) 0) (14 - 0) p).set 14 a).set 15 b =
      List.replicate 14 0 ++ [a, b] := by
  apply ext_getD
  · rw [List.length_set, List.length_set, mmo_fill_length, hp]
    rfl
  · intro k _
    rw [getD_set_field2 _ ((mmo_fill_length _ _ _).trans hp),
      mmo_fill_getD _ _ _ _ hp (by norm_num), getD_append, getD_replicate_zero,
      List.length_replicate]
    split_ifs <;> first | rfl | omega

/-- The second of two padded blocks, from 8192 bytes on. -/
theorem mmo_block_second_long (p : List Nat) (hp : p.length = 16) (a b c d : Nat) :
    ((((((for_loop (fun i p => p.set (0 + i) 0) (10 - 0) p).set 10 a).set 11 b).set 12 c).set
      13 d).set 14 0).set 15 0 = List.replicate 10 0 ++ [a, b, c, d, 0, 0] := by
  apply ext_getD
  · simp only [List.length_set, mmo_fill_length, hp]
    rfl
  · intro k _
    rw [getD_set_field6 _ ((mmo_fill_length _ _ _).trans hp),
      mmo_fill_getD _ _ _ _ hp (by norm_num), getD_append, getD_replicate_zero,
      List.length_replicate]
    split_ifs <;> first | rfl | omega

/-- The single padded block, below 8192 bytes. -/
theorem mmo_block_single_short (message : List Nat) (a b : Nat)
    (hq : message.length % 16 + 1 ≤ 14) :
    ((for_loop (fun i p => p.set (message.length % 16 + 1 + i) 0)
        (14 - (message.length % 16 + 1))
      ((for_loop (fun i p => p.set i (message.getD (message.length / 16 * 16 + i) 0))
        (message.length % 16) (List.replicate 16 0)).set (message.length % 16) 0x80)).set
      14 a).set 15 b =
      message.drop (message.length / 16 * 16) ++ [0x80] ++
        List.replicate (14 - (message.length % 16 + 1)) 0 ++ [a, b] := by
  have hr : message.length % 16 < 16 := Nat.mod_lt _ (by norm_num)
  have e : message.length % 16 + 1 + (14 - (message.length % 16 + 1)) = 14 := by omega
  apply ext_getD
  · simp only [List.length_set, mmo_fill_length, mmo_copy_length, List.length_append,
      mmo_tail_drop, List.length_replicate, List.length_singleton, List.length_cons,
      List.length_nil]
    omega
  · intro k _
    rw [getD_set_field2 _ ((mmo_fill_length _ _ _).trans (mmo_tail_length _ _ _)),
      mmo_fill_getD _ _ _ _ (mmo_tail_length _ _ _) (by norm_num), mmo_tail_getD _ _ _ _ hr,
      pad_getD, mmo_tail_drop, mmo_tail_drop_getD, e]
    split_ifs <;> first | rfl | omega

/-- The single padded block, from 8192 bytes on. -/
theorem mmo_block_single_long (message : List Nat) (a b c d : Nat)
    (hq : message.length % 16 + 1 ≤ 10) :
    ((((((for_loop (fun i p => p.set (message.length % 16 + 1 + i) 0)
        (10 - (message.length % 16 + 1))
      ((for_loop (fun i p => p.set i (message.getD (message.length / 16 * 16 + i) 0))
        (message.length % 16) (List.replicate 16 0)).set (message.length % 16) 0x80)).set
      10 a).set 11 b).set 12 c).set 13 d).set 14 0).set 15 0 =
      message.drop (message.length / 16 * 16) ++ [0x80] ++
        List.replicate (10 - (message.length % 16 + 1)) 0 ++ [a, b, c, d, 0, 0] := by
  have hr : message.length % 16 < 16 := Nat.mod_lt _ (by norm_num)
  have e : message.length % 16 + 1 + (10 - (message.length % 16 + 1)) = 10 := by omega
  apply ext_getD
  · simp only [List.length_set, mmo_fill_length, mmo_copy_length, List.length_append,
      mmo_tail_drop, List.length_replicate, List.length_singleton, List.length_cons,
      List.length_nil]
    omega
  · intro k _
    rw [getD_set_field6 _ ((mmo_fill_length _ _ _).trans (mmo_tail_length _ _ _)),
      mmo_fill_getD _ _ _ _ (mmo_tail_length _ _ _) (by norm_num), mmo_tail_getD _ _ _ _ hr,
      pad_getD, mmo_tail_drop, mmo_tail_drop_getD, e]
    split_ifs <;> first | rfl | omega

theorem mmo_final_blocks_two (message : List Nat)
    (hc : (message.length < 8192 ∧ message.length % 16 + 1 > 14) ∨
      (message.length ≥ 8192 ∧ message.length % 16 + 1 > 10)) :
    mmo_final_blocks message =
      [message.drop (message.length / 16 * 16) ++ [0x80] ++
        List.replicate (16 - (message.length % 16 + 1)) 0,
       List.replicate (16 - (mmo_length_field message.length).length) 0 ++
         mmo_length_field message.length] := by
  unfold mmo_final_blocks
  exact if_pos hc

theorem mmo_final_blocks_one (message : List Nat)
    (hc : ¬ ((message.length < 8192 ∧ message.length % 16 + 1 > 14) ∨
      (message.length ≥ 8192 ∧ message.length % 16 + 1 > 10))) :
    mmo_final_blocks message =
      [message.drop (message.length / 16 * 16) ++ [0x80] ++
        List.replicate (16 - (mmo_length_field message.length).length -
          (message.length % 16 + 1)) 0 ++ mmo_length_field message.length] := by
  unfold mmo_final_blocks
  exact if_neg hc

theorem mmo_length_field_short (length : Nat) (h : length < 8192) :
    mmo_length_field length = [(length >>> 5) % 256, (length <<< 3) % 256] := if_pos h

theorem mmo_length_field_long (length : Nat) (h : ¬ length < 8192) :
    mmo_length_field length = [(length >>> 21) % 256, (length >>> 13) % 256,
      (length >>> 5) % 256, (length <<< 3) % 256, 0, 0] := if_neg h

theorem aes_mmo_run_eq (E : Cipher) (digest message : List Nat) (hd : digest.length = 16)
    (hL : message.length < 2 ^ 31) :
    aes_mmo_run E digest message message.length =
      (blocks16 message ++ mmo_final_blocks message).foldl (fun s b => aes_mmo_compress E b s)
        { digest := List.replicate 16 0, blocks := [] } := by
  unfold aes_mmo_run
  simp only []
  rw [for_loop_clear16 digest hd, mmo_full_blocks, and_15, and_not_15 _ (by omega),
    List.foldl_append]
  generalize (blocks16 message).foldl (fun s b => aes_mmo_compress E b s)
    { digest := List.replicate 16 0, blocks := [] } = s
  by_cases hc : (message.length < 8192 ∧ message.length % 16 + 1 > 14) ∨
      (message.length ≥ 8192 ∧ message.length % 16 + 1 > 10)
  · simp only [if_pos hc]
    rw [mmo_final_blocks_two message hc]
    by_cases hs : message.length < 8192
    · simp only [if_pos hs]
      rw [mmo_length_field_short _ hs,
        mmo_block_second_short _ ((mmo_fill_length _ _ _).trans (mmo_tail_length _ _ _)),
        mmo_block_first]
      rfl
    · simp only [if_neg hs]
      rw [mmo_length_field_long _ hs,
        mmo_block_second_long _ ((mmo_fill_length _ _ _).trans (mmo_tail_length _ _ _)),
        mmo_block_first]
      rfl
  · simp only [if_neg hc]
    rw [mmo_final_blocks_one message hc]
    by_cases hs : message.length < 8192
    · simp only [if_pos hs]
      rw [mmo_length_field_short _ hs, mmo_block_single_short _ _ _ (by omega)]
      rfl
    · simp only [if_neg hs]
      rw [mmo_length_field_long _ hs, mmo_block_single_long _ _ _ _ _ (by omega)]
      rfl
theorem mmo_fold_blocks (E : Cipher) (bs : List (List Nat)) (s : MmoState) :
    (bs.foldl (fun s b => aes_mmo_compress E b s) s).blocks = s.blocks ++ bs := by
  induction bs generalizing s with
  | nil => rw [List.foldl_nil, List.append_nil]
  | cons b bs ih =>
    rw [List.foldl_cons, ih]
    unfold aes_mmo_compress
    simp only [List.append_assoc, List.singleton_append]

/-- One compression of `aes_mmo` is `E(M, key = H) xor M`. -/
theorem aes_mmo_compress_digest (E : Cipher) (block : List Nat) (s : MmoState)
    (hl : block.length = 16) (hb : ∀ b ∈ block, b < 256) :
    (aes_mmo_compress E block s).digest = xor_bytes (aes_encrypt E block s.digest) block := by
  unfold aes_mmo_compress
  simp only []
  have hlen : (aes_encrypt E block s.digest).length = block.length := by
    rw [aes_encrypt_length, hl]
  apply ext_getD
  · rw [for_loop_set_length (fun i => i), xor_bytes_length _ _ hlen]
  · intro k hk
    rw [for_loop_set_length (fun i => i), aes_encrypt_length] at hk
    rw [for_loop_set_getD_zero (fun i v => (v ^^^ block.getD i 0) % 256), aes_encrypt_length,
      if_pos ⟨hk, hk⟩, xor_bytes_getD _ _ hlen]
    exact Nat.mod_eq_of_lt
      (Nat.xor_lt_two_pow (n := 8) (aes_encrypt_lt E _ _ k) (getD_lt_of_forall hb k))

theorem mmo_fold_digest (E : Cipher) (bs : List (List Nat)) (s : MmoState)
    (hbs : ∀ b ∈ bs, b.length = 16 ∧ ∀ x ∈ b, x < 256) :
    (bs.foldl (fun s b => aes_mmo_compress E b s) s).digest =
      bs.foldl (fun H M => xor_bytes (aes_encrypt E M H) M) s.digest := by
  induction bs generalizing s with
  | nil => rfl
  | cons b bs ih =>
    rw [List.foldl_cons, List.foldl_cons, ih _ (fun c hc => hbs c (List.mem_cons_of_mem _ hc)),
      aes_mmo_compress_digest E b s (hbs b (List.mem_cons_self _ _)).1
        (hbs b (List.mem_cons_self _ _)).2]

/-- The blocks that `aes_mmo` gives to `aes_encrypt`. -/
theorem aes_mmo_run_blocks (E : Cipher) (digest message : List Nat) (hd : digest.length = 16)
    (hL : message.length < 2 ^ 31) :
    (aes_mmo_run E digest message message.length).blocks =
      blocks16 message ++ mmo_final_blocks message := by
  rw [aes_mmo_run_eq E digest message hd hL, mmo_fold_blocks]
  rfl

theorem blocks16_length (l : List Nat) : (blocks16 l).length = l.length / 16 := by
  unfold blocks16
  rw [List.length_map, List.length_range]

theorem blocks16_mem (l b : List Nat) (h : b ∈ blocks16 l) :
    b.length = 16 ∧ ∀ x ∈ b, x ∈ l := by
  unfold blocks16 at h
  rw [List.mem_map] at h
  obtain ⟨j, hj, rfl⟩ := h
  rw [List.mem_range] at hj
  constructor
  · rw [List.length_take, List.length_drop]
    omega
  · intro x hx
    exact List.mem_of_mem_drop (List.mem_of_mem_take hx)

theorem blocks16_cons (a l : List Nat) (ha : a.length = 16) :
    blocks16 (a ++ l) = a :: blocks16 l := by
  unfold blocks16
  have e : (a ++ l).length / 16 = l.length / 16 + 1 := by
    rw [List.length_append, ha]
    omega
  rw [e, List.range_succ_eq_map, List.map_cons, List.map_map]
  congr 1
  · rw [Nat.mul_zero, List.drop_zero, List.take_left' ha]
  · apply List.map_congr_left
    intro j _
    show List.take 16 (List.drop (16 * (j + 1)) (a ++ l)) = _
    have e2 : 16 * (j + 1) = a.length + 16 * j := by omega
    rw [e2, ← List.drop_drop, List.drop_left]

theorem blocks16_short (l : List Nat) (h : l.length < 16) : blocks16 l = [] := by
  unfold blocks16
  rw [Nat.div_eq_of_lt h]
  rfl

/-- The blocks of a string followed by another one. -/
theorem blocks16_append (n : Nat) : ∀ (l rest : List Nat), l.length / 16 = n →
    blocks16 (l ++ rest) = blocks16 l ++ blocks16 (l.drop (l.length / 16 * 16) ++ rest) := by
  induction n with
  | zero =>
    intro l rest h
    rw [h, Nat.zero_mul, List.drop_zero, blocks16_short l (by omega), List.nil_append]
  | succ n ih =>
    intro l rest h
    have h16 : (l.take 16).length = 16 := by
      rw [List.length_take]
      omega
    have hd : (l.drop 16).length / 16 = n := by
      rw [List.length_drop]
      omega
    have e1 : l ++ rest = l.take 16 ++ (l.drop 16 ++ rest) := by
      rw [← List.append_assoc, List.take_append_drop]
    have e2 : blocks16 l = l.take 16 :: blocks16 (l.drop 16) := by
      conv_lhs => rw [← List.take_append_drop 16 l]
      exact blocks16_cons _ _ h16
    have e3 : (l.drop 16).drop ((l.drop 16).length / 16 * 16) = l.drop (l.length / 16 * 16) := by
      rw [List.drop_drop, List.length_drop]
      congr 1
      omega
    rw [e1, blocks16_cons _ _ h16, ih _ rest hd, e2, e3]
    rfl
theorem be_bytes_two (n : Nat) : be_bytes 2 n = [(n >>> 8) % 256, n % 256] := by
  simp [be_bytes, List.range_succ, Nat.shiftRight_eq_div_pow]

/-- Below 8192 bytes the length field is the 16-bit big-endian number of bits. -/
theorem mmo_length_field_be16 (length : Nat) (h : length < 8192) :
    mmo_length_field length = be_bytes 2 (8 * length) := by
  rw [mmo_length_field_short _ h, be_bytes_two]
  simp only [Nat.shiftRight_eq_div_pow, Nat.shiftLeft_eq, Nat.reducePow]
  congr 2 <;> omega

/-- From 8192 bytes on the length field is the 32-bit big-endian number of bits
and two zero bytes. -/
theorem mmo_length_field_be32 (length : Nat) (h : ¬ length < 8192) :
    mmo_length_field length = be_bytes 4 (8 * length) ++ [0, 0] := by
  rw [mmo_length_field_long _ h, be_bytes_four]
  simp only [Nat.shiftRight_eq_div_pow, Nat.shiftLeft_eq, Nat.reducePow, List.cons_append,
    List.nil_append]
  congr 2 <;> first | omega | (congr 2 <;> omega)

theorem mmo_length_field_length (length : Nat) :
    (mmo_length_field length).length = if length < 8192 then 2 else 6 := by
  unfold mmo_length_field
  split_ifs <;> rfl

theorem blocks16_one (b : List Nat) (h : b.length = 16) : blocks16 b = [b] := by
  have := blocks16_cons b [] h
  rw [List.append_nil] at this
  rw [this, blocks16_short [] (by simp)]

theorem blocks16_two (a b : List Nat) (ha : a.length = 16) (hb : b.length = 16) :
    blocks16 (a ++ b) = [a, b] := by
  rw [blocks16_cons a b ha, blocks16_one b hb]

/-- The padded blocks of `aes_mmo` are the blocks of the reference padding that
follow the full blocks of the message. -/
theorem mmo_final_blocks_ref (msg : List Nat) :
    ∃ rest, mmo_ref_pad msg = msg ++ rest ∧
      blocks16 (msg.drop (msg.length / 16 * 16) ++ rest) = mmo_final_blocks msg := by
  have htl := mmo_tail_drop msg
  have hfl := mmo_length_field_length msg.length
  by_cases hs : msg.length < 8192
  · rw [if_pos hs] at hfl
    refine ⟨[0x80] ++ List.replicate ((29 - msg.length % 16) % 16) 0 ++
      be_bytes 2 (8 * msg.length), ?_, ?_⟩
    · unfold mmo_ref_pad
      rw [if_pos hs]
      simp only [List.append_assoc]
    · rw [← mmo_length_field_be16 _ hs]
      by_cases hc : (msg.length < 8192 ∧ msg.length % 16 + 1 > 14) ∨
          (msg.length ≥ 8192 ∧ msg.length % 16 + 1 > 10)
      · rw [mmo_final_blocks_two msg hc, hfl]
        have hz : (29 - msg.length % 16) % 16 = (16 - (msg.length % 16 + 1)) + (16 - 2) := by
          omega
        rw [hz, List.replicate_add, ← blocks16_two]
        · simp only [List.append_assoc]
        · simp only [List.length_append, htl, List.length_replicate, List.length_singleton]
          omega
        · simp only [List.length_append, hfl, List.length_replicate]
      · rw [mmo_final_blocks_one msg hc, hfl]
        have hz : (29 - msg.length % 16) % 16 = 16 - 2 - (msg.length % 16 + 1) := by omega
        rw [hz, ← blocks16_one]
        · simp only [List.append_assoc]
        · simp only [List.length_append, htl, hfl, List.length_replicate, List.length_singleton]
          omega
  · rw [if_neg hs] at hfl
    refine ⟨[0x80] ++ List.replicate ((25 - msg.length % 16) % 16) 0 ++
      (be_bytes 4 (8 * msg.length) ++ [0, 0]), ?_, ?_⟩
    · unfold mmo_ref_pad
      rw [if_neg hs]
      simp only [List.append_assoc]
    · rw [← mmo_length_field_be32 _ hs]
      by_cases hc : (msg.length < 8192 ∧ msg.length % 16 + 1 > 14) ∨
          (msg.length ≥ 8192 ∧ msg.length % 16 + 1 > 10)
      · rw [mmo_final_blocks_two msg hc, hfl]
        have hz : (25 - msg.length % 16) % 16 = (16 - (msg.length % 16 + 1)) + (16 - 6) := by
          omega
        rw [hz, List.replicate_add, ← blocks16_two]
        · simp only [List.append_assoc]
        · simp only [List.length_append, htl, List.length_replicate, List.length_singleton]
          omega
        · simp only [List.length_append, hfl, List.length_replicate]
      · rw [mmo_final_blocks_one msg hc, hfl]
        have hz : (25 - msg.length % 16) % 16 = 16 - 6 - (msg.length % 16 + 1) := by omega
        rw [hz, ← blocks16_one]
        · simp only [List.append_assoc]
        · simp only [List.length_append, htl, hfl, List.length_replicate, List.length_singleton]
          omega

/-- The blocks that `aes_mmo` compresses are the blocks of the reference padded
message. -/
theorem mmo_blocks_ref (msg : List Nat) :
    blocks16 msg ++ mmo_final_blocks msg = blocks16 (mmo_ref_pad msg) := by
  obtain ⟨rest, h1, h2⟩ := mmo_final_blocks_ref msg
  rw [h1, blocks16_append _ msg rest rfl, h2]

theorem mmo_ref_pad_lt (msg : List Nat) (hb : ∀ b ∈ msg, b < 256) :
    ∀ x ∈ mmo_ref_pad msg, x < 256 := by
  intro x hx
  unfold mmo_ref_pad be_bytes at hx
  split_ifs at hx
  · simp only [List.mem_append, List.mem_singleton, List.mem_replicate, List.mem_map] at hx
    rcases hx with ((h | h) | h) | h
    · exact hb x h
    · omega
    · omega
    · obtain ⟨i, _, rfl⟩ := h
      exact Nat.mod_lt _ (by norm_num)
  · simp only [List.mem_append, List.mem_singleton, List.mem_replicate, List.mem_map,
      List.mem_cons, List.mem_nil_iff, or_false] at hx
    rcases hx with (((h | h) | h) | h) | h
    · exact hb x h
    · omega
    · omega
    · obtain ⟨i, _, rfl⟩ := h
      exact Nat.mod_lt _ (by norm_num)
    · omega

/-- The digest of `aes_mmo` is the reference chain over the reference padding. -/
theorem aes_mmo_eq_ref (E : Cipher) (digest message : List Nat) (hd : digest.length = 16)
    (hb : ∀ b ∈ message, b < 256) (hL : message.length < 2 ^ 31) :
    aes_mmo E digest message message.length = aes_mmo_ref E message := by
  unfold aes_mmo aes_mmo_ref mmo_ref_hash
  rw [aes_mmo_run_eq E digest message hd hL, mmo_blocks_ref, mmo_fold_digest]
  intro b hbm
  obtain ⟨h1, h2⟩ := blocks16_mem _ _ hbm
  exact ⟨h1, fun x hx => mmo_ref_pad_lt message hb x (h2 x hx)⟩
theorem flatten_length_const (w : Nat) (R : List (List Nat)) (h : ∀ b ∈ R, b.length = w) :
    R.flatten.length = w * R.length := by
  induction R with
  | nil => rfl
  | cons b R ih =>
    rw [List.flatten_cons, List.length_append, ih (fun c hc => h c (List.mem_cons_of_mem _ hc)),
      h b (List.mem_cons_self _ _), List.length_cons, Nat.mul_succ, Nat.add_comm]

theorem getLastD_two (l : List (List Nat)) (a b : List Nat) : (l ++ [a, b]).getLastD [] = b := by
  have : l ++ [a, b] = (l ++ [a]) ++ [b] := by
    rw [List.append_assoc]
    rfl
  rw [this, List.getLastD_concat]

/-- The last block that `aes_mmo` compresses: zeros and the length field after
two padding blocks, or the message tail, 0x80, zeros and the length field. -/
theorem mmo_last_block (E : Cipher) (digest message : List Nat) (hd : digest.length = 16)
    (hL : message.length < 2 ^ 31) :
    ∃ pre : List Nat, pre.length + (mmo_length_field message.length).length = 16 ∧
      (aes_mmo_run E digest message message.length).blocks.getLastD [] =
        pre ++ mmo_length_field message.length := by
  have htl := mmo_tail_drop message
  have hfl := mmo_length_field_length message.length
  rw [aes_mmo_run_blocks E digest message hd hL]
  by_cases hc : (message.length < 8192 ∧ message.length % 16 + 1 > 14) ∨
      (message.length ≥ 8192 ∧ message.length % 16 + 1 > 10)
  · rw [mmo_final_blocks_two message hc, getLastD_two]
    refine ⟨_, ?_, rfl⟩
    rw [List.length_replicate, hfl]
    split_ifs <;> omega
  · rw [mmo_final_blocks_one message hc, List.getLastD_concat]
    refine ⟨_, ?_, rfl⟩
    simp only [List.length_append, htl, List.length_replicate, List.length_singleton, hfl]
    split_ifs <;> omega

theorem mmo_blocks_length (E : Cipher) (digest message : List Nat) (hd : digest.length = 16)
    (hL : message.length < 2 ^ 31) :
    (aes_mmo_run E digest message message.length).blocks.length =
      message.length / 16 +
        (if (message.length < 8192 ∧ message.length % 16 + 1 > 14) ∨
          (message.length ≥ 8192 ∧ message.length % 16 + 1 > 10) then 2 else 1) := by
  rw [aes_mmo_run_blocks E digest message hd hL, List.length_append, blocks16_length]
  by_cases hc : (message.length < 8192 ∧ message.length % 16 + 1 > 14) ∨
      (message.length ≥ 8192 ∧ message.length % 16 + 1 > 10)
  · rw [mmo_final_blocks_two message hc, if_pos hc]
    rfl
  · rw [mmo_final_blocks_one message hc, if_neg hc]
    rfl

theorem mmo_blocks_flatten_length (E : Cipher) (digest message : List Nat)
    (hd : digest.length = 16) (hL : message.length < 2 ^ 31) :
    (aes_mmo_run E digest message message.length).blocks.flatten.length =
      16 * (aes_mmo_run E digest message message.length).blocks.length := by
  apply flatten_length_const
  intro b hb
  rw [aes_mmo_run_blocks E digest message hd hL, mmo_blocks_ref] at hb
  exact (blocks16_mem _ _ hb).1

/-- C14. `aes_mmo` is the Matyas-Meyer-Oseas chain over the padded message: for
every block cipher and every message of less than 2 ^ 29 bytes, the digest is
`H_k` of `H_0 = 0^128`, `H_j = E(M_j, key = H_{j-1}) xor M_j`, where
`M_1, ..., M_k` are the 16-byte blocks of the message followed by 0x80, zeros
and the length field. With AES-128 the digest of the message C0 is
AE3A102A28D43EE0D4A09E22788B206C and the digest of the 16 bytes C0, C1, ..., CF
is A7977E88BC0B61E8210827109A228F2D. -/
theorem aes_mmo_chain :
    (∀ (E : Cipher) (digest message : List Nat), digest.length = 16 →
      (∀ b ∈ message, b < 256) → message.length < 2 ^ 29 →
      aes_mmo E digest message message.length = aes_mmo_ref E message) ∧
    aes_mmo aes128 (List.replicate 16 0) [0xc0] 1 =
      [0xae, 0x3a, 0x10, 0x2a, 0x28, 0xd4, 0x3e, 0xe0,
       0xd4, 0xa0, 0x9e, 0x22, 0x78, 0x8b, 0x20, 0x6c] ∧
    aes_mmo aes128 (List.replicate 16 0)
      [0xc0, 0xc1, 0xc2, 0xc3, 0xc4, 0xc5, 0xc6, 0xc7,
       0xc8, 0xc9, 0xca, 0xcb, 0xcc, 0xcd, 0xce, 0xcf] 16 =
      [0xa7, 0x97, 0x7e, 0x88, 0xbc, 0x0b, 0x61, 0xe8,
       0x21, 0x08, 0x27, 0x10, 0x9a, 0x22, 0x8f, 0x2d] := by
  refine ⟨?_, by decide!, by decide!⟩
  intro E digest message hd hb hL
  exact aes_mmo_eq_ref E digest message hd hb (lt_trans hL (by norm_num))

/-- C14, a concrete instance: the message C0 with AES-128. -/
theorem aes_mmo_chain_witness :
    aes_mmo aes128 (List.replicate 16 0) [0xc0] [0xc0].length = aes_mmo_ref aes128 [0xc0] :=
  aes_mmo_chain.1 aes128 (List.replicate 16 0) [0xc0] (by decide) (by decide) (by decide)

/-- C15. The length field of `aes_mmo`: for a message of less than 8192 bytes
the last block given to the cipher has 16 bytes and its bytes 14..15 are the
16-bit big-endian number of bits `8 * L`; for 8192 ≤ L < 2 ^ 29 its bytes
10..13 are the 32-bit big-endian `8 * L` and its bytes 14..15 are zero. A
message of 8191 bytes and a message of 8192 bytes both give 513 blocks, 8208
bytes, with the last blocks `0^14 FF F8` and `80 0^9 00 01 00 00 00 00`. -/
theorem aes_mmo_length_encoding (E : Cipher) (digest message : List Nat)
    (hd : digest.length = 16) :
    (message.length < 8192 →
      ((aes_mmo_run E digest message message.length).blocks.getLastD []).length = 16 ∧
      ((aes_mmo_run E digest message message.length).blocks.getLastD []).drop 14 =
        be_bytes 2 (8 * message.length)) ∧
    (8192 ≤ message.length → message.length < 2 ^ 29 →
      ((aes_mmo_run E digest message message.length).blocks.getLastD []).length = 16 ∧
      (((aes_mmo_run E digest message message.length).blocks.getLastD []).drop 10).take 4 =
        be_bytes 4 (8 * message.length) ∧
      ((aes_mmo_run E digest message message.length).blocks.getLastD []).drop 14 = [0, 0]) ∧
    (message.length = 8191 →
      (aes_mmo_run E digest message message.length).blocks.length = 513 ∧
      (aes_mmo_run E digest message message.length).blocks.flatten.length = 8208 ∧
      (aes_mmo_run E digest message message.length).blocks.getLastD [] =
        List.replicate 14 0 ++ [0xff, 0xf8]) ∧
    (message.length = 8192 →
      (aes_mmo_run E digest message message.length).blocks.length = 513 ∧
      (aes_mmo_run E digest message message.length).blocks.flatten.length = 8208 ∧
      (aes_mmo_run E digest message message.length).blocks.getLastD [] =
        [0x80] ++ List.replicate 9 0 ++ [0x00, 0x01, 0x00, 0x00, 0, 0]) := by
  refine ⟨?_, ?_, ?_, ?_⟩
  · intro hs
    obtain ⟨pre, hpre, hlast⟩ := mmo_last_block E digest message hd (by omega)
    rw [hlast]
    have hfl := mmo_length_field_length message.length
    rw [if_pos hs] at hfl
    rw [hfl] at hpre
    constructor
    · rw [List.length_append, hfl]
      omega
    · rw [List.drop_left' (by omega), mmo_length_field_be16 _ hs]
  · intro hs hL
    have hs2 : ¬ message.length < 8192 := by omega
    obtain ⟨pre, hpre, hlast⟩ := mmo_last_block E digest message hd (by omega)
    rw [hlast]
    have hfl := mmo_length_field_length message.length
    rw [if_neg hs2] at hfl
    rw [hfl] at hpre
    refine ⟨?_, ?_, ?_⟩
    · rw [List.length_append, hfl]
      omega
    · rw [List.drop_left' (by omega), mmo_length_field_be32 _ hs2,
        List.take_left' (be_bytes_length 4 _)]
    · have e : pre ++ mmo_length_field message.length =
          (pre ++ be_bytes 4 (8 * message.length)) ++ [0, 0] := by
        rw [mmo_length_field_be32 _ hs2, List.append_assoc]
      rw [e, List.drop_left' (by rw [List.length_append, be_bytes_length]; omega)]
  · intro h
    have hn := mmo_blocks_length E digest message hd (by omega)
    have hf := mmo_blocks_flatten_length E digest message hd (by omega)
    have hb := aes_mmo_run_blocks E digest message hd (by omega)
    rw [if_pos (by omega)] at hn
    rw [mmo_final_blocks_two message (by omega), mmo_length_field_short _ (by omega)] at hb
    refine ⟨by omega, by omega, ?_⟩
    rw [hb, getLastD_two, h]
    rfl
  · intro h
    have hn := mmo_blocks_length E digest message hd (by omega)
    have hf := mmo_blocks_flatten_length E digest message hd (by omega)
    have hb := aes_mmo_run_blocks E digest message hd (by omega)
    have htl := mmo_tail_drop message
    rw [if_neg (by omega)] at hn
    rw [mmo_final_blocks_one message (by omega), mmo_length_field_long _ (by omega)] at hb
    refine ⟨by omega, by omega, ?_⟩
    rw [hb, List.getLastD_concat]
    have e : message.drop (message.length / 16 * 16) = [] :=
      List.eq_nil_of_length_eq_zero (by omega)
    rw [e, h]
    rfl

/-- C15, a concrete instance: a message of three bytes. -/
theorem aes_mmo_length_encoding_witness :
    [1, 2, 3].length < 8192 ∧
    (aes_mmo_run id_cipher (List.replicate 16 0) [1, 2, 3] 3).blocks =
      [[1, 2, 3, 0x80, 0, 0, 0, 0, 0, 0, 0, 0, 0, 0, 0, 24]] ∧
    ((aes_mmo_run id_cipher (List.replicate 16 0) [1, 2, 3] [1, 2, 3].length).blocks.getLastD
      []).drop 14 = be_bytes 2 (8 * [1, 2, 3].length) :=
  ⟨by decide, by decide,
   ((aes_mmo_length_encoding id_cipher (List.replicate 16 0) [1, 2, 3] (by decide)).1
    (by decide)).2⟩

/-- C16. The number of padded blocks of `aes_mmo`: with `q = L % 16 + 1`, after
the `L / 16` full blocks of the message the cipher is given exactly two blocks
(the message tail, 0x80 and zeros; then zeros and the length field) when
`(L < 8192 ∧ q > 14) ∨ (L ≥ 8192 ∧ q > 10)`, and else exactly one block (the
message tail, 0x80, zeros and the length field). A message of 8201 bytes gives
one padded block and a message of 8202 bytes gives two. -/
theorem aes_mmo_padded_block_count (E : Cipher) (digest message : List Nat)
    (hd : digest.length = 16) (hL : message.length < 2 ^ 31) :
    (blocks16 message).length = message.length / 16 ∧
    ((message.length < 8192 ∧ message.length % 16 + 1 > 14) ∨
        (message.length ≥ 8192 ∧ message.length % 16 + 1 > 10) →
      (aes_mmo_run E digest message message.length).blocks =
        blocks16 message ++
          [message.drop (message.length / 16 * 16) ++ [0x80] ++
            List.replicate (16 - (message.length % 16 + 1)) 0,
           List.replicate (16 - (mmo_length_field message.length).length) 0 ++
             mmo_length_field message.length]) ∧
    (¬ ((message.length < 8192 ∧ message.length % 16 + 1 > 14) ∨
        (message.length ≥ 8192 ∧ message.length % 16 + 1 > 10)) →
      (aes_mmo_run E digest message message.length).blocks =
        blocks16 message ++
          [message.drop (message.length / 16 * 16) ++ [0x80] ++
            List.replicate (16 - (mmo_length_field message.length).length -
              (message.length % 16 + 1)) 0 ++ mmo_length_field message.length]) ∧
    (message.length = 8201 →
      (aes_mmo_run E digest message message.length).blocks.length = 512 + 1) ∧
    (message.length = 8202 →
      (aes_mmo_run E digest message message.length).blocks.length = 512 + 2) := by
  have hb := aes_mmo_run_blocks E digest message hd hL
  have hn := mmo_blocks_length E digest message hd hL
  refine ⟨blocks16_length message, ?_, ?_, ?_, ?_⟩
  · intro hc
    rw [hb, mmo_final_blocks_two message hc]
  · intro hc
    rw [hb, mmo_final_blocks_one message hc]
  · intro h
    rw [hn, if_neg (by omega)]
    omega
  · intro h
    rw [hn, if_pos (by omega)]
    omega

/-- C16, a concrete instance: 14 bytes give two padded blocks. -/
theorem aes_mmo_padded_block_count_witness :
    (aes_mmo_run id_cipher (List.replicate 16 0) (List.replicate 14 1)
      (List.replicate 14 1).length).blocks =
      blocks16 (List.replicate 14 1) ++
        [List.replicate 14 1 ++ [0x80, 0], List.replicate 14 0 ++ [0, 112]] :=
  (aes_mmo_padded_block_count id_cipher (List.replicate 16 0) (List.replicate 14 1) (by decide)
    (by decide)).2.1 (by decide)

/-! ## The counter blocks of aes_ccm_ctr and aes_gcm_encrypt_or_decrypt -/

/-- A counted loop whose iteration `i` stores at `i + 1`. -/
theorem for_loop_set_succ_getD (F : Nat → Nat) (n : Nat) (l : List Nat) (k : Nat) :
    (for_loop (fun i l => l.set (i + 1) (F i)) n l).getD k 0 =
      if 1 ≤ k ∧ k < n + 1 ∧ k < l.length then F (k - 1) else l.getD k 0 := by
  have e : (fun i (l : List Nat) => l.set (i + 1) (F i)) =
      (fun i l => l.set (1 + i) ((fun i _ => F i) i (l.getD (1 + i) 0))) := by
    funext i l
    rw [Nat.add_comm]
  rw [e, for_loop_set_getD (fun i _ => F i) 1 n l k]
  by_cases h : 1 ≤ k ∧ k < n + 1 ∧ k < l.length
  · rw [if_pos h, if_pos (by omega)]
  · rw [if_neg h, if_neg (by omega)]

theorem for_loop_set_succ_length (F : Nat → Nat) (n : Nat) (l : List Nat) :
    (for_loop (fun i l => l.set (i + 1) (F i)) n l).length = l.length :=
  for_loop_set_length (fun i => i + 1) (fun i _ => F i) n l

/-- A counted loop whose iteration `i` stores at `15 - i`. -/
theorem for_loop_set_down_getD (F : Nat → Nat) (n : Nat) (l : List Nat) (k : Nat)
    (hn : n ≤ 16) :
    (for_loop (fun i l => l.set (15 - i) (F i)) n l).getD k 0 =
      if 15 < k + n ∧ k ≤ 15 ∧ k < l.length then F (15 - k) else l.getD k 0 := by
  induction n with
  | zero =>
    rw [for_loop_zero, if_neg]
    omega
  | succ n ih =>
    rw [for_loop_succ, getD_set, for_loop_set_length (fun i => 15 - i) (fun i _ => F i),
      ih (by omega)]
    by_cases h1 : 15 - n = k ∧ k < l.length
    · rw [if_pos h1, if_pos (by omega)]
      congr 1
      omega
    · rw [if_neg h1]
      by_cases h2 : 15 < k + n ∧ k ≤ 15 ∧ k < l.length
      · rw [if_pos h2, if_pos (by omega)]
      · rw [if_neg h2, if_neg (by omega)]

theorem for_loop_set_down_length (F : Nat → Nat) (n : Nat) (l : List Nat) :
    (for_loop (fun i l => l.set (15 - i) (F i)) n l).length = l.length :=
  for_loop_set_length (fun i => 15 - i) (fun i _ => F i) n l

/-- Byte `k` of a block made of a flags byte, the nonce and a big-endian
number. -/
theorem ccm_block_getD (f : Nat) (nonce : List Nat) (j k : Nat) (hn : nonce.length ≤ 14) :
    ([f] ++ nonce ++ be_bytes (15 - nonce.length) j).getD k 0 =
      if k = 0 then f
      else if k < nonce.length + 1 then nonce.getD (k - 1) 0
      else if k < 16 then j / 2 ^ (8 * (15 - k)) % 256 else 0 := by
  rw [getD_append, getD_append, List.length_append, List.length_singleton, be_bytes_getD]
  by_cases h0 : k = 0
  · subst h0
    rw [if_pos (by omega), if_pos (by omega), if_pos rfl]
    rfl
  · rw [if_neg h0]
    by_cases h1 : k < nonce.length + 1
    · rw [if_pos (by omega), if_neg (by omega), if_pos h1]
    · rw [if_neg (by omega), if_neg h1]
      by_cases h2 : k < 16
      · rw [if_pos (by omega), if_pos h2]
        congr 3
        omega
      · rw [if_neg (by omega), if_neg h2]

theorem ccm_block_length (f : Nat) (nonce : List Nat) (j : Nat) (hn : nonce.length ≤ 14) :
    ([f] ++ nonce ++ be_bytes (15 - nonce.length) j).length = 16 := by
  rw [List.length_append, List.length_append, List.length_singleton, be_bytes_length]
  omega

theorem ccm_ref_ctr_length (nonce : List Nat) (j : Nat) (hn : nonce.length ≤ 14) :
    (ccm_ref_ctr nonce j).length = 16 := ccm_block_length _ nonce j hn

/-- The block that `aes_ccm_ctr` and `aes_ccm_mac` format in `x` from a flags
byte `f`, the nonce and the low four bytes of `c`: every byte of `x` is
overwritten. -/
theorem ccm_format_block (x nonce : List Nat) (f c : Nat) (hx : x.length = 16)
    (hn : nonce.length ≤ 14) (hc : c < 2 ^ 32) :
    for_loop (fun i x => x.set (15 - i) (if i < 4 then (c >>> (i * 8)) % 256 else 0))
      (15 - nonce.length)
      (for_loop (fun i x => x.set (i + 1) (nonce.getD i 0)) nonce.length (x.set 0 f)) =
      [f] ++ nonce ++ be_bytes (15 - nonce.length) c := by
  apply ext_getD
  · rw [for_loop_set_down_length (fun i => if i < 4 then (c >>> (i * 8)) % 256 else 0),
      for_loop_set_succ_length (fun i => nonce.getD i 0), List.length_set, hx,
      ccm_block_length f nonce c hn]
  · intro k hk
    rw [for_loop_set_down_length (fun i => if i < 4 then (c >>> (i * 8)) % 256 else 0),
      for_loop_set_succ_length (fun i => nonce.getD i 0), List.length_set, hx] at hk
    rw [for_loop_set_down_getD (fun i => if i < 4 then (c >>> (i * 8)) % 256 else 0) _ _ _
        (by omega),
      for_loop_set_succ_length (fun i => nonce.getD i 0), List.length_set, hx,
      for_loop_set_succ_getD (fun i => nonce.getD i 0), List.length_set, hx, getD_set, hx,
      ccm_block_getD f nonce c k hn]
    by_cases h0 : k = 0
    · subst h0
      rw [if_neg (by omega), if_neg (by omega), if_pos ⟨rfl, by omega⟩, if_pos rfl]
    · rw [if_neg h0]
      by_cases h1 : k < nonce.length + 1
      · rw [if_neg (by omega), if_pos ⟨by omega, h1, hk⟩, if_pos h1]
      · rw [if_pos ⟨by omega, by omega, hk⟩, if_neg h1, if_pos hk, Nat.shiftRight_eq_div_pow]
        by_cases h4 : 15 - k < 4
        · rw [if_pos h4, Nat.mul_comm]
        · rw [if_neg h4]
          have h2 : 2 ^ 32 ≤ 2 ^ (8 * (15 - k)) := Nat.pow_le_pow_right (by norm_num) (by omega)
          rw [Nat.div_eq_of_lt (by omega)]

/-- The counter block that `aes_ccm_ctr` formats in `x`. -/
theorem ccm_format_ctr (x nonce : List Nat) (c : Nat) (hx : x.length = 16)
    (hn : nonce.length ≤ 14) (hc : c < 2 ^ 32) :
    for_loop (fun i x => x.set (15 - i) (if i < 4 then (c >>> (i * 8)) % 256 else 0))
      (15 - nonce.length)
      (for_loop (fun i x => x.set (i + 1) (nonce.getD i 0)) nonce.length
        (x.set 0 ((14 - nonce.length) % 256))) = ccm_ref_ctr nonce c := by
  rw [ccm_format_block x nonce _ c hx hn hc, Nat.mod_eq_of_lt (by omega)]
  rfl

theorem be_value_append (a b : List Nat) :
    be_value (a ++ b) = be_value a * 256 ^ b.length + be_value b := by
  induction b using List.reverseRecOn with
  | nil => simp [be_value]
  | append_singleton b x ih =>
    have h1 : be_value (a ++ (b ++ [x])) = be_value (a ++ b) * 256 + x := by
      unfold be_value
      rw [← List.append_assoc, List.foldl_append]
      rfl
    have h2 : be_value (b ++ [x]) = be_value b * 256 + x := by
      unfold be_value
      rw [List.foldl_append]
      rfl
    rw [h1, h2, ih, List.length_append, List.length_singleton, pow_succ]
    ring

/-- The big-endian bytes of `n` in `w` bytes encode `n`, when `n` fits. -/
theorem be_value_be_bytes (w n : Nat) (h : n < 256 ^ w) : be_value (be_bytes w n) = n := by
  induction w generalizing n with
  | zero =>
    have : n = 0 := by simpa using h
    subst this
    rfl
  | succ w ih =>
    have e : be_bytes (w + 1) n = be_bytes w (n / 256) ++ [n % 256] := by
      apply ext_getD
      · rw [List.length_append, be_bytes_length, be_bytes_length, List.length_singleton]
      · intro k hk
        rw [be_bytes_length] at hk
        rw [be_bytes_getD, getD_append, be_bytes_length, be_bytes_getD, if_pos hk]
        by_cases hkw : k < w
        · rw [if_pos hkw, if_pos hkw, Nat.div_div_eq_div_mul]
          have e2 : 8 * (w + 1 - 1 - k) = 8 + 8 * (w - 1 - k) := by omega
          rw [e2, pow_add]
          rfl
        · have e3 : k = w := by omega
          subst e3
          rw [if_neg hkw, Nat.sub_self]
          simp
    rw [e, be_value_append, ih (n / 256) (by rw [pow_succ] at h; omega)]
    simp only [List.length_singleton, pow_one]
    have : be_value [n % 256] = n % 256 := by simp [be_value]
    rw [this]
    omega
/-- The counter block of `aes_gcm_encrypt_or_decrypt` after `j` increments. -/
theorem gcm_cb_spec (iv : List Nat) (j : Nat) :
    (gcm_cb iv j).counter = (1 + j) % 2 ^ 32 ∧ (gcm_cb iv j).cb.length = 16 ∧
      (∀ i, i < 12 → (gcm_cb iv j).cb.getD i 0 = iv.getD i 0) ∧
      (1 ≤ j → ∀ i, i < 4 →
        (gcm_cb iv j).cb.getD (12 + i) 0 = (be_bytes 4 ((1 + j) % 2 ^ 32)).getD i 0) := by
  induction j with
  | zero =>
    refine ⟨rfl, ?_, ?_, fun h => absurd h (by omega)⟩
    · show (for_loop (fun i cb => cb.set i (iv.getD i 0)) 12 (List.replicate 16 0)).length = 16
      rw [for_loop_set_length (fun i => i), List.length_replicate]
    · intro i hi
      show (for_loop (fun i cb => cb.set i (iv.getD i 0)) 12 (List.replicate 16 0)).getD i 0 = _
      rw [for_loop_set_getD_zero (fun i _ => iv.getD i 0), List.length_replicate,
        if_pos ⟨hi, by omega⟩]
  | succ j ih =>
    obtain ⟨hc, hl, hiv, -⟩ := ih
    have hc2 : (gcm_cb iv (j + 1)).counter = (1 + (j + 1)) % 2 ^ 32 := by
      show ((gcm_cb iv j).counter + 1) % 2 ^ 32 = _
      rw [hc]
      simp only [Nat.reducePow]
      omega
    have hcb : (gcm_cb iv (j + 1)).cb =
        ((((gcm_cb iv j).cb.set 12 (((gcm_cb iv (j + 1)).counter >>> 24) % 256)).set 13
          (((gcm_cb iv (j + 1)).counter >>> 16) % 256)).set 14
          (((gcm_cb iv (j + 1)).counter >>> 8) % 256)).set 15
          ((gcm_cb iv (j + 1)).counter % 256) := rfl
    refine ⟨hc2, ?_, ?_, ?_⟩
    · rw [hcb]
      simp only [List.length_set]
      exact hl
    · intro i hi
      rw [hcb, getD_set, getD_set, getD_set, getD_set, if_neg (by omega), if_neg (by omega),
        if_neg (by omega), if_neg (by omega)]
      exact hiv i hi
    · intro _ i hi
      rw [hcb, hc2, be_bytes_four]
      simp only [getD_set, List.length_set, hl]
      have hi4 : i = 0 ∨ i = 1 ∨ i = 2 ∨ i = 3 := by omega
      rcases hi4 with rfl | rfl | rfl | rfl <;> simp

/-- For a 12-byte IV the counter block is `IV | BE32(counter)`. -/
theorem gcm_cb_eq (iv : List Nat) (hiv : iv.length = 12) (j : Nat) (hj : 1 ≤ j) :
    (gcm_cb iv j).cb = iv ++ be_bytes 4 ((1 + j) % 2 ^ 32) := by
  obtain ⟨-, hl, h12, h4⟩ := gcm_cb_spec iv j
  apply ext_getD
  · rw [hl, List.length_append, hiv, be_bytes_length]
  · intro k hk
    rw [hl] at hk
    rw [getD_append, hiv]
    by_cases hk12 : k < 12
    · rw [if_pos hk12]
      exact h12 k hk12
    · rw [if_neg hk12]
      have := h4 hj (k - 12) (by omega)
      rw [← this]
      congr 1
      omega

/-- C20. `aes_gcm_encrypt_or_decrypt` is GCTR started at `inc32(J_0)`: for every
block cipher, key, 12-byte IV and input of n bytes, the output has n bytes and
byte k is `input[k] xor E_K(IV | BE32((2 + k / 16) mod 2 ^ 32))[k % 16]`; with
an input of 0 bytes nothing is written, so that an empty input gives an empty
output. -/
theorem aes_gcm_gctr (E : Cipher) (key iv input output : List Nat) (hiv : iv.length = 12)
    (hb : ∀ b ∈ input, b < 256) (hout : output.length = input.length) :
    (aes_gcm_encrypt_or_decrypt E output iv input input.length key).length = input.length ∧
    (∀ k, k < input.length →
      (aes_gcm_encrypt_or_decrypt E output iv input input.length key).getD k 0 =
        input.getD k 0 ^^^
          (aes_encrypt E (iv ++ be_bytes 4 ((2 + k / 16) % 2 ^ 32)) key).getD (k % 16) 0) ∧
    (input = [] → aes_gcm_encrypt_or_decrypt E output iv input input.length key = []) := by
  have hlen := aes_gcm_encrypt_or_decrypt_length E output iv input input.length key
  refine ⟨by rw [hlen, hout], ?_, ?_⟩
  · intro k hk
    rw [aes_gcm_encrypt_or_decrypt_getD, if_pos ⟨hk, by omega⟩]
    unfold gcm_keystream
    rw [gcm_cb_eq iv hiv (k / 16 + 1) (by omega)]
    have e : 1 + (k / 16 + 1) = 2 + k / 16 := by omega
    rw [e]
    exact Nat.mod_eq_of_lt
      (Nat.xor_lt_two_pow (n := 8) (getD_lt_of_forall hb k) (aes_encrypt_lt _ _ _ _))
  · intro he
    apply List.eq_nil_of_length_eq_zero
    rw [hlen, hout, he]
    rfl

/-- C20, a concrete instance: 17 bytes with the identity in place of the
cipher; the two blocks use the counters 2 and 3. -/
theorem aes_gcm_gctr_witness :
    aes_gcm_encrypt_or_decrypt id_cipher (List.replicate 17 0) (List.replicate 12 7)
      (List.replicate 17 0) 17 [] = [7, 7, 7, 7, 7, 7, 7, 7, 7, 7, 7, 7, 0, 0, 0, 2, 7] ∧
    (aes_gcm_encrypt_or_decrypt id_cipher (List.replicate 17 0) (List.replicate 12 7)
      (List.replicate 17 0) (List.replicate 17 0).length []).length =
      (List.replicate 17 0).length :=
  ⟨by decide, (aes_gcm_gctr id_cipher [] (List.replicate 12 7) (List.replicate 17 0)
    (List.replicate 17 0) (by decide) (by decide) (by decide)).1⟩

/-! ## The CBC-MAC of aes_ccm_mac -/

theorem xor_mod_256 (x a : Nat) (hx : x < 256) : (x ^^^ a) % 256 = x ^^^ (a % 256) := by
  apply Nat.eq_of_testBit_eq
  intro i
  have e : (256 : Nat) = 2 ^ 8 := by norm_num
  rw [e, Nat.testBit_mod_two_pow, Nat.testBit_xor, Nat.testBit_xor, Nat.testBit_mod_two_pow]
  by_cases h8 : i < 8
  · simp [h8]
  · have : x.testBit i = false :=
      Nat.testBit_lt_two_pow (lt_of_lt_of_le (e ▸ hx) (Nat.pow_le_pow_right (by norm_num) (by omega)))
    simp [h8, this]

theorem xor_bytes_zeros (X : List Nat) (n : Nat) (h : X.length = n) :
    xor_bytes X (List.replicate n 0) = X := by
  have hl : X.length = (List.replicate n 0).length := by rw [List.length_replicate, h]
  apply ext_getD
  · rw [xor_bytes_length _ _ hl]
  · intro k _
    rw [xor_bytes_getD _ _ hl, getD_replicate_zero, Nat.xor_zero]

theorem zeros_xor_bytes (B : List Nat) (n : Nat) (h : B.length = n) :
    xor_bytes (List.replicate n 0) B = B := by
  have hl : (List.replicate n 0).length = B.length := by rw [List.length_replicate, h]
  apply ext_getD
  · rw [xor_bytes_length _ _ hl, List.length_replicate, h]
  · intro k _
    rw [xor_bytes_getD _ _ hl, getD_replicate_zero, Nat.zero_xor]

/-- Bytes of a partial block completed with zeros. -/
theorem getD_append_zeros (pend : List Nat) (z k : Nat) :
    (pend ++ List.replicate z 0).getD k 0 = if k < pend.length then pend.getD k 0 else 0 := by
  rw [getD_append, getD_replicate_zero]

/-- A store `x[i] ^= b` at the end of the pending bytes. -/
theorem xor_pend_set (X pend : List Nat) (b : Nat) (hX : X.length = 16)
    (hXb : ∀ k, X.getD k 0 < 256) (hp : pend.length < 16) :
    (xor_bytes X (pend ++ List.replicate (16 - pend.length) 0)).set pend.length
      (((xor_bytes X (pend ++ List.replicate (16 - pend.length) 0)).getD pend.length 0 ^^^
        b) % 256) =
      xor_bytes X ((pend ++ [b % 256]) ++ List.replicate (16 - (pend.length + 1)) 0) := by
  have hl : X.length = (pend ++ List.replicate (16 - pend.length) 0).length := by
    rw [List.length_append, List.length_replicate, hX]
    omega
  have hl2 : X.length =
      ((pend ++ [b % 256]) ++ List.replicate (16 - (pend.length + 1)) 0).length := by
    simp only [List.length_append, List.length_replicate, List.length_singleton, hX]
    omega
  apply ext_getD
  · rw [List.length_set, xor_bytes_length _ _ hl, xor_bytes_length _ _ hl2]
  · intro k _
    rw [getD_set, xor_bytes_length _ _ hl, hX, xor_bytes_getD _ _ hl, xor_bytes_getD _ _ hl,
      xor_bytes_getD _ _ hl2, getD_append_zeros, getD_append_zeros, getD_append_zeros,
      List.length_append, List.length_singleton, getD_append]
    by_cases h1 : pend.length = k
    · subst h1
      rw [if_pos ⟨rfl, hp⟩, if_neg (by omega), if_pos (by omega), if_neg (by omega),
        Nat.sub_self, Nat.xor_zero]
      exact xor_mod_256 _ _ (hXb _)
    · rw [if_neg (fun hh => h1 hh.1)]
      by_cases h2 : k < pend.length
      · rw [if_pos h2, if_pos (by omega), if_pos h2]
      · rw [if_neg h2, if_neg (by omega)]

/-- The first store `x[0] ^= b` after an encryption. -/
theorem xor_pend_first (X : List Nat) (b : Nat) (hX : X.length = 16)
    (hXb : ∀ k, X.getD k 0 < 256) :
    X.set 0 ((X.getD 0 0 ^^^ b) % 256) =
      xor_bytes X ([b % 256] ++ List.replicate (16 - 1) 0) := by
  have h := xor_pend_set X [] b hX hXb (by simp)
  simp only [List.nil_append, List.length_nil, Nat.sub_zero, xor_bytes_zeros X 16 hX,
    Nat.zero_add] at h
  exact h

/-- One step of the CBC loops of `aes_ccm_mac` on the state that holds the
chaining value `X` xored with the pending bytes `pend`. -/
theorem aes_ccm_mac_absorb_step (E : Cipher) (key X pend d : List Nat) (b : Nat)
    (hX : X.length = 16) (hXb : ∀ k, X.getD k 0 < 256) (hp : pend.length < 16) (hb : b < 256) :
    aes_ccm_mac_absorb E (b :: d) key 0
        (xor_bytes X (pend ++ List.replicate (16 - pend.length) 0), pend.length) =
      if pend.length + 1 = 16 then (aes_encrypt E (xor_bytes X (pend ++ [b])) key, 0)
      else (xor_bytes X ((pend ++ [b]) ++ List.replicate (16 - (pend.length + 1)) 0),
        pend.length + 1) := by
  have hx := xor_pend_set X pend b hX hXb hp
  rw [Nat.mod_eq_of_lt hb] at hx
  unfold aes_ccm_mac_absorb
  show (if pend.length + 1 = 16 then _ else _) = _
  have hb0 : (b :: d).getD 0 0 = b := rfl
  rw [hb0, hx]
  by_cases h16 : pend.length + 1 = 16
  · rw [if_pos h16, if_pos h16]
    have e : 16 - (pend.length + 1) = 0 := by omega
    rw [e, List.replicate_zero, List.append_nil]
  · rw [if_neg h16, if_neg h16]

theorem pad16_length (l : List Nat) : (pad16 l).length % 16 = 0 := by
  unfold pad16
  rw [List.length_append, List.length_replicate]
  omega

theorem pad16_cons_block (A l : List Nat) (hA : A.length = 16) :
    pad16 (A ++ l) = A ++ pad16 l := by
  unfold pad16
  rw [List.length_append, hA, List.append_assoc]
  congr 3
  omega

theorem pad16_short (pend : List Nat) (h0 : 0 < pend.length) (hp : pend.length < 16) :
    pad16 pend = pend ++ List.replicate (16 - pend.length) 0 := by
  unfold pad16
  congr 2
  omega

theorem pad16_nil : pad16 [] = [] := rfl

/-- The blocks of a string that follows full blocks. -/
theorem blocks16_append_full (A B : List Nat) (hA : A.length % 16 = 0) :
    blocks16 (A ++ B) = blocks16 A ++ blocks16 B := by
  rw [blocks16_append _ A B rfl]
  have e : A.drop (A.length / 16 * 16) = [] :=
    List.drop_of_length_le (by omega)
  rw [e, List.nil_append]

/-- The CBC loops of `aes_ccm_mac`, with the final encryption of an incomplete
block, compute the CBC-MAC chain over the blocks of the zero-padded bytes. -/
theorem aes_ccm_mac_absorb_cbc (E : Cipher) (key : List Nat) :
    ∀ (d X pend : List Nat), X.length = 16 → (∀ k, X.getD k 0 < 256) → pend.length < 16 →
      (∀ b ∈ d, b < 256) →
      (if (for_loop (aes_ccm_mac_absorb E d key) d.length
            (xor_bytes X (pend ++ List.replicate (16 - pend.length) 0), pend.length)).2 ≠ 0
        then aes_encrypt E (for_loop (aes_ccm_mac_absorb E d key) d.length
            (xor_bytes X (pend ++ List.replicate (16 - pend.length) 0), pend.length)).1 key
        else (for_loop (aes_ccm_mac_absorb E d key) d.length
            (xor_bytes X (pend ++ List.replicate (16 - pend.length) 0), pend.length)).1) =
      cbc_mac_chain E key X (blocks16 (pad16 (pend ++ d))) := by
  intro d
  induction d with
  | nil =>
    intro X pend hX _ hp _
    rw [List.length_nil, for_loop_zero, List.append_nil]
    show (if pend.length ≠ 0 then
        aes_encrypt E (xor_bytes X (pend ++ List.replicate (16 - pend.length) 0)) key
      else xor_bytes X (pend ++ List.replicate (16 - pend.length) 0)) = _
    by_cases h0 : pend.length = 0
    · have e : pend = [] := List.eq_nil_of_length_eq_zero h0
      subst e
      rw [if_neg (by simp)]
      exact xor_bytes_zeros X 16 hX
    · rw [if_pos h0, pad16_short pend (by omega) hp, blocks16_one _ (by
        rw [List.length_append, List.length_replicate]; omega)]
      rfl
  | cons b d ih =>
    intro X pend hX hXb hp hd
    have hstep : for_loop (aes_ccm_mac_absorb E (b :: d) key) (b :: d).length
        (xor_bytes X (pend ++ List.replicate (16 - pend.length) 0), pend.length) =
        for_loop (aes_ccm_mac_absorb E d key) d.length
          (aes_ccm_mac_absorb E (b :: d) key 0
            (xor_bytes X (pend ++ List.replicate (16 - pend.length) 0), pend.length)) := by
      rw [List.length_cons, for_loop_succ_front]
      rfl
    rw [hstep, aes_ccm_mac_absorb_step E key X pend d b hX hXb hp
      (hd b (List.mem_cons_self _ _))]
    have hd2 : ∀ c ∈ d, c < 256 := fun c hc => hd c (List.mem_cons_of_mem _ hc)
    by_cases h16 : pend.length + 1 = 16
    · rw [if_pos h16]
      have hlen : (pend ++ [b]).length = 16 := by
        rw [List.length_append, List.length_singleton]
        exact h16
      have e0 : aes_encrypt E (xor_bytes X (pend ++ [b])) key =
          xor_bytes (aes_encrypt E (xor_bytes X (pend ++ [b])) key)
            (([] : List Nat) ++ List.replicate (16 - ([] : List Nat).length) 0) :=
        (xor_bytes_zeros _ 16 (aes_encrypt_length _ _ _)).symm
      have e1 : pend ++ b :: d = (pend ++ [b]) ++ d := by
        rw [List.append_assoc]
        rfl
      have ih2 := ih (aes_encrypt E (xor_bytes X (pend ++ [b])) key) []
        (aes_encrypt_length _ _ _) (fun k => aes_encrypt_lt _ _ _ k) (by simp) hd2
      rw [← e0] at ih2
      rw [e1, pad16_cons_block _ _ hlen, blocks16_cons _ _ hlen]
      exact ih2
    · rw [if_neg h16]
      have e1 : pend ++ b :: d = (pend ++ [b]) ++ d := by
        rw [List.append_assoc]
        rfl
      have ih2 := ih X (pend ++ [b]) hX hXb
        (by rw [List.length_append, List.length_singleton]; omega) hd2
      rw [List.length_append, List.length_singleton] at ih2
      rw [e1]
      exact ih2
theorem ccm_flags (a b c : Nat) (ha : a < 2) (hb : b < 8) (hc : c < 8) :
    ((a <<< 6) ||| (b <<< 3) ||| c) % 256 = 64 * a + 8 * b + c := by
  have h : ∀ a < 2, ∀ b < 8, ∀ c < 8,
      ((a <<< 6) ||| (b <<< 3) ||| c) % 256 = 64 * a + 8 * b + c := by decide
  exact h a ha b hb c hc

theorem cbc_mac_chain_spec (E : Cipher) (key : List Nat) (blocks : List (List Nat)) :
    ∀ X : List Nat, X.length = 16 → (∀ k, X.getD k 0 < 256) →
      (cbc_mac_chain E key X blocks).length = 16 ∧
        ∀ k, (cbc_mac_chain E key X blocks).getD k 0 < 256 := by
  induction blocks with
  | nil => exact fun X h1 h2 => ⟨h1, h2⟩
  | cons B bs ih =>
    intro X _ _
    exact ih _ (aes_encrypt_length _ _ _) (fun k => aes_encrypt_lt _ _ _ k)

/-- The block `S_0` of `aes_ccm_mac` is the encrypted counter block `Ctr_0`. -/
theorem aes_ccm_mac_s0_eq (E : Cipher) (x nonce key : List Nat) (hx : x.length = 16)
    (hn : nonce.length ≤ 14) :
    aes_ccm_mac_s0 E x nonce nonce.length key = aes_encrypt E (ccm_ref_ctr nonce 0) key := by
  unfold aes_ccm_mac_s0
  simp only []
  congr 1
  apply ext_getD
  · rw [for_loop_set_down_length (fun _ => 0), for_loop_set_succ_length (fun i => nonce.getD i 0),
      List.length_set, hx, ccm_ref_ctr_length nonce 0 hn]
  · intro k hk
    rw [for_loop_set_down_length (fun _ => 0), for_loop_set_succ_length (fun i => nonce.getD i 0),
      List.length_set, hx] at hk
    unfold ccm_ref_ctr
    rw [for_loop_set_down_getD (fun _ => 0) _ _ _ (by omega),
      for_loop_set_succ_length (fun i => nonce.getD i 0), List.length_set, hx,
      for_loop_set_succ_getD (fun i => nonce.getD i 0), List.length_set, hx, getD_set, hx,
      ccm_block_getD _ nonce 0 k hn]
    by_cases h0 : k = 0
    · subst h0
      rw [if_neg (by omega), if_neg (by omega), if_pos ⟨rfl, by omega⟩, if_pos rfl]
      omega
    · rw [if_neg h0]
      by_cases h1 : k < nonce.length + 1
      · rw [if_neg (by omega), if_pos ⟨by omega, h1, hk⟩, if_pos h1]
      · rw [if_pos ⟨by omega, by omega, hk⟩, if_neg h1, if_pos hk, Nat.zero_div]

/-- The block of `aes_ccm_mac` after the stores of the encoded length of short
associated data: the chaining value xored with the two bytes of the length. -/
theorem ccm_prefix_short (Y : List Nat) (a : Nat) (hY : Y.length = 16)
    (hYb : ∀ k, Y.getD k 0 < 256) :
    (let x := Y.set 0 ((Y.getD 0 0 ^^^ (a >>> 8)) % 256)
     x.set 1 ((x.getD 1 0 ^^^ a) % 256)) =
      xor_bytes Y (be_bytes 2 a ++ List.replicate (16 - 2) 0) := by
  simp only []
  rw [xor_pend_first Y _ hY hYb, be_bytes_two]
  exact xor_pend_set Y [(a >>> 8) % 256] a hY hYb (by simp)

/-- The block of `aes_ccm_mac` after the stores of the encoded length of long
associated data: the chaining value xored with FF FE and the four bytes of
the length. -/
theorem ccm_prefix_long (Y : List Nat) (a : Nat) (hY : Y.length = 16)
    (hYb : ∀ k, Y.getD k 0 < 256) :
    (let x := Y.set 0 ((Y.getD 0 0 ^^^ 0xff) % 256)
     let x := x.set 1 ((x.getD 1 0 ^^^ 0xfe) % 256)
     let x := x.set 2 ((x.getD 2 0 ^^^ (a >>> 24)) % 256)
     let x := x.set 3 ((x.getD 3 0 ^^^ (a >>> 16)) % 256)
     let x := x.set 4 ((x.getD 4 0 ^^^ (a >>> 8)) % 256)
     x.set 5 ((x.getD 5 0 ^^^ a) % 256)) =
      xor_bytes Y (([0xff, 0xfe] ++ be_bytes 4 a) ++ List.replicate (16 - 6) 0) := by
  simp only []
  rw [xor_pend_first Y _ hY hYb]
  rw [show (xor_bytes Y ([255 % 256] ++ List.replicate (16 - 1) 0)).set 1
      (((xor_bytes Y ([255 % 256] ++ List.replicate (16 - 1) 0)).getD 1 0 ^^^ 254) % 256) =
      xor_bytes Y ([255, 254] ++ List.replicate (16 - 2) 0)
    from xor_pend_set Y [255] 254 hY hYb (by simp)]
  rw [show (xor_bytes Y ([255, 254] ++ List.replicate (16 - 2) 0)).set 2
      (((xor_bytes Y ([255, 254] ++ List.replicate (16 - 2) 0)).getD 2 0 ^^^ (a >>> 24)) % 256) =
      xor_bytes Y ([255, 254, (a >>> 24) % 256] ++ List.replicate (16 - 3) 0)
    from xor_pend_set Y [255, 254] (a >>> 24) hY hYb (by simp)]
  rw [show (xor_bytes Y ([255, 254, (a >>> 24) % 256] ++ List.replicate (16 - 3) 0)).set 3
      (((xor_bytes Y ([255, 254, (a >>> 24) % 256] ++ List.replicate (16 - 3) 0)).getD 3 0 ^^^
        (a >>> 16)) % 256) =
      xor_bytes Y ([255, 254, (a >>> 24) % 256, (a >>> 16) % 256] ++ List.replicate (16 - 4) 0)
    from xor_pend_set Y [255, 254, (a >>> 24) % 256] (a >>> 16) hY hYb (by simp)]
  rw [show (xor_bytes Y ([255, 254, (a >>> 24) % 256, (a >>> 16) % 256] ++
        List.replicate (16 - 4) 0)).set 4
      (((xor_bytes Y ([255, 254, (a >>> 24) % 256, (a >>> 16) % 256] ++
        List.replicate (16 - 4) 0)).getD 4 0 ^^^ (a >>> 8)) % 256) =
      xor_bytes Y ([255, 254, (a >>> 24) % 256, (a >>> 16) % 256, (a >>> 8) % 256] ++
        List.replicate (16 - 5) 0)
    from xor_pend_set Y [255, 254, (a >>> 24) % 256, (a >>> 16) % 256] (a >>> 8) hY hYb
      (by simp)]
  rw [be_bytes_four]
  exact xor_pend_set Y [255, 254, (a >>> 24) % 256, (a >>> 16) % 256, (a >>> 8) % 256] a
    hY hYb (by simp)

/-- The CBC-MAC of `aes_ccm_mac` is the chain over the formatted blocks. -/
theorem aes_ccm_mac_cbc_eq (E : Cipher) (t : Nat) (nonce ad payload key : List Nat)
    (hN1 : 7 ≤ nonce.length) (hN2 : nonce.length ≤ 13) (ht : t ≤ 16)
    (had : ∀ b ∈ ad, b < 256) (hpl : ∀ b ∈ payload, b < 256)
    (ha : ad.length < 2 ^ 31) (hp : payload.length < 2 ^ 31) :
    aes_ccm_mac_cbc E t nonce nonce.length ad ad.length payload payload.length key =
      cbc_mac_chain E key (List.replicate 16 0)
        (blocks16 (ccm_ref_b0 t nonce ad.length payload.length ++
          pad16 (ccm_ref_ad_header ad.length ++ ad) ++ pad16 payload)) := by
  have hB0 : (ccm_ref_b0 t nonce ad.length payload.length).length = 16 :=
    ccm_block_length _ nonce _ (by omega)
  -- the reference chain, block by block
  have href : cbc_mac_chain E key (List.replicate 16 0)
      (blocks16 (ccm_ref_b0 t nonce ad.length payload.length ++
        pad16 (ccm_ref_ad_header ad.length ++ ad) ++ pad16 payload)) =
      cbc_mac_chain E key
        (cbc_mac_chain E key
          (aes_encrypt E (ccm_ref_b0 t nonce ad.length payload.length) key)
          (blocks16 (pad16 (ccm_ref_ad_header ad.length ++ ad))))
        (blocks16 (pad16 payload)) := by
    rw [blocks16_append_full _ _ (by
        rw [List.length_append, hB0]
        have := pad16_length (ccm_ref_ad_header ad.length ++ ad)
        omega),
      blocks16_cons _ _ hB0]
    unfold cbc_mac_chain
    rw [List.foldl_append, List.foldl_cons, zeros_xor_bytes _ 16 hB0]
  rw [href]
  unfold aes_ccm_mac_cbc
  simp only []
  rw [ccm_format_block _ nonce _ payload.length (List.length_replicate _ _) (by omega) (by omega),
    ccm_flags _ _ _ (by split_ifs <;> omega) (by omega) (by omega)]
  have hYe : [64 * (if ad.length > 0 then 1 else 0) + 8 * ((t - 2) / 2) + (14 - nonce.length)] ++
      nonce ++ be_bytes (15 - nonce.length) payload.length =
      ccm_ref_b0 t nonce ad.length payload.length := rfl
  rw [hYe]
  have hY := aes_encrypt_length E (ccm_ref_b0 t nonce ad.length payload.length) key
  have hYb := aes_encrypt_lt E (ccm_ref_b0 t nonce ad.length payload.length) key
  generalize aes_encrypt E (ccm_ref_b0 t nonce ad.length payload.length) key = Y at *
  have hpre2 : (be_bytes 2 ad.length).length = 2 := be_bytes_length _ _
  have hpre6 : ([0xff, 0xfe] ++ be_bytes 4 ad.length).length = 6 := by
    rw [List.length_append, be_bytes_length]
    rfl
  -- the associated data
  have hAD : ∀ pre : List Nat, pre.length < 16 →
      (if (for_loop (aes_ccm_mac_absorb E ad key) ad.length
          (xor_bytes Y (pre ++ List.replicate (16 - pre.length) 0), pre.length)).2 ≠ 0 then
        aes_encrypt E (for_loop (aes_ccm_mac_absorb E ad key) ad.length
          (xor_bytes Y (pre ++ List.replicate (16 - pre.length) 0), pre.length)).1 key
      else (for_loop (aes_ccm_mac_absorb E ad key) ad.length
          (xor_bytes Y (pre ++ List.replicate (16 - pre.length) 0), pre.length)).1) =
      cbc_mac_chain E key Y (blocks16 (pad16 (pre ++ ad))) :=
    fun pre hpre => aes_ccm_mac_absorb_cbc E key ad Y pre hY hYb hpre had
  -- the payload
  have hPL : ∀ X : List Nat, X.length = 16 → (∀ k, X.getD k 0 < 256) →
      (if (for_loop (aes_ccm_mac_absorb E payload key) payload.length (X, 0)).2 ≠ 0 then
        aes_encrypt E (for_loop (aes_ccm_mac_absorb E payload key) payload.length (X, 0)).1 key
      else (for_loop (aes_ccm_mac_absorb E payload key) payload.length (X, 0)).1) =
      cbc_mac_chain E key X (blocks16 (pad16 payload)) := by
    intro X hX hXb
    have h := aes_ccm_mac_absorb_cbc E key payload X [] hX hXb (by simp) hpl
    simp only [List.nil_append, List.length_nil, Nat.sub_zero, xor_bytes_zeros X 16 hX] at h
    exact h
  by_cases ha0 : ad.length > 0
  · simp only [if_pos ha0]
    by_cases hlong : ad.length ≥ 0xff00
    · simp only [if_pos hlong]
      have hp6 := ccm_prefix_long Y ad.length hY hYb
      simp only [] at hp6
      have h6 := hAD ([0xff, 0xfe] ++ be_bytes 4 ad.length) (by omega)
      rw [hpre6] at h6
      have hpf : ccm_ref_ad_header ad.length = [0xff, 0xfe] ++ be_bytes 4 ad.length := by
        unfold ccm_ref_ad_header
        rw [if_neg (by omega), if_neg (by omega)]
      rw [hp6, h6, ← hpf]
      exact hPL _ (cbc_mac_chain_spec E key _ Y hY hYb).1 (cbc_mac_chain_spec E key _ Y hY hYb).2
    · simp only [if_neg hlong]
      have hp2 := ccm_prefix_short Y ad.length hY hYb
      simp only [] at hp2
      have h2 := hAD (be_bytes 2 ad.length) (by omega)
      rw [hpre2] at h2
      have hpf : ccm_ref_ad_header ad.length = be_bytes 2 ad.length := by
        unfold ccm_ref_ad_header
        rw [if_neg (by omega), if_pos (by omega)]
      rw [hp2, h2, ← hpf]
      exact hPL _ (cbc_mac_chain_spec E key _ Y hY hYb).1 (cbc_mac_chain_spec E key _ Y hY hYb).2
  · simp only [if_neg ha0]
    have had0 : ad = [] := List.eq_nil_of_length_eq_zero (by omega)
    have hpf : ccm_ref_ad_header ad.length = [] := by
      unfold ccm_ref_ad_header
      rw [if_pos (by omega)]
    rw [hpf, had0, List.append_nil, pad16_nil, blocks16_short [] (by simp)]
    exact hPL Y hY hYb
/-- C17. `aes_ccm_mac` is the formatted CBC-MAC of NIST SP 800-38C with the
encrypted tag: for every block cipher, key, nonce of 7 to 13 bytes, even MAC
length from 4 to 16, associated data of a < 2 ^ 31 bytes and payload of
p < 2 ^ (8 * (15 - N)) bytes (p < 2 ^ 31), the `mac_length` bytes written are
the first `mac_length` bytes of `X xor E_K(Ctr_0)`, where `X` is the CBC-MAC
chain from the zero block over `B_0` (flags, nonce, `p` big-endian), the
encoded length of the associated data (nothing, 2 bytes, or FF FE and 4 bytes)
followed by the associated data and zeros up to a multiple of 16, and the
payload and zeros up to a multiple of 16; the length field of `B_0` encodes
`p`. -/
theorem aes_ccm_mac_sp800_38c (E : Cipher) (key nonce ad payload mac : List Nat) (t : Nat)
    (hN1 : 7 ≤ nonce.length) (hN2 : nonce.length ≤ 13)
    (ht1 : 4 ≤ t) (ht2 : t ≤ 16) (ht3 : t % 2 = 0)
    (had : ∀ b ∈ ad, b < 256) (hpl : ∀ b ∈ payload, b < 256)
    (ha : ad.length < 2 ^ 31) (hp : payload.length < 2 ^ 31)
    (hq : payload.length < 2 ^ (8 * (15 - nonce.length))) (hmac : mac.length = t) :
    aes_ccm_mac E mac t nonce nonce.length ad ad.length payload payload.length key =
      aes_ccm_mac_ref E t nonce ad payload key ∧
    be_value (be_bytes (15 - nonce.length) payload.length) = payload.length := by
  constructor
  · have hcbc := aes_ccm_mac_cbc_eq E t nonce ad payload key hN1 hN2 ht2 had hpl ha hp
    have hspec := cbc_mac_chain_spec E key
      (blocks16 (ccm_ref_b0 t nonce ad.length payload.length ++
        pad16 (ccm_ref_ad_header ad.length ++ ad) ++ pad16 payload))
      (List.replicate 16 0) (List.length_replicate _ _) (fun k => by
        rw [getD_replicate_zero]
        norm_num)
    unfold aes_ccm_mac_ref
    generalize cbc_mac_chain E key (List.replicate 16 0)
      (blocks16 (ccm_ref_b0 t nonce ad.length payload.length ++
        pad16 (ccm_ref_ad_header ad.length ++ ad) ++ pad16 payload)) = X at *
    obtain ⟨hX, hXb⟩ := hspec
    have hs0 := aes_encrypt_length E (ccm_ref_ctr nonce 0) key
    have hl : (X.take t).length = ((aes_encrypt E (ccm_ref_ctr nonce 0) key).take t).length := by
      rw [List.length_take, List.length_take, hX, hs0]
    apply ext_getD
    · rw [aes_ccm_mac_length, xor_bytes_length _ _ hl, List.length_take, hX, hmac]
      omega
    · intro i hi
      rw [aes_ccm_mac_length, hmac] at hi
      rw [aes_ccm_mac_getD, if_pos ⟨hi, by omega⟩, hcbc,
        aes_ccm_mac_s0_eq E X nonce key hX (by omega), xor_bytes_getD _ _ hl, getD_take,
        getD_take, if_pos hi, if_pos hi]
      exact Nat.mod_eq_of_lt (Nat.xor_lt_two_pow (n := 8) (hXb i) (aes_encrypt_lt _ _ _ i))
  · apply be_value_be_bytes
    rw [Nat.pow_mul] at hq
    exact hq

/-- C17, a concrete instance: a nonce of 13 bytes, 3 bytes of associated data,
a payload of 4 bytes and a MAC of 8 bytes, with the identity in place of the
cipher. -/
theorem aes_ccm_mac_sp800_38c_witness :
    aes_ccm_mac id_cipher (List.replicate 8 0) 8 (List.replicate 13 7)
      (List.replicate 13 7).length [1, 2, 3] [1, 2, 3].length [5, 6, 7, 8] [5, 6, 7, 8].length
      [] = aes_ccm_mac_ref id_cipher 8 (List.replicate 13 7) [1, 2, 3] [5, 6, 7, 8] [] ∧
    aes_ccm_mac_ref id_cipher 8 (List.replicate 13 7) [1, 2, 3] [5, 6, 7, 8] [] =
      [93, 5, 6, 10, 3, 0, 0, 0] :=
  ⟨(aes_ccm_mac_sp800_38c id_cipher [] (List.replicate 13 7) [1, 2, 3] [5, 6, 7, 8]
    (List.replicate 8 0) 8 (by decide) (by decide) (by decide) (by decide) (by decide)
    (by decide) (by decide) (by decide) (by decide) (by decide) (by decide)).1, by decide⟩

/-! ## GHASH in aes_gcm_tag -/

theorem for_loop_invariant {σ : Type} (P : σ → Prop) (body : Nat → σ → σ) (n : Nat) (s : σ)
    (h0 : P s) (hstep : ∀ i t, P t → P (body i t)) : P (for_loop body n s) := by
  induction n with
  | zero => exact h0
  | succ n ih => exact hstep n _ ih

/-- The bytes that `aes_gcm_mul` stores are bytes. -/
theorem aes_gcm_mul_lt (x y : List Nat) (hx : x.length = 16) (k : Nat) :
    (aes_gcm_mul x y).getD k 0 < 256 := by
  unfold aes_gcm_mul
  simp only []
  rw [for_loop_set_getD_zero (fun i _ => _)]
  split_ifs with h
  · apply for_loop_invariant (fun (zv : List Nat × List Nat) => ∀ k, zv.1.getD k 0 < 256)
    · apply for_loop_invariant (fun (zv : List Nat × List Nat) => ∀ k, zv.1.getD k 0 < 256)
      · intro k
        show (List.replicate 16 0).getD k 0 < 256
        rw [getD_replicate_zero]
        norm_num
      · intro i zv hzv k
        show (zv.1.set i 0).getD k 0 < 256
        rw [getD_set]
        split_ifs
        · norm_num
        · exact hzv k
    · intro i zv hzv k
      show (if (x.getD (i >>> 3) 0) &&& (0x80 >>> (i &&& 7)) ≠ 0 then
          for_loop (fun j z => z.set j ((z.getD j 0 ^^^ zv.2.getD j 0) % 256)) 16 zv.1
        else zv.1).getD k 0 < 256
      split_ifs
      · rw [for_loop_set_getD_zero (fun j v => (v ^^^ zv.2.getD j 0) % 256)]
        split_ifs
        · exact Nat.mod_lt _ (by norm_num)
        · exact hzv k
      · exact hzv k
  · rw [getD_of_le _ _ (by omega)]
    norm_num

theorem aes_gcm_mul_length (x y : List Nat) : (aes_gcm_mul x y).length = x.length := by
  unfold aes_gcm_mul
  simp only []
  rw [for_loop_set_length (fun i => i)]

theorem aes_gcm_tag_xor_length (tag data : List Nat) (i length : Nat) :
    (aes_gcm_tag_xor tag data i length).length = tag.length := by
  unfold aes_gcm_tag_xor
  have hc : (fun (p : Nat × List Nat) => decide (p.1 < 16 ∧ i + p.1 < length))
      = (fun (p : Nat × List Nat) => decide (p.1 < min 16 (length - i))) := by
    funext p
    apply decide_eq_decide.mpr
    omega
  rw [hc, while_loop_counted (min 16 (length - i))
    (fun j (l : List Nat) => l.set j ((l.getD j 0 ^^^ data.getD (i + j) 0) % 256))
    16 tag (by omega)]
  exact for_loop_set_length (fun j => j) (fun j l => (l.getD j 0 ^^^ data.getD (i + j) 0) % 256)
    _ tag

theorem aes_gcm_tag_xor_getD (tag data : List Nat) (i length k : Nat) :
    (aes_gcm_tag_xor tag data i length).getD k 0 =
      if k < 16 ∧ i + k < length ∧ k < tag.length
      then (tag.getD k 0 ^^^ data.getD (i + k) 0) % 256 else tag.getD k 0 := by
  unfold aes_gcm_tag_xor
  have hc : (fun (p : Nat × List Nat) => decide (p.1 < 16 ∧ i + p.1 < length))
      = (fun (p : Nat × List Nat) => decide (p.1 < min 16 (length - i))) := by
    funext p
    apply decide_eq_decide.mpr
    omega
  rw [hc, while_loop_counted (min 16 (length - i))
    (fun j (l : List Nat) => l.set j ((l.getD j 0 ^^^ data.getD (i + j) 0) % 256))
    16 tag (by omega)]
  show (for_loop (fun j (l : List Nat) => l.set j ((l.getD j 0 ^^^ data.getD (i + j) 0) % 256))
    (min 16 (length - i)) tag).getD k 0 = _
  rw [for_loop_set_getD_zero (fun j v => (v ^^^ data.getD (i + j) 0) % 256)]
  by_cases h : k < 16 ∧ i + k < length ∧ k < tag.length
  · rw [if_pos h, if_pos (by omega)]
  · rw [if_neg h, if_neg (by omega)]

theorem pad16_getD (l : List Nat) (k : Nat) : (pad16 l).getD k 0 = l.getD k 0 := by
  unfold pad16
  rw [getD_append_zeros]
  split_ifs with h
  · rfl
  · rw [getD_of_le _ _ (by omega)]

theorem pad16_length_eq (l : List Nat) :
    (pad16 l).length = l.length + (16 - l.length % 16) % 16 := by
  unfold pad16
  rw [List.length_append, List.length_replicate]

/-- The loop that xors a block of the data into the tag, as an xor of blocks. -/
theorem aes_gcm_tag_xor_eq (tag data : List Nat) (j : Nat) (ht : tag.length = 16)
    (htb : ∀ k, tag.getD k 0 < 256) (hd : ∀ b ∈ data, b < 256) (hj : 16 * j < data.length) :
    aes_gcm_tag_xor tag data (16 * j) data.length =
      xor_bytes tag (((pad16 data).drop (16 * j)).take 16) := by
  have hl : tag.length = (((pad16 data).drop (16 * j)).take 16).length := by
    rw [List.length_take, List.length_drop, pad16_length_eq, ht]
    omega
  apply ext_getD
  · rw [aes_gcm_tag_xor_length, xor_bytes_length _ _ hl]
  · intro k hk
    rw [aes_gcm_tag_xor_length, ht] at hk
    rw [aes_gcm_tag_xor_getD, xor_bytes_getD _ _ hl, getD_take, if_pos hk, getD_drop,
      pad16_getD, ht]
    by_cases h : 16 * j + k < data.length
    · rw [if_pos ⟨hk, h, hk⟩]
      exact Nat.mod_eq_of_lt (Nat.xor_lt_two_pow (n := 8) (htb k) (getD_lt_of_forall hd _))
    · rw [if_neg (by omega), getD_of_le data _ (by omega), Nat.xor_zero]

theorem ghash_fold_spec (H : List Nat) (blocks : List (List Nat)) :
    ∀ S : List Nat, S.length = 16 → (∀ k, S.getD k 0 < 256) →
      (∀ B ∈ blocks, B.length = 16) →
      (blocks.foldl (fun S B => aes_gcm_mul (xor_bytes S B) H) S).length = 16 ∧
        ∀ k, (blocks.foldl (fun S B => aes_gcm_mul (xor_bytes S B) H) S).getD k 0 < 256 := by
  induction blocks with
  | nil => exact fun S h1 h2 _ => ⟨h1, h2⟩
  | cons B bs ih =>
    intro S hS _ hB
    have hxl : (xor_bytes S B).length = 16 := by
      rw [xor_bytes_length _ _ (by rw [hS, hB B (List.mem_cons_self _ _)]), hS]
    rw [List.foldl_cons]
    exact ih _ (by rw [aes_gcm_mul_length, hxl]) (fun k => aes_gcm_mul_lt _ _ hxl k)
      (fun C hC => hB C (List.mem_cons_of_mem _ hC))

/-- State of the block loop of `aes_gcm_tag` after `j` iterations. -/
theorem aes_gcm_tag_iterate (tag h data : List Nat) (ht : tag.length = 16)
    (htb : ∀ k, tag.getD k 0 < 256) (hd : ∀ b ∈ data, b < 256) (j : Nat)
    (hj : 16 * j < data.length + 16) :
    (fun (s : Nat × List Nat) =>
      (s.1 + 16, aes_gcm_mul (aes_gcm_tag_xor s.2 data s.1 data.length) h))^[j] (0, tag) =
      (16 * j, ((List.range j).map (fun i => ((pad16 data).drop (16 * i)).take 16)).foldl
        (fun S B => aes_gcm_mul (xor_bytes S B) h) tag) := by
  induction j with
  | zero => rfl
  | succ j ih =>
    rw [Function.iterate_succ_apply', ih (by omega), List.range_succ, List.map_append,
      List.foldl_append]
    have hspec := ghash_fold_spec h
      ((List.range j).map (fun i => ((pad16 data).drop (16 * i)).take 16)) tag ht htb (by
        intro B hB
        rw [List.mem_map] at hB
        obtain ⟨i, hi, rfl⟩ := hB
        rw [List.mem_range] at hi
        rw [List.length_take, List.length_drop, pad16_length_eq]
        omega)
    simp only [List.map_cons, List.map_nil, List.foldl_cons, List.foldl_nil, Nat.mul_succ]
    rw [aes_gcm_tag_xor_eq _ data j hspec.1 hspec.2 hd (by omega)]

/-- The block loop of `aes_gcm_tag` is GHASH over the zero-padded data. -/
theorem aes_gcm_tag_absorb_eq (tag h data : List Nat) (ht : tag.length = 16)
    (htb : ∀ k, tag.getD k 0 < 256) (hd : ∀ b ∈ data, b < 256) :
    aes_gcm_tag_absorb tag h data data.length =
      (blocks16 (pad16 data)).foldl (fun S B => aes_gcm_mul (xor_bytes S B) h) tag := by
  unfold aes_gcm_tag_absorb
  have hn : (pad16 data).length / 16 = (data.length + 15) / 16 := by
    rw [pad16_length_eq]
    omega
  rw [while_loop_iterate _ _ ((data.length + 15) / 16) _ _ (by omega)]
  · rw [aes_gcm_tag_iterate tag h data ht htb hd _ (by omega)]
    unfold blocks16
    rw [hn]
  · intro j hj
    rw [aes_gcm_tag_iterate tag h data ht htb hd _ (by omega)]
    apply decide_eq_true
    show 16 * j < data.length
    omega
  · rw [aes_gcm_tag_iterate tag h data ht htb hd _ (by omega)]
    apply decide_eq_false
    show ¬ 16 * ((data.length + 15) / 16) < data.length
    omega
/-- A store `x[i] ^= v` on a block that is `S` xored with a mask whose byte `i`
is still zero. -/
theorem xor_byte_at (S m : List Nat) (i v : Nat) (hS : S.length = 16)
    (hSb : ∀ k, S.getD k 0 < 256) (hm : m.length = 16) (hmi : m.getD i 0 = 0) :
    (xor_bytes S m).set i (((xor_bytes S m).getD i 0 ^^^ v) % 256) =
      xor_bytes S (m.set i (v % 256)) := by
  have hl : S.length = m.length := by rw [hS, hm]
  have hl2 : S.length = (m.set i (v % 256)).length := by rw [List.length_set, hS, hm]
  apply ext_getD
  · rw [List.length_set, xor_bytes_length _ _ hl, xor_bytes_length _ _ hl2]
  · intro k _
    rw [getD_set, xor_bytes_length _ _ hl, hS, xor_bytes_getD _ _ hl, xor_bytes_getD _ _ hl,
      xor_bytes_getD _ _ hl2, getD_set, hm, hmi, Nat.xor_zero]
    by_cases h : i = k ∧ k < 16
    · rw [if_pos h, if_pos h, ← h.1]
      exact xor_mod_256 _ _ (hSb i)
    · rw [if_neg h, if_neg h]

theorem xor_byte_first (S : List Nat) (i v : Nat) (hS : S.length = 16)
    (hSb : ∀ k, S.getD k 0 < 256) :
    S.set i ((S.getD i 0 ^^^ v) % 256) =
      xor_bytes S ((List.replicate 16 0).set i (v % 256)) := by
  have h := xor_byte_at S (List.replicate 16 0) i v hS hSb (List.length_replicate _ _)
    (getD_replicate_zero _ _)
  rw [xor_bytes_zeros S 16 hS] at h
  exact h

theorem be_bytes_eight (n : Nat) :
    be_bytes 8 n = [n / 2 ^ 56 % 256, n / 2 ^ 48 % 256, n / 2 ^ 40 % 256, n / 2 ^ 32 % 256,
      n / 2 ^ 24 % 256, n / 2 ^ 16 % 256, n / 2 ^ 8 % 256, n % 256] := by
  simp [be_bytes, List.range_succ]

/-- The ten stores of `aes_gcm_tag` that xor the lengths into the tag are the
xor with the length block: the two lengths in bits, as 64-bit big-endian
integers. -/
theorem gcm_length_block (S : List Nat) (a c : Nat) (hS : S.length = 16)
    (hSb : ∀ k, S.getD k 0 < 256) (ha : a < 2 ^ 31) (hc : c < 2 ^ 31) :
    (let tag := S.set 3 ((S.getD 3 0 ^^^ (a >>> 29)) % 256)
     let tag := tag.set 4 ((tag.getD 4 0 ^^^ (a >>> 21)) % 256)
     let tag := tag.set 5 ((tag.getD 5 0 ^^^ (a >>> 13)) % 256)
     let tag := tag.set 6 ((tag.getD 6 0 ^^^ (a >>> 5)) % 256)
     let tag := tag.set 7 ((tag.getD 7 0 ^^^ (a <<< 3)) % 256)
     let tag := tag.set 11 ((tag.getD 11 0 ^^^ (c >>> 29)) % 256)
     let tag := tag.set 12 ((tag.getD 12 0 ^^^ (c >>> 21)) % 256)
     let tag := tag.set 13 ((tag.getD 13 0 ^^^ (c >>> 13)) % 256)
     let tag := tag.set 14 ((tag.getD 14 0 ^^^ (c >>> 5)) % 256)
     tag.set 15 ((tag.getD 15 0 ^^^ (c <<< 3)) % 256)) =
      xor_bytes S (be_bytes 8 (8 * a) ++ be_bytes 8 (8 * c)) := by
  simp only []
  rw [xor_byte_first S 3 _ hS hSb]
  rw [xor_byte_at S _ 4 _ hS hSb]
  rotate_left
  · rfl
  · rfl
  rw [xor_byte_at S _ 5 _ hS hSb]
  rotate_left
  · rfl
  · rfl
  rw [xor_byte_at S _ 6 _ hS hSb]
  rotate_left
  · rfl
  · rfl
  rw [xor_byte_at S _ 7 _ hS hSb]
  rotate_left
  · rfl
  · rfl
  rw [xor_byte_at S _ 11 _ hS hSb]
  rotate_left
  · rfl
  · rfl
  rw [xor_byte_at S _ 12 _ hS hSb]
  rotate_left
  · rfl
  · rfl
  rw [xor_byte_at S _ 13 _ hS hSb]
  rotate_left
  · rfl
  · rfl
  rw [xor_byte_at S _ 14 _ hS hSb]
  rotate_left
  · rfl
  · rfl
  rw [xor_byte_at S _ 15 _ hS hSb]
  rotate_left
  · rfl
  · rfl
  congr 1
  rw [be_bytes_eight, be_bytes_eight]
  show [0, 0, 0, (a >>> 29) % 256, (a >>> 21) % 256, (a >>> 13) % 256, (a >>> 5) % 256,
    (a <<< 3) % 256, 0, 0, 0, (c >>> 29) % 256, (c >>> 21) % 256, (c >>> 13) % 256,
    (c >>> 5) % 256, (c <<< 3) % 256] = _
  simp only [Nat.shiftRight_eq_div_pow, Nat.shiftLeft_eq, Nat.reducePow, List.cons_append,
    List.nil_append] at *
  have e1 : 8 * a / 72057594037927936 % 256 = 0 := by omega
  have e2 : 8 * a / 281474976710656 % 256 = 0 := by omega
  have e3 : 8 * a / 1099511627776 % 256 = 0 := by omega
  have e4 : 8 * a / 4294967296 % 256 = a / 536870912 % 256 := by omega
  have e5 : 8 * a / 16777216 % 256 = a / 2097152 % 256 := by omega
  have e6 : 8 * a / 65536 % 256 = a / 8192 % 256 := by omega
  have e7 : 8 * a / 256 % 256 = a / 32 % 256 := by omega
  have e8 : 8 * a % 256 = a * 8 % 256 := by omega
  have f1 : 8 * c / 72057594037927936 % 256 = 0 := by omega
  have f2 : 8 * c / 281474976710656 % 256 = 0 := by omega
  have f3 : 8 * c / 1099511627776 % 256 = 0 := by omega
  have f4 : 8 * c / 4294967296 % 256 = c / 536870912 % 256 := by omega
  have f5 : 8 * c / 16777216 % 256 = c / 2097152 % 256 := by omega
  have f6 : 8 * c / 65536 % 256 = c / 8192 % 256 := by omega
  have f7 : 8 * c / 256 % 256 = c / 32 % 256 := by omega
  have f8 : 8 * c % 256 = c * 8 % 256 := by omega
  rw [e1, e2, e3, e4, e5, e6, e7, e8, f1, f2, f3, f4, f5, f6, f7, f8]
/-- The block `J_0` that `aes_gcm_tag` formats from a 12-byte IV. -/
theorem gcm_j0 (iv : List Nat) (hiv : iv.length = 12) :
    ((((for_loop (fun i j0 => j0.set i (iv.getD i 0)) 12 (List.replicate 16 0)).set 12 0).set
      13 0).set 14 0).set 15 1 = iv ++ [0, 0, 0, 1] := by
  have hl : (for_loop (fun i j0 => j0.set i (iv.getD i 0)) 12 (List.replicate 16 0)).length =
      16 := by
    rw [for_loop_set_length (fun i => i), List.length_replicate]
  apply ext_getD
  · simp only [List.length_set, hl, List.length_append, hiv]
    rfl
  · intro k hk
    simp only [List.length_set, hl] at hk
    simp only [getD_set, List.length_set, hl, getD_append, hiv]
    rw [for_loop_set_getD_zero (fun i _ => iv.getD i 0), List.length_replicate,
      getD_replicate_zero]
    by_cases h12 : k < 12
    · rw [if_neg (by omega), if_neg (by omega), if_neg (by omega), if_neg (by omega),
        if_pos ⟨h12, hk⟩, if_pos h12]
    · have hk2 : k = 12 ∨ k = 13 ∨ k = 14 ∨ k = 15 := by omega
      rcases hk2 with rfl | rfl | rfl | rfl <;> simp

/-- The tag of `aes_gcm_tag` is the reference tag. -/
theorem aes_gcm_tag_eq_ref (E : Cipher) (key iv aad text tag : List Nat)
    (hiv : iv.length = 12) (htag : tag.length = 16)
    (haad : ∀ b ∈ aad, b < 256) (htext : ∀ b ∈ text, b < 256)
    (ha : aad.length < 2 ^ 31) (hc : text.length < 2 ^ 31) :
    aes_gcm_tag E tag iv aad aad.length text text.length key =
      aes_gcm_tag_ref E iv aad text key := by
  have hz : (List.replicate 16 0 : List Nat).length = 16 := List.length_replicate _ _
  have hzb : ∀ k, (List.replicate 16 0 : List Nat).getD k 0 < 256 := by
    intro k
    rw [getD_replicate_zero]
    norm_num
  -- the reference, block by block
  have hlen : (be_bytes 8 (8 * aad.length) ++ be_bytes 8 (8 * text.length)).length = 16 := by
    rw [List.length_append, be_bytes_length, be_bytes_length]
  have href : aes_gcm_tag_ref E iv aad text key =
      xor_bytes
        (aes_gcm_mul
          (xor_bytes
            ((blocks16 (pad16 text)).foldl
              (fun S B => aes_gcm_mul (xor_bytes S B) (aes_encrypt E (List.replicate 16 0) key))
              ((blocks16 (pad16 aad)).foldl
                (fun S B => aes_gcm_mul (xor_bytes S B) (aes_encrypt E (List.replicate 16 0) key))
                (List.replicate 16 0)))
            (be_bytes 8 (8 * aad.length) ++ be_bytes 8 (8 * text.length)))
          (aes_encrypt E (List.replicate 16 0) key))
        (aes_encrypt E (iv ++ [0, 0, 0, 1]) key) := by
    unfold aes_gcm_tag_ref ghash
    rw [blocks16_append_full _ _ (by
        rw [List.length_append]
        have h1 := pad16_length aad
        have h2 := pad16_length text
        omega),
      blocks16_append_full _ _ (pad16_length aad), blocks16_one _ hlen, List.foldl_append,
      List.foldl_append, List.foldl_cons, List.foldl_nil]
  rw [href]
  unfold aes_gcm_tag
  simp only []
  rw [for_loop_clear16 _ hz, for_loop_clear16 tag htag, gcm_j0 iv hiv,
    aes_gcm_tag_absorb_eq _ _ aad hz hzb haad]
  generalize aes_encrypt E (List.replicate 16 0) key = H
  have hs1 := ghash_fold_spec H (blocks16 (pad16 aad)) (List.replicate 16 0) hz hzb
    (fun B hB => (blocks16_mem _ _ hB).1)
  generalize (blocks16 (pad16 aad)).foldl (fun S B => aes_gcm_mul (xor_bytes S B) H)
    (List.replicate 16 0) = S1 at *
  rw [aes_gcm_tag_absorb_eq S1 H text hs1.1 hs1.2 htext]
  have hs2 := ghash_fold_spec H (blocks16 (pad16 text)) S1 hs1.1 hs1.2
    (fun B hB => (blocks16_mem _ _ hB).1)
  generalize (blocks16 (pad16 text)).foldl (fun S B => aes_gcm_mul (xor_bytes S B) H) S1 = S2
    at *
  have hlb := gcm_length_block S2 aad.length text.length hs2.1 hs2.2 ha hc
  simp only [] at hlb
  rw [hlb]
  have hxl : (xor_bytes S2 (be_bytes 8 (8 * aad.length) ++ be_bytes 8 (8 * text.length))).length
      = 16 := by
    rw [xor_bytes_length _ _ (by rw [hs2.1, hlen]), hs2.1]
  have hml := aes_gcm_mul_length
    (xor_bytes S2 (be_bytes 8 (8 * aad.length) ++ be_bytes 8 (8 * text.length))) H
  have hmb := aes_gcm_mul_lt
    (xor_bytes S2 (be_bytes 8 (8 * aad.length) ++ be_bytes 8 (8 * text.length))) H hxl
  rw [hxl] at hml
  generalize aes_gcm_mul
    (xor_bytes S2 (be_bytes 8 (8 * aad.length) ++ be_bytes 8 (8 * text.length))) H = S3 at *
  have hl : S3.length = (aes_encrypt E (iv ++ [0, 0, 0, 1]) key).length := by
    rw [hml, aes_encrypt_length]
  apply ext_getD
  · rw [for_loop_set_length (fun i => i), xor_bytes_length _ _ hl]
  · intro k hk
    rw [for_loop_set_length (fun i => i), hml] at hk
    rw [for_loop_set_getD_zero
        (fun i v => (v ^^^ (aes_encrypt E (iv ++ [0, 0, 0, 1]) key).getD i 0) % 256),
      hml, if_pos ⟨hk, hk⟩, xor_bytes_getD _ _ hl]
    exact Nat.mod_eq_of_lt (Nat.xor_lt_two_pow (n := 8) (hmb k) (aes_encrypt_lt _ _ _ k))

/-- C19. `aes_gcm_tag` is `E_K(J_0) xor GHASH_H`: for every block cipher, key,
12-byte IV, additional data of a < 2 ^ 31 bytes and text of c < 2 ^ 31 bytes,
the 16 bytes written are `E_K(J_0) xor S`, where `H = E_K(0^128)`,
`J_0 = IV | 00 00 00 01` and `S` results from `S <- (S xor B) * H`
(`aes_gcm_mul`), from the zero block, over the 16-byte blocks `B` of the
additional data padded with zeros, then of the text padded with zeros, then
over the block of the two lengths in bits as 64-bit big-endian integers; the
length block encodes `8 * a` and `8 * c`. -/
theorem aes_gcm_tag_ghash (E : Cipher) (key iv aad text tag : List Nat)
    (hiv : iv.length = 12) (htag : tag.length = 16)
    (haad : ∀ b ∈ aad, b < 256) (htext : ∀ b ∈ text, b < 256)
    (ha : aad.length < 2 ^ 31) (hc : text.length < 2 ^ 31) :
    aes_gcm_tag E tag iv aad aad.length text text.length key =
      aes_gcm_tag_ref E iv aad text key ∧
    be_value (be_bytes 8 (8 * aad.length)) = 8 * aad.length ∧
    be_value (be_bytes 8 (8 * text.length)) = 8 * text.length := by
  refine ⟨aes_gcm_tag_eq_ref E key iv aad text tag hiv htag haad htext ha hc, ?_, ?_⟩
  · apply be_value_be_bytes
    have : (256 : Nat) ^ 8 = 2 ^ 64 := by norm_num
    omega
  · apply be_value_be_bytes
    have : (256 : Nat) ^ 8 = 2 ^ 64 := by norm_num
    omega

/-- C19, a concrete instance: 3 bytes of additional data and 4 bytes of text,
with a toy function in place of the cipher. -/
theorem aes_gcm_tag_ghash_witness :
    aes_gcm_tag succ_cipher (List.replicate 16 0) (List.replicate 12 7) [1, 2, 3]
      [1, 2, 3].length [5, 6, 7, 8] [5, 6, 7, 8].length [] =
      aes_gcm_tag_ref succ_cipher (List.replicate 12 7) [1, 2, 3] [5, 6, 7, 8] [] ∧
    aes_gcm_tag_ref succ_cipher (List.replicate 12 7) [1, 2, 3] [5, 6, 7, 8] [] =
      [65, 135, 4, 193, 53, 92, 45, 28, 57, 104, 89, 104, 80, 97, 80, 98] :=
  ⟨(aes_gcm_tag_ghash succ_cipher [] (List.replicate 12 7) [1, 2, 3] [5, 6, 7, 8]
    (List.replicate 16 0) (by decide) (by decide) (by decide) (by decide) (by decide)
    (by decide)).1, by decide⟩

/-! ## The output buffer of the two decryption functions -/

/-- The function `aes_ccm_ctr` reads only the first `len` bytes of its input. -/
theorem aes_ccm_ctr_take (E : Cipher) (output nonce : List Nat) (nl : Nat)
    (input : List Nat) (len : Nat) (key : List Nat) :
    aes_ccm_ctr E output nonce nl (input.take len) len key =
      aes_ccm_ctr E output nonce nl input len key := by
  apply ext_getD
  · rw [aes_ccm_ctr_length, aes_ccm_ctr_length]
  · intro k _
    rw [aes_ccm_ctr_getD, aes_ccm_ctr_getD, getD_take]
    by_cases h : k < len ∧ k < output.length
    · rw [if_pos h, if_pos h, if_pos h.1]
    · rw [if_neg h, if_neg h]

/-- An input of `aes_ccm_decrypt` that fails authentication: the function
returns -1 and the payload buffer, which held `[0, 0]`, holds the bytes that
`aes_ccm_ctr` computes from the ciphertext. -/
theorem aes_ccm_decrypt_failure_example :
    (aes_ccm_decrypt succ_cipher [0, 0] 4 [1, 2, 3, 4, 5, 6, 7] 7 [] 0 [9, 9, 0, 0, 0, 0] 6
        []).ret = -1 ∧
    (aes_ccm_decrypt succ_cipher [0, 0] 4 [1, 2, 3, 4, 5, 6, 7] 7 [] 0 [9, 9, 0, 0, 0, 0] 6
        []).output = [1, 11] := by
  decide

/-- An input of `aes_gcm_decrypt` that fails authentication: the function
returns -1 and the plaintext buffer still holds `[7, 7]`. -/
theorem aes_gcm_decrypt_failure_example :
    (aes_gcm_decrypt succ_cipher [7, 7] (List.replicate 12 0) [9, 9] 2 [] 0 [0, 0, 0, 0] 4
        []).ret = -1 ∧
    (aes_gcm_decrypt succ_cipher [7, 7] (List.replicate 12 0) [9, 9] 2 [] 0 [0, 0, 0, 0] 4
        []).output = [7, 7] := by
  decide

/-- C22. `aes_ccm_decrypt` writes the tentative plaintext whatever the outcome
of the authentication: for every block cipher and every input the function
returns 0 or -1, and in both cases the payload buffer holds the output of
`aes_ccm_ctr` on the first `ciphertext_length - mac_length` bytes of the
ciphertext under the given nonce and key (bytes of the ciphertext beyond these
are not read by `aes_ccm_ctr`). -/
theorem aes_ccm_decrypt_writes_payload (E : Cipher) (payload : List Nat) (mac_length : Nat)
    (nonce : List Nat) (nonce_length : Nat) (ad : List Nat) (ad_length : Nat)
    (ciphertext : List Nat) (ciphertext_length : Nat) (key : List Nat) :
    ((aes_ccm_decrypt E payload mac_length nonce nonce_length ad ad_length ciphertext
        ciphertext_length key).ret = 0 ∨
      (aes_ccm_decrypt E payload mac_length nonce nonce_length ad ad_length ciphertext
        ciphertext_length key).ret = -1) ∧
    (aes_ccm_decrypt E payload mac_length nonce nonce_length ad ad_length ciphertext
        ciphertext_length key).output =
      aes_ccm_ctr E payload nonce nonce_length ciphertext
        (ciphertext_length - mac_length) key ∧
    (aes_ccm_decrypt E payload mac_length nonce nonce_length ad ad_length ciphertext
        ciphertext_length key).output =
      aes_ccm_ctr E payload nonce nonce_length
        (ciphertext.take (ciphertext_length - mac_length))
        (ciphertext_length - mac_length) key := by
  rw [aes_ccm_decrypt_eq, aes_ccm_ctr_take]
  exact ⟨tag_check_ret _ _ _ _ _ _, rfl, rfl⟩

/-- C23. `aes_gcm_decrypt` verifies the tag before it decrypts: for every block
cipher and every input, either it returns -1 and the plaintext buffer is the
buffer it was given, no byte of it being written, or it returns 0 and the
plaintext buffer holds the output of `aes_gcm_encrypt_or_decrypt` on the
ciphertext. -/
theorem aes_gcm_decrypt_verify_first (E : Cipher) (plaintext iv ciphertext : List Nat)
    (ciphertext_length : Nat) (aad : List Nat) (aad_length : Nat) (tag : List Nat)
    (tag_length : Nat) (key : List Nat) :
    ((aes_gcm_decrypt E plaintext iv ciphertext ciphertext_length aad aad_length tag
        tag_length key).ret = -1 ∧
      (aes_gcm_decrypt E plaintext iv ciphertext ciphertext_length aad aad_length tag
        tag_length key).output = plaintext) ∨
    ((aes_gcm_decrypt E plaintext iv ciphertext ciphertext_length aad aad_length tag
        tag_length key).ret = 0 ∧
      (aes_gcm_decrypt E plaintext iv ciphertext ciphertext_length aad aad_length tag
        tag_length key).output =
        aes_gcm_encrypt_or_decrypt E plaintext iv ciphertext ciphertext_length key) := by
  by_cases h : (tag_check (aes_gcm_tag E (List.replicate 16 0) iv aad aad_length ciphertext
      ciphertext_length key) tag 0 tag_length 0 0).1 = -1
  · left
    rw [aes_gcm_decrypt_of_fail E plaintext iv ciphertext ciphertext_length aad aad_length tag
      tag_length key h]
    exact ⟨rfl, rfl⟩
  · right
    rw [aes_gcm_decrypt_of_ok E plaintext iv ciphertext ciphertext_length aad aad_length tag
      tag_length key h]
    exact ⟨rfl, rfl⟩

/-! ## The length block of `aes_gcm_tag` -/

/-- The function `aes_gcm_tag` is made of the loops over the data, the stores
of the lengths, the last multiplication and the xor with the encrypted block
J0. -/
theorem aes_gcm_tag_parts (E : Cipher) (tag iv aad : List Nat) (aad_length : Nat)
    (text : List Nat) (text_length : Nat) (key : List Nat) :
    aes_gcm_tag E tag iv aad aad_length text text_length key =
      (let h := aes_encrypt E (for_loop (fun i h => h.set i 0) 16 (List.replicate 16 0)) key
       let tag := aes_gcm_tag_lengths
         (aes_gcm_tag_data E tag aad aad_length text text_length key) aad_length text_length
       let tag := aes_gcm_mul tag h
       let j0 := for_loop (fun i j0 => j0.set i (iv.getD i 0)) 12 (List.replicate 16 0)
       let j0 := j0.set 12 0
       let j0 := j0.set 13 0
       let j0 := j0.set 14 0
       let j0 := j0.set 15 1
       let j0 := aes_encrypt E j0 key
       for_loop (fun i t => t.set i ((t.getD i 0 ^^^ j0.getD i 0) % 256)) 16 tag) := by
  simp only [aes_gcm_tag, aes_gcm_tag_lengths, aes_gcm_tag_data]

/-- The block `x` after one iteration of the loop over `i` of `aes_kw`: the
encrypted block with `n * j + i` xored into its byte 7. -/
theorem aes_kw_step_x (E : Cipher) (plaintext key : List Nat) (n j i : Nat) (s : KwState) :
    (aes_kw_step E plaintext key n j i s).x =
      (aes_kw_block E plaintext key s).set 7
        (((aes_kw_block E plaintext key s).getD 7 0 ^^^ (n * j + i)) % 256) := by
  rw [aes_kw_step_eq]
  unfold aes_kw_block
  simp only [aes_kw_read_loop]

/-- The 64-bit big-endian encoding of a number below 2 ^ 16, byte by byte. -/
theorem be_bytes_eight_low (t k : Nat) (ht : t < 2 ^ 16) :
    (be_bytes 8 t).getD k 0 = if k = 7 then t % 256 else if k = 6 then t / 256 else 0 := by
  rw [be_bytes_eight]
  norm_num at ht
  by_cases h7 : k = 7
  · subst h7
    rw [if_pos rfl]
    rfl
  · rw [if_neg h7]
    by_cases h6 : k = 6
    · subst h6
      rw [if_pos rfl]
      show t / 2 ^ 8 % 256 = t / 256
      norm_num
      omega
    · rw [if_neg h6]
      by_cases h8 : k < 8
      · interval_cases k <;> first | omega | (show t / _ % 256 = 0; norm_num; omega)
      · rw [getD_of_le _ _ (by simp only [List.length_cons, List.length_nil]; omega)]

/-- For `t < 256`, the store `x[7] ^= t` on a block of 16 bytes is the xor of
its first 8 bytes with the 64-bit big-endian encoding of `t`. -/
theorem kw_xor_byte_eq (B : List Nat) (t : Nat) (hB : B.length = 16)
    (hBb : ∀ k, B.getD k 0 < 256) (ht : t < 256) :
    B.set 7 ((B.getD 7 0 ^^^ t) % 256) =
      xor_bytes (B.take 8) (be_bytes 8 t) ++ B.drop 8 := by
  have hl : (B.take 8).length = (be_bytes 8 t).length := by
    rw [List.length_take, hB, be_bytes_length]
    rfl
  have hl8 : (xor_bytes (B.take 8) (be_bytes 8 t)).length = 8 := by
    rw [xor_bytes_length _ _ hl, List.length_take, hB]
    rfl
  apply ext_getD
  · rw [List.length_set, List.length_append, hl8, List.length_drop, hB]
  · intro k hk
    rw [List.length_set, hB] at hk
    rw [getD_set, hB, getD_append, hl8]
    by_cases h8 : k < 8
    · rw [if_pos h8, xor_bytes_getD _ _ hl, getD_take, if_pos h8,
        be_bytes_eight_low t k (by omega)]
      by_cases h7 : k = 7
      · subst h7
        rw [if_pos ⟨rfl, by omega⟩, if_pos rfl, Nat.mod_eq_of_lt ht]
        exact Nat.mod_eq_of_lt (Nat.xor_lt_two_pow (n := 8) (hBb 7) ht)
      · rw [if_neg (by omega), if_neg h7]
        by_cases h6 : k = 6
        · rw [if_pos h6, Nat.div_eq_of_lt ht, Nat.xor_zero]
        · rw [if_neg h6, Nat.xor_zero]
    · rw [if_neg (by omega), if_neg h8, getD_drop]
      congr 1
      omega

/-- For `t = 258`, the store `x[7] ^= t` leaves byte 6 as it is, while the xor
with the 64-bit big-endian encoding of `t` changes it. -/
theorem kw_xor_byte_ne (B : List Nat) (hB : B.length = 16) :
    B.set 7 ((B.getD 7 0 ^^^ 258) % 256) ≠
      xor_bytes (B.take 8) (be_bytes 8 258) ++ B.drop 8 := by
  have hl : (B.take 8).length = (be_bytes 8 258).length := by
    rw [List.length_take, hB, be_bytes_length]
    rfl
  have hl8 : (xor_bytes (B.take 8) (be_bytes 8 258)).length = 8 := by
    rw [xor_bytes_length _ _ hl, List.length_take, hB]
    rfl
  intro h
  have h6 := congrArg (fun l => l.getD 6 0) h
  simp only [] at h6
  rw [getD_set, if_neg (by omega), getD_append, hl8, if_pos (by omega), xor_bytes_getD _ _ hl,
    getD_take, if_pos (by omega), be_bytes_eight_low 258 6 (by norm_num), if_neg (by omega),
    if_pos rfl] at h6
  have h1 : (258 / 256 : Nat) = 1 := by norm_num
  rw [h1] at h6
  have h0 := congrArg (fun v => Nat.testBit v 0) h6
  simp only [Nat.testBit_xor] at h0
  cases hb : (B.getD 6 0).testBit 0 <;> rw [hb] at h0 <;> simp at h0

/-- C28. The counter of `aes_kw` fits in one byte: for every `n` with
1 ≤ n < 43, every `j` in 0..5 and every `i` in 1..n, `n * j + i < 256`, and the
store `x[7] ^= n * j + i` of the iteration leaves in `x` the encrypted block `B`
with the 64-bit big-endian integer `t = n * j + i` xored into its first 8 bytes
(the register `A`). The bound 43 is tight: for n = 43 the last step has
t = 258, and there the block that the code leaves differs from the one with the
64-bit `t` xored into `A`, whatever the cipher and the data. -/
theorem aes_kw_counter_byte :
    (∀ n j i : Nat, 1 ≤ n → n < 43 → j ≤ 5 → 1 ≤ i → i ≤ n →
      n * j + i < 256 ∧
      ∀ (E : Cipher) (plaintext key : List Nat) (s : KwState),
        (aes_kw_step E plaintext key n j i s).x =
          xor_bytes ((aes_kw_block E plaintext key s).take 8) (be_bytes 8 (n * j + i)) ++
            (aes_kw_block E plaintext key s).drop 8) ∧
    43 * 5 + 43 = 258 ∧
    ∀ (E : Cipher) (plaintext key : List Nat) (s : KwState),
      (aes_kw_step E plaintext key 43 5 43 s).x ≠
        xor_bytes ((aes_kw_block E plaintext key s).take 8) (be_bytes 8 (43 * 5 + 43)) ++
          (aes_kw_block E plaintext key s).drop 8 := by
  refine ⟨?_, rfl, ?_⟩
  · intro n j i _ hn hj _ hi
    have hnj : n * j ≤ 42 * 5 := Nat.mul_le_mul (by omega) hj
    have ht : n * j + i < 256 := by omega
    refine ⟨ht, ?_⟩
    intro E plaintext key s
    rw [aes_kw_step_x]
    exact kw_xor_byte_eq _ _ (aes_encrypt_length _ _ _) (fun k => aes_encrypt_lt _ _ _ k) ht
  · intro E plaintext key s
    rw [aes_kw_step_x]
    exact kw_xor_byte_ne _ (aes_encrypt_length _ _ _)

/-- C28, a concrete instance: the last step for n = 42, with t = 252. -/
theorem aes_kw_counter_byte_witness :
    42 * 5 + 42 < 256 ∧
    (aes_kw_step id_cipher [] [] 42 5 42
        { x := List.replicate 16 0, r_in_ciphertext := false, r := 0, c := 0,
          ciphertext := [] }).x =
      xor_bytes ((aes_kw_block id_cipher [] []
        { x := List.replicate 16 0, r_in_ciphertext := false, r := 0, c := 0,
          ciphertext := [] }).take 8) (be_bytes 8 (42 * 5 + 42)) ++
        (aes_kw_block id_cipher [] []
          { x := List.replicate 16 0, r_in_ciphertext := false, r := 0, c := 0,
            ciphertext := [] }).drop 8 :=
  ⟨(aes_kw_counter_byte.1 42 5 42 (by decide) (by decide) (by decide) (by decide)
      (by decide)).1,
    (aes_kw_counter_byte.1 42 5 42 (by decide) (by decide) (by decide) (by decide)
      (by decide)).2 id_cipher [] []
      { x := List.replicate 16 0, r_in_ciphertext := false, r := 0, c := 0,
        ciphertext := [] }⟩

/-! ## The counter blocks of `aes_ccm_ctr` and `aes_ccm_mac` -/

/-- The loop with a record runs as the loop without it. -/
theorem while_loop_log_fst {σ τ : Type} (cond : σ → Bool) (body : σ → σ) (f : σ → τ)
    (fuel : Nat) (s : σ) :
    (while_loop_log cond body f fuel s).1 = while_loop cond body fuel s := by
  unfold while_loop_log
  have key : ∀ (fuel : Nat) (s : σ) (l : List τ),
      (while_loop (fun (p : σ × List τ) => cond p.1) (fun p => (body p.1, p.2 ++ [f p.1])) fuel
        (s, l)).1 = while_loop cond body fuel s := by
    intro fuel
    induction fuel with
    | zero => intro s l; rfl
    | succ fuel ih =>
      intro s l
      unfold while_loop
      by_cases h : cond s = true
      · rw [if_pos h, if_pos h]
        exact ih _ _
      · rw [if_neg h, if_neg h]
  exact key fuel s []

/-- The record of a loop that runs `k` iterations. -/
theorem while_loop_log_iterate {σ τ : Type} (cond : σ → Bool) (body : σ → σ) (f : σ → τ)
    (k fuel : Nat) (s : σ) (hf : k ≤ fuel) (h1 : ∀ j, j < k → cond (body^[j] s) = true)
    (h2 : cond (body^[k] s) = false) :
    (while_loop_log cond body f fuel s).2 = (List.range k).map (fun j => f (body^[j] s)) := by
  unfold while_loop_log
  have key : ∀ (k fuel : Nat) (s : σ) (l : List τ), k ≤ fuel →
      (∀ j, j < k → cond (body^[j] s) = true) → cond (body^[k] s) = false →
      (while_loop (fun (p : σ × List τ) => cond p.1) (fun p => (body p.1, p.2 ++ [f p.1])) fuel
        (s, l)).2 = l ++ (List.range k).map (fun j => f (body^[j] s)) := by
    intro k
    induction k with
    | zero =>
      intro fuel s l _ _ h2
      rw [while_loop_done _ _ fuel (s, l) h2]
      simp
    | succ k ih =>
      intro fuel s l hf h1 h2
      obtain ⟨fuel, rfl⟩ : ∃ m, fuel = m + 1 := ⟨fuel - 1, by omega⟩
      have h0 : cond s = true := h1 0 (by omega)
      unfold while_loop
      rw [if_pos h0]
      rw [ih fuel (body s) (l ++ [f s]) (by omega)
        (fun j hj => by
          have := h1 (j + 1) (by omega)
          rwa [Function.iterate_succ_apply] at this)
        (by rwa [Function.iterate_succ_apply] at h2)]
      rw [List.range_succ_eq_map, List.map_cons, List.map_map, List.append_assoc]
      rfl
  rw [key k fuel s [] hf h1 h2, List.nil_append]

/-- The block that an iteration of `aes_ccm_ctr` encrypts is the counter block
that it formats. -/
theorem aes_ccm_ctr_body_x (E : Cipher) (nonce : List Nat) (nl : Nat) (input : List Nat)
    (len : Nat) (key : List Nat) (s : CtrState) :
    (aes_ccm_ctr_body E nonce nl input len key s).x =
      aes_encrypt E (aes_ccm_ctr_block s.x nonce nl s.counter) key := rfl

/-- The block S0 of `aes_ccm_mac` is the encryption of the block that it
formats. -/
theorem aes_ccm_mac_s0_block (E : Cipher) (x nonce : List Nat) (nl : Nat) (key : List Nat) :
    aes_ccm_mac_s0 E x nonce nl key = aes_encrypt E (aes_ccm_mac_ctr0 x nonce nl) key := rfl

/-- The loop with a record of the counter blocks computes what `aes_ccm_ctr`
computes. -/
theorem aes_ccm_ctr_blocks_loop (E : Cipher) (output nonce : List Nat) (nl : Nat)
    (input : List Nat) (len : Nat) (key : List Nat) :
    aes_ccm_ctr E output nonce nl input len key =
      (while_loop_log (fun (s : CtrState) => decide (s.n < len))
        (aes_ccm_ctr_body E nonce nl input len key)
        (fun s => aes_ccm_ctr_block s.x nonce nl s.counter) len
        { x := List.replicate 16 0, counter := 0, output := output, n := 0 }).1.output := by
  rw [while_loop_log_fst]
  rfl

theorem ccm_ctr_x_length (E : Cipher) (nonce : List Nat) (nl : Nat) (key : List Nat) (j : Nat) :
    (ccm_ctr_x E nonce nl key j).length = 16 := by
  cases j with
  | zero => rfl
  | succ j => exact aes_encrypt_length _ _ _

/-- The counter blocks of `aes_ccm_ctr`, one for each 16 bytes of the input. -/
theorem aes_ccm_ctr_blocks_eq (E : Cipher) (output nonce : List Nat) (nl : Nat)
    (input : List Nat) (len : Nat) (key : List Nat) :
    aes_ccm_ctr_blocks E output nonce nl input len key =
      (List.range ((len + 15) / 16)).map
        (fun j => aes_ccm_ctr_block (ccm_ctr_x E nonce nl key j) nonce nl j) := by
  unfold aes_ccm_ctr_blocks
  rw [while_loop_log_iterate _ _ _ ((len + 15) / 16) len _ (by omega)]
  · apply List.map_congr_left
    intro j _
    rw [(aes_ccm_ctr_iterate E output nonce nl input len key j).1,
      (aes_ccm_ctr_iterate E output nonce nl input len key j).2.1]
  · intro j hj
    rw [(aes_ccm_ctr_iterate E output nonce nl input len key j).2.2.1]
    apply decide_eq_true
    omega
  · rw [(aes_ccm_ctr_iterate E output nonce nl input len key _).2.2.1]
    apply decide_eq_false
    omega

/-- The counter block of iteration `j` (from 0) of `aes_ccm_ctr` is `Ctr_(j+1)`. -/
theorem aes_ccm_ctr_block_eq (x nonce : List Nat) (j : Nat) (hx : x.length = 16)
    (hn : nonce.length ≤ 14) (hj : j + 1 < 2 ^ 32) :
    aes_ccm_ctr_block x nonce nonce.length j = ccm_ref_ctr nonce (j + 1) := by
  unfold aes_ccm_ctr_block
  simp only []
  exact ccm_format_ctr x nonce (j + 1) hx hn hj

/-- The block that `aes_ccm_mac` formats for S0 is `Ctr_0`. -/
theorem aes_ccm_mac_ctr0_eq (x nonce : List Nat) (hx : x.length = 16)
    (hn : nonce.length ≤ 14) :
    aes_ccm_mac_ctr0 x nonce nonce.length = ccm_ref_ctr nonce 0 := by
  unfold aes_ccm_mac_ctr0
  simp only []
  have e : (fun i (x : List Nat) => x.set (15 - i) 0) =
      (fun i x => x.set (15 - i) (if i < 4 then (0 >>> (i * 8)) % 256 else 0)) := by
    funext i x
    split_ifs <;> simp
  rw [e]
  exact ccm_format_ctr x nonce 0 hx hn (by norm_num)

/-- Counter blocks of counters that fit in the counter field are equal only
for equal counters. -/
theorem ccm_ref_ctr_inj (nonce : List Nat) (a b : Nat) (ha : a < 256 ^ (15 - nonce.length))
    (hb : b < 256 ^ (15 - nonce.length)) (h : ccm_ref_ctr nonce a = ccm_ref_ctr nonce b) :
    a = b := by
  unfold ccm_ref_ctr at h
  have h2 := List.append_cancel_left h
  have h3 := congrArg be_value h2
  rwa [be_value_be_bytes _ _ ha, be_value_be_bytes _ _ hb] at h3

/-- The number of blocks of an input that fits in the counter field fits too. -/
theorem ccm_blocks_fit (len q : Nat) (hq : 1 ≤ q) (hlen : len < 256 ^ q) :
    (len + 15) / 16 < 256 ^ q := by
  have h1 : 256 ^ 1 ≤ 256 ^ q := Nat.pow_le_pow_right (by norm_num) hq
  omega

/-- C29. The counter blocks of CCM never repeat within a call: for every nonce
of N bytes with 7 ≤ N ≤ 13 and every payload length p with p < 2 ^ (8 * (15 - N))
and p < 2 ^ 31, the outer loop of `aes_ccm_ctr` formats m = ceil(p / 16) counter
blocks, the block of the iteration number j (from 1) being `Ctr_j`; these
blocks are pairwise distinct, and none of them is the block `Ctr_0` that
`aes_ccm_mac` formats and encrypts to mask the MAC. -/
theorem aes_ccm_counter_blocks_distinct (E : Cipher) (key nonce input output : List Nat)
    (p : Nat) (hN1 : 7 ≤ nonce.length) (hN2 : nonce.length ≤ 13)
    (hp : p < 2 ^ (8 * (15 - nonce.length))) (hp31 : p < 2 ^ 31) :
    (aes_ccm_ctr_blocks E output nonce nonce.length input p key).length = (p + 15) / 16 ∧
    (∀ j, j < (p + 15) / 16 →
      (aes_ccm_ctr_blocks E output nonce nonce.length input p key).getD j [] =
        ccm_ref_ctr nonce (j + 1)) ∧
    (aes_ccm_ctr_blocks E output nonce nonce.length input p key).Nodup ∧
    (∀ x : List Nat, x.length = 16 →
      aes_ccm_mac_ctr0 x nonce nonce.length = ccm_ref_ctr nonce 0 ∧
      aes_ccm_mac_ctr0 x nonce nonce.length ∉
        aes_ccm_ctr_blocks E output nonce nonce.length input p key) := by
  have hp256 : p < 256 ^ (15 - nonce.length) := by
    rw [show (256 : Nat) = 2 ^ 8 from rfl, ← Nat.pow_mul]
    exact hp
  have hm := ccm_blocks_fit p (15 - nonce.length) (by omega) hp256
  have hm32 : (p + 15) / 16 + 1 < 2 ^ 32 := by
    norm_num at hp31 ⊢
    omega
  have hblocks : aes_ccm_ctr_blocks E output nonce nonce.length input p key =
      (List.range ((p + 15) / 16)).map (fun j => ccm_ref_ctr nonce (j + 1)) := by
    rw [aes_ccm_ctr_blocks_eq]
    apply List.map_congr_left
    intro j hj
    rw [List.mem_range] at hj
    exact aes_ccm_ctr_block_eq _ nonce j (ccm_ctr_x_length _ _ _ _ _) (by omega) (by omega)
  rw [hblocks]
  refine ⟨by rw [List.length_map, List.length_range], ?_, ?_, ?_⟩
  · intro j hj
    rw [List.getD_eq_getElem _ _ (by rw [List.length_map, List.length_range]; exact hj),
      List.getElem_map, List.getElem_range]
  · apply List.Nodup.map_on _ (List.nodup_range _)
    intro a ha b hb hab
    rw [List.mem_range] at ha hb
    have := ccm_ref_ctr_inj nonce (a + 1) (b + 1) (by omega) (by omega) hab
    omega
  · intro x hx
    rw [aes_ccm_mac_ctr0_eq x nonce hx (by omega)]
    refine ⟨rfl, ?_⟩
    intro hmem
    rw [List.mem_map] at hmem
    obtain ⟨j, hj, hjeq⟩ := hmem
    rw [List.mem_range] at hj
    have := ccm_ref_ctr_inj nonce (j + 1) 0 (by omega) (by omega) hjeq
    omega

/-- C29, a concrete instance: 17 bytes and a nonce of 13 bytes; the loop
formats the two blocks with the counters 1 and 2. -/
theorem aes_ccm_counter_blocks_distinct_witness :
    aes_ccm_ctr_blocks id_cipher (List.replicate 17 0) (List.replicate 13 7) 13
        (List.replicate 17 0) 17 [] =
      [[1, 7, 7, 7, 7, 7, 7, 7, 7, 7, 7, 7, 7, 7, 0, 1],
       [1, 7, 7, 7, 7, 7, 7, 7, 7, 7, 7, 7, 7, 7, 0, 2]] ∧
    (aes_ccm_ctr_blocks id_cipher (List.replicate 17 0) (List.replicate 13 7)
      (List.replicate 13 7).length (List.replicate 17 0) 17 []).Nodup :=
  ⟨by decide, (aes_ccm_counter_blocks_distinct id_cipher [] (List.replicate 13 7)
    (List.replicate 17 0) (List.replicate 17 0) 17 (by decide) (by decide) (by decide)
    (by decide)).2.2.1⟩

/-! ## The blocks that `sha256` and `sha1` process -/

/-- Offset and padding buffer of `sha256` after `b` iterations of its block loop. -/
theorem sha256_iterate_offset (msg : List Nat) (L b : Nat) :
    ((sha256_body msg L)^[b]
      { i := 0, pad := List.replicate 64 0, w := List.replicate 16 0, H := sha256_init }).i
      = 64 * b ∧
    ((sha256_body msg L)^[b]
      { i := 0, pad := List.replicate 64 0, w := List.replicate 16 0,
        H := sha256_init }).pad.length = 64 := by
  induction b with
  | zero => exact ⟨rfl, rfl⟩
  | succ b ih =>
    obtain ⟨hi, hp⟩ := ih
    rw [Function.iterate_succ_apply']
    generalize ((sha256_body msg L)^[b]
      { i := 0, pad := List.replicate 64 0, w := List.replicate 16 0,
        H := sha256_init }) = s at *
    unfold sha256_body
    simp only []
    refine ⟨by rw [hi]; omega, ?_⟩
    split_ifs
    · rw [sha_pad_block_length, hp]
    · exact hp

/-- Offset and padding buffer of `sha1` after `b` iterations of its block loop. -/
theorem sha1_iterate_offset (msg : List Nat) (L b : Nat) :
    ((sha1_body msg L)^[b]
      { i := 0, pad := List.replicate 64 0, w := List.replicate 16 0,
        h := [0x67452301, 0xefcdab89, 0x98badcfe, 0x10325476, 0xc3d2e1f0] }).i
      = 64 * b ∧
    ((sha1_body msg L)^[b]
      { i := 0, pad := List.replicate 64 0, w := List.replicate 16 0,
        h := [0x67452301, 0xefcdab89, 0x98badcfe, 0x10325476, 0xc3d2e1f0] }).pad.length
      = 64 := by
  induction b with
  | zero => exact ⟨rfl, rfl⟩
  | succ b ih =>
    obtain ⟨hi, hp⟩ := ih
    rw [Function.iterate_succ_apply']
    generalize ((sha1_body msg L)^[b]
      { i := 0, pad := List.replicate 64 0, w := List.replicate 16 0,
        h := [0x67452301, 0xefcdab89, 0x98badcfe, 0x10325476, 0xc3d2e1f0] }) = s at *
    unfold sha1_body
    simp only []
    refine ⟨by rw [hi]; omega, ?_⟩
    split_ifs
    · rw [sha_pad_block_length, hp]
    · exact hp

/-- The block of iteration `b` is block `b` of the reference padded message. -/
theorem sha_block_eq (pad msg : List Nat) (b : Nat) (hp : pad.length = 64)
    (hL : msg.length < 2 ^ 29) (hb : 64 * b < msg.length + 9) :
    sha_block msg msg.length (64 * b) pad = ((sha_ref_pad msg).drop (64 * b)).take 64 := by
  have hlen : (if ((64 * b : Nat) : Int) > (msg.length : Int) - 64
      then sha_pad_block pad msg msg.length (64 * b) else msg.drop (64 * b)).length ≥ 64 := by
    split_ifs with hc
    · rw [sha_pad_block_length, hp]
    · rw [List.length_drop]
      omega
  have hrl := sha_ref_pad_length msg
  unfold sha_block
  apply ext_getD
  · rw [List.length_take, List.length_take, List.length_drop, hrl]
    omega
  · intro t ht
    rw [List.length_take] at ht
    have ht64 : t < 64 := by omega
    rw [getD_take, if_pos ht64, getD_take, if_pos ht64, getD_drop]
    exact sha_block_bytes pad msg b hp hL hb t ht64

/-- Consecutive pieces of 64 bytes of a list make up its beginning. -/
theorem flatten_pieces (l : List Nat) (n : Nat) :
    ((List.range n).map (fun b => (l.drop (64 * b)).take 64)).flatten = l.take (64 * n) := by
  induction n with
  | zero => rfl
  | succ n ih =>
    rw [List.range_succ, List.map_append, List.flatten_append, ih, List.map_singleton,
      List.flatten_singleton, Nat.mul_succ, List.take_add]

/-- The blocks that the block loop of `sha256` processes are the pieces of 64
bytes of the reference padded message. -/
theorem sha256_blocks_eq (msg : List Nat) (hL : msg.length < 2 ^ 29) :
    sha256_blocks msg msg.length =
      (List.range ((msg.length + 8) / 64 + 1)).map
        (fun b => ((sha_ref_pad msg).drop (64 * b)).take 64) := by
  unfold sha256_blocks
  rw [while_loop_log_iterate _ _ _ ((msg.length + 8) / 64 + 1) (msg.length + 1) _ (by omega)]
  · apply List.map_congr_left
    intro b hb
    rw [List.mem_range] at hb
    rw [(sha256_iterate_offset msg msg.length b).1]
    exact sha_block_eq _ msg b (sha256_iterate_offset msg msg.length b).2 hL (by omega)
  · intro j hj
    rw [(sha256_iterate_offset msg msg.length j).1]
    apply decide_eq_true
    omega
  · rw [(sha256_iterate_offset msg msg.length _).1]
    apply decide_eq_false
    omega

/-- The blocks that the block loop of `sha1` processes are the pieces of 64
bytes of the reference padded message. -/
theorem sha1_blocks_eq (msg : List Nat) (hL : msg.length < 2 ^ 29) :
    sha1_blocks msg msg.length =
      (List.range ((msg.length + 8) / 64 + 1)).map
        (fun b => ((sha_ref_pad msg).drop (64 * b)).take 64) := by
  unfold sha1_blocks
  rw [while_loop_log_iterate _ _ _ ((msg.length + 8) / 64 + 1) (msg.length + 1) _ (by omega)]
  · apply List.map_congr_left
    intro b hb
    rw [List.mem_range] at hb
    rw [(sha1_iterate_offset msg msg.length b).1]
    exact sha_block_eq _ msg b (sha1_iterate_offset msg msg.length b).2 hL (by omega)
  · intro j hj
    rw [(sha1_iterate_offset msg msg.length j).1]
    apply decide_eq_true
    omega
  · rw [(sha1_iterate_offset msg msg.length _).1]
    apply decide_eq_false
    omega

/-- The recorded loops compute what `sha256_words` and `sha1_words` compute. -/
theorem sha_blocks_loops (message : List Nat) (length : Nat) :
    sha256_words message length =
      (while_loop_log (fun (s : Sha256State) => decide ((s.i : Int) - 9 < (length : Int)))
        (sha256_body message length) (fun s => sha_block message length s.i s.pad) (length + 1)
        { i := 0, pad := List.replicate 64 0, w := List.replicate 16 0,
          H := sha256_init }).1.H ∧
    sha1_words message length =
      (while_loop_log (fun (s : Sha1State) => decide ((s.i : Int) - 9 < (length : Int)))
        (sha1_body message length) (fun s => sha_block message length s.i s.pad) (length + 1)
        { i := 0, pad := List.replicate 64 0, w := List.replicate 16 0,
          h := [0x67452301, 0xefcdab89, 0x98badcfe, 0x10325476, 0xc3d2e1f0] }).1.h := by
  rw [while_loop_log_fst, while_loop_log_fst]
  exact ⟨rfl, rfl⟩

/-- The words of a block are read from its first 64 bytes. -/
theorem sha_load_block_take (w m : List Nat) :
    sha_load_block w (m.take 64) = sha_load_block w m := by
  unfold sha_load_block
  apply for_loop_congr
  intro t ht w2
  rw [getD_take, getD_take, getD_take, getD_take, if_pos (by omega), if_pos (by omega),
    if_pos (by omega), if_pos (by omega)]

/-- An iteration of the block loops processes the 64 bytes recorded for it. -/
theorem sha_body_block (message : List Nat) (length : Nat) :
    (∀ s : Sha256State, (sha256_body message length s).H =
      (sha256_block (sha_block message length s.i s.pad) s.w s.H).2) ∧
    (∀ s : Sha1State, (sha1_body message length s).h =
      (sha1_block (sha_block message length s.i s.pad) s.w s.h).2) := by
  constructor
  · intro s
    unfold sha256_body sha_block sha256_block
    simp only [sha_load_block_take]
    split_ifs <;> rfl
  · intro s
    unfold sha1_body sha_block sha1_block
    simp only [sha_load_block_take]
    split_ifs <;> rfl

/-- The second padding block, when the message ends in the last 8 bytes of a
block: 56 zero bytes and the length, without the byte 0x80. -/
theorem sha_ref_pad_last (msg : List Nat) (h56 : 56 ≤ msg.length % 64) :
    ((sha_ref_pad msg).drop (64 * (msg.length / 64 + 1))).take 64 =
      List.replicate 56 0 ++ be_bytes 8 (8 * msg.length) := by
  have hrl := sha_ref_pad_length msg
  apply ext_getD
  · rw [List.length_take, List.length_drop, hrl, List.length_append, List.length_replicate,
      be_bytes_length]
    omega
  · intro t ht
    rw [List.length_take] at ht
    have ht64 : t < 64 := by omega
    rw [getD_take, if_pos ht64, getD_drop, sha_ref_pad_getD, getD_append,
      List.length_replicate, getD_replicate_zero, be_bytes_getD]
    by_cases h : t < 56
    · rw [if_pos h, if_neg (by omega), if_neg (by omega), if_pos (by omega)]
    · rw [if_neg h, if_neg (by omega), if_neg (by omega), if_neg (by omega),
        if_pos (by omega), if_pos (by omega)]
      congr 4
      omega

/-- C24. Padding and block count of `sha256` and `sha1` (the same code in
both): for every message of L < 2 ^ 29 bytes, the block loop processes exactly
ceil((L + 9) / 64) blocks of 64 bytes each, the same in both functions, and
their concatenation is the message, the byte 0x80, k zero bytes and the 64-bit
big-endian encoding of 8 * L, where k is the least number that makes the total
length a multiple of 64. The statement `pad[j++] = 0x80;` is executed in
exactly one iteration, the one of number L / 64, whose block holds this byte at
offset L mod 64: this is the only padding block when L mod 64 < 56 (so when L
is a multiple of 64), and when L mod 64 is in 56..63 a second padding block
follows, made of 56 zero bytes and the length. -/
theorem sha_padding_block_count (msg : List Nat) (hL : msg.length < 2 ^ 29) :
    (sha256_blocks msg msg.length).length = (msg.length + 9 + 63) / 64 ∧
    (∀ B ∈ sha256_blocks msg msg.length, B.length = 64) ∧
    (sha256_blocks msg msg.length).flatten =
      msg ++ [0x80] ++ List.replicate ((119 - msg.length % 64) % 64) 0 ++
        be_bytes 8 (8 * msg.length) ∧
    sha1_blocks msg msg.length = sha256_blocks msg msg.length ∧
    (msg.length + 1 + (119 - msg.length % 64) % 64 + 8) % 64 = 0 ∧
    (∀ k, k < (119 - msg.length % 64) % 64 → (msg.length + 1 + k + 8) % 64 ≠ 0) ∧
    (∀ b, b < (msg.length + 9 + 63) / 64 →
      (sha_pad_marker msg.length (64 * b) = true ↔ b = msg.length / 64)) ∧
    msg.length / 64 < (msg.length + 9 + 63) / 64 ∧
    (msg.length % 64 < 56 → (sha256_blocks msg msg.length).length = msg.length / 64 + 1) ∧
    (56 ≤ msg.length % 64 →
      (sha256_blocks msg msg.length).length = msg.length / 64 + 2 ∧
      (sha256_blocks msg msg.length).getD (msg.length / 64 + 1) [] =
        List.replicate 56 0 ++ be_bytes 8 (8 * msg.length)) ∧
    ((sha256_blocks msg msg.length).getD (msg.length / 64) []).getD (msg.length % 64) 0 =
      0x80 := by
  have hrl := sha_ref_pad_length msg
  have hN : (msg.length + 9 + 63) / 64 = (msg.length + 8) / 64 + 1 := by omega
  rw [sha1_blocks_eq msg hL, sha256_blocks_eq msg hL, hN]
  refine ⟨?_, ?_, ?_, rfl, by omega, fun k hk => by omega, ?_, by omega, ?_, ?_, ?_⟩
  · rw [List.length_map, List.length_range]
  · intro B hB
    rw [List.mem_map] at hB
    obtain ⟨b, hb, rfl⟩ := hB
    rw [List.mem_range] at hb
    rw [List.length_take, List.length_drop, hrl]
    omega
  · rw [flatten_pieces, List.take_of_length_le (by rw [hrl]; omega)]
    rfl
  · intro b hb
    unfold sha_pad_marker
    rw [decide_eq_true_iff]
    omega
  · intro h
    rw [List.length_map, List.length_range]
    omega
  · intro h
    refine ⟨by rw [List.length_map, List.length_range]; omega, ?_⟩
    rw [List.getD_eq_getElem _ _ (by rw [List.length_map, List.length_range]; omega),
      List.getElem_map, List.getElem_range]
    exact sha_ref_pad_last msg h
  · have hb : ((List.range ((msg.length + 8) / 64 + 1)).map
        (fun b => ((sha_ref_pad msg).drop (64 * b)).take 64)).getD (msg.length / 64) [] =
        ((sha_ref_pad msg).drop (64 * (msg.length / 64))).take 64 := by
      rw [List.getD_eq_getElem _ _ (by rw [List.length_map, List.length_range]; omega),
        List.getElem_map, List.getElem_range]
    rw [hb, getD_take, if_pos (Nat.mod_lt _ (by norm_num)), getD_drop, sha_ref_pad_getD,
      if_neg (by omega), if_pos (by omega)]

/-- C24, a concrete instance: a message of 56 bytes is processed as two
blocks, the second one without the byte 0x80. -/
theorem sha_padding_block_count_witness :
    (sha256_blocks (List.replicate 56 1) 56).length = 2 ∧
    (sha256_blocks (List.replicate 56 1) (List.replicate 56 1).length).flatten =
      List.replicate 56 1 ++ [0x80] ++
        List.replicate ((119 - (List.replicate 56 1).length % 64) % 64) 0 ++
        be_bytes 8 (8 * (List.replicate 56 1).length) :=
  ⟨by decide, (sha_padding_block_count (List.replicate 56 1) (by decide)).2.2.1⟩

/-! ## The ring buffer of `sha256` and `sha1` and the message schedule -/

/-- The words that `sha_load_block` stores are the big-endian words of the
block. -/
theorem sha_load_block_words (w m : List Nat) (hw : w.length = 16)
    (hm : ∀ b ∈ m, b < 256) : sha_load_block w m = sha_ref_words m 0 := by
  apply ext_getD
  · rw [sha_load_block_length, hw, sha_ref_words_length]
  · intro t ht
    rw [sha_load_block_length, hw] at ht
    rw [sha_load_block_getD _ _ hw t ht, sha_ref_words_getD _ _ _ ht]
    have e0 : 64 * 0 + 4 * t = t * 4 := by omega
    rw [e0]
    have h0 := getD_lt_of_forall hm (t * 4)
    have h1 := getD_lt_of_forall hm (t * 4 + 1)
    have h2 := getD_lt_of_forall hm (t * 4 + 2)
    have h3 := getD_lt_of_forall hm (t * 4 + 3)
    rw [be32_or _ _ _ _ h1 h2 h3]
    apply Nat.mod_eq_of_lt
    simp only [Nat.reducePow]
    omega

theorem sha_ref_words_block_lt (m : List Nat) (hm : ∀ b ∈ m, b < 256) (t : Nat) :
    (sha_ref_words m 0).getD t 0 < 2 ^ 32 := by
  by_cases ht : t < 16
  · rw [sha_ref_words_getD _ _ _ ht]
    have h0 := getD_lt_of_forall hm (64 * 0 + 4 * t)
    have h1 := getD_lt_of_forall hm (64 * 0 + 4 * t + 1)
    have h2 := getD_lt_of_forall hm (64 * 0 + 4 * t + 2)
    have h3 := getD_lt_of_forall hm (64 * 0 + 4 * t + 3)
    simp only [Nat.reducePow]
    omega
  · rw [getD_of_le _ _ (by rw [sha_ref_words_length]; omega)]
    norm_num

/-- The ring buffer of `sha256` after a round depends on the ring buffer
before the round only. -/
theorem sha256_round_ring (t : Nat) (s1 s2 : List Nat × Sha256Words) (h : s1.1 = s2.1) :
    (sha256_round t s1).1 = (sha256_round t s2).1 := by
  unfold sha256_round
  simp only [h]

theorem sha256_rounds_ring (M : List Nat) (H1 H2 : Sha256Words) (t : Nat) :
    (for_loop sha256_round t (M, H1)).1 = (for_loop sha256_round t (M, H2)).1 := by
  induction t with
  | zero => rfl
  | succ t ih =>
    rw [for_loop_succ, for_loop_succ]
    exact sha256_round_ring t _ _ ih

/-- The ring buffer of `sha1` after a round depends on the ring buffer before
the round only. -/
theorem sha1_round_ring (t : Nat) (s1 s2 : List Nat × List Nat) (h : s1.1 = s2.1) :
    (sha1_round t s1).1 = (sha1_round t s2).1 := by
  unfold sha1_round
  simp only [h]

theorem sha1_rounds_ring (M v1 v2 : List Nat) (t : Nat) :
    (for_loop sha1_round t (M, v1)).1 = (for_loop sha1_round t (M, v2)).1 := by
  induction t with
  | zero => rfl
  | succ t ih =>
    rw [for_loop_succ, for_loop_succ]
    exact sha1_round_ring t _ _ ih

/-- C25. The ring buffer of 16 words of `sha256` refines the message schedule
of 64 words of FIPS 180-4: for every block `m` of bytes and every round t in
0..63, the value `wt` that the round reads from `w[t & 15]` is W_t, where
W_0..W_15 are the big-endian words of the block and, for t ≥ 16,
W_t = ssig1(W_(t-2)) + W_(t-7) + ssig0(W_(t-15)) + W_(t-16) mod 2 ^ 32, with
ssig0 = ROTR7 xor ROTR18 xor SHR3 and ssig1 = ROTR17 xor ROTR19 xor SHR10;
this holds whatever the ring buffer and the hash value held before. -/
theorem sha256_ring_schedule (m w : List Nat) (H : Sha256Words)
    (hm : ∀ b ∈ m, b < 256) (hw : w.length = 16) :
    (∀ t, t < 64 →
      sha256_wt m w H t = (sha256_ref_schedule (sha_ref_words m 0) 48).getD t 0) ∧
    (∀ t, t < 16 →
      (sha256_ref_schedule (sha_ref_words m 0) 48).getD t 0 =
        m.getD (4 * t) 0 * 2 ^ 24 + m.getD (4 * t + 1) 0 * 2 ^ 16 +
          m.getD (4 * t + 2) 0 * 2 ^ 8 + m.getD (4 * t + 3) 0) ∧
    (∀ t, 16 ≤ t → t < 64 →
      (sha256_ref_schedule (sha_ref_words m 0) 48).getD t 0 =
        (((rotr32 17 ((sha256_ref_schedule (sha_ref_words m 0) 48).getD (t - 2) 0) ^^^
            rotr32 19 ((sha256_ref_schedule (sha_ref_words m 0) 48).getD (t - 2) 0)) ^^^
            ((sha256_ref_schedule (sha_ref_words m 0) 48).getD (t - 2) 0 >>> 10)) +
          (sha256_ref_schedule (sha_ref_words m 0) 48).getD (t - 7) 0 +
          ((rotr32 7 ((sha256_ref_schedule (sha_ref_words m 0) 48).getD (t - 15) 0) ^^^
            rotr32 18 ((sha256_ref_schedule (sha_ref_words m 0) 48).getD (t - 15) 0)) ^^^
            ((sha256_ref_schedule (sha_ref_words m 0) 48).getD (t - 15) 0 >>> 3)) +
          (sha256_ref_schedule (sha_ref_words m 0) 48).getD (t - 16) 0) % 2 ^ 32) := by
  have hM : (sha_ref_words m 0).length = 16 := sha_ref_words_length _ _
  refine ⟨?_, ?_, ?_⟩
  · intro t ht
    unfold sha256_wt
    rw [sha_load_block_words w m hw hm,
      sha256_rounds_ring _ H
        { h0 := 0, h1 := 0, h2 := 0, h3 := 0, h4 := 0, h5 := 0, h6 := 0, h7 := 0 } t]
    obtain ⟨w2, he, hr, -⟩ := sha256_rounds_ref (sha_ref_words m 0) hM
      (sha_ref_words_block_lt m hm)
      { h0 := 0, h1 := 0, h2 := 0, h3 := 0, h4 := 0, h5 := 0, h6 := 0, h7 := 0 }
      (by simp [Sha256Words.lt32]) t (by omega)
    rw [he, and15_nat]
    have g := sha_ring_getD _ t w2 hr 0 (by omega)
    rw [Nat.add_zero] at g
    rw [g]
    exact sha256_ref_schedule_mono _ 48 64 t (by omega) (by rw [hM]; omega)
  · intro t ht
    rw [sha256_ref_schedule_mono _ 0 48 t (by omega) (by rw [hM]; omega)]
    show (sha_ref_words m 0).getD t 0 = _
    rw [sha_ref_words_getD _ _ _ ht, Nat.mul_zero, Nat.zero_add]
  · intro t h16 ht
    obtain ⟨n, rfl⟩ : ∃ n, t = n + 16 := ⟨t - 16, by omega⟩
    rw [sha256_ref_schedule_rec _ hM 48 n (by omega)]
    rfl

/-- C25, a concrete instance: the block of 64 zero bytes but for the last one;
the word read in round 16 is W_16 = W_0 + ssig0(W_1) + W_9 + ssig1(W_14) = 0,
the one read in round 15 is W_15 = 1, and the one read in round 17 is
ssig1(W_15) = ssig1(1). -/
theorem sha256_ring_schedule_witness :
    sha256_wt (List.replicate 63 0 ++ [1]) (List.replicate 16 0) sha256_init 17 =
      (sha256_ref_schedule (sha_ref_words (List.replicate 63 0 ++ [1]) 0) 48).getD 17 0 ∧
    (sha256_ref_schedule (sha_ref_words (List.replicate 63 0 ++ [1]) 0) 48).getD 17 0 =
      2 ^ 15 + 2 ^ 13 :=
  ⟨(sha256_ring_schedule (List.replicate 63 0 ++ [1]) (List.replicate 16 0) sha256_init
    (by decide) (by decide)).1 17 (by decide), by decide⟩

/-- C26. The ring buffer of 16 words of `sha1` refines the message schedule of
80 words of FIPS 180-4: for every block `m` of bytes and every round t in
0..79, the value `wt` that the round reads from `w[t & 15]` is W_t, where
W_0..W_15 are the big-endian words of the block and, for t ≥ 16,
W_t = ROTL1(W_(t-3) xor W_(t-8) xor W_(t-14) xor W_(t-16)); this holds whatever
the ring buffer and the hash value held before. -/
theorem sha1_ring_schedule (m w h : List Nat) (hm : ∀ b ∈ m, b < 256)
    (hw : w.length = 16) :
    (∀ t, t < 80 →
      sha1_wt m w h t = (sha1_ref_schedule (sha_ref_words m 0) 64).getD t 0) ∧
    (∀ t, t < 16 →
      (sha1_ref_schedule (sha_ref_words m 0) 64).getD t 0 =
        m.getD (4 * t) 0 * 2 ^ 24 + m.getD (4 * t + 1) 0 * 2 ^ 16 +
          m.getD (4 * t + 2) 0 * 2 ^ 8 + m.getD (4 * t + 3) 0) ∧
    (∀ t, 16 ≤ t → t < 80 →
      (sha1_ref_schedule (sha_ref_words m 0) 64).getD t 0 =
        rotl32 1 ((((sha1_ref_schedule (sha_ref_words m 0) 64).getD (t - 3) 0 ^^^
          (sha1_ref_schedule (sha_ref_words m 0) 64).getD (t - 8) 0) ^^^
          (sha1_ref_schedule (sha_ref_words m 0) 64).getD (t - 14) 0) ^^^
          (sha1_ref_schedule (sha_ref_words m 0) 64).getD (t - 16) 0)) := by
  have hM : (sha_ref_words m 0).length = 16 := sha_ref_words_length _ _
  refine ⟨?_, ?_, ?_⟩
  · intro t ht
    unfold sha1_wt
    rw [sha_load_block_words w m hw hm, sha1_rounds_ring _ _ [] t]
    obtain ⟨w2, he, hr, -⟩ := sha1_rounds_ref (sha_ref_words m 0) hM []
      (fun i => by simp) t (by omega)
    rw [he, and15_nat]
    have g := sha_ring_getD _ t w2 hr 0 (by omega)
    rw [Nat.add_zero] at g
    rw [g]
    exact sha1_ref_schedule_mono _ 64 80 t (by omega) (by rw [hM]; omega)
  · intro t ht
    rw [sha1_ref_schedule_mono _ 0 64 t (by omega) (by rw [hM]; omega)]
    show (sha_ref_words m 0).getD t 0 = _
    rw [sha_ref_words_getD _ _ _ ht, Nat.mul_zero, Nat.zero_add]
  · intro t h16 ht
    obtain ⟨n, rfl⟩ : ∃ n, t = n + 16 := ⟨t - 16, by omega⟩
    rw [sha1_ref_schedule_rec _ hM 64 n (by omega)]
    rfl

/-- C26, a concrete instance: the block of 64 zero bytes but for the last one;
the word read in round 18 is W_18 = ROTL1(W_15) = 2. -/
theorem sha1_ring_schedule_witness :
    sha1_wt (List.replicate 63 0 ++ [1]) (List.replicate 16 0) sha1_ref_init 18 =
      (sha1_ref_schedule (sha_ref_words (List.replicate 63 0 ++ [1]) 0) 64).getD 18 0 ∧
    (sha1_ref_schedule (sha_ref_words (List.replicate 63 0 ++ [1]) 0) 64).getD 18 0 = 2 :=
  ⟨(sha1_ring_schedule (List.replicate 63 0 ++ [1]) (List.replicate 16 0) sha1_ref_init
    (by decide) (by decide)).1 18 (by decide), by decide⟩

/-! ## `aes_gcm_mul` is the multiplication of GF(2^128) -/

/-- The function `aes_gcm_mul` runs 128 iterations from Z = 0 and V = Y, and
copies Z to `x`. -/
theorem aes_gcm_mul_steps (x y : List Nat) :
    aes_gcm_mul x y =
      for_loop (fun i out => out.set i ((for_loop (aes_gcm_mul_step x) 128
        (for_loop (fun i (zv : List Nat × List Nat) =>
          (zv.1.set i 0, zv.2.set i (y.getD i 0))) 16
          (List.replicate 16 0, List.replicate 16 0))).1.getD i 0)) 16 x := rfl

/-- The test of bit `i` of `x` in `aes_gcm_mul`. -/
theorem gcm_bit_test (a i : Nat) :
    (a &&& (0x80 >>> (i &&& 7)) ≠ 0) ↔ a.testBit (7 - i % 8) = true := by
  have e7 : i &&& 7 = i % 8 := Nat.and_pow_two_sub_one_eq_mod i 3
  have hr : i % 8 < 8 := Nat.mod_lt _ (by norm_num)
  have e : (0x80 : Nat) >>> (i % 8) = 2 ^ (7 - i % 8) := by
    generalize i % 8 = r at hr
    interval_cases r <;> rfl
  rw [e7, e, Nat.and_two_pow]
  cases h : a.testBit (7 - i % 8)
  · simp
  · simp

theorem gcm_lsb_test (a : Nat) : (a &&& 1 ≠ 0) ↔ a.testBit 0 = true := by
  have h := Nat.and_two_pow a 0
  rw [Nat.pow_zero] at h
  rw [h]
  cases a.testBit 0 <;> simp

theorem testBit_mod_256 (a k : Nat) (hk : k < 8) : (a % 256).testBit k = a.testBit k := by
  rw [show (256 : Nat) = 2 ^ 8 from rfl, Nat.testBit_mod_two_pow]
  simp [hk]

theorem testBit_byte_high (a k : Nat) (ha : a < 256) (hk : 8 ≤ k) : a.testBit k = false :=
  Nat.testBit_lt_two_pow (lt_of_lt_of_le (show a < 2 ^ 8 from ha)
    (Nat.pow_le_pow_right (by norm_num : 0 < 2) hk))

/-- Bit `n` of the block after the loop `z[j] ^= v[j]`. -/
theorem gcm_xor_bit (z v : List Nat) (hz : z.length = 16) (n : Nat) (hn : n < 128) :
    block_bit (for_loop (fun j z => z.set j ((z.getD j 0 ^^^ v.getD j 0) % 256)) 16 z) n =
      (block_bit z n ^^ block_bit v n) := by
  unfold block_bit
  rw [for_loop_set_getD_zero (fun j b => (b ^^^ v.getD j 0) % 256), if_pos (by omega),
    testBit_mod_256 _ _ (by omega), Nat.testBit_xor]

/-- The bytes after the loop `v[j] = (v[j] >> 1) | (v[j-1] << 7)` run for `n`
values of `j`, from 15 down. -/
theorem gcm_shift_loop_getD (v : List Nat) (hv : v.length = 16) (n : Nat) (hn : n ≤ 15)
    (k : Nat) :
    (for_loop (fun k v => v.set (15 - k)
        (((v.getD (15 - k) 0 >>> 1) ||| (v.getD (15 - k - 1) 0 <<< 7)) % 256)) n v).getD k 0 =
      if 15 < k + n ∧ k ≤ 15
      then ((v.getD k 0 >>> 1) ||| (v.getD (k - 1) 0 <<< 7)) % 256 else v.getD k 0 := by
  induction n generalizing k with
  | zero =>
    rw [for_loop_zero, if_neg (by omega)]
  | succ n ih =>
    have hl : (for_loop (fun k v => v.set (15 - k)
        (((v.getD (15 - k) 0 >>> 1) ||| (v.getD (15 - k - 1) 0 <<< 7)) % 256)) n v).length
        = 16 := by
      rw [for_loop_set_length (fun k => 15 - k)
        (fun k v => ((v.getD (15 - k) 0 >>> 1) ||| (v.getD (15 - k - 1) 0 <<< 7)) % 256), hv]
    have ih2 := ih (by omega) k
    rw [for_loop_succ, getD_set, hl]
    by_cases hk : 15 - n = k
    · rw [if_pos ⟨hk, by omega⟩, if_pos (by omega)]
      rw [ih (by omega) (15 - n), ih (by omega) (15 - n - 1), if_neg (by omega), if_neg (by omega)]
      subst hk
      rfl
    · rw [if_neg (fun h => hk h.1), ih2]
      by_cases h2 : 15 < k + n ∧ k ≤ 15
      · rw [if_pos h2, if_pos (by omega)]
      · rw [if_neg h2, if_neg (by omega)]

/-- Bit `n` of the block after the statements that shift `v` by one bit. -/
theorem gcm_shift_bit (v : List Nat) (hv : v.length = 16) (hvb : ∀ k, v.getD k 0 < 256)
    (n : Nat) (hn : n < 128) :
    block_bit ((for_loop (fun k v => v.set (15 - k)
        (((v.getD (15 - k) 0 >>> 1) ||| (v.getD (15 - k - 1) 0 <<< 7)) % 256)) 15 v).set 0
      (((for_loop (fun k v => v.set (15 - k)
        (((v.getD (15 - k) 0 >>> 1) ||| (v.getD (15 - k - 1) 0 <<< 7)) % 256)) 15 v).getD 0 0
          >>> 1) % 256)) n =
      (decide (n ≠ 0) && block_bit v (n - 1)) := by
  have hl : (for_loop (fun k v => v.set (15 - k)
      (((v.getD (15 - k) 0 >>> 1) ||| (v.getD (15 - k - 1) 0 <<< 7)) % 256)) 15 v).length
      = 16 := by
    rw [for_loop_set_length (fun k => 15 - k)
      (fun k v => ((v.getD (15 - k) 0 >>> 1) ||| (v.getD (15 - k - 1) 0 <<< 7)) % 256), hv]
  have hr : n % 8 < 8 := Nat.mod_lt _ (by norm_num)
  have g0 := gcm_shift_loop_getD v hv 15 (Nat.le_refl _) 0
  rw [if_neg (by omega)] at g0
  have gq := gcm_shift_loop_getD v hv 15 (Nat.le_refl _) (n / 8)
  unfold block_bit
  rw [getD_set, hl, g0]
  by_cases hq : n / 8 = 0
  · rw [if_pos ⟨hq.symm, by omega⟩, testBit_mod_256 _ _ (by omega), Nat.testBit_shiftRight]
    by_cases h0 : n = 0
    · subst h0
      rw [testBit_byte_high _ _ (hvb 0) (by omega)]
      rfl
    · have e1 : (n - 1) / 8 = 0 := by omega
      have e2 : 1 + (7 - n % 8) = 7 - (n - 1) % 8 := by omega
      rw [e1, e2]
      simp [h0]
  · rw [if_neg (fun h => hq h.1.symm), gq, if_pos (by omega), testBit_mod_256 _ _ (by omega),
      Nat.testBit_or, Nat.testBit_shiftRight, Nat.testBit_shiftLeft]
    have h0 : n ≠ 0 := by omega
    by_cases hr0 : n % 8 = 0
    · have e1 : (n - 1) / 8 = n / 8 - 1 := by omega
      have e2 : 7 - (n - 1) % 8 = 0 := by omega
      rw [e1, e2, hr0, testBit_byte_high _ _ (hvb _) (by omega)]
      simp [h0]
    · have e1 : (n - 1) / 8 = n / 8 := by omega
      have e2 : 1 + (7 - n % 8) = 7 - (n - 1) % 8 := by omega
      have e3 : ¬ (7 - n % 8 ≥ 7) := by omega
      rw [e1, e2]
      simp [h0, e3]

/-- Bit `n` of the block after the statement `v[0] ^= 0xe1`. -/
theorem gcm_reduce_bit (v : List Nat) (hv : v.length = 16) (n : Nat) (hn : n < 128) :
    block_bit (v.set 0 ((v.getD 0 0 ^^^ 0xe1) % 256)) n =
      (block_bit v n ^^ decide (n = 0 ∨ n = 1 ∨ n = 2 ∨ n = 7)) := by
  unfold block_bit
  rw [getD_set, hv]
  by_cases hq : n / 8 = 0
  · rw [if_pos ⟨hq.symm, by omega⟩, testBit_mod_256 _ _ (by omega), Nat.testBit_xor, hq]
    have h8 : n < 8 := by omega
    have e : Nat.testBit 0xe1 (7 - n % 8) = decide (n = 0 ∨ n = 1 ∨ n = 2 ∨ n = 7) := by
      interval_cases n <;> decide
    rw [e]
  · rw [if_neg (fun h => hq h.1.symm)]
    have : ¬ (n = 0 ∨ n = 1 ∨ n = 2 ∨ n = 7) := by omega
    simp [this]

theorem bits_poly_coeff (f : Nat → Bool) (n : Nat) :
    (Finset.sum (Finset.range 128)
      (fun i => if f i = true then (Polynomial.X : Polynomial (ZMod 2)) ^ i else 0)).coeff n =
      if n < 128 ∧ f n = true then 1 else 0 := by
  rw [Polynomial.finset_sum_coeff]
  have e : ∀ i, (if f i = true then (Polynomial.X : Polynomial (ZMod 2)) ^ i else 0).coeff n =
      if n = i then (if f n = true then 1 else 0) else 0 := by
    intro i
    by_cases h : n = i
    · subst h
      rw [if_pos rfl]
      split_ifs
      · rw [Polynomial.coeff_X_pow, if_pos rfl]
      · rw [Polynomial.coeff_zero]
    · rw [if_neg h]
      split_ifs
      · rw [Polynomial.coeff_X_pow, if_neg h]
      · rw [Polynomial.coeff_zero]
  simp only [e]
  rw [Finset.sum_ite_eq]
  simp only [Finset.mem_range]
  by_cases h : n < 128
  · rw [if_pos h]
    by_cases h2 : f n = true
    · rw [if_pos h2, if_pos ⟨h, h2⟩]
    · rw [if_neg h2, if_neg (fun hh => h2 hh.2)]
  · rw [if_neg h, if_neg (fun hh => h hh.1)]

theorem bit_add (a b : Bool) :
    (if (a ^^ b) = true then (1 : ZMod 2) else 0) =
      (if a = true then 1 else 0) + (if b = true then 1 else 0) := by
  cases a <;> cases b <;> decide

theorem gcm_modulus_coeff (n : Nat) :
    ((Polynomial.X : Polynomial (ZMod 2)) ^ 128 + Polynomial.X ^ 7 + Polynomial.X ^ 2 +
      Polynomial.X + 1).coeff n =
      if n = 128 ∨ n = 7 ∨ n = 2 ∨ n = 1 ∨ n = 0 then 1 else 0 := by
  simp only [Polynomial.coeff_add, Polynomial.coeff_X_pow, Polynomial.coeff_X,
    Polynomial.coeff_one]
  by_cases h128 : n = 128
  · subst h128; simp
  by_cases h7 : n = 7
  · subst h7; simp
  by_cases h2 : n = 2
  · subst h2; simp
  by_cases h1 : n = 1
  · subst h1; simp
  by_cases h0 : n = 0
  · subst h0; simp
  rw [if_neg h128, if_neg h7, if_neg h2, if_neg (fun h => h1 h.symm), if_neg h0, if_neg (by omega)]
  simp

theorem gcm_modulus_monic :
    ((Polynomial.X : Polynomial (ZMod 2)) ^ 128 + Polynomial.X ^ 7 + Polynomial.X ^ 2 +
      Polynomial.X + 1).Monic := by
  have e : ((Polynomial.X : Polynomial (ZMod 2)) ^ 128 + Polynomial.X ^ 7 + Polynomial.X ^ 2 +
      Polynomial.X + 1) = Polynomial.X ^ 128 + (Polynomial.X ^ 7 + Polynomial.X ^ 2 +
      Polynomial.X + 1) := by ring
  rw [e]
  apply Polynomial.monic_X_pow_add
  rw [Polynomial.degree_lt_iff_coeff_zero]
  intro m hm
  simp only [Polynomial.coeff_add, Polynomial.coeff_X_pow, Polynomial.coeff_X,
    Polynomial.coeff_one]
  rw [if_neg (by omega), if_neg (by omega), if_neg (by omega), if_neg (by omega)]
  simp

/-- A loop on a pair of arrays that updates each of them on its own. -/
theorem for_loop_pair {α β : Type} (f : Nat → α → α) (g : Nat → β → β) (n : Nat) (a : α)
    (b : β) :
    for_loop (fun i (p : α × β) => (f i p.1, g i p.2)) n (a, b) =
      (for_loop f n a, for_loop g n b) := by
  induction n with
  | zero => rfl
  | succ n ih => rw [for_loop_succ, ih, for_loop_succ, for_loop_succ]

/-- The first loop of `aes_gcm_mul` leaves Z = 0 and V = Y. -/
theorem aes_gcm_mul_init (y : List Nat) (hy : y.length = 16) :
    for_loop (fun i (zv : List Nat × List Nat) => (zv.1.set i 0, zv.2.set i (y.getD i 0))) 16
      (List.replicate 16 0, List.replicate 16 0) = (List.replicate 16 0, y) := by
  have e : for_loop (fun i (v : List Nat) => v.set i (y.getD i 0)) 16 (List.replicate 16 0)
      = y := by
    apply ext_getD
    · rw [for_loop_set_length (fun i => i) (fun i _ => y.getD i 0), List.length_replicate, hy]
    · intro k hk
      rw [for_loop_set_length (fun i => i) (fun i _ => y.getD i 0), List.length_replicate] at hk
      rw [for_loop_set_getD_zero (fun i _ => y.getD i 0), List.length_replicate,
        if_pos ⟨hk, hk⟩]
  rw [for_loop_pair (fun i (z : List Nat) => z.set i 0) (fun i (v : List Nat) =>
    v.set i (y.getD i 0)), for_loop_clear16 _ (List.length_replicate _ _), e]

/-- The last loop of `aes_gcm_mul` copies Z to `x`. -/
theorem aes_gcm_mul_copy (x z : List Nat) (hx : x.length = 16) (hz : z.length = 16) :
    for_loop (fun i out => out.set i (z.getD i 0)) 16 x = z := by
  apply ext_getD
  · rw [for_loop_set_length (fun i => i) (fun i _ => z.getD i 0), hx, hz]
  · intro k hk
    rw [for_loop_set_length (fun i => i) (fun i _ => z.getD i 0), hx] at hk
    rw [for_loop_set_getD_zero (fun i _ => z.getD i 0), hx, if_pos ⟨hk, hk⟩]

/-- One iteration of the loop of `aes_gcm_mul`, bit by bit: Z becomes Z xor V
when bit `i` of `x` is set, and V is shifted by one bit, with the bits 0, 1, 2
and 7 complemented when bit 127 falls out. -/
theorem aes_gcm_mul_step_bits (x : List Nat) (i : Nat) (zv : List Nat × List Nat)
    (hz : zv.1.length = 16) (hv : zv.2.length = 16) (hvb : ∀ k, zv.2.getD k 0 < 256) :
    (aes_gcm_mul_step x i zv).1.length = 16 ∧ (aes_gcm_mul_step x i zv).2.length = 16 ∧
    (∀ k, (aes_gcm_mul_step x i zv).2.getD k 0 < 256) ∧
    (∀ n, n < 128 → block_bit (aes_gcm_mul_step x i zv).1 n =
      (block_bit zv.1 n ^^ (block_bit x i && block_bit zv.2 n))) ∧
    (∀ n, n < 128 → block_bit (aes_gcm_mul_step x i zv).2 n =
      ((decide (n ≠ 0) && block_bit zv.2 (n - 1)) ^^
        (block_bit zv.2 127 && decide (n = 0 ∨ n = 1 ∨ n = 2 ∨ n = 7)))) := by
  have hl : (for_loop (fun k v => v.set (15 - k)
      (((v.getD (15 - k) 0 >>> 1) ||| (v.getD (15 - k - 1) 0 <<< 7)) % 256)) 15 zv.2).length
      = 16 := by
    rw [for_loop_set_length (fun k => 15 - k)
      (fun k v => ((v.getD (15 - k) 0 >>> 1) ||| (v.getD (15 - k - 1) 0 <<< 7)) % 256), hv]
  have hx : (x.getD (i >>> 3) 0 &&& (0x80 >>> (i &&& 7)) ≠ 0) ↔ block_bit x i = true := by
    rw [gcm_bit_test, Nat.shiftRight_eq_div_pow]
    rfl
  have hlsb : (zv.2.getD 15 0 &&& 1 ≠ 0) ↔ block_bit zv.2 127 = true := gcm_lsb_test _
  unfold aes_gcm_mul_step
  simp only []
  refine ⟨?_, ?_, ?_, ?_, ?_⟩
  · split_ifs
    · rw [for_loop_set_length (fun j => j) (fun j z => (z.getD j 0 ^^^ zv.2.getD j 0) % 256), hz]
    · exact hz
  · split_ifs
    · rw [List.length_set, List.length_set, hl]
    · rw [List.length_set, hl]
  · intro k
    have hshift : ∀ k, ((for_loop (fun k v => v.set (15 - k)
        (((v.getD (15 - k) 0 >>> 1) ||| (v.getD (15 - k - 1) 0 <<< 7)) % 256)) 15 zv.2).set 0
        (((for_loop (fun k v => v.set (15 - k)
        (((v.getD (15 - k) 0 >>> 1) ||| (v.getD (15 - k - 1) 0 <<< 7)) % 256)) 15
          zv.2).getD 0 0 >>> 1) % 256)).getD k 0 < 256 := by
      intro k
      rw [getD_set, gcm_shift_loop_getD _ hv 15 (Nat.le_refl _) k]
      split_ifs
      · exact Nat.mod_lt _ (by norm_num)
      · exact Nat.mod_lt _ (by norm_num)
      · exact hvb k
    split_ifs
    · rw [getD_set]
      split_ifs
      · exact Nat.mod_lt _ (by norm_num)
      · exact hshift k
    · exact hshift k
  · intro n hn
    by_cases hb : block_bit x i = true
    · rw [if_pos (hx.mpr hb), gcm_xor_bit _ _ hz n hn, hb, Bool.true_and]
    · rw [if_neg (fun h => hb (hx.mp h))]
      rw [Bool.not_eq_true] at hb
      rw [hb, Bool.false_and, Bool.xor_false]
  · intro n hn
    by_cases hb : block_bit zv.2 127 = true
    · rw [if_pos (hlsb.mpr hb), gcm_reduce_bit _ (by rw [List.length_set, hl]) n hn,
        gcm_shift_bit _ hv hvb n hn, hb, Bool.true_and]
    · rw [if_neg (fun h => hb (hlsb.mp h)), gcm_shift_bit _ hv hvb n hn]
      rw [Bool.not_eq_true] at hb
      rw [hb, Bool.false_and, Bool.xor_false]

theorem block_poly_congr (bp : List Nat → Polynomial (ZMod 2)) (hbp : IsBlockPoly bp)
    (B : List Nat) (f : Nat → Bool) (h : ∀ n, n < 128 → block_bit B n = f n) :
    bp B = Finset.sum (Finset.range 128)
      (fun i => if f i = true then Polynomial.X ^ i else 0) := by
  rw [hbp B]
  apply Finset.sum_congr rfl
  intro i hi
  rw [h i (Finset.mem_range.mp hi)]

/-- The polynomial of `f xor (c and g)` is the sum of the polynomial of `f`
and, when `c` holds, of the polynomial of `g`. -/
theorem bits_poly_xor (f g : Nat → Bool) (c : Bool) :
    Finset.sum (Finset.range 128)
      (fun i => if (f i ^^ (c && g i)) = true then (Polynomial.X : Polynomial (ZMod 2)) ^ i
        else 0) =
      Finset.sum (Finset.range 128) (fun i => if f i = true then Polynomial.X ^ i else 0) +
        (if c = true then
          Finset.sum (Finset.range 128) (fun i => if g i = true then Polynomial.X ^ i else 0)
        else 0) := by
  apply Polynomial.ext
  intro n
  rw [Polynomial.coeff_add, bits_poly_coeff, bits_poly_coeff]
  cases c
  · simp
  · rw [if_pos rfl, bits_poly_coeff]
    by_cases hn : n < 128
    · simp only [hn, true_and, Bool.true_and]
      exact bit_add _ _
    · simp [hn]

/-- The polynomial of the bits shifted by one place, with the bits 0, 1, 2 and
7 complemented when bit 127 was set, is x times the polynomial, plus the
modulus when bit 127 was set. -/
theorem bits_poly_shift (f : Nat → Bool) :
    Finset.sum (Finset.range 128)
      (fun i => if ((decide (i ≠ 0) && f (i - 1)) ^^
          (f 127 && decide (i = 0 ∨ i = 1 ∨ i = 2 ∨ i = 7))) = true
        then (Polynomial.X : Polynomial (ZMod 2)) ^ i else 0) =
      Polynomial.X *
        Finset.sum (Finset.range 128) (fun i => if f i = true then Polynomial.X ^ i else 0) +
      (if f 127 = true then
        Polynomial.X ^ 128 + Polynomial.X ^ 7 + Polynomial.X ^ 2 + Polynomial.X + 1
       else 0) := by
  apply Polynomial.ext
  intro n
  rw [Polynomial.coeff_add, bits_poly_coeff]
  have hX : (Polynomial.X * Finset.sum (Finset.range 128)
      (fun i => if f i = true then (Polynomial.X : Polynomial (ZMod 2)) ^ i else 0)).coeff n =
      if (decide (n ≠ 0) && decide (n - 1 < 128) && f (n - 1)) = true then 1 else 0 := by
    rcases n with _ | m
    · rw [Polynomial.coeff_X_mul_zero]
      rfl
    · rw [Polynomial.coeff_X_mul, bits_poly_coeff]
      by_cases h1 : m < 128 <;> by_cases h2 : f m = true <;> simp [h1, h2]
  have hM : (if f 127 = true then
        (Polynomial.X : Polynomial (ZMod 2)) ^ 128 + Polynomial.X ^ 7 + Polynomial.X ^ 2 +
          Polynomial.X + 1
       else 0).coeff n =
      if (f 127 && decide (n = 128 ∨ n = 7 ∨ n = 2 ∨ n = 1 ∨ n = 0)) = true then 1 else 0 := by
    cases f 127
    · simp
    · rw [if_pos rfl, gcm_modulus_coeff]
      simp
  rw [hX, hM, ← bit_add]
  by_cases hn : n < 128
  · have e1 : decide (n - 1 < 128) = true := by simp; omega
    have e2 : decide (n = 128 ∨ n = 7 ∨ n = 2 ∨ n = 1 ∨ n = 0) =
        decide (n = 0 ∨ n = 1 ∨ n = 2 ∨ n = 7) := by
      apply decide_eq_decide.mpr
      omega
    simp only [hn, true_and, e1, e2, Bool.and_true]
  · rw [if_neg (fun h => hn h.1)]
    by_cases h128 : n = 128
    · subst h128
      cases f 127 <;> simp
    · have e1 : decide (n - 1 < 128) = false := by simp; omega
      have e2 : decide (n = 128 ∨ n = 7 ∨ n = 2 ∨ n = 1 ∨ n = 0) = false := by simp; omega
      simp [e1, e2]

/-- One iteration of the loop of `aes_gcm_mul` on the polynomials of Z and V. -/
theorem aes_gcm_mul_step_poly (bp : List Nat → Polynomial (ZMod 2)) (hbp : IsBlockPoly bp)
    (x : List Nat) (i : Nat) (zv : List Nat × List Nat)
    (hz : zv.1.length = 16) (hv : zv.2.length = 16) (hvb : ∀ k, zv.2.getD k 0 < 256) :
    bp (aes_gcm_mul_step x i zv).1 =
      bp zv.1 + (if block_bit x i = true then bp zv.2 else 0) ∧
    bp (aes_gcm_mul_step x i zv).2 =
      Polynomial.X * bp zv.2 +
        (if block_bit zv.2 127 = true then
          Polynomial.X ^ 128 + Polynomial.X ^ 7 + Polynomial.X ^ 2 + Polynomial.X + 1
         else 0) := by
  obtain ⟨-, -, -, hzb, hvb2⟩ := aes_gcm_mul_step_bits x i zv hz hv hvb
  constructor
  · rw [block_poly_congr bp hbp _ _ hzb, bits_poly_xor, ← hbp, ← hbp]
  · rw [block_poly_congr bp hbp _ _ hvb2, bits_poly_shift, ← hbp]

/-- The loop of `aes_gcm_mul` after `i` iterations, modulo the modulus: V is
x^i times Y, and Z is the product of Y and of the first `i` terms of X. -/
theorem aes_gcm_mul_loop_poly (bp : List Nat → Polynomial (ZMod 2)) (hbp : IsBlockPoly bp)
    (x y : List Nat) (hy : y.length = 16) (hyb : ∀ k, y.getD k 0 < 256) (i : Nat) :
    (for_loop (aes_gcm_mul_step x) i (List.replicate 16 0, y)).1.length = 16 ∧
    (for_loop (aes_gcm_mul_step x) i (List.replicate 16 0, y)).2.length = 16 ∧
    (∀ k, (for_loop (aes_gcm_mul_step x) i (List.replicate 16 0, y)).2.getD k 0 < 256) ∧
    (Polynomial.X ^ 128 + Polynomial.X ^ 7 + Polynomial.X ^ 2 + Polynomial.X + 1 ∣
      bp (for_loop (aes_gcm_mul_step x) i (List.replicate 16 0, y)).2 -
        Polynomial.X ^ i * bp y) ∧
    (Polynomial.X ^ 128 + Polynomial.X ^ 7 + Polynomial.X ^ 2 + Polynomial.X + 1 ∣
      bp (for_loop (aes_gcm_mul_step x) i (List.replicate 16 0, y)).1 -
        Finset.sum (Finset.range i)
          (fun t => if block_bit x t = true then Polynomial.X ^ t else 0) * bp y) := by
  induction i with
  | zero =>
    refine ⟨List.length_replicate _ _, hy, hyb, ?_, ?_⟩
    · rw [for_loop_zero, pow_zero, one_mul, sub_self]
      exact dvd_zero _
    · have hz : bp (List.replicate 16 0) = 0 := by
        rw [hbp]
        apply Finset.sum_eq_zero
        intro t _
        have : block_bit (List.replicate 16 0) t = false := by
          unfold block_bit
          rw [getD_replicate_zero]
          exact Nat.zero_testBit _
        rw [this]
        rfl
      rw [for_loop_zero, Finset.range_zero, Finset.sum_empty, zero_mul, sub_zero]
      show _ ∣ bp (List.replicate 16 0)
      rw [hz]
      exact dvd_zero _
  | succ i ih =>
    obtain ⟨hz, hv, hvb, hV, hZ⟩ := ih
    rw [for_loop_succ]
    generalize for_loop (aes_gcm_mul_step x) i (List.replicate 16 0, y) = zv at *
    obtain ⟨hz2, hv2, hvb2, -, -⟩ := aes_gcm_mul_step_bits x i zv hz hv hvb
    obtain ⟨pz, pv⟩ := aes_gcm_mul_step_poly bp hbp x i zv hz hv hvb
    refine ⟨hz2, hv2, hvb2, ?_, ?_⟩
    · rw [pv]
      have e : Polynomial.X * bp zv.2 +
          (if block_bit zv.2 127 = true then
            Polynomial.X ^ 128 + Polynomial.X ^ 7 + Polynomial.X ^ 2 + Polynomial.X + 1
           else 0) - Polynomial.X ^ (i + 1) * bp y =
          (if block_bit zv.2 127 = true then
            Polynomial.X ^ 128 + Polynomial.X ^ 7 + Polynomial.X ^ 2 + Polynomial.X + 1
           else 0) + Polynomial.X * (bp zv.2 - Polynomial.X ^ i * bp y) := by ring
      rw [e]
      apply dvd_add
      · split_ifs
        · exact dvd_refl _
        · exact dvd_zero _
      · exact Dvd.dvd.mul_left hV _
    · rw [pz, Finset.sum_range_succ]
      by_cases hb : block_bit x i = true
      · rw [if_pos hb, if_pos hb]
        have e : bp zv.1 + bp zv.2 -
            (Finset.sum (Finset.range i)
              (fun t => if block_bit x t = true then Polynomial.X ^ t else 0) +
              Polynomial.X ^ i) * bp y =
            (bp zv.1 - Finset.sum (Finset.range i)
              (fun t => if block_bit x t = true then Polynomial.X ^ t else 0) * bp y) +
            (bp zv.2 - Polynomial.X ^ i * bp y) := by ring
        rw [e]
        exact dvd_add hZ hV
      · rw [if_neg hb, if_neg hb, add_zero, add_zero]
        exact hZ

/-- The polynomial of a block has degree less than 128. -/
theorem bits_poly_degree (f : Nat → Bool) :
    (Finset.sum (Finset.range 128)
      (fun i => if f i = true then (Polynomial.X : Polynomial (ZMod 2)) ^ i else 0)).degree <
    (Polynomial.X ^ 128 + Polynomial.X ^ 7 + Polynomial.X ^ 2 + Polynomial.X + 1 :
      Polynomial (ZMod 2)).degree := by
  have hd : (Polynomial.X ^ 128 + Polynomial.X ^ 7 + Polynomial.X ^ 2 + Polynomial.X + 1 :
      Polynomial (ZMod 2)).degree = ((128 : Nat) : WithBot Nat) := by
    have e : ((Polynomial.X : Polynomial (ZMod 2)) ^ 128 + Polynomial.X ^ 7 +
        Polynomial.X ^ 2 + Polynomial.X + 1) = Polynomial.X ^ 128 + (Polynomial.X ^ 7 +
        Polynomial.X ^ 2 + Polynomial.X + 1) := by ring
    rw [e, Polynomial.degree_add_eq_left_of_degree_lt, Polynomial.degree_X_pow]
    rw [Polynomial.degree_X_pow, Polynomial.degree_lt_iff_coeff_zero]
    intro m hm
    simp only [Polynomial.coeff_add, Polynomial.coeff_X_pow, Polynomial.coeff_X,
      Polynomial.coeff_one]
    rw [if_neg (by omega), if_neg (by omega), if_neg (by omega), if_neg (by omega)]
    simp
  rw [hd, Polynomial.degree_lt_iff_coeff_zero]
  intro m hm
  rw [bits_poly_coeff, if_neg (by omega)]

/-- The block that `aes_gcm_mul` writes represents the product of the
polynomials of its arguments, reduced modulo x^128 + x^7 + x^2 + x + 1. -/
theorem aes_gcm_mul_poly (bp : List Nat → Polynomial (ZMod 2)) (hbp : IsBlockPoly bp)
    (x y : List Nat) (hx : x.length = 16) (hy : y.length = 16)
    (hyb : ∀ k, y.getD k 0 < 256) :
    bp (aes_gcm_mul x y) =
      Polynomial.modByMonic (bp x * bp y)
        (Polynomial.X ^ 128 + Polynomial.X ^ 7 + Polynomial.X ^ 2 + Polynomial.X + 1) := by
  obtain ⟨hz, -, -, -, hZ⟩ := aes_gcm_mul_loop_poly bp hbp x y hy hyb 128
  rw [aes_gcm_mul_steps, aes_gcm_mul_init y hy, aes_gcm_mul_copy x _ hx hz]
  rw [← hbp x] at hZ
  rw [← Polynomial.modByMonic_eq_of_dvd_sub gcm_modulus_monic hZ]
  symm
  rw [Polynomial.modByMonic_eq_self_iff gcm_modulus_monic, hbp]
  exact bits_poly_degree _

/-- Blocks that represent the same polynomial have the same bits. -/
theorem block_poly_bits (bp : List Nat → Polynomial (ZMod 2)) (hbp : IsBlockPoly bp)
    (A B : List Nat) (h : bp A = bp B) (n : Nat) (hn : n < 128) :
    block_bit A n = block_bit B n := by
  have hc := congrArg (fun p => Polynomial.coeff p n) h
  simp only [] at hc
  rw [hbp A, hbp B, bits_poly_coeff, bits_poly_coeff] at hc
  cases hA : block_bit A n <;> cases hB : block_bit B n <;> simp [hn, hA, hB] at hc ⊢

/-- Blocks of 16 bytes with the same bits are equal. -/
theorem block_bits_ext (A B : List Nat) (hA : A.length = 16) (hB : B.length = 16)
    (hAb : ∀ k, A.getD k 0 < 256) (hBb : ∀ k, B.getD k 0 < 256)
    (h : ∀ n, n < 128 → block_bit A n = block_bit B n) : A = B := by
  apply ext_getD
  · rw [hA, hB]
  · intro k hk
    rw [hA] at hk
    apply Nat.eq_of_testBit_eq
    intro j
    by_cases hj : j < 8
    · have := h (8 * k + (7 - j)) (by omega)
      unfold block_bit at this
      have e1 : (8 * k + (7 - j)) / 8 = k := by omega
      have e2 : 7 - (8 * k + (7 - j)) % 8 = j := by omega
      rw [e1, e2] at this
      exact this
    · rw [testBit_byte_high _ _ (hAb k) (by omega), testBit_byte_high _ _ (hBb k) (by omega)]

/-- C21. `aes_gcm_mul` is the multiplication of GF(2^128): reading a block of
16 bytes as the polynomial over GF(2) whose coefficient of x^i is bit `i` of
the block, bit 0 being the most significant bit of byte 0, for all blocks X and
Y the block that `aes_gcm_mul(X, Y)` writes, a block of 16 bytes, represents
the remainder of the product of the polynomials of X and Y in the division by
x^128 + x^7 + x^2 + x + 1. -/
theorem aes_gcm_mul_gf128 (X Y : List Nat) (hX : X.length = 16) (hY : Y.length = 16)
    (hYb : ∀ b ∈ Y, b < 256) :
    Finset.sum (Finset.range 128)
      (fun i => if block_bit (aes_gcm_mul X Y) i = true
        then (Polynomial.X : Polynomial (ZMod 2)) ^ i else 0) =
      Polynomial.modByMonic
        (Finset.sum (Finset.range 128)
            (fun i => if block_bit X i = true then Polynomial.X ^ i else 0) *
          Finset.sum (Finset.range 128)
            (fun i => if block_bit Y i = true then Polynomial.X ^ i else 0))
        (Polynomial.X ^ 128 + Polynomial.X ^ 7 + Polynomial.X ^ 2 + Polynomial.X + 1) ∧
    (aes_gcm_mul X Y).length = 16 ∧ (∀ k, (aes_gcm_mul X Y).getD k 0 < 256) :=
  ⟨aes_gcm_mul_poly
      (fun B => Finset.sum (Finset.range 128)
        (fun i => if block_bit B i = true then Polynomial.X ^ i else 0))
      (fun _ => rfl) X Y hX hY (getD_lt_of_forall hYb),
    by rw [aes_gcm_mul_length, hX], aes_gcm_mul_lt X Y hX⟩

/-- C21, a concrete instance: X has bit 1 only (the polynomial x) and Y has bit
127 only (the polynomial x^127); the block written has the bits 0, 1, 2 and 7,
which is x^128 reduced. -/
theorem aes_gcm_mul_gf128_witness :
    aes_gcm_mul (0x40 :: List.replicate 15 0) (List.replicate 15 0 ++ [1]) =
      0xe1 :: List.replicate 15 0 ∧
    Finset.sum (Finset.range 128)
      (fun i => if block_bit (aes_gcm_mul (0x40 :: List.replicate 15 0)
          (List.replicate 15 0 ++ [1])) i = true
        then (Polynomial.X : Polynomial (ZMod 2)) ^ i else 0) =
      Polynomial.modByMonic
        (Finset.sum (Finset.range 128)
            (fun i => if block_bit (0x40 :: List.replicate 15 0) i = true
              then Polynomial.X ^ i else 0) *
          Finset.sum (Finset.range 128)
            (fun i => if block_bit (List.replicate 15 0 ++ [1]) i = true
              then Polynomial.X ^ i else 0))
        (Polynomial.X ^ 128 + Polynomial.X ^ 7 + Polynomial.X ^ 2 + Polynomial.X + 1) :=
  ⟨by decide, (aes_gcm_mul_gf128 (0x40 :: List.replicate 15 0) (List.replicate 15 0 ++ [1])
    (by decide) (by decide) (by decide)).1⟩

/-- C30. `aes_gcm_mul` is commutative: for all blocks X and Y of 16 bytes, the
block that `aes_gcm_mul(X, Y)` writes is the block that `aes_gcm_mul(Y, X)`
writes, although the code scans the bits of X and shifts Y. -/
theorem aes_gcm_mul_comm (X Y : List Nat) (hX : X.length = 16) (hY : Y.length = 16)
    (hXb : ∀ b ∈ X, b < 256) (hYb : ∀ b ∈ Y, b < 256) :
    aes_gcm_mul X Y = aes_gcm_mul Y X := by
  have hbp : IsBlockPoly (fun B => Finset.sum (Finset.range 128)
      (fun i => if block_bit B i = true then Polynomial.X ^ i else 0)) := fun _ => rfl
  have h1 := aes_gcm_mul_poly _ hbp X Y hX hY (getD_lt_of_forall hYb)
  have h2 := aes_gcm_mul_poly _ hbp Y X hY hX (getD_lt_of_forall hXb)
  rw [mul_comm, ← h2] at h1
  exact block_bits_ext _ _ (by rw [aes_gcm_mul_length, hX]) (by rw [aes_gcm_mul_length, hY])
    (aes_gcm_mul_lt X Y hX) (aes_gcm_mul_lt Y X hY) (block_poly_bits _ hbp _ _ h1)

/-- C30, a concrete instance: the blocks of the polynomials x^127 and x, in
both orders. -/
theorem aes_gcm_mul_comm_witness :
    aes_gcm_mul (0x40 :: List.replicate 15 0) (List.replicate 15 0 ++ [1]) =
      0xe1 :: List.replicate 15 0 ∧
    aes_gcm_mul (List.replicate 15 0 ++ [1]) (0x40 :: List.replicate 15 0) =
      aes_gcm_mul (0x40 :: List.replicate 15 0) (List.replicate 15 0 ++ [1]) :=
  ⟨by decide, aes_gcm_mul_comm (List.replicate 15 0 ++ [1]) (0x40 :: List.replicate 15 0)
    (by decide) (by decide) (by decide) (by decide)⟩

/-! ## `base64_encode` is injective -/

/-- The characters that `base64_encode` stores, as a string. -/
theorem base64_encode_take (output input : List Nat) (hb : ∀ b ∈ input, b < 256)
    (hout : (input.length + 2) / 3 * 4 ≤ output.length) :
    (base64_encode output input input.length).2.take (base64_encode output input input.length).1
      = base64_ref input := by
  rw [base64_encode_fst]
  apply ext_getD
  · rw [List.length_take, base64_encode_length, base64_ref_length]
    omega
  · intro k hk
    rw [List.length_take, base64_encode_length] at hk
    have hk2 : k < (input.length + 2) / 3 * 4 := by omega
    rw [getD_take, if_pos hk2, base64_encode_getD, if_pos ⟨hk2, by omega⟩,
      base64_ref_getD input hb k hk2]

theorem base64_ref_alphabet_nodup : base64_ref_alphabet.Nodup := by decide

theorem base64_ref_alphabet_length : base64_ref_alphabet.length = 64 := by decide

/-- The alphabet has 64 different characters. -/
theorem base64_ref_alphabet_inj (i j : Nat) (hi : i < 64) (hj : j < 64)
    (h : base64_ref_alphabet.getD i 0 = base64_ref_alphabet.getD j 0) : i = j := by
  have hi2 : i < base64_ref_alphabet.length := by rw [base64_ref_alphabet_length]; exact hi
  have hj2 : j < base64_ref_alphabet.length := by rw [base64_ref_alphabet_length]; exact hj
  rw [List.getD_eq_getElem _ _ hi2, List.getD_eq_getElem _ _ hj2] at h
  exact (List.Nodup.getElem_inj_iff base64_ref_alphabet_nodup).mp h

/-- The character `=` is not in the alphabet. -/
theorem base64_ref_alphabet_ne_pad (i : Nat) (hi : i < 64) :
    base64_ref_alphabet.getD i 0 ≠ 61 := by
  have hmem : base64_ref_alphabet.getD i 0 ∈ base64_ref_alphabet :=
    getD_mem_of_lt _ _ (by rw [base64_ref_alphabet_length]; exact hi)
  have h61 : 61 ∉ base64_ref_alphabet := by decide
  intro h
  rw [h] at hmem
  exact h61 hmem

/-- Three bytes are determined by the four 6-bit indices of their group. -/
theorem base64_group3_inj (a b c x y z : Nat) (ha : a < 256) (hb : b < 256) (hc : c < 256)
    (hx : x < 256) (hy : y < 256) (hz : z < 256)
    (h1 : (a * 2 ^ 16 + b * 2 ^ 8 + c) / 2 ^ 18 % 64 = (x * 2 ^ 16 + y * 2 ^ 8 + z) / 2 ^ 18 % 64)
    (h2 : (a * 2 ^ 16 + b * 2 ^ 8 + c) / 2 ^ 12 % 64 = (x * 2 ^ 16 + y * 2 ^ 8 + z) / 2 ^ 12 % 64)
    (h3 : (a * 2 ^ 16 + b * 2 ^ 8 + c) / 2 ^ 6 % 64 = (x * 2 ^ 16 + y * 2 ^ 8 + z) / 2 ^ 6 % 64)
    (h4 : (a * 2 ^ 16 + b * 2 ^ 8 + c) % 64 = (x * 2 ^ 16 + y * 2 ^ 8 + z) % 64) :
    a = x ∧ b = y ∧ c = z := by
  simp only [Nat.reducePow] at h1 h2 h3 h4
  omega

/-- Two bytes are determined by the three 6-bit indices of their group. -/
theorem base64_group2_inj (a b x y : Nat) (ha : a < 256) (hb : b < 256)
    (hx : x < 256) (hy : y < 256)
    (h1 : (a * 2 ^ 8 + b) * 2 ^ 2 / 2 ^ 12 % 64 = (x * 2 ^ 8 + y) * 2 ^ 2 / 2 ^ 12 % 64)
    (h2 : (a * 2 ^ 8 + b) * 2 ^ 2 / 2 ^ 6 % 64 = (x * 2 ^ 8 + y) * 2 ^ 2 / 2 ^ 6 % 64)
    (h3 : (a * 2 ^ 8 + b) * 2 ^ 2 % 64 = (x * 2 ^ 8 + y) * 2 ^ 2 % 64) :
    a = x ∧ b = y := by
  simp only [Nat.reducePow] at h1 h2 h3
  omega

/-- One byte is determined by the two 6-bit indices of its group. -/
theorem base64_group1_inj (a x : Nat) (ha : a < 256) (hx : x < 256)
    (h1 : a * 2 ^ 4 / 2 ^ 6 % 64 = x * 2 ^ 4 / 2 ^ 6 % 64)
    (h2 : a * 2 ^ 4 % 64 = x * 2 ^ 4 % 64) : a = x := by
  simp only [Nat.reducePow] at h1 h2
  omega

/-- The reference encoding is injective on byte strings. -/
theorem base64_ref_inj (a : List Nat) :
    ∀ b : List Nat, (∀ v ∈ a, v < 256) → (∀ v ∈ b, v < 256) →
      base64_ref a = base64_ref b → a = b := by
  have hm : ∀ n : Nat, n % 64 < 64 := fun n => Nat.mod_lt _ (by norm_num)
  induction a using base64_ref.induct with
  | case1 a b c rest ih =>
    intro l ha hl h
    rcases l with _ | ⟨x, _ | ⟨y, _ | ⟨z, rest2⟩⟩⟩
    · simp [base64_ref] at h
    · simp only [base64_ref, List.cons_append, List.nil_append, List.cons.injEq] at h
      exact absurd h.2.2.1 (base64_ref_alphabet_ne_pad _ (hm _))
    · simp only [base64_ref, List.cons_append, List.nil_append, List.cons.injEq] at h
      exact absurd h.2.2.2.1 (base64_ref_alphabet_ne_pad _ (hm _))
    · simp only [base64_ref, List.cons_append, List.nil_append, List.cons.injEq] at h
      obtain ⟨h1, h2, h3, h4, ht⟩ := h
      have g := base64_group3_inj a b c x y z (ha a (by simp)) (ha b (by simp))
        (ha c (by simp)) (hl x (by simp)) (hl y (by simp)) (hl z (by simp))
        (base64_ref_alphabet_inj _ _ (hm _) (hm _) h1)
        (base64_ref_alphabet_inj _ _ (hm _) (hm _) h2)
        (base64_ref_alphabet_inj _ _ (hm _) (hm _) h3)
        (base64_ref_alphabet_inj _ _ (hm _) (hm _) h4)
      have hr := ih rest2 (fun v hv => ha v (by simp [hv])) (fun v hv => hl v (by simp [hv])) ht
      rw [g.1, g.2.1, g.2.2, hr]
  | case2 a b =>
    intro l ha hl h
    rcases l with _ | ⟨x, _ | ⟨y, _ | ⟨z, rest2⟩⟩⟩
    · simp [base64_ref] at h
    · simp only [base64_ref, List.cons.injEq] at h
      exact absurd h.2.2.1 (base64_ref_alphabet_ne_pad _ (hm _))
    · simp only [base64_ref, List.cons.injEq] at h
      obtain ⟨h1, h2, h3, -⟩ := h
      have g := base64_group2_inj a b x y (ha a (by simp)) (ha b (by simp))
        (hl x (by simp)) (hl y (by simp))
        (base64_ref_alphabet_inj _ _ (hm _) (hm _) h1)
        (base64_ref_alphabet_inj _ _ (hm _) (hm _) h2)
        (base64_ref_alphabet_inj _ _ (hm _) (hm _) h3)
      rw [g.1, g.2]
    · simp only [base64_ref, List.cons_append, List.nil_append, List.cons.injEq] at h
      exact absurd h.2.2.2.1.symm (base64_ref_alphabet_ne_pad _ (hm _))
  | case3 a =>
    intro l ha hl h
    rcases l with _ | ⟨x, _ | ⟨y, _ | ⟨z, rest2⟩⟩⟩
    · simp [base64_ref] at h
    · simp only [base64_ref, List.cons.injEq] at h
      obtain ⟨h1, h2, -⟩ := h
      have g := base64_group1_inj a x (ha a (by simp)) (hl x (by simp))
        (base64_ref_alphabet_inj _ _ (hm _) (hm _) h1)
        (base64_ref_alphabet_inj _ _ (hm _) (hm _) h2)
      rw [g]
    · simp only [base64_ref, List.cons.injEq] at h
      exact absurd h.2.2.1.symm (base64_ref_alphabet_ne_pad _ (hm _))
    · simp only [base64_ref, List.cons_append, List.nil_append, List.cons.injEq] at h
      exact absurd h.2.2.1.symm (base64_ref_alphabet_ne_pad _ (hm _))
  | case4 =>
    intro l _ _ h
    rcases l with _ | ⟨x, _ | ⟨y, _ | ⟨z, rest2⟩⟩⟩
    · rfl
    · simp [base64_ref] at h
    · simp [base64_ref] at h
    · simp [base64_ref] at h

/-- C31. `base64_encode` is injective: for all byte sequences `a` and `b`, of
any lengths, encoded into buffers that are large enough, the string that
`base64_encode` writes for `a` (the first bytes of the output buffer, as many
as the function returns) is the string that it writes for `b` only if
`a = b`; conversely the string written for a byte sequence does not depend on
the buffer. -/
theorem base64_encode_injective (a b outa outb : List Nat)
    (ha : ∀ v ∈ a, v < 256) (hb : ∀ v ∈ b, v < 256)
    (houta : (a.length + 2) / 3 * 4 ≤ outa.length)
    (houtb : (b.length + 2) / 3 * 4 ≤ outb.length) :
    (base64_encode outa a a.length).2.take (base64_encode outa a a.length).1 =
      (base64_encode outb b b.length).2.take (base64_encode outb b b.length).1 ↔ a = b := by
  rw [base64_encode_take outa a ha houta, base64_encode_take outb b hb houtb]
  constructor
  · exact base64_ref_inj a b ha hb
  · intro h
    rw [h]

/-- C31, a concrete instance: the strings written for the byte `f` and for the
bytes `f`, 0 are `Zg==` and `ZgA=`. -/
theorem base64_encode_injective_witness :
    (base64_encode (List.replicate 4 0) [102] 1).2 = [90, 103, 61, 61] ∧
    (base64_encode (List.replicate 4 0) [102, 0] 2).2 = [90, 103, 65, 61] ∧
    ¬ ((base64_encode (List.replicate 4 0) [102] [102].length).2.take
        (base64_encode (List.replicate 4 0) [102] [102].length).1 =
      (base64_encode (List.replicate 4 0) [102, 0] [102, 0].length).2.take
        (base64_encode (List.replicate 4 0) [102, 0] [102, 0].length).1) :=
  ⟨by decide, by decide, fun h =>
    absurd ((base64_encode_injective [102] [102, 0] (List.replicate 4 0) (List.replicate 4 0)
      (by decide) (by decide) (by decide) (by decide)).mp h) (by decide)⟩

/-! ## The padding of `aes_mmo` is injective -/

/-- Consecutive pieces of 16 bytes of a list make up its beginning. -/
theorem flatten_pieces16 (l : List Nat) (n : Nat) :
    ((List.range n).map (fun j => (l.drop (16 * j)).take 16)).flatten = l.take (16 * n) := by
  induction n with
  | zero => rfl
  | succ n ih =>
    rw [List.range_succ, List.map_append, List.flatten_append, ih, List.map_singleton,
      List.flatten_singleton, Nat.mul_succ, List.take_add]

/-- A byte string whose length is a multiple of 16 is the concatenation of its
blocks. -/
theorem blocks16_flatten (l : List Nat) (h : l.length % 16 = 0) : (blocks16 l).flatten = l := by
  unfold blocks16
  rw [flatten_pieces16, List.take_of_length_le (by omega)]

theorem mmo_ref_pad_length (msg : List Nat) :
    (mmo_ref_pad msg).length =
      if msg.length < 8192 then msg.length + 1 + (29 - msg.length % 16) % 16 + 2
      else msg.length + 1 + (25 - msg.length % 16) % 16 + 6 := by
  unfold mmo_ref_pad
  split_ifs <;>
    simp only [List.length_append, List.length_cons, List.length_nil, List.length_replicate,
      be_bytes_length]

/-- The blocks of the reference padded message determine it. -/
theorem mmo_ref_pad_blocks (msg : List Nat) :
    (blocks16 (mmo_ref_pad msg)).flatten = mmo_ref_pad msg := by
  apply blocks16_flatten
  rw [mmo_ref_pad_length]
  split_ifs <;> omega

/-- The reference padding is injective on the messages of less than 2 ^ 29
bytes. -/
theorem mmo_ref_pad_inj (m1 m2 : List Nat) (h1 : m1.length < 2 ^ 29)
    (h2 : m2.length < 2 ^ 29) (h : mmo_ref_pad m1 = mmo_ref_pad m2) : m1 = m2 := by
  have hlen := congrArg List.length h
  rw [mmo_ref_pad_length, mmo_ref_pad_length] at hlen
  have key : m1.length = m2.length := by
    unfold mmo_ref_pad at h
    by_cases c1 : m1.length < 8192 <;> by_cases c2 : m2.length < 8192
    · rw [if_pos c1, if_pos c2] at h
      have hs := (List.append_inj' h (by rw [be_bytes_length, be_bytes_length])).2
      have hv := congrArg be_value hs
      rw [be_value_be_bytes _ _ (by norm_num; omega),
        be_value_be_bytes _ _ (by norm_num; omega)] at hv
      omega
    · rw [if_pos c1, if_neg c2] at h hlen
      have hs := (List.append_inj' h (by rw [be_bytes_length]; rfl)).2
      have hv := congrArg be_value hs
      rw [be_value_be_bytes _ _ (by norm_num; omega)] at hv
      have h0 : be_value [0, 0] = 0 := rfl
      omega
    · rw [if_neg c1, if_pos c2] at h hlen
      have hs := (List.append_inj' h (by rw [be_bytes_length]; rfl)).2
      have hv := congrArg be_value hs
      rw [be_value_be_bytes _ _ (by norm_num; omega)] at hv
      have h0 : be_value [0, 0] = 0 := rfl
      omega
    · rw [if_neg c1, if_neg c2] at h
      have hp := (List.append_inj' h rfl).1
      have hs := (List.append_inj' hp (by rw [be_bytes_length, be_bytes_length])).2
      have hv := congrArg be_value hs
      norm_num at h1 h2
      rw [be_value_be_bytes _ _ (by norm_num; omega),
        be_value_be_bytes _ _ (by norm_num; omega)] at hv
      omega
  obtain ⟨r1, e1, -⟩ := mmo_final_blocks_ref m1
  obtain ⟨r2, e2, -⟩ := mmo_final_blocks_ref m2
  rw [e1, e2] at h
  exact (List.append_inj h key).1

/-- C32. The padding of `aes_mmo` is injective: for all messages m1 ≠ m2 of
less than 2 ^ 29 bytes, the sequences of 16-byte blocks that `aes_mmo` gives to
the compression step (the full blocks of the message followed by the padded
final block or blocks) are different, whatever the cipher; this includes the
case of a length below 8192 and a length of 8192 or more, as for messages of
8191 and 8192 bytes, which both give 513 blocks. -/
theorem aes_mmo_padding_injective (E : Cipher) (d1 d2 m1 m2 : List Nat)
    (hd1 : d1.length = 16) (hd2 : d2.length = 16)
    (h1 : m1.length < 2 ^ 29) (h2 : m2.length < 2 ^ 29) (hne : m1 ≠ m2) :
    (aes_mmo_run E d1 m1 m1.length).blocks ≠ (aes_mmo_run E d2 m2 m2.length).blocks ∧
    (m1.length = 8191 → m2.length = 8192 →
      (aes_mmo_run E d1 m1 m1.length).blocks.length = 513 ∧
      (aes_mmo_run E d2 m2 m2.length).blocks.length = 513) := by
  have g1 : m1.length < 2 ^ 31 := lt_trans h1 (by norm_num)
  have g2 : m2.length < 2 ^ 31 := lt_trans h2 (by norm_num)
  constructor
  · intro h
    rw [aes_mmo_run_blocks E d1 m1 hd1 g1, aes_mmo_run_blocks E d2 m2 hd2 g2, mmo_blocks_ref,
      mmo_blocks_ref] at h
    have hf := congrArg List.flatten h
    rw [mmo_ref_pad_blocks, mmo_ref_pad_blocks] at hf
    exact hne (mmo_ref_pad_inj m1 m2 h1 h2 hf)
  · intro e1 e2
    rw [mmo_blocks_length E d1 m1 hd1 g1, mmo_blocks_length E d2 m2 hd2 g2, e1, e2]
    exact ⟨by decide, by decide⟩

/-- C32, a concrete instance: the empty message and the message of one zero
byte give the blocks `80 0^13 00 00` and `00 80 0^12 00 08`. -/
theorem aes_mmo_padding_injective_witness :
    (aes_mmo_run id_cipher (List.replicate 16 0) [] 0).blocks =
      [[0x80, 0, 0, 0, 0, 0, 0, 0, 0, 0, 0, 0, 0, 0, 0, 0]] ∧
    (aes_mmo_run id_cipher (List.replicate 16 0) [0] 1).blocks =
      [[0, 0x80, 0, 0, 0, 0, 0, 0, 0, 0, 0, 0, 0, 0, 0, 8]] ∧
    (aes_mmo_run id_cipher (List.replicate 16 0) [] ([] : List Nat).length).blocks ≠
      (aes_mmo_run id_cipher (List.replicate 16 0) [0] [0].length).blocks :=
  ⟨by decide, by decide,
    (aes_mmo_padding_injective id_cipher (List.replicate 16 0) (List.replicate 16 0) [] [0]
      (by decide) (by decide) (by decide) (by decide) (by decide)).1⟩

end Crumbs
